import Mathlib

/-!
# Marcus::deque — a shallow embedding of `include/containers/deque.hpp`

The container is a map (array of block pointers) plus two cursors.  Pointers
are modelled symbolically as a base (which allocation they point into) and an
offset counted in elements, so that the pointer comparisons and subtractions
of the source keep their meaning:

* two pointers are equal iff base and offset agree;
* subtracting pointers into different allocations is undefined;
* a map slot that was never written holds an indeterminate value (`junk`).

Every function below follows the C++ function of the same name line by line.
The block capacity `B` is `_deque_get_block_size<_Tp>()`, passed explicitly.

The later sections of definitions embed, in the same style, the type-erased
value holder `Marcus::any` of `include/utility/any.hpp`, the adaptor `queue`
of `include/adaptors/queue.hpp`, the class `optional` of
`include/utility/optional.hpp`, and the singly-linked list `forward_list` of
`include/containers/forward_list.hpp` over a store of nodes.
-/

namespace Marcus

/-- Block capacity for an element type of `s` bytes (`deque.hpp` 18-24). -/
def _deque_get_block_size (s : Nat) : Nat :=
  if s < 32 then 512 / s else 16

/-- What a block pointer points into: nothing (`nullptr`), an indeterminate
value read from uninitialised map storage, or the block with a given handle. -/
inductive Base where
  | null : Base
  | junk : Base
  | blk (id : Nat) : Base
deriving DecidableEq, Repr

/-- An element pointer: allocation base plus element offset. -/
structure Ptr where
  base : Base
  off : Int
deriving DecidableEq, Repr

/-- Pointer plus integer (`p + n`). -/
def Ptr.add (p : Ptr) (n : Int) : Ptr := { base := p.base, off := p.off + n }

/-- Pointer difference `p - q`; defined only inside one allocation. -/
def Ptr.diff (p q : Ptr) : Option Int :=
  if p.base = q.base then some (p.off - q.off) else none

/-- The cursor `deque_iterator` (`deque.hpp` 26-146).  `_node` is the index of
the map slot the cursor refers to, relative to the start of the map. -/
structure deque_iterator where
  _current : Ptr
  _first : Ptr
  _last : Ptr
  _node : Int
deriving DecidableEq, Repr

namespace deque_iterator

/-- The default cursor: all four pointers null (`deque.hpp` 42-46). -/
def default : deque_iterator :=
  { _current := ⟨Base.null, 0⟩, _first := ⟨Base.null, 0⟩,
    _last := ⟨Base.null, 0⟩, _node := 0 }

/-- Re-point the cursor to slot `n` of map `m` (`deque.hpp` 135-139). -/
def _set_node (B : Nat) (m : Int → Base) (it : deque_iterator) (n : Int) :
    deque_iterator :=
  { it with _node := n, _first := ⟨m n, 0⟩, _last := ⟨m n, (B : Int)⟩ }

/-- Pre-increment `operator++` (`deque.hpp` 70-77). -/
def inc (B : Nat) (m : Int → Base) (it : deque_iterator) : deque_iterator :=
  let it1 := { it with _current := it._current.add 1 }
  if it1._current = it1._last then
    let it2 := _set_node B m it1 (it1._node + 1)
    { it2 with _current := it2._first }
  else it1

/-- Pre-decrement `operator--` (`deque.hpp` 85-92). -/
def dec (B : Nat) (m : Int → Base) (it : deque_iterator) : deque_iterator :=
  let it1 :=
    if it._current = it._first then
      let it2 := _set_node B m it (it._node - 1)
      { it2 with _current := it2._last }
    else it
  { it1 with _current := it1._current.add (-1) }

/-- Compound advance `operator+=` (`deque.hpp` 100-114).  The only undefined
step is the pointer subtraction `_current - _first`. -/
def advance (B : Nat) (m : Int → Base) (it : deque_iterator) (n : Int) :
    Option deque_iterator :=
  match it._current.diff it._first with
  | none => none
  | some d =>
    let offset : Int := n + d
    if 0 ≤ offset ∧ offset < (B : Int) then
      some { it with _current := it._current.add n }
    else
      let node_offset : Int :=
        if offset > 0 then offset / (B : Int)
        else -((-offset - 1) / (B : Int)) - 1
      let it2 := _set_node B m it (it._node + node_offset)
      some { it2 with _current := it2._first.add (offset - node_offset * (B : Int)) }

/-- Cursor equality `operator==`: same `_current` (`deque.hpp` 148-152). -/
def eq (x y : deque_iterator) : Bool := decide (x._current = y._current)

/-- Cursor difference `x - y` (`deque.hpp` 197-208). -/
def sub (B : Nat) (x y : deque_iterator) : Option Int :=
  if x._node = y._node then x._current.diff y._current
  else
    match x._current.diff x._first, y._last.diff y._current with
    | some a, some b => some ((B : Int) * (x._node - y._node - 1) + a + b)
    | _, _ => none

end deque_iterator

/-! ## Storage -/

/-- The element storage reachable through the allocator: which block handles
are currently allocated and which cells of a block hold a constructed
element.  `next` is the handle the next `allocate` returns. -/
structure Heap (α : Type) where
  next : Nat
  live : Nat → Bool
  cell : Nat → Int → Option α

/-- The container `deque` (`deque.hpp` 240-243).  `_map = none` is the null
map; otherwise the slot table, of which slots `0 .. _map_size - 1` exist. -/
structure deque where
  _map : Option (Int → Base)
  _map_size : Nat
  _start : deque_iterator
  _finish : deque_iterator

/-- One container together with the storage it lives in. -/
structure State (α : Type) where
  h : Heap α
  d : deque

/-- Ways a call can fail to return normally: undefined behaviour, the
`std::out_of_range` of `at`, an exception thrown by an element constructor and
an exception thrown by an allocator, both of which carry the state the
container was left in when the exception propagated, and a `first != last`
loop of the model exceeding its iteration budget. -/
inductive Fault (α : Type) where
  | ub : Fault α
  | out_of_range : Fault α
  | thrown (s : State α) : Fault α
  | bad_alloc (s : State α) : Fault α
  | fuel : Fault α

/-- Lift an undefined-or-value result. -/
def ofOpt {α β : Type} : Option β → Except (Fault α) β
  | some b => Except.ok b
  | none => Except.error Fault.ub

/-- The empty store. -/
def Heap.empty {α : Type} : Heap α :=
  { next := 0, live := fun _ => false, cell := fun _ _ => none }

/-- `_allocate_block` (`deque.hpp` 249-252): a fresh block of raw storage. -/
def _allocate_block {α : Type} (h : Heap α) : Heap α × Base :=
  ({ next := h.next + 1,
     live := fun b => if b = h.next then true else h.live b,
     cell := fun b i => if b = h.next then none else h.cell b i },
   Base.blk h.next)

/-- `_deallocate_block` (`deque.hpp` 254-257): only a pointer to the start of
an allocated block may be released. -/
def _deallocate_block {α : Type} (h : Heap α) (p : Ptr) : Option (Heap α) :=
  match p.base with
  | Base.blk id =>
    if h.live id = true ∧ p.off = 0 then
      some { next := h.next,
             live := fun b => if b = id then false else h.live b,
             cell := fun b i => if b = id then none else h.cell b i }
    else none
  | _ => none

/-- Whether `p` designates a cell of an allocated block of capacity `B`. -/
def Heap.valid {α : Type} (B : Nat) (h : Heap α) (p : Ptr) : Bool :=
  match p.base with
  | Base.blk id => h.live id && decide (0 ≤ p.off) && decide (p.off < (B : Int))
  | _ => false

/-- `std::construct_at(p, v)`. -/
def construct_at {α : Type} (B : Nat) (h : Heap α) (p : Ptr) (v : α) :
    Option (Heap α) :=
  match p.base with
  | Base.blk id =>
    if h.valid B p = true then
      some { h with cell := fun b i =>
        if b = id ∧ i = p.off then some v else h.cell b i }
    else none
  | _ => none

/-- `std::destroy_at(p)`: defined when `p` designates a constructed element. -/
def destroy_at {α : Type} (B : Nat) (h : Heap α) (p : Ptr) : Option (Heap α) :=
  match p.base with
  | Base.blk id =>
    if h.valid B p = true ∧ (h.cell id p.off).isSome = true then
      some { h with cell := fun b i =>
        if b = id ∧ i = p.off then none else h.cell b i }
    else none
  | _ => none

/-- Reading `*p`: defined when `p` designates a constructed element. -/
def Heap.read {α : Type} (B : Nat) (h : Heap α) (p : Ptr) : Option α :=
  match p.base with
  | Base.blk id => if h.valid B p = true then h.cell id p.off else none
  | _ => none

/-- The assignment `*dst = std::move(*src)` of the shifting loops: both
operands must designate constructed elements. -/
def move_assign {α : Type} (B : Nat) (h : Heap α) (dst src : Ptr) :
    Option (Heap α) :=
  match h.read B src, h.read B dst with
  | some v, some _ => construct_at B h dst v
  | _, _ => none

/-- Writing map slot `i`; a write outside `[0, M)` is undefined. -/
def slot_write (M : Nat) (m : Int → Base) (i : Int) (b : Base) :
    Option (Int → Base) :=
  if 0 ≤ i ∧ i < (M : Int) then some (fun j => if j = i then b else m j)
  else none

/-- Conversion of a `difference_type` to `size_type` (64-bit wrap). -/
def to_size (z : Int) : Nat := (z % (2 ^ 64 : Int)).toNat

/-! ## The container: private helpers -/

/-- The slot table read through `_map`. -/
def deque.slots (d : deque) : Int → Base :=
  match d._map with
  | some m => m
  | none => fun _ => Base.junk

/-- The allocation loop of `_create_map_and_nodes` (`deque.hpp` 278-280):
one fresh block for each of `k` consecutive slots from `cur` on. -/
def alloc_nodes {α : Type} (h : Heap α) (m : Int → Base) (cur : Int) :
    Nat → Heap α × (Int → Base)
  | 0 => (h, m)
  | k + 1 =>
    let r := _allocate_block h
    alloc_nodes r.1 (fun j => if j = cur then r.2 else m j) (cur + 1) k

/-- `_create_map_and_nodes` (`deque.hpp` 269-293), allocation succeeding.
A freshly allocated map holds indeterminate slot values. -/
def _create_map_and_nodes {α : Type} (B : Nat) (s : State α) (num_elements : Nat) :
    State α :=
  let num_nodes : Nat := num_elements / B + 1
  let map_size : Nat := max 8 (num_nodes + 2)
  let nstart : Int := (((map_size - num_nodes) / 2 : Nat) : Int)
  let nfinish : Int := nstart + (num_nodes : Int) - 1
  let r := alloc_nodes s.h (fun _ => Base.junk) nstart num_nodes
  let st := deque_iterator._set_node B r.2 s.d._start nstart
  let fi := deque_iterator._set_node B r.2 s.d._finish nfinish
  { h := r.1,
    d := { _map := some r.2, _map_size := map_size,
           _start := { st with _current := st._first },
           _finish := { fi with _current := fi._first.add ((num_elements % B : Nat) : Int) } } }

/-- `std::move(first, last, d_first)` on map slots: the `last - first` slot
values are copied as by `memmove`; writing outside the destination map of
`M` slots is undefined. -/
def move_slots (M : Nat) (src dst : Int → Base) (first last d_first : Int) :
    Option (Int → Base) :=
  let count : Int := last - first
  if count ≤ 0 then some dst
  else if 0 ≤ d_first ∧ d_first + count ≤ (M : Int) then
    some (fun j => if d_first ≤ j ∧ j < d_first + count then src (first + (j - d_first))
                   else dst j)
  else none

/-- Outcome of a helper that works on the map alone. -/
inductive MapResult where
  | done (d : deque) : MapResult
  | ub : MapResult
  | bad_alloc : MapResult

/-- The largest slot count `std::allocator<pointer>::allocate` accepts on a
64-bit target (`SIZE_MAX / sizeof(pointer)`); beyond it `_allocate_map`
throws. -/
def map_alloc_limit : Nat := (2 ^ 64 - 1) / 8

/-- `_reallocate_map` (`deque.hpp` 330-364). -/
def _reallocate_map (B : Nat) (d : deque) (nodes_to_add : Nat) (add_at_front : Bool) :
    MapResult :=
  let old_num_nodes : Nat := to_size (d._finish._node - d._start._node + 1)
  let new_num_nodes : Nat := old_num_nodes + nodes_to_add
  if d._map_size > 2 * new_num_nodes then
    let nodes_before : Nat := to_size d._start._node
    if nodes_before > new_num_nodes / 2 then
      let new_start_node : Int := (((d._map_size - new_num_nodes) / 2 : Nat) : Int)
      match move_slots d._map_size d.slots d.slots d._start._node (d._finish._node + 1)
              new_start_node with
      | none => MapResult.ub
      | some m =>
        MapResult.done { d with
          _map := some m,
          _start := deque_iterator._set_node B m d._start new_start_node,
          _finish := deque_iterator._set_node B m d._finish
                       (new_start_node + (old_num_nodes : Int) - 1) }
    else MapResult.done d
  else
    let new_map_size : Nat := d._map_size + max d._map_size nodes_to_add + 2
    if new_map_size > map_alloc_limit then MapResult.bad_alloc
    else
      let new_start_node : Int :=
        (((new_map_size - new_num_nodes) / 2 : Nat) : Int) +
          (if add_at_front then (nodes_to_add : Int) else 0)
      match move_slots new_map_size d.slots (fun _ => Base.junk) d._start._node
              (d._finish._node + 1) new_start_node with
      | none => MapResult.ub
      | some m =>
        MapResult.done
          { _map := some m, _map_size := new_map_size,
            _start := deque_iterator._set_node B m d._start new_start_node,
            _finish := deque_iterator._set_node B m d._finish
                         (new_start_node + (old_num_nodes : Int) - 1) }

/-- `_push_back_aux` (`deque.hpp` 366-373). -/
def _push_back_aux {α : Type} (B : Nat) (s : State α) : Except (Fault α) (State α) :=
  let r1 : MapResult :=
    if s.d._finish._node + 1 = (s.d._map_size : Int) then _reallocate_map B s.d 1 false
    else MapResult.done s.d
  match r1 with
  | MapResult.ub => Except.error Fault.ub
  | MapResult.bad_alloc => Except.error (Fault.bad_alloc s)
  | MapResult.done d1 =>
    let r := _allocate_block s.h
    match slot_write d1._map_size d1.slots (d1._finish._node + 1) r.2 with
    | none => Except.error Fault.ub
    | some m =>
      let fi := deque_iterator._set_node B m d1._finish (d1._finish._node + 1)
      Except.ok { h := r.1,
                  d := { d1 with _map := some m,
                                 _finish := { fi with _current := fi._first } } }

/-- `_push_front_aux` (`deque.hpp` 375-382). -/
def _push_front_aux {α : Type} (B : Nat) (s : State α) : Except (Fault α) (State α) :=
  let r1 : MapResult :=
    if s.d._start._node = 0 then _reallocate_map B s.d 1 true
    else MapResult.done s.d
  match r1 with
  | MapResult.ub => Except.error Fault.ub
  | MapResult.bad_alloc => Except.error (Fault.bad_alloc s)
  | MapResult.done d1 =>
    let r := _allocate_block s.h
    match slot_write d1._map_size d1.slots (d1._start._node - 1) r.2 with
    | none => Except.error Fault.ub
    | some m =>
      let st := deque_iterator._set_node B m d1._start (d1._start._node - 1)
      Except.ok { h := r.1,
                  d := { d1 with _map := some m,
                                 _start := { st with _current := st._last.add (-1) } } }

/-- `_pop_back_aux` (`deque.hpp` 384-388). -/
def _pop_back_aux {α : Type} (B : Nat) (s : State α) : Option (State α) :=
  match _deallocate_block s.h s.d._finish._first with
  | none => none
  | some h1 =>
    let fi := deque_iterator._set_node B s.d.slots s.d._finish (s.d._finish._node - 1)
    some { h := h1, d := { s.d with _finish := { fi with _current := fi._last.add (-1) } } }

/-- `_pop_front_aux` (`deque.hpp` 390-394). -/
def _pop_front_aux {α : Type} (B : Nat) (s : State α) : Option (State α) :=
  match _deallocate_block s.h s.d._start._first with
  | none => none
  | some h1 =>
    let st := deque_iterator._set_node B s.d.slots s.d._start (s.d._start._node + 1)
    some { h := h1, d := { s.d with _start := { st with _current := st._first } } }

/-! ## The container: public interface -/

/-- The default-constructed container (`deque.hpp` 425-430). -/
def deque.nil : deque :=
  { _map := none, _map_size := 0,
    _start := deque_iterator.default, _finish := deque_iterator.default }

/-- A default-constructed container in an empty store. -/
def State.init {α : Type} : State α := { h := Heap.empty, d := deque.nil }

/-- `empty()` (`deque.hpp` 719-721). -/
def empty {α : Type} (s : State α) : Bool := s.d._finish.eq s.d._start

/-- `size()` (`deque.hpp` 723-728); `none` when the cursor subtraction is
undefined. -/
def size {α : Type} (B : Nat) (s : State α) : Option Nat :=
  match s.d._map with
  | none => some 0
  | some _ =>
    match deque_iterator.sub B s.d._finish s.d._start with
    | some z => some (to_size z)
    | none => none

/-- `operator[]` (`deque.hpp` 643-649): `*(_start + i)`. -/
def index {α : Type} (B : Nat) (s : State α) (i : Nat) : Except (Fault α) α :=
  match deque_iterator.advance B s.d.slots s.d._start (i : Int) with
  | none => Except.error Fault.ub
  | some it => ofOpt (s.h.read B it._current)

/-- `at(i)` (`deque.hpp` 629-641). -/
def deque_at {α : Type} (B : Nat) (s : State α) (i : Nat) : Except (Fault α) α :=
  match size B s with
  | none => Except.error Fault.ub
  | some n => if i ≥ n then Except.error Fault.out_of_range else index B s i

/-- `front()` (`deque.hpp` 651-657). -/
def front {α : Type} (B : Nat) (s : State α) : Except (Fault α) α :=
  ofOpt (s.h.read B s.d._start._current)

/-- `back()` (`deque.hpp` 659-669). -/
def back {α : Type} (B : Nat) (s : State α) : Except (Fault α) α :=
  ofOpt (s.h.read B (deque_iterator.dec B s.d.slots s.d._finish)._current)

/-- The call `std::construct_at(p, args...)` inside a member function: with
`a = none` the element constructor throws and the exception leaves the
container in the state `s` reached so far. -/
def construct_arg {α : Type} (B : Nat) (s : State α) (p : Ptr) (a : Option α) :
    Except (Fault α) (Heap α) :=
  match a with
  | none => Except.error (Fault.thrown s)
  | some v => ofOpt (construct_at B s.h p v)

/-- `emplace_back` (`deque.hpp` 808-822). -/
def emplace_back {α : Type} (B : Nat) (s : State α) (a : Option α) :
    Except (Fault α) (State α) :=
  let s1 := if s.d._map.isNone then _create_map_and_nodes B s 0 else s
  if s1.d._finish._current ≠ s1.d._finish._last then do
    let h1 ← construct_arg B s1 s1.d._finish._current a
    pure { h := h1,
           d := { s1.d with _finish :=
                    { s1.d._finish with _current := s1.d._finish._current.add 1 } } }
  else do
    let s2 ← _push_back_aux B s1
    let h1 ← construct_arg B s2 s2.d._finish._current a
    pure { h := h1,
           d := { s2.d with _finish :=
                    { s2.d._finish with _current := s2.d._finish._current.add 1 } } }

/-- `emplace_front` (`deque.hpp` 793-806). -/
def emplace_front {α : Type} (B : Nat) (s : State α) (a : Option α) :
    Except (Fault α) (State α) :=
  let s1 := if s.d._map.isNone then _create_map_and_nodes B s 0 else s
  if s1.d._start._current ≠ s1.d._start._first then do
    let s2 : State α :=
      { s1 with d := { s1.d with _start :=
          { s1.d._start with _current := s1.d._start._current.add (-1) } } }
    let h1 ← construct_arg B s2 s2.d._start._current a
    pure { s2 with h := h1 }
  else do
    let s2 ← _push_front_aux B s1
    let h1 ← construct_arg B s2 s2.d._start._current a
    pure { s2 with h := h1 }

/-- `push_back(val)` (`deque.hpp` 871-877). -/
def push_back {α : Type} (B : Nat) (s : State α) (v : α) : Except (Fault α) (State α) :=
  emplace_back B s (some v)

/-- `push_front(val)` (`deque.hpp` 863-869). -/
def push_front {α : Type} (B : Nat) (s : State α) (v : α) : Except (Fault α) (State α) :=
  emplace_front B s (some v)

/-- `pop_front()` (`deque.hpp` 964-972). -/
def pop_front {α : Type} (B : Nat) (s : State α) : Except (Fault α) (State α) :=
  if s.d._start._current ≠ s.d._start._last.add (-1) then do
    let h1 ← ofOpt (destroy_at B s.h s.d._start._current)
    pure { h := h1,
           d := { s.d with _start :=
                    { s.d._start with _current := s.d._start._current.add 1 } } }
  else do
    let h1 ← ofOpt (destroy_at B s.h s.d._start._current)
    ofOpt (_pop_front_aux B { s with h := h1 })

/-- `pop_back()` (`deque.hpp` 974-982). -/
def pop_back {α : Type} (B : Nat) (s : State α) : Except (Fault α) (State α) :=
  if s.d._finish._current ≠ s.d._finish._first then do
    let fi := { s.d._finish with _current := s.d._finish._current.add (-1) }
    let h1 ← ofOpt (destroy_at B s.h fi._current)
    pure { h := h1, d := { s.d with _finish := fi } }
  else do
    let s1 ← ofOpt (_pop_back_aux B s)
    let h1 ← ofOpt (destroy_at B s1.h s1.d._finish._current)
    pure { s1 with h := h1 }

/-! ## Shifting algorithms and interior insertion / erasure

`std::move` and `std::move_backward` are taken with the effect the standard
gives them: with `N = last - first`, exactly `N` assignments, stepping the
cursors by `++` (resp. `--`). -/

/-- The `n` assignments of `std::move`: `*d = std::move(*f); ++f; ++d`. -/
def move_loop {α : Type} (B : Nat) (m : Int → Base) :
    Nat → Heap α → deque_iterator → deque_iterator → Option (Heap α × deque_iterator)
  | 0, h, _, d => some (h, d)
  | n + 1, h, f, d =>
    match move_assign B h d._current f._current with
    | none => none
    | some h1 => move_loop B m n h1 (deque_iterator.inc B m f) (deque_iterator.inc B m d)

/-- `std::move(first, last, d_first)` on cursors; returns the new store and the
cursor past the last element written. -/
def std_move {α : Type} (B : Nat) (m : Int → Base) (h : Heap α)
    (first last d_first : deque_iterator) : Option (Heap α × deque_iterator) :=
  match deque_iterator.sub B last first with
  | none => none
  | some n => move_loop B m n.toNat h first d_first

/-- The `n` assignments of `std::move_backward`: `*--d = std::move(*--l)`. -/
def move_backward_loop {α : Type} (B : Nat) (m : Int → Base) :
    Nat → Heap α → deque_iterator → deque_iterator → Option (Heap α)
  | 0, h, _, _ => some h
  | n + 1, h, l, d =>
    let l1 := deque_iterator.dec B m l
    let d1 := deque_iterator.dec B m d
    match move_assign B h d1._current l1._current with
    | none => none
    | some h1 => move_backward_loop B m n h1 l1 d1

/-- `std::move_backward(first, last, d_last)` on cursors. -/
def std_move_backward {α : Type} (B : Nat) (m : Int → Base) (h : Heap α)
    (first last d_last : deque_iterator) : Option (Heap α) :=
  match deque_iterator.sub B last first with
  | none => none
  | some n => move_backward_loop B m n.toNat h last d_last

/-- `_get_iterator` (`deque.hpp` 420-422): `begin() + (cit - cbegin())`. -/
def _get_iterator {α : Type} (B : Nat) (s : State α) (cit : deque_iterator) :
    Option deque_iterator :=
  match deque_iterator.sub B cit s.d._start with
  | none => none
  | some k => deque_iterator.advance B s.d.slots s.d._start k

/-- `emplace(pos, args...)` (`deque.hpp` 824-861); the result is the new state
and the returned cursor. -/
def emplace {α : Type} (B : Nat) (s : State α) (pos : deque_iterator) (a : Option α) :
    Except (Fault α) (State α × deque_iterator) :=
  if pos.eq s.d._start then do
    let s1 ← emplace_front B s a
    pure (s1, s1.d._start)
  else if pos.eq s.d._finish then do
    let s1 ← emplace_back B s a
    let r ← ofOpt (deque_iterator.advance B s1.d.slots s1.d._finish (-1))
    pure (s1, r)
  else if empty s then do
    let s1 ← emplace_back B s a
    pure (s1, s1.d._start)
  else do
    let p ← ofOpt (_get_iterator B s pos)
    let idx ← ofOpt (deque_iterator.sub B p s.d._start)
    let sz ← ofOpt (size B s)
    if to_size idx < sz / 2 then do
      let fr ← front B s
      let s1 ← emplace_front B s (some fr)
      let m := s1.d.slots
      let insert_pos ← ofOpt (deque_iterator.advance B m s1.d._start 1)
      let t ← ofOpt (deque_iterator.advance B m s1.d._start idx)
      let last ← ofOpt (deque_iterator.advance B m t 1)
      let r ← ofOpt (std_move B m s1.h insert_pos last s1.d._start)
      let tgt ← ofOpt (deque_iterator.advance B m s1.d._start idx)
      let h2 ← ofOpt (destroy_at B r.1 tgt._current)
      let h3 ← construct_arg B { s1 with h := h2 } tgt._current a
      pure ({ s1 with h := h3 }, tgt)
    else do
      let bk ← back B s
      let s1 ← emplace_back B s (some bk)
      let m := s1.d.slots
      let actual_pos ← ofOpt (deque_iterator.advance B m s1.d._start idx)
      let e2 ← ofOpt (deque_iterator.advance B m s1.d._finish (-2))
      let e1 ← ofOpt (deque_iterator.advance B m s1.d._finish (-1))
      let h1 ← ofOpt (std_move_backward B m s1.h actual_pos e2 e1)
      let h2 ← ofOpt (destroy_at B h1 actual_pos._current)
      let h3 ← construct_arg B { s1 with h := h2 } actual_pos._current a
      pure ({ s1 with h := h3 }, actual_pos)

/-- `insert(pos, value)` (`deque.hpp` 879-885). -/
def insert {α : Type} (B : Nat) (s : State α) (pos : deque_iterator) (v : α) :
    Except (Fault α) (State α × deque_iterator) :=
  emplace B s pos (some v)

/-- `erase(pos)` (`deque.hpp` 984-996). -/
def erase {α : Type} (B : Nat) (s : State α) (pos : deque_iterator) :
    Except (Fault α) (State α × deque_iterator) := do
  let m := s.d.slots
  let p ← ofOpt (_get_iterator B s pos)
  let idx ← ofOpt (deque_iterator.sub B p s.d._start)
  let sz ← ofOpt (size B s)
  if to_size idx < sz / 2 then do
    let p1 ← ofOpt (deque_iterator.advance B m p 1)
    let h1 ← ofOpt (std_move_backward B m s.h s.d._start p p1)
    let s1 ← pop_front B { s with h := h1 }
    let r ← ofOpt (deque_iterator.advance B s1.d.slots s1.d._start idx)
    pure (s1, r)
  else do
    let p1 ← ofOpt (deque_iterator.advance B m p 1)
    let r1 ← ofOpt (std_move B m s.h p1 s.d._finish p)
    let s1 ← pop_back B { s with h := r1.1 }
    let r ← ofOpt (deque_iterator.advance B s1.d.slots s1.d._start idx)
    pure (s1, r)

/-- The position `begin() + i` handed to `insert` / `erase`. -/
def begin_plus {α : Type} (B : Nat) (s : State α) (i : Nat) : Except (Fault α) deque_iterator :=
  ofOpt (deque_iterator.advance B s.d.slots s.d._start (i : Int))

/-! ## Operation logs, the reference sequence and observations -/

/-- A call of the public interface; positions are given as `begin() + i`. -/
inductive Call (α : Type) where
  | push_back (v : α) : Call α
  | push_front (v : α) : Call α
  | pop_back : Call α
  | pop_front : Call α
  | insert (i : Nat) (v : α) : Call α
  | erase (i : Nat) : Call α
deriving DecidableEq, Repr

/-- Perform one call on the container. -/
def Call.apply {α : Type} (B : Nat) (s : State α) : Call α → Except (Fault α) (State α)
  | Call.push_back v => Marcus.push_back B s v
  | Call.push_front v => Marcus.push_front B s v
  | Call.pop_back => Marcus.pop_back B s
  | Call.pop_front => Marcus.pop_front B s
  | Call.insert i v => do
    let p ← begin_plus B s i
    let r ← Marcus.insert B s p v
    pure r.1
  | Call.erase i => do
    let p ← begin_plus B s i
    let r ← Marcus.erase B s p
    pure r.1

/-- Perform a log of calls, left to right. -/
def run {α : Type} (B : Nat) : List (Call α) → State α → Except (Fault α) (State α)
  | [], s => Except.ok s
  | c :: cs, s =>
    match c.apply B s with
    | Except.ok s1 => run B cs s1
    | Except.error e => Except.error e

/-- The reference double-ended queue: a plain list, following the words of
the specification for each call. -/
def Call.ref {α : Type} (xs : List α) : Call α → List α
  | Call.push_back v => xs ++ [v]
  | Call.push_front v => v :: xs
  | Call.pop_back => xs.dropLast
  | Call.pop_front => xs.tail
  | Call.insert i v => xs.take i ++ v :: xs.drop i
  | Call.erase i => xs.take i ++ xs.drop (i + 1)

/-- Whether a call is within its precondition on a sequence holding `xs`. -/
def Call.admissible {α : Type} (xs : List α) : Call α → Bool
  | Call.push_back _ => true
  | Call.push_front _ => true
  | Call.pop_back => !xs.isEmpty
  | Call.pop_front => !xs.isEmpty
  | Call.insert i _ => decide (i ≤ xs.length)
  | Call.erase i => decide (i < xs.length)

/-- The reference result of a log, `none` if some call is outside its
precondition. -/
def ref_run {α : Type} : List (Call α) → List α → Option (List α)
  | [], xs => some xs
  | c :: cs, xs => if c.admissible xs then ref_run cs (c.ref xs) else none

/-- The visible contents: `size()` and `operator[](i)` for every `i < size()`;
`none` when one of them is undefined. -/
def contents {α : Type} (B : Nat) (s : State α) : Option (List α) :=
  match size B s with
  | none => none
  | some n => (List.range n).mapM (fun i => (index B s i).toOption)

/-- The state an exception thrown by an element constructor left behind. -/
def thrown_state {α β : Type} : Except (Fault α) β → Option (State α)
  | Except.error (Fault.thrown s) => some s
  | _ => none

/-- Whether a call ran into undefined behaviour. -/
def is_ub {α β : Type} : Except (Fault α) β → Bool
  | Except.error Fault.ub => true
  | _ => false

/-- `n` applications of `operator++` to a cursor of the container. -/
def step_from_begin {α : Type} (B : Nat) (s : State α) (n : Nat) : deque_iterator :=
  (deque_iterator.inc B s.d.slots)^[n] s.d._start

/-- The visible contents after the first `k` calls of a log on a fresh container. -/
def contents_after (B : Nat) (log : List (Call Nat)) (k : Nat) : Option (List Nat) :=
  (run B (log.take k) State.init).toOption.bind (contents B)

/-- The log of the worked scenario of the specification. -/
def scenario_log : List (Call Nat) :=
  [Call.push_back 1, Call.push_back 2, Call.push_back 3, Call.push_front 0,
   Call.erase 1, Call.insert 1 9, Call.pop_back]

/-- Fill exactly one block of 16 from the back, then take every element out
again from the front. -/
def fill_drain_log : List (Call Nat) :=
  List.replicate 16 (Call.push_back 0) ++ List.replicate 16 Call.pop_front

/-- Push 48 elements at the front (the start cursor reaches slot 0 of the map)
and pop 17 at the back (two blocks stay in use). -/
def front_drift_log : List (Call Nat) :=
  (List.range 48).map Call.push_front ++ List.replicate 17 Call.pop_back

/-! ## Closed form of cursor stepping, and the invariant of reachable states -/

/-- A cursor whose cached block bounds have the shape `_set_node` gives them. -/
def deque_iterator.shaped (B : Nat) (c : deque_iterator) : Prop :=
  c._first.off = 0 ∧ c._last = ⟨c._first.base, (B : Int)⟩

/-- The cursor `t` elements after the start of the block of `c`, in closed
form: inside the block only `_current` differs, further on the cursor is
re-pointed to slot `_node + t / B`. -/
def deque_iterator.shifted (B : Nat) (m : Int → Base) (c : deque_iterator) (t : Nat) :
    deque_iterator :=
  if t < B then { c with _current := ⟨c._first.base, (t : Int)⟩ }
  else
    { _node := c._node + ((t / B : Nat) : Int),
      _first := ⟨m (c._node + ((t / B : Nat) : Int)), 0⟩,
      _last := ⟨m (c._node + ((t / B : Nat) : Int)), (B : Int)⟩,
      _current := ⟨m (c._node + ((t / B : Nat) : Int)), ((t % B : Nat) : Int)⟩ }

/-- Structural well-formedness of a container with a non-null map, stated on
the cursors, the slot table and the set of allocated blocks only.  It holds
in every state the public calls can produce, including those in which a
cursor is left pointing into a released or never-allocated block. -/
structure WF0 (B : Nat) (next : Nat) (live : Nat → Bool) (d : deque) : Prop where
  map_some : d._map.isSome = true
  map_bound : d._map_size ≤ map_alloc_limit
  node_lo : 0 ≤ d._start._node
  node_hi : d._finish._node < (d._map_size : Int)
  gap : d._start._node ≤ d._finish._node + 1
  shaped_st : d._start.shaped B
  shaped_fi : d._finish.shaped B
  fresh_map : ∀ j id, d.slots j = Base.blk id → id < next
  fresh_st : ∀ id, d._start._current.base = Base.blk id → id < next
  fresh_fi : ∀ id, d._finish._current.base = Base.blk id → id < next
  own : ∀ id, live id = true →
    ∃ j, d._start._node ≤ j ∧ j ≤ d._finish._node ∧ d.slots j = Base.blk id
  st_ok : ∀ id, d._start._current.base = Base.blk id → live id = true →
    d._start._first.base = Base.blk id ∧ d.slots d._start._node = Base.blk id ∧
      d._start._node ≤ d._finish._node
  fi_ok : ∀ id, d._finish._current.base = Base.blk id → live id = true →
    d._finish._first.base = Base.blk id ∧ d.slots d._finish._node = Base.blk id ∧
      d._start._node ≤ d._finish._node
  st_rng : 0 ≤ d._start._current.off ∧ d._start._current.off < (B : Int)

/-- Well-formedness including the separation of a start cursor whose
`_current` no longer lies in its cached block from the finish cursor. -/
structure WF (B : Nat) (next : Nat) (live : Nat → Bool) (d : deque)
    extends WF0 B next live d : Prop where
  apart : d._start._current.base ≠ d._start._first.base →
    d._finish._current.base ≠ d._start._current.base

/-- The invariant of reachable states: before the first allocation no block
is allocated, afterwards the container is well-formed. -/
def Inv {α : Type} (B : Nat) (s : State α) : Prop :=
  (s.d._map = none ∧ ∀ id, s.h.live id = false) ∨ WF B s.h.next s.h.live s.d

/-- The state a log of calls leaves a fresh container in (the fresh state
itself if some call does not return). -/
def state_after (B : Nat) (log : List (Call Nat)) : State Nat :=
  match run B log State.init with
  | Except.ok s => s
  | Except.error _ => State.init

/-! ## Bulk operations: destruction, `clear`, `assign`, `resize` -/

/-- The loop `for (; p < q; ++p) std::destroy_at(p)` over `k` cells from
offset `off` of one allocation. -/
def destroy_cells {α : Type} (B : Nat) (base : Base) :
    Nat → Heap α → Int → Option (Heap α)
  | 0, h, _ => some h
  | k + 1, h, off =>
    match destroy_at B h ⟨base, off⟩ with
    | none => none
    | some h1 => destroy_cells B base k h1 (off + 1)

/-- Destroy the elements in the pointer range `[p, q)`.  The loop condition
`p < q` compares pointers, which is meaningful only inside one allocation. -/
def destroy_range {α : Type} (B : Nat) (h : Heap α) (p q : Ptr) : Option (Heap α) :=
  if p.base = q.base then destroy_cells B p.base (q.off - p.off).toNat h p.off
  else none

/-- The outer loop of `_destroy_elements` (`deque.hpp` 300-305): every cell of
the blocks of `k` consecutive slots from `node` on. -/
def destroy_blocks {α : Type} (B : Nat) (m : Int → Base) :
    Nat → Heap α → Int → Option (Heap α)
  | 0, h, _ => some h
  | k + 1, h, node =>
    match destroy_range B h ⟨m node, 0⟩ ⟨m node, (B : Int)⟩ with
    | none => none
    | some h1 => destroy_blocks B m k h1 (node + 1)

/-- `_destroy_elements(first, last)` (`deque.hpp` 296-318). -/
def _destroy_elements {α : Type} (B : Nat) (m : Int → Base) (h : Heap α)
    (first last : deque_iterator) : Option (Heap α) :=
  match destroy_blocks B m (last._node - (first._node + 1)).toNat h (first._node + 1) with
  | none => none
  | some h1 =>
    if first._node ≠ last._node then
      match destroy_range B h1 first._current first._last with
      | none => none
      | some h2 => destroy_range B h2 last._first last._current
    else destroy_range B h1 first._current last._current

/-- The loop `for (; node <= last; ++node) _deallocate_block(*node)` over `k`
consecutive slots from `node` on. -/
def dealloc_nodes {α : Type} (m : Int → Base) : Nat → Heap α → Int → Option (Heap α)
  | 0, h, _ => some h
  | k + 1, h, node =>
    match _deallocate_block h ⟨m node, 0⟩ with
    | none => none
    | some h1 => dealloc_nodes m k h1 (node + 1)

/-- `_deallocate_all` (`deque.hpp` 320-328).  The map itself is released too;
the member `_map` keeps its (now dangling) value. -/
def _deallocate_all {α : Type} (s : State α) : Option (State α) :=
  match s.d._map with
  | none => some s
  | some m =>
    match dealloc_nodes m (s.d._finish._node - s.d._start._node + 1).toNat s.h
        s.d._start._node with
    | none => none
    | some h1 => some { s with h := h1 }

/-- `clear()` (`deque.hpp` 782-791). -/
def clear {α : Type} (B : Nat) (s : State α) : Except (Fault α) (State α) :=
  match s.d._map with
  | none => Except.ok s
  | some m => do
    let h1 ← ofOpt (_destroy_elements B m s.h s.d._start s.d._finish)
    let h2 ← ofOpt (dealloc_nodes m (s.d._finish._node - s.d._start._node).toNat h1
      (s.d._start._node + 1))
    pure { h := h2, d := { s.d with _finish := s.d._start } }

/-- `_capacity_front` (`deque.hpp` 396-403). -/
def _capacity_front (B : Nat) (d : deque) : Option Nat :=
  match d._map with
  | none => some 0
  | some _ =>
    match d._start._current.diff d._start._first with
    | none => none
    | some k => some ((to_size d._start._node * B + to_size k) % 2 ^ 64)

/-- `_capacity_back` (`deque.hpp` 405-414). -/
def _capacity_back (B : Nat) (d : deque) : Option Nat :=
  match d._map with
  | none => some 0
  | some _ =>
    match d._finish._last.diff d._finish._current with
    | none => none
    | some k =>
      some ((to_size ((d._map_size : Int) - d._finish._node - 1) * B + to_size k) % 2 ^ 64)

/-- `_capacity` (`deque.hpp` 416-418). -/
def _capacity {α : Type} (B : Nat) (s : State α) : Option Nat :=
  match _capacity_front B s.d, size B s, _capacity_back B s.d with
  | some a, some b, some c => some ((a + b + c) % 2 ^ 64)
  | _, _, _ => none

/-- A call repeated `k` times (the counting loops of `resize` and of the
boundary cases of bulk `insert`). -/
def repeat_call {α : Type} (f : State α → Except (Fault α) (State α)) :
    Nat → State α → Except (Fault α) (State α)
  | 0, s => Except.ok s
  | k + 1, s =>
    match f s with
    | Except.ok s1 => repeat_call f k s1
    | Except.error e => Except.error e

/-- `resize(n, val)` (`deque.hpp` 769-780). -/
def resize {α : Type} (B : Nat) (s : State α) (n : Nat) (v : α) :
    Except (Fault α) (State α) :=
  match size B s with
  | none => Except.error Fault.ub
  | some old_size =>
    if n > old_size then repeat_call (fun t => push_back B t v) (n - old_size) s
    else if n < old_size then repeat_call (fun t => pop_back B t) (old_size - n) s
    else Except.ok s

/-- `assign(n, val)` (`deque.hpp` 603-610). -/
def assign {α : Type} (B : Nat) (s : State α) (n : Nat) (v : α) :
    Except (Fault α) (State α) := do
  let s1 ← clear B s
  let cap ← ofOpt (_capacity B s1)
  let s2 ← (if n > cap then
      match _deallocate_all s1 with
      | none => Except.error Fault.ub
      | some s' => Except.ok (_create_map_and_nodes B s' n)
    else Except.ok s1)
  resize B s2 n v

/-! ## Whole-container operations: construction from a range, `swap`,
destruction, `shrink_to_fit`, move construction, copy assignment

Several containers may live in the same store; a function that works on a
second container takes its `deque` value next to the `State`. -/

/-- Iteration budget of a `first != last` loop that reads through a cursor of
a map with `M` slots: the cursor only moves forward and every iteration reads
one element, so a loop that is still running after this many iterations has
left the map. -/
def loop_budget (B M : Nat) : Nat := (M + 1) * B + 1

/-- The loop `for (; first != last; ++first, ++cur) construct_at(cur, *first)`
of the range constructor (`deque.hpp` 477-479), also the loop of
`std::uninitialized_copy`; `msrc` is the map of the source cursors, `mdst` the
map of the destination cursor. -/
def construct_loop {α : Type} (B : Nat) (msrc mdst : Int → Base) :
    Nat → Heap α → deque_iterator → deque_iterator → deque_iterator →
      Except (Fault α) (Heap α × deque_iterator)
  | 0, h, first, last, cur =>
    if first.eq last then Except.ok (h, cur) else Except.error Fault.fuel
  | f + 1, h, first, last, cur =>
    if first.eq last then Except.ok (h, cur)
    else
      match h.read B first._current with
      | none => Except.error Fault.ub
      | some v =>
        match construct_at B h cur._current v with
        | none => Except.error Fault.ub
        | some h1 =>
          construct_loop B msrc mdst f h1 (deque_iterator.inc B msrc first) last
            (deque_iterator.inc B mdst cur)

/-- The range constructor `deque(first, last)` (`deque.hpp` 469-485) applied to
two cursors of a container with map `msrc` of `Msrc` slots; element
construction succeeding. -/
def deque_range_ctor {α : Type} (B : Nat) (h : Heap α) (msrc : Int → Base) (Msrc : Nat)
    (first last : deque_iterator) : Except (Fault α) (State α) :=
  match deque_iterator.sub B last first with
  | none => Except.error Fault.ub
  | some z =>
    let n : Nat := to_size z
    if max 8 (n / B + 1 + 2) > map_alloc_limit then
      Except.error (Fault.bad_alloc { h := h, d := deque.nil })
    else
      let s0 := _create_map_and_nodes B { h := h, d := deque.nil } n
      match construct_loop B msrc s0.d.slots (loop_budget B Msrc) s0.h first last
          s0.d._start with
      | Except.ok r => Except.ok { h := r.1, d := s0.d }
      | Except.error e => Except.error e

/-- The destructor `~deque()` (`deque.hpp` 522-527); the result is the store
after the container is gone. -/
def deque_dtor {α : Type} (B : Nat) (s : State α) : Except (Fault α) (Heap α) :=
  match s.d._map with
  | none => Except.ok s.h
  | some m =>
    match _destroy_elements B m s.h s.d._start s.d._finish with
    | none => Except.error Fault.ub
    | some h1 =>
      match _deallocate_all { s with h := h1 } with
      | none => Except.error Fault.ub
      | some s2 => Except.ok s2.h

/-- `shrink_to_fit()` (`deque.hpp` 734-754).  After `swap` the temporary holds
the old map and blocks and is destroyed at the end of the call. -/
def shrink_to_fit {α : Type} (B : Nat) (s : State α) : Except (Fault α) (State α) :=
  if empty s then
    match _deallocate_all s with
    | none => Except.error Fault.ub
    | some s1 => Except.ok { h := s1.h, d := deque.nil }
  else
    match size B s with
    | none => Except.error Fault.ub
    | some sz =>
      let blocks_in_use : Nat := to_size (s.d._finish._node - s.d._start._node + 1)
      let ideal_blocks : Nat := ((sz + B - 1) % 2 ^ 64) / B
      if blocks_in_use = ideal_blocks ∧ s.d._map_size < blocks_in_use * 2 then Except.ok s
      else do
        let tmp ← deque_range_ctor B s.h s.d.slots s.d._map_size s.d._start s.d._finish
        let h1 ← deque_dtor B { h := tmp.h, d := s.d }
        pure { h := h1, d := tmp.d }

/-- The number of blocks in use, `finish slot - start slot + 1`. -/
def blocks_in_use (d : deque) : Int := d._finish._node - d._start._node + 1

/-- The move constructor `deque(deque&&)` (`deque.hpp` 506-516): the new
container and the state the source is left in. -/
def move_ctor (other : deque) : deque × deque :=
  ({ _map := other._map, _map_size := other._map_size,
     _start := other._start, _finish := other._finish },
   { _map := none, _map_size := 0,
     _start := deque_iterator.default, _finish := deque_iterator.default })

/-- The loop `for (; first != last; ++first) emplace_back(*first)` of
`assign(first, last)` (`deque.hpp` 620-622). -/
def assign_loop {α : Type} (B : Nat) (msrc : Int → Base) :
    Nat → State α → deque_iterator → deque_iterator → Except (Fault α) (State α)
  | 0, s, first, last =>
    if first.eq last then Except.ok s else Except.error Fault.fuel
  | f + 1, s, first, last =>
    if first.eq last then Except.ok s
    else
      match s.h.read B first._current with
      | none => Except.error Fault.ub
      | some v =>
        match emplace_back B s (some v) with
        | Except.ok s1 => assign_loop B msrc f s1 (deque_iterator.inc B msrc first) last
        | Except.error e => Except.error e

/-- `assign(first, last)` (`deque.hpp` 617-623) with two cursors of another
container of the same store. -/
def assign_range {α : Type} (B : Nat) (s : State α) (msrc : Int → Base) (Msrc : Nat)
    (first last : deque_iterator) : Except (Fault α) (State α) := do
  let s1 ← clear B s
  assign_loop B msrc (loop_budget B Msrc) s1 first last

/-- Copy assignment `operator=(const deque&)` (`deque.hpp` 529-540);
`other = none` is the self-assignment `a = a`, `some b` a distinct container
of the same store. -/
def copy_assign {α : Type} (B : Nat) (s : State α) (other : Option deque) :
    Except (Fault α) (State α) :=
  match other with
  | none => Except.ok s
  | some b => do
    let s1 ← clear B s
    assign_range B s1 b.slots b._map_size b._start b._finish

/-! ## Bulk insertion, range erasure, allocation failure -/

/-- The loop of `std::uninitialized_move(first, last, d_first)`:
`for (; first != last; ++first, ++cur) construct_at(cur, std::move(*first))`.
A moved-from element `v` is left holding `moved v`. -/
def uninit_move_loop {α : Type} (B : Nat) (moved : α → α) (msrc mdst : Int → Base) :
    Nat → Heap α → deque_iterator → deque_iterator → deque_iterator →
      Except (Fault α) (Heap α × deque_iterator)
  | 0, h, first, last, cur =>
    if first.eq last then Except.ok (h, cur) else Except.error Fault.fuel
  | f + 1, h, first, last, cur =>
    if first.eq last then Except.ok (h, cur)
    else
      match h.read B first._current with
      | none => Except.error Fault.ub
      | some v =>
        match construct_at B h cur._current v with
        | none => Except.error Fault.ub
        | some h1 =>
          match construct_at B h1 first._current (moved v) with
          | none => Except.error Fault.ub
          | some h2 =>
            uninit_move_loop B moved msrc mdst f h2 (deque_iterator.inc B msrc first) last
              (deque_iterator.inc B mdst cur)

/-- Destroy the `k` elements from cursor `cur` on (the rollback of
`std::uninitialized_fill_n`). -/
def destroy_run {α : Type} (B : Nat) (m : Int → Base) :
    Nat → Heap α → deque_iterator → Option (Heap α)
  | 0, h, _ => some h
  | k + 1, h, cur =>
    match destroy_at B h cur._current with
    | none => none
    | some h1 => destroy_run B m k h1 (deque_iterator.inc B m cur)

/-- Outcome of `std::uninitialized_fill_n`. -/
inductive FillResult (α : Type) where
  | filled (h : Heap α) (cur : deque_iterator) : FillResult α
  | threw (h : Heap α) : FillResult α
  | ub : FillResult α

/-- `std::uninitialized_fill_n(first, count, v)`: copy number `throw_at`
(counted from 0) throws, if any; the copies made so far are then destroyed
and the exception is rethrown.  `done` is the number of copies made so far. -/
def uninit_fill_n {α : Type} (B : Nat) (m : Int → Base) (v : α) (throw_at : Option Nat)
    (first : deque_iterator) :
    Nat → Nat → Heap α → deque_iterator → FillResult α
  | 0, _, h, cur => FillResult.filled h cur
  | k + 1, done, h, cur =>
    if throw_at = some done then
      match destroy_run B m done h first with
      | none => FillResult.ub
      | some h1 => FillResult.threw h1
    else
      match construct_at B h cur._current v with
      | none => FillResult.ub
      | some h1 => uninit_fill_n B m v throw_at first k (done + 1) h1 (deque_iterator.inc B m cur)

/-- The first half of the general case of `insert(pos, count, value)`
(`deque.hpp` 907-913): the temporary is created, the prefix is moved into it
and the `count` copies are made.  The result is the temporary's cursors and
map together with the outcome of the fill. -/
def insert_n_fill {α : Type} (B : Nat) (moved : α → α) (s : State α) (pos : deque_iterator)
    (count : Nat) (v : α) (throw_at : Option Nat) :
    Except (Fault α) (deque × FillResult α) := do
  let old_size ← ofOpt (size B s)
  let tmp := _create_map_and_nodes B { h := s.h, d := deque.nil } (old_size + count)
  let p ← ofOpt (_get_iterator B s pos)
  let r ← uninit_move_loop B moved s.d.slots tmp.d.slots (loop_budget B s.d._map_size)
    tmp.h s.d._start p tmp.d._start
  pure (tmp.d, uninit_fill_n B tmp.d.slots v throw_at r.2 count 0 r.1 r.2)

/-- `insert(pos, count, value)` (`deque.hpp` 887-919).  In the general case
copy number `throw_at` of `value` throws, if any; the copies of the two
boundary cases succeed. -/
def insert_n {α : Type} (B : Nat) (moved : α → α) (s : State α) (pos : deque_iterator)
    (count : Nat) (v : α) (throw_at : Option Nat) :
    Except (Fault α) (State α × deque_iterator) :=
  if count = 0 then do
    let r ← ofOpt (_get_iterator B s pos)
    pure (s, r)
  else do
    let offset ← ofOpt (deque_iterator.sub B pos s.d._start)
    let _ ← ofOpt (size B s)
    if pos.eq s.d._start then do
      let s1 ← repeat_call (fun t => push_front B t v) count s
      pure (s1, s1.d._start)
    else if pos.eq s.d._finish then do
      let s1 ← repeat_call (fun t => push_back B t v) count s
      let r ← ofOpt (deque_iterator.advance B s1.d.slots s1.d._finish (-(count : Int)))
      pure (s1, r)
    else do
      let b ← insert_n_fill B moved s pos count v throw_at
      match b.2 with
      | FillResult.ub => Except.error Fault.ub
      | FillResult.threw h1 =>
        -- the exception unwinds through the destructor of the temporary
        let h2 ← deque_dtor B { h := h1, d := b.1 }
        Except.error (Fault.thrown { h := h2, d := s.d })
      | FillResult.filled h1 _ =>
        let p ← ofOpt (_get_iterator B s pos)
        let d0 ← ofOpt (deque_iterator.advance B b.1.slots b.1._start offset)
        let d1 ← ofOpt (deque_iterator.advance B b.1.slots d0 (count : Int))
        let r ← uninit_move_loop B moved s.d.slots b.1.slots (loop_budget B s.d._map_size)
          h1 p s.d._finish d1
        -- swap, then the temporary (now the old map and blocks) is destroyed
        let h3 ← deque_dtor B { h := r.1, d := s.d }
        let ret ← ofOpt (deque_iterator.advance B b.1.slots b.1._start offset)
        pure ({ h := h3, d := b.1 }, ret)

/-- `erase(first, last)` (`deque.hpp` 998-1034). -/
def erase_range {α : Type} (B : Nat) (s : State α) (first last : deque_iterator) :
    Except (Fault α) (State α × deque_iterator) :=
  if first.eq last then do
    let r ← ofOpt (_get_iterator B s first)
    pure (s, r)
  else if first.eq s.d._start ∧ last.eq s.d._finish then do
    let s1 ← clear B s
    pure (s1, s1.d._finish)
  else do
    let m := s.d.slots
    let f ← ofOpt (_get_iterator B s first)
    let l ← ofOpt (_get_iterator B s last)
    let n ← ofOpt (deque_iterator.sub B l f)
    let elems_before ← ofOpt (deque_iterator.sub B f s.d._start)
    let elems_after ← ofOpt (deque_iterator.sub B s.d._finish l)
    if elems_before < elems_after then do
      let h1 ← ofOpt (std_move_backward B m s.h s.d._start f l)
      let new_start ← ofOpt (deque_iterator.advance B m s.d._start n)
      let h2 ← ofOpt (_destroy_elements B m h1 s.d._start new_start)
      let h3 ← ofOpt (dealloc_nodes m (new_start._node - s.d._start._node).toNat h2
        s.d._start._node)
      pure ({ h := h3, d := { s.d with _start := new_start } }, l)
    else do
      let r ← ofOpt (std_move B m s.h l s.d._finish f)
      let h2 ← ofOpt (_destroy_elements B m r.1 r.2 s.d._finish)
      let h3 ← ofOpt (dealloc_nodes m (s.d._finish._node - r.2._node).toNat h2 (r.2._node + 1))
      pure ({ h := h3, d := { s.d with _finish := r.2 } }, f)

/-- Which allocation of `_create_map_and_nodes` throws: the map, or block
number `k` (counted from 0) after `k` blocks were obtained. -/
inductive AllocFailure where
  | map : AllocFailure
  | block (k : Nat) : AllocFailure
deriving DecidableEq, Repr

/-- The rollback loop of `_create_map_and_nodes` (`deque.hpp` 282-284):
`for (cur = nstart; *cur != nullptr; ++cur) _deallocate_block(*cur)`. -/
def rollback_nodes {α : Type} (m : Int → Base) : Nat → Heap α → Int → Option (Heap α)
  | 0, h, cur => if m cur = Base.null then some h else none
  | f + 1, h, cur =>
    if m cur = Base.null then some h
    else
      match _deallocate_block h ⟨m cur, 0⟩ with
      | none => none
      | some h1 => rollback_nodes m f h1 (cur + 1)

/-- `_create_map_and_nodes` (`deque.hpp` 269-293) when an allocation throws;
`raw` is the value the slots of the never-initialised map storage read as.
The result is the way the call is left. -/
def _create_map_and_nodes_failing {α : Type} (B : Nat) (s : State α) (num_elements : Nat)
    (raw : Base) (fail : AllocFailure) : Fault α :=
  let num_nodes : Nat := num_elements / B + 1
  let map_size : Nat := max 8 (num_nodes + 2)
  match fail with
  | AllocFailure.map => Fault.bad_alloc { s with d := { s.d with _map_size := map_size } }
  | AllocFailure.block k =>
    let nstart : Int := (((map_size - num_nodes) / 2 : Nat) : Int)
    let r := alloc_nodes s.h (fun _ => raw) nstart k
    match rollback_nodes r.2 map_size r.1 nstart with
    | none => Fault.ub
    | some h1 =>
      Fault.bad_alloc { h := h1, d := { s.d with _map := some r.2, _map_size := map_size } }

/-- `emplace_back` / `emplace_front` on a container with a null map when the
lazy `_create_map_and_nodes(0)` (`deque.hpp` 795-797, 810-812) throws. -/
def emplace_first_alloc_failing {α : Type} (B : Nat) (s : State α) (raw : Base)
    (fail : AllocFailure) : Fault α :=
  _create_map_and_nodes_failing B s 0 raw fail

/-! ## Inputs of the evaluated examples -/

/-- The state a log of calls leaves a fresh container in, if every call returned. -/
def state_of (B : Nat) (log : List (Call Nat)) : Option (State Nat) :=
  (run B log State.init).toOption

/-- The block handles currently allocated, among those handed out so far. -/
def live_blocks {α : Type} (s : State α) : List Nat :=
  (List.range s.h.next).filter (fun id => s.h.live id)

/-- `insert(begin() + i, count, v)` as a call on a state of `Nat` elements; a
moved-from element is left holding `0`. -/
def insert_n_at (B : Nat) (i count v : Nat) (throw_at : Option Nat) (s : State Nat) :
    Except (Fault Nat) (State Nat × deque_iterator) :=
  match begin_plus B s i with
  | Except.ok p => insert_n B (fun _ => 0) s p count v throw_at
  | Except.error e => Except.error e

/-- `erase(begin() + i, begin() + j)` as a call on a state. -/
def erase_range_at {α : Type} (B : Nat) (i j : Nat) (s : State α) :
    Except (Fault α) (State α × deque_iterator) :=
  match begin_plus B s i, begin_plus B s j with
  | Except.ok p, Except.ok q => erase_range B s p q
  | Except.error e, _ => Except.error e
  | _, Except.error e => Except.error e

/-- The visible contents of the container at the moment the exception leaves
`std::uninitialized_fill_n` inside `insert(begin() + i, count, v)`. -/
def contents_at_throw (B : Nat) (i count v : Nat) (throw_at : Option Nat) (s : State Nat) :
    Option (List Nat) :=
  match begin_plus B s i with
  | Except.ok p =>
    match insert_n_fill B (fun _ => 0) s p count v throw_at with
    | Except.ok (_, FillResult.threw h) => contents B { h := h, d := s.d }
    | _ => none
  | Except.error _ => none

/-- What is left of the map members by a failed call: whether `_map` is
non-null and the value of `_map_size`; `none` if the call was undefined. -/
def map_fields_after {α : Type} : Fault α → Option (Bool × Nat)
  | Fault.bad_alloc s => some (s.d._map.isSome, s.d._map_size)
  | Fault.thrown s => some (s.d._map.isSome, s.d._map_size)
  | _ => none

/-- The state `shrink_to_fit()` leaves a container of `Nat` elements in (the
state itself if the call does not return). -/
def shrunk (B : Nat) (s : State Nat) : State Nat :=
  match shrink_to_fit B s with
  | Except.ok s1 => s1
  | Except.error _ => s

/-- What `erase(begin() + i, begin() + j)` leaves to be seen: the visible
contents afterwards and whether the returned cursor is `begin() + i` of the
result; `none` if the call or an observation is undefined. -/
def erase_range_view (B : Nat) (i j : Nat) (s : State Nat) : Option (List Nat × Bool) :=
  match erase_range_at B i j s with
  | Except.ok (s1, c) =>
    match contents B s1, begin_plus B s1 i with
    | some xs, Except.ok p => some (xs, c.eq p)
    | _, _ => none
  | Except.error _ => none

/-- The cursors, the allocated blocks and the visible contents of a state. -/
def State.view (B : Nat) (s : State Nat) :
    deque_iterator × deque_iterator × List Nat × Option (List Nat) :=
  (s.d._start, s.d._finish, live_blocks s, contents B s)

/-- One block filled from the back and drained from the front, then two more
elements pushed at the back. -/
def refill_log : List (Call Nat) :=
  fill_drain_log ++ [Call.push_back 5, Call.push_back 6]

/-- The intra-block offset `_current - _first` of a cursor and whether
`_current` equals the block end `_last`. -/
def deque_iterator.offset_view (c : deque_iterator) : Option Int × Bool :=
  (c._current.diff c._first, decide (c._current = c._last))

/-! ## The states a container can be in

The members modelled so far are gathered into one type of calls, with the
remaining constructors and range members, and the states a container can reach
through them are defined inductively.  The store component of a state holds
the blocks of this container only.  Members that involve a second container
are represented by what they do to this one: copy construction and copy
assignment read a sequence of values from the other container, swapping and
moving hand over the other container's state. -/

/-- The loop `for (; first != last; ++first, ++cur) construct_at(cur, *first)`
of the range constructor (`deque.hpp` 477-479), also the loop of
`std::uninitialized_copy`, for an input range that yields the values `xs`. -/
def construct_list {α : Type} (B : Nat) (m : Int → Base) :
    List α → Heap α → deque_iterator → Option (Heap α × deque_iterator)
  | [], h, cur => some (h, cur)
  | v :: vs, h, cur =>
    match construct_at B h cur._current v with
    | none => none
    | some h1 => construct_list B m vs h1 (deque_iterator.inc B m cur)

/-- The range constructor `deque(first, last)` (`deque.hpp` 469-485) for an
input range that yields the values `xs`; `deque(initializer_list)` (518-520)
delegates to it.  `h` is the store before the construction; the map
allocation throws above `map_alloc_limit`. -/
def deque_ctor_list {α : Type} (B : Nat) (h : Heap α) (xs : List α) :
    Except (Fault α) (State α) :=
  if max 8 (xs.length / B + 1 + 2) > map_alloc_limit then
    Except.error (Fault.bad_alloc { h := h, d := deque.nil })
  else
    let s0 := _create_map_and_nodes B { h := h, d := deque.nil } xs.length
    match construct_list B s0.d.slots xs s0.h s0.d._start with
    | some r => Except.ok { h := r.1, d := s0.d }
    | none => Except.error Fault.ub

/-- The loop `for (; cur != _finish; ++cur) construct_at(cur._current, ...)`
of `deque(n)` (`deque.hpp` 443-445), of `deque(n, val)` (453-455) and of the
copy constructor (496-498); `vals k` is the value the construction number `k`
makes: `T()`, `val`, or the element read through `__other_cur`. -/
def fill_loop {α : Type} (B : Nat) (m : Int → Base) (vals : Nat → α) :
    Nat → Nat → Heap α → deque_iterator → deque_iterator → Except (Fault α) (Heap α)
  | 0, _, h, cur, fin =>
    if cur.eq fin then Except.ok h else Except.error Fault.fuel
  | f + 1, k, h, cur, fin =>
    if cur.eq fin then Except.ok h
    else
      match construct_at B h cur._current (vals k) with
      | none => Except.error Fault.ub
      | some h1 => fill_loop B m vals f (k + 1) h1 (deque_iterator.inc B m cur) fin

/-- The constructors `deque(n)` (`deque.hpp` 440-446), `deque(n, val)`
(448-462) and `deque(const deque&)` (487-504, with `n` the `size()` of the
other container), the constructions of the elements succeeding. -/
def deque_ctor_fill {α : Type} (B : Nat) (h : Heap α) (n : Nat) (vals : Nat → α) :
    Except (Fault α) (State α) :=
  if max 8 (n / B + 1 + 2) > map_alloc_limit then
    Except.error (Fault.bad_alloc { h := h, d := deque.nil })
  else
    let s0 := _create_map_and_nodes B { h := h, d := deque.nil } n
    match fill_loop B s0.d.slots vals (loop_budget B s0.d._map_size) 0 s0.h s0.d._start
        s0.d._finish with
    | Except.ok h1 => Except.ok { h := h1, d := s0.d }
    | Except.error e => Except.error e

/-- The loop `for (; first != last; ++first) emplace_back(*first)` of
`assign(first, last)` (`deque.hpp` 620-622) for an input range that yields the
values `xs`. -/
def emplace_all {α : Type} (B : Nat) : List α → State α → Except (Fault α) (State α)
  | [], s => Except.ok s
  | v :: vs, s =>
    match emplace_back B s (some v) with
    | Except.ok s1 => emplace_all B vs s1
    | Except.error e => Except.error e

/-- `assign(first, last)` (`deque.hpp` 617-623) for an input range that yields
the values `xs`; `operator=(initializer_list)` (598-601) is this call, copy
assignment from a distinct container (529-540) is `clear()` followed by this
call, and so is move assignment with unequal allocators (590-593). -/
def assign_list {α : Type} (B : Nat) (s : State α) (xs : List α) :
    Except (Fault α) (State α) := do
  let s1 ← clear B s
  emplace_all B xs s1

/-- `insert(pos, first, last)` for a forward range that yields the values `xs`
(`deque.hpp` 933-957), also `insert(pos, initializer_list)` (960-962); the
copies of the elements succeed.  For a single-pass range the member is a loop
of `emplace` calls (925-932). -/
def insert_list {α : Type} (B : Nat) (moved : α → α) (s : State α) (pos : deque_iterator)
    (xs : List α) : Except (Fault α) (State α × deque_iterator) :=
  if xs.length = 0 then do
    let r ← ofOpt (_get_iterator B s pos)
    pure (s, r)
  else do
    let offset ← ofOpt (deque_iterator.sub B pos s.d._start)
    let old_size ← ofOpt (size B s)
    let tmp := _create_map_and_nodes B { h := s.h, d := deque.nil } (old_size + xs.length)
    let p ← ofOpt (_get_iterator B s pos)
    let r1 ← uninit_move_loop B moved s.d.slots tmp.d.slots (loop_budget B s.d._map_size)
      tmp.h s.d._start p tmp.d._start
    let r2 ← ofOpt (construct_list B tmp.d.slots xs r1.1 r1.2)
    let p2 ← ofOpt (_get_iterator B s pos)
    let d0 ← ofOpt (deque_iterator.advance B tmp.d.slots tmp.d._start offset)
    let d1 ← ofOpt (deque_iterator.advance B tmp.d.slots d0 (xs.length : Int))
    let r3 ← uninit_move_loop B moved s.d.slots tmp.d.slots (loop_budget B s.d._map_size)
      r2.1 p2 s.d._finish d1
    -- swap, then the temporary (now the old map and blocks) is destroyed
    let h3 ← deque_dtor B { h := r3.1, d := s.d }
    let ret ← ofOpt (deque_iterator.advance B tmp.d.slots tmp.d._start offset)
    pure ({ h := h3, d := tmp.d }, ret)

/-- A call of a mutating member of the public interface.  A constructor
argument `none` is an element constructor that throws; `resize(n)`
(`deque.hpp` 756-767) is `resize(n, T())`; `erase(first, last)` is given the
positions `begin() + i` and `begin() + j`. -/
inductive Op (α : Type) where
  | emplace_back (a : Option α) : Op α
  | emplace_front (a : Option α) : Op α
  | pop_back : Op α
  | pop_front : Op α
  | emplace (pos : deque_iterator) (a : Option α) : Op α
  | erase (pos : deque_iterator) : Op α
  | clear : Op α
  | resize (n : Nat) (v : α) : Op α
  | assign (n : Nat) (v : α) : Op α
  | assign_list (xs : List α) : Op α
  | shrink_to_fit : Op α
  | insert_n (moved : α → α) (pos : deque_iterator) (count : Nat) (v : α)
      (throw_at : Option Nat) : Op α
  | insert_list (moved : α → α) (pos : deque_iterator) (xs : List α) : Op α
  | erase_range (i j : Nat) : Op α

/-- Perform a call on the container.  When `shrink_to_fit` fails to allocate
the map of its temporary, the container itself is as before the call. -/
def Op.apply {α : Type} (B : Nat) (s : State α) : Op α → Except (Fault α) (State α)
  | Op.emplace_back a => Marcus.emplace_back B s a
  | Op.emplace_front a => Marcus.emplace_front B s a
  | Op.pop_back => Marcus.pop_back B s
  | Op.pop_front => Marcus.pop_front B s
  | Op.emplace pos a => do
    let r ← Marcus.emplace B s pos a
    pure r.1
  | Op.erase pos => do
    let r ← Marcus.erase B s pos
    pure r.1
  | Op.clear => Marcus.clear B s
  | Op.resize n v => Marcus.resize B s n v
  | Op.assign n v => Marcus.assign B s n v
  | Op.assign_list xs => Marcus.assign_list B s xs
  | Op.shrink_to_fit =>
    match Marcus.shrink_to_fit B s with
    | Except.error (Fault.bad_alloc _) => Except.error (Fault.bad_alloc s)
    | r => r
  | Op.insert_n moved pos count v throw_at => do
    let r ← Marcus.insert_n B moved s pos count v throw_at
    pure r.1
  | Op.insert_list moved pos xs => do
    let r ← Marcus.insert_list B moved s pos xs
    pure r.1
  | Op.erase_range i j => do
    let r ← erase_range_at B i j s
    pure r.1

/-- What the caller owes a call beyond passing cursors of this container: the
counts are `size_type` values whose sum with `size()` is one too, and
`[first, last)` is a range of the container in the sense that `last - first`
and `end() - last` are not negative. -/
def Op.pre {α : Type} (B : Nat) (s : State α) : Op α → Bool
  | Op.assign n _ => decide (n < 2 ^ 64)
  | Op.insert_n _ _ count _ _ =>
    match size B s with
    | some k => decide (k + count < 2 ^ 64)
    | none => true
  | Op.insert_list _ _ xs =>
    match size B s with
    | some k => decide (k + xs.length < 2 ^ 64)
    | none => true
  | Op.erase_range i j =>
    decide (i ≤ j) &&
      (match begin_plus B s j with
       | Except.ok q =>
         match deque_iterator.sub B s.d._finish q with
         | some z => decide (0 ≤ z)
         | none => false
       | Except.error _ => false)
  | _ => true

/-- The same call with an element constructor that returns `v` instead of
throwing. -/
def Op.with_value {α : Type} (v : α) : Op α → Op α
  | Op.emplace_back none => Op.emplace_back (some v)
  | Op.emplace_front none => Op.emplace_front (some v)
  | Op.emplace pos none => Op.emplace pos (some v)
  | Op.insert_n moved pos count w _ => Op.insert_n moved pos count w none
  | op => op

/-- The state a failed first block allocation leaves (`deque.hpp` 281-287):
`_map` holds the address of the released map and the cursors are still null.
Every member that would change this state goes through the null `_node` of a
cursor or through the released map (`_push_back_aux` writes `*(_node + 1)`,
`_deallocate_all` reads `*_node`) and is undefined; `clear()`, `resize(0)` and
the like leave the state as it is. -/
def deque.detached (d : deque) : Bool :=
  d._map.isSome && decide (d._start = deque_iterator.default) &&
    decide (d._finish = deque_iterator.default) && decide (1 < d._map_size)

/-- The states of a container.

* `nil`: default-constructed (`deque.hpp` 425-438) or moved-from (506-516,
  558-596).
* `ctor`: built by the range constructor or from an initializer list.
* `ctor_fill`: built by `deque(n)`, `deque(n, val)` or the copy constructor.
* `call`: a call of `Op` returned; the position arguments are arbitrary
  cursors.
* `thrown`: an element constructor threw inside a call.  The call is one that
  is defined when the constructor returns (`hv`): `emplace_front` steps
  `_start._current` back before it constructs (798-800), and that step is
  undefined whenever the construction it prepares is.
* `bad_alloc`: a map could not be allocated, the larger map of
  `_reallocate_map` or the map of the temporary of `shrink_to_fit()`.
* `first_alloc_failed`: `_create_map_and_nodes(0)` threw in the first
  `emplace_back` or `emplace_front` (795-797, 810-812).
* `elsewhere`: what the container sees of the rest of the program.  Elements
  are assigned through references and cursors, and other containers are built
  and destroyed, among them the temporaries of `shrink_to_fit()`, of
  `insert(pos, first, last)` and of copies that an exception abandons: more
  handles are used up, the blocks of the container and their constructed
  cells are the same.

No call is made on a `detached` state: the calls that would change it are
undefined, and the slot indices of this embedding do not tell the null `_node`
of its cursors from slot 0.  A swap or a move assignment hands the state of
the other container over, so it adds no state.  Allocations fail where the
embedded members have them fail and succeed otherwise. -/
inductive Reachable {α : Type} (B : Nat) : State α → Prop where
  | nil (h : Heap α) (hdead : ∀ id, h.live id = false) :
      Reachable B { h := h, d := deque.nil }
  | ctor (h : Heap α) (hdead : ∀ id, h.live id = false) (xs : List α) (s : State α)
      (hc : deque_ctor_list B h xs = Except.ok s) : Reachable B s
  | ctor_fill (h : Heap α) (hdead : ∀ id, h.live id = false) (n : Nat) (vals : Nat → α)
      (s : State α) (hc : deque_ctor_fill B h n vals = Except.ok s) : Reachable B s
  | call (s s' : State α) (op : Op α) (hr : Reachable B s)
      (hd : s.d.detached = false) (hp : op.pre B s = true)
      (ha : op.apply B s = Except.ok s') : Reachable B s'
  | thrown (s s' t : State α) (op : Op α) (v : α) (hr : Reachable B s)
      (hd : s.d.detached = false) (hp : op.pre B s = true)
      (ha : op.apply B s = Except.error (Fault.thrown s'))
      (hv : (op.with_value v).apply B s = Except.ok t) : Reachable B s'
  | bad_alloc (s s' : State α) (op : Op α) (hr : Reachable B s)
      (hd : s.d.detached = false) (hp : op.pre B s = true)
      (ha : op.apply B s = Except.error (Fault.bad_alloc s')) : Reachable B s'
  | first_alloc_failed (s s' : State α) (raw : Base) (fail : AllocFailure)
      (hr : Reachable B s) (hm : s.d._map = none)
      (ha : emplace_first_alloc_failing B s raw fail = Fault.bad_alloc s') :
      Reachable B s'
  | elsewhere (s : State α) (h' : Heap α) (hr : Reachable B s)
      (hn : s.h.next ≤ h'.next) (hl : ∀ id, h'.live id = s.h.live id)
      (hc : ∀ id i, s.h.live id = true →
        (h'.cell id i).isSome = (s.h.cell id i).isSome) :
      Reachable B { h := h', d := s.d }

/-- The invariant of the states of a container: `Inv`, a finish cursor at most
at the end of its block, and null cursors as long as the map is null. -/
structure ReachInv {α : Type} (B : Nat) (s : State α) : Prop where
  inv : Inv B s
  fin_off : s.d._finish._current.off ≤ (B : Int)
  null_map : s.d._map = none →
    s.d._start = deque_iterator.default ∧ s.d._finish = deque_iterator.default

/-- The state an exception leaves the container in; `none` for a failure that
is not an exception. -/
def Fault.state {α : Type} : Fault α → Option (State α)
  | Fault.thrown s => some s
  | Fault.bad_alloc s => some s
  | _ => none

/-- Every exception that ends the computation `x` leaves a state with the
property `P`. -/
def FailsInto {α β : Type} (P : State α → Prop) (x : Except (Fault α) β) : Prop :=
  ∀ e s', x = Except.error e → e.state = some s' → P s'

/-- The container `deque(first, last)` builds in an empty store from a range
that yields the values `xs` (a default-constructed one if the construction
does not return). -/
def built (B : Nat) (xs : List Nat) : State Nat :=
  match deque_ctor_list B Heap.empty xs with
  | Except.ok s => s
  | Except.error _ => State.init

/-- The state a call leaves a container in (the state before it if the call
does not return). -/
def State.after (B : Nat) (s : State Nat) (op : Op Nat) : State Nat :=
  match op.apply B s with
  | Except.ok s1 => s1
  | Except.error _ => s

/-- A container built from the 20 values `0 .. 19` by the range constructor
with block capacity 16, after `resize(30, 7)` and `erase(begin() + 2,
begin() + 5)`. -/
def built_resized_erased : State Nat :=
  ((built 16 (List.range 20)).after 16 (Op.resize 30 7)).after 16 (Op.erase_range 2 5)

/-- A container built from the 17 values `0 .. 16` by the range constructor
with block capacity 16 and reduced to 8 elements by `erase(begin() + 8,
end())`. -/
def built_erased : State Nat :=
  (built 16 (List.range 17)).after 16 (Op.erase_range 8 17)

/-- A container built from 65 values by the range constructor with block
capacity 16 and grown to 100 elements by `resize(100, 7)`. -/
def built_resized : State Nat :=
  (built 16 (List.range 65)).after 16 (Op.resize 100 7)

/-! ## The type-erased value holder `any` (`utility/any.hpp`)

An object type is represented by a code `t : τ` and its values by `El t`;
`typeid` compares codes.  The `AnyModel<T>` objects live in a free store
addressed by handles.  Objects of class `any` are addressed by handles as
well, so that an operand passed by reference can be the object the member
function is called on.  Copying a value gives an equal value; `new` is taken
to succeed. -/

/-- The result of `typeid`: `typeid(void)` or the identity of an object type. -/
inductive type_info (τ : Type) where
  | void : type_info τ
  | of (t : τ) : type_info τ
deriving DecidableEq, Repr

/-- An object of class `AnyModel<T>` (`any.hpp` 37-65): the type `T` its
virtual `type()` reports and the member `_value`. -/
structure AnyModel (τ : Type) (El : τ → Type) where
  T : τ
  _value : El T

/-- The class `any` (`any.hpp` 66-169): its only data member `_storage`, null
(`none`) or the address of an `AnyConcept`. -/
structure any where
  _storage : Option Nat
deriving DecidableEq, Repr

/-- The memory: the free store of `AnyConcept` objects (`next` is the address
the next `new` returns) and the `any` objects by address. -/
structure AnyMem (τ : Type) (El : τ → Type) where
  next : Nat
  obj : Nat → Option (AnyModel τ El)
  var : Nat → any

/-- Ways a call on an `any` fails to return normally: the exception
`BadAnyCast`, or undefined behaviour. -/
inductive AnyFault where
  | bad_any_cast : AnyFault
  | ub : AnyFault
deriving DecidableEq, Repr

/-- The memory with an empty free store in which every `any` object is empty. -/
def AnyMem.empty {τ : Type} {El : τ → Type} : AnyMem τ El :=
  { next := 0, obj := fun _ => none, var := fun _ => { _storage := none } }

/-- The expression `new AnyModel<T>(v)`: the new memory and the address. -/
def AnyMem.new_model {τ : Type} {El : τ → Type} (m : AnyMem τ El) (t : τ) (v : El t) :
    AnyMem τ El × Nat :=
  ({ m with next := m.next + 1,
            obj := fun p => if p = m.next then some { T := t, _value := v } else m.obj p },
   m.next)

/-- The expression `delete p`: nothing for a null pointer, undefined for a
pointer to no object. -/
def AnyMem.delete_model {τ : Type} {El : τ → Type} (m : AnyMem τ El) (p : Option Nat) :
    Option (AnyMem τ El) :=
  match p with
  | none => some m
  | some q =>
    match m.obj q with
    | some _ => some { m with obj := fun i => if i = q then none else m.obj i }
    | none => none

/-- The `any` object at address `r` takes the value `x`. -/
def AnyMem.set {τ : Type} {El : τ → Type} (m : AnyMem τ El) (r : Nat) (x : any) :
    AnyMem τ El :=
  { m with var := fun i => if i = r then x else m.var i }

/-- Reading `*static_cast<T *>(p)`: defined when `p` is the address of the
value of a live `AnyModel<T>`. -/
def AnyMem.read {τ : Type} [DecidableEq τ] {El : τ → Type} (m : AnyMem τ El) (p : Nat)
    (t : τ) : Option (El t) :=
  match m.obj p with
  | some x => if h : x.T = t then some (h ▸ x._value) else none
  | none => none

/-- The assignment `*p = w` through a `T *`: defined when `p` is non-null and
the address of the value of a live `AnyModel<T>`. -/
def AnyMem.write {τ : Type} [DecidableEq τ] {El : τ → Type} (m : AnyMem τ El)
    (p : Option Nat) (t : τ) (w : El t) : Option (AnyMem τ El) :=
  match p with
  | none => none
  | some q =>
    match m.obj q with
    | some x =>
      if x.T = t then
        some { m with obj := fun i => if i = q then some { T := t, _value := w } else m.obj i }
      else none
    | none => none

/-- The virtual call `p->clone()` (`any.hpp` 44-47): `new AnyModel<T>(_value)`. -/
def AnyConcept.clone {τ : Type} {El : τ → Type} (m : AnyMem τ El) (p : Nat) :
    Option (AnyMem τ El × Nat) :=
  match m.obj p with
  | some x => some (m.new_model x.T x._value)
  | none => none

/-- The virtual call `p->type()` (`any.hpp` 54-56). -/
def AnyConcept.type {τ : Type} {El : τ → Type} (m : AnyMem τ El) (p : Nat) :
    Option (type_info τ) :=
  match m.obj p with
  | some x => some (type_info.of x.T)
  | none => none

/-- The virtual call `p->get_ptr()` (`any.hpp` 58-64): the address of
`_value`, identified with the address of the object. -/
def AnyConcept.get_ptr {τ : Type} {El : τ → Type} (m : AnyMem τ El) (p : Nat) :
    Option Nat :=
  match m.obj p with
  | some _ => some p
  | none => none

namespace any

/-- The constructor `any() noexcept` (`any.hpp` 80). -/
def default : any := { _storage := none }

/-- The constructor `any(T &&value)` (`any.hpp` 82-85). -/
def of_value {τ : Type} {El : τ → Type} (m : AnyMem τ El) (t : τ) (v : El t) :
    AnyMem τ El × any :=
  let r := m.new_model t v
  (r.1, { _storage := some r.2 })

/-- The copy constructor `any(const any &other)` (`any.hpp` 87-88). -/
def copy {τ : Type} {El : τ → Type} (m : AnyMem τ El) (other : Nat) :
    Option (AnyMem τ El × any) :=
  match (m.var other)._storage with
  | some p =>
    match AnyConcept.clone m p with
    | some r => some (r.1, { _storage := some r.2 })
    | none => none
  | none => some (m, { _storage := none })

/-- The move constructor `any(any &&other) noexcept` (`any.hpp` 90-92). -/
def move {τ : Type} {El : τ → Type} (m : AnyMem τ El) (other : Nat) :
    AnyMem τ El × any :=
  (m.set other { _storage := none }, { _storage := (m.var other)._storage })

/-- The constructor `any(InPlaceType<T>, Args &&...args)` (`any.hpp` 94-96),
`v` being the value `T(args...)`. -/
def in_place {τ : Type} {El : τ → Type} (m : AnyMem τ El) (t : τ) (v : El t) :
    AnyMem τ El × any :=
  let r := m.new_model t v
  (r.1, { _storage := some r.2 })

/-- The destructor `~any()` (`any.hpp` 102-104). -/
def dtor {τ : Type} {El : τ → Type} (m : AnyMem τ El) (x : any) : Option (AnyMem τ El) :=
  m.delete_model x._storage

/-- The member `swap` (`any.hpp` 139-142) on two objects given by value: the
new values of `*this` and of `other`. -/
def swap (this other : any) : any × any :=
  ({ _storage := other._storage }, { _storage := this._storage })

/-- The copy assignment `operator=(const any &other)` (`any.hpp` 106-109):
`any(other).swap(*this)`, then the temporary is destroyed. -/
def copy_assign {τ : Type} {El : τ → Type} (m : AnyMem τ El) (this other : Nat) :
    Option (AnyMem τ El) :=
  match copy m other with
  | none => none
  | some (m1, tmp) =>
    let sw := swap tmp (m1.var this)
    dtor (m1.set this sw.2) sw.1

/-- The move assignment `operator=(any &&other) noexcept` (`any.hpp` 111-114):
`any(std::move(other)).swap(*this)`, then the temporary is destroyed. -/
def move_assign {τ : Type} {El : τ → Type} (m : AnyMem τ El) (this other : Nat) :
    Option (AnyMem τ El) :=
  let r := move m other
  let sw := swap r.2 (r.1.var this)
  dtor (r.1.set this sw.2) sw.1

/-- The member `has_value()` (`any.hpp` 144-146). -/
def has_value (x : any) : Bool := x._storage.isSome

/-- The member `type()` (`any.hpp` 148-150); `none` when the virtual call goes
through a pointer to no object. -/
def type {τ : Type} {El : τ → Type} (m : AnyMem τ El) (x : any) : Option (type_info τ) :=
  match x._storage with
  | some p => AnyConcept.type m p
  | none => some type_info.void

/-- The member `_get_value_ptr()` (`any.hpp` 71-77): a null or non-null
pointer to the value. -/
def _get_value_ptr {τ : Type} {El : τ → Type} (m : AnyMem τ El) (x : any) :
    Option (Option Nat) :=
  match x._storage with
  | some p =>
    match AnyConcept.get_ptr m p with
    | some q => some (some q)
    | none => none
  | none => some none

end any

/-- The definition `any b(x);` of a named object at address `b` from the
result of a constructor. -/
def AnyMem.declare {τ : Type} {El : τ → Type} (r : AnyMem τ El × any) (b : Nat) :
    AnyMem τ El :=
  r.1.set b r.2

/-- The function `make_any<T>(args...)` (`any.hpp` 223-226). -/
def make_any {τ : Type} {El : τ → Type} (m : AnyMem τ El) (t : τ) (v : El t) :
    AnyMem τ El × any :=
  any.in_place m t v

/-- The function `any_cast_impl_ref` (`any.hpp` 171-184, both overloads have
this body): the pointer to the value, or `BadAnyCast`. -/
def any_cast_impl_ref {τ : Type} [DecidableEq τ] {El : τ → Type} (m : AnyMem τ El)
    (operand : Option Nat) (info : type_info τ) : Except AnyFault (Option Nat) :=
  match operand with
  | none => Except.error AnyFault.bad_any_cast
  | some r =>
    if (m.var r).has_value = false then Except.error AnyFault.bad_any_cast
    else
      match (m.var r).type m with
      | none => Except.error AnyFault.ub
      | some ti =>
        if ti ≠ info then Except.error AnyFault.bad_any_cast
        else
          match (m.var r)._get_value_ptr m with
          | some q => Except.ok q
          | none => Except.error AnyFault.ub

/-- Dereferencing the pointer `any_cast_impl_ref` returned, as a `T`. -/
def AnyMem.deref {τ : Type} [DecidableEq τ] {El : τ → Type} (m : AnyMem τ El)
    (p : Option Nat) (t : τ) : Except AnyFault (El t) :=
  match p with
  | none => Except.error AnyFault.ub
  | some q =>
    match m.read q t with
    | some v => Except.ok v
    | none => Except.error AnyFault.ub

/-- The function `any_cast<T>(any &operand)` (`any.hpp` 186-191). -/
def any_cast {τ : Type} [DecidableEq τ] {El : τ → Type} (m : AnyMem τ El)
    (operand : Nat) (t : τ) : Except AnyFault (El t) :=
  match any_cast_impl_ref m (some operand) (type_info.of t) with
  | Except.ok p => m.deref p t
  | Except.error e => Except.error e

/-- The function `any_cast<T>(const any &operand)` (`any.hpp` 193-198). -/
def any_cast_const {τ : Type} [DecidableEq τ] {El : τ → Type} (m : AnyMem τ El)
    (operand : Nat) (t : τ) : Except AnyFault (El t) :=
  match any_cast_impl_ref m (some operand) (type_info.of t) with
  | Except.ok p => m.deref p t
  | Except.error e => Except.error e

/-- The function `any_cast<T>(any &&operand)` (`any.hpp` 200-205): the value
is moved out, which leaves `moved t v` in the operand. -/
def any_cast_rvalue {τ : Type} [DecidableEq τ] {El : τ → Type}
    (moved : (t : τ) → El t → El t) (m : AnyMem τ El)
    (operand : Nat) (t : τ) : Except AnyFault (AnyMem τ El × El t) :=
  match any_cast_impl_ref m (some operand) (type_info.of t) with
  | Except.ok p =>
    match m.deref p t with
    | Except.ok v =>
      match m.write p t (moved t v) with
      | some m1 => Except.ok (m1, v)
      | none => Except.error AnyFault.ub
    | Except.error e => Except.error e
  | Except.error e => Except.error e

/-- The function `any_cast<T>(any *operand) noexcept` (`any.hpp` 215-221): a
null or non-null pointer; `none` when the call is undefined. -/
def any_cast_ptr {τ : Type} [DecidableEq τ] {El : τ → Type} (m : AnyMem τ El)
    (operand : Option Nat) (t : τ) : Option (Option Nat) :=
  match operand with
  | none => some none
  | some r =>
    if (m.var r).has_value = false then some none
    else
      match (m.var r).type m with
      | none => none
      | some ti =>
        if ti ≠ type_info.of t then some none
        else (m.var r)._get_value_ptr m

/-- The function `any_cast<T>(const any *operand) noexcept` (`any.hpp` 207-213). -/
def any_cast_ptr_const {τ : Type} [DecidableEq τ] {El : τ → Type} (m : AnyMem τ El)
    (operand : Option Nat) (t : τ) : Option (Option Nat) :=
  match operand with
  | none => some none
  | some r =>
    if (m.var r).has_value = false then some none
    else
      match (m.var r).type m with
      | none => none
      | some ti =>
        if ti ≠ type_info.of t then some none
        else (m.var r)._get_value_ptr m

/-- The object at address `r` holds the value `v` of type `t`. -/
def AnyMem.holds {τ : Type} {El : τ → Type} (m : AnyMem τ El) (r : Nat) (t : τ) (v : El t) :
    Prop :=
  ∃ p, (m.var r)._storage = some p ∧ m.obj p = some { T := t, _value := v }

/-- The ownership invariant of class `any`: addresses not yet handed out hold
no object, a non-null `_storage` points to a live object, and no two `any`
objects share one. -/
structure AnyMem.WF {τ : Type} {El : τ → Type} (m : AnyMem τ El) : Prop where
  fresh : ∀ p, m.next ≤ p → m.obj p = none
  live : ∀ r p, (m.var r)._storage = some p → (m.obj p).isSome = true
  own : ∀ r r' p, (m.var r)._storage = some p → (m.var r')._storage = some p → r = r'

/-- The element types of the tests (`test_any.cpp`): `int` and `std::string`. -/
inductive TestType where
  | int : TestType
  | string : TestType
deriving DecidableEq, Repr

/-- The values of the test types. -/
@[reducible]
def TestType.El : TestType → Type
  | TestType.int => Int
  | TestType.string => String

/-- What the observers show of an object holding `v` of type `t`:
`has_value()`, `type() == typeid(T)`, and the result of `any_cast<T>` on the
object and on the object taken as `const`. -/
def AnyMem.shows {τ : Type} [DecidableEq τ] {El : τ → Type} (m : AnyMem τ El) (r : Nat)
    (t : τ) (v : El t) : Prop :=
  (m.var r).has_value = true ∧ (m.var r).type m = some (type_info.of t) ∧
  any_cast m r t = Except.ok v ∧ any_cast_const m r t = Except.ok v

/-- The memory of the tests after `any a = 456; any b = std::string("x");`
with `a` at address 0 and `b` at address 1. -/
def test_mem : AnyMem TestType TestType.El :=
  AnyMem.declare
    (any.of_value
      (AnyMem.declare (any.of_value AnyMem.empty TestType.int (456 : Int)) 0)
      TestType.string "x") 1

/-- In memory `m'` the object at `b` is a copy of what the object at `a` was
in memory `m`, and the object at `a` is unchanged: same `has_value()` and
`type()` for both, and if `a` held `v` then `b` and `a` both show `v`, each
in storage of its own. -/
def AnyMem.is_copy {τ : Type} [DecidableEq τ] {El : τ → Type} (m m' : AnyMem τ El)
    (a b : Nat) : Prop :=
  (m'.var b).has_value = (m.var a).has_value ∧
  (m'.var b).type m' = (m.var a).type m ∧
  (m'.var a).has_value = (m.var a).has_value ∧
  (m'.var a).type m' = (m.var a).type m ∧
  ∀ (t : τ) (v : El t), m.holds a t v →
    m'.shows b t v ∧ m'.shows a t v ∧ m'.holds a t v ∧
      (m'.var b)._storage ≠ (m'.var a)._storage

/-- The state a moved-from value of a test type is left in: an `int` keeps its
value, a `std::string` is left empty. -/
def TestType.moved : (t : TestType) → t.El → t.El
  | TestType.int, v => v
  | TestType.string, _ => ""

/-! ## The adaptor `queue` (`adaptors/queue.hpp`) and the growth of the map -/

/-- The class `queue` (`queue.hpp` 5-16) over the default container: its
member `c`, a `deque` in its store. -/
structure queue (α : Type) where
  c : State α

namespace queue

/-- The constructor `queue()` (`queue.hpp` 18): `c` default-constructed. -/
def init {α : Type} : queue α := { c := State.init }

/-- The member `front()` (`queue.hpp` 66-72). -/
def front {α : Type} (B : Nat) (q : queue α) : Except (Fault α) α := Marcus.front B q.c

/-- The member `empty()` (`queue.hpp` 82-84). -/
def empty {α : Type} (q : queue α) : Bool := Marcus.empty q.c

/-- The member `size()` (`queue.hpp` 86-88). -/
def size {α : Type} (B : Nat) (q : queue α) : Option Nat := Marcus.size B q.c

/-- The member `push(val)` (`queue.hpp` 90-96). -/
def push {α : Type} (B : Nat) (q : queue α) (v : α) : Except (Fault α) (queue α) :=
  match Marcus.push_back B q.c v with
  | Except.ok s => Except.ok { c := s }
  | Except.error e => Except.error e

/-- The member `pop()` (`queue.hpp` 103-105). -/
def pop {α : Type} (B : Nat) (q : queue α) : Except (Fault α) (queue α) :=
  match Marcus.pop_front B q.c with
  | Except.ok s => Except.ok { c := s }
  | Except.error e => Except.error e

end queue

/-- The calls `push(x1) ... push(xn)` on a queue, left to right. -/
def queue.push_all {α : Type} (B : Nat) : List α → queue α → Except (Fault α) (queue α)
  | [], q => Except.ok q
  | x :: xs, q =>
    match q.push B x with
    | Except.ok q1 => queue.push_all B xs q1
    | Except.error e => Except.error e

/-- `k` calls of `pop()` on a queue. -/
def queue.pop_times {α : Type} (B : Nat) : Nat → queue α → Except (Fault α) (queue α)
  | 0, q => Except.ok q
  | k + 1, q =>
    match q.pop B with
    | Except.ok q1 => queue.pop_times B k q1
    | Except.error e => Except.error e

/-- What a fresh queue shows after `push(x1) ... push(xn)` and `k` calls of
`pop()`: `front()`, `size()` and `empty()`; `none` if a call did not return. -/
def queue.after (B : Nat) (xs : List Nat) (k : Nat) :
    Option (Option Nat × Option Nat × Bool) :=
  match queue.push_all B xs queue.init with
  | Except.ok q =>
    match queue.pop_times B k q with
    | Except.ok q1 => some ((q1.front B).toOption, q1.size B, q1.empty)
    | Except.error _ => none
  | Except.error _ => none

/-- The start slot, the finish slot and the map size a helper on the map
leaves; `none` if it did not return. -/
def MapResult.view : MapResult → Option (Int × Int × Nat)
  | MapResult.done d => some (d._start._node, d._finish._node, d._map_size)
  | _ => none

/-! ## The class `optional` (`utility/optional.hpp`) -/

/-- The class `optional<T>` (`optional.hpp` 30-38): the flag `_has_value` and
the union member `_value`, which is raw storage (`none`) or holds a
constructed `T`. -/
structure optional (α : Type) where
  _has_value : Bool
  _value : Option α
deriving DecidableEq, Repr

namespace optional

/-- The constructor `optional() noexcept` (`optional.hpp` 46). -/
def empty {α : Type} : optional α := { _has_value := false, _value := none }

/-- The constructor `optional(T &&value)` (`optional.hpp` 40). -/
def of_value {α : Type} (v : α) : optional α := { _has_value := true, _value := some v }

/-- The member `has_value()` (`optional.hpp` 166-168). -/
def has_value {α : Type} (o : optional α) : Bool := o._has_value

/-- The member `value() &` (`optional.hpp` 197-202): `none` is the exception
`BadOptionalAccess`, the inner `none` a read of raw storage. -/
def value {α : Type} (o : optional α) : Option (Option α) :=
  if o._has_value = false then none else some o._value

/-- The explicit destructor call `_value.~T()`: defined on a constructed
value. -/
def destroy_value {α : Type} (o : optional α) : Option (optional α) :=
  match o._value with
  | some _ => some { o with _value := none }
  | none => none

/-- The member `emplace(args...)` (`optional.hpp` 133-140), `v` being the
value `T(args...)`. -/
def emplace {α : Type} (o : optional α) (v : α) : Option (optional α) :=
  let o1 : Option (optional α) :=
    if o._has_value = true then
      match o.destroy_value with
      | some o2 => some { o2 with _has_value := false }
      | none => none
    else some o
  match o1 with
  | some o2 => some { o2 with _has_value := true, _value := some v }
  | none => none

/-- The member `reset()` (`optional.hpp` 153-158). -/
def reset {α : Type} (o : optional α) : Option (optional α) :=
  if o._has_value = true then
    match o.destroy_value with
    | some o2 => some { o2 with _has_value := false }
    | none => none
  else some o

/-- The member `swap(other)` (`optional.hpp` 408-418) on two distinct
objects: the new values of `*this` and of `other`, `none` if undefined.
A moved-from value `v` is left as `moved v`; `std::swap` exchanges the two
values. -/
def swap {α : Type} (moved : α → α) (this other : optional α) :
    Option (optional α × optional α) :=
  if this._has_value = true ∧ other._has_value = true then
    match this._value, other._value with
    | some v, some w => some ({ this with _value := some w }, { other with _value := some v })
    | _, _ => none
  else if this._has_value = false ∧ other._has_value = false then some (this, other)
  else if this._has_value = true then
    match this._value with
    | some v =>
      match other.emplace v with
      | some other1 => some ({ this with _value := some (moved v) }, other1)
      | none => none
    | none => none
  else
    match other._value with
    | some w =>
      match this.emplace w with
      | some this1 =>
        match ({ other with _value := some (moved w) } : optional α).reset with
        | some other1 => some (this1, other1)
        | none => none
      | none => none
    | none => none

end optional

/-! ## Normalized cursors and the arithmetic of `operator+=` -/

/-- A normalized cursor into the map `m`: its cached block bounds are those of
its slot and its intra-block offset lies in `[0, B)`. -/
def deque_iterator.normal (B : Nat) (m : Int → Base) (c : deque_iterator) : Prop :=
  c._first = ⟨m c._node, 0⟩ ∧ c._last = ⟨m c._node, (B : Int)⟩ ∧
  c._current.base = m c._node ∧ 0 ≤ c._current.off ∧ c._current.off < (B : Int)

/-- The cursor the specification describes for a position `z` elements after
the start of the block of slot `k`: the slot is `k + floor(z / B)`, the
intra-block offset is `z mod B`. -/
def deque_iterator.at_offset (B : Nat) (m : Int → Base) (k : Int) (z : Int) :
    deque_iterator :=
  { _node := k + z / (B : Int),
    _first := ⟨m (k + z / (B : Int)), 0⟩,
    _last := ⟨m (k + z / (B : Int)), (B : Int)⟩,
    _current := ⟨m (k + z / (B : Int)), z % (B : Int)⟩ }

/-- Conversion of a 64-bit unsigned value to `difference_type` (two's
complement). -/
def to_diff (u : Nat) : Int :=
  if u % 2 ^ 64 < 2 ^ 63 then ((u % 2 ^ 64 : Nat) : Int)
  else ((u % 2 ^ 64 : Nat) : Int) - 2 ^ 64

/-- Unsigned 64-bit negation `-a`. -/
def neg_u64 (a : Nat) : Nat := (2 ^ 64 - a % 2 ^ 64) % 2 ^ 64

/-- Unsigned 64-bit subtraction `a - b`. -/
def sub_u64 (a b : Nat) : Nat := (a % 2 ^ 64 + neg_u64 b) % 2 ^ 64

/-- The value of `__node_offset` in `operator+=` (`deque.hpp` 106-108) as the
machine computes it: `_block_size` is a `std::size_t`, so the division, the
negation and the subtraction of both branches are done on 64-bit unsigned
values, and the result is converted to `difference_type`. -/
def deque_iterator.node_offset_u64 (B : Nat) (offset : Int) : Int :=
  to_diff
    (if offset > 0 then to_size offset / B
     else sub_u64 (neg_u64 (to_size (-offset - 1) / B)) 1)

/-- The value `__offset - __node_offset * _block_size` added to `_first` in
`operator+=` (`deque.hpp` 110), computed on 64-bit unsigned values. -/
def deque_iterator.remainder_u64 (B : Nat) (offset node_offset : Int) : Nat :=
  sub_u64 (to_size offset) (to_size node_offset * B % 2 ^ 64)

/-! ## The singly-linked list `forward_list` (`containers/forward_list.hpp`)

The value nodes live in a store addressed by handles; a `Node *` is null
(`none`) or a handle.  The node `_dummy` is a member of the list object, so a
pointer that may be `&_dummy` is a `NodeRef`.  The loops of the source take a
fuel argument and report `FLFault.fuel` when it runs out. -/

/-- A `ForwardListValueNode<T>` (`forward_list.hpp` 13-26): the link `_next`
of its base and the member `_value`. -/
structure ForwardListValueNode (α : Type) where
  _next : Option Nat
  _value : α

/-- The store of value nodes. -/
def FLStore (α : Type) : Type := Nat → Option (ForwardListValueNode α)

/-- A `ForwardListBaseNode<T>` (`forward_list.hpp` 13-19) that is not a value
node: the member `_dummy` of a list. -/
structure ForwardListBaseNode where
  _next : Option Nat
deriving DecidableEq, Repr

/-- The class `forward_list` (`forward_list.hpp` 38-56): its member `_dummy`. -/
structure forward_list where
  _dummy : ForwardListBaseNode
deriving DecidableEq, Repr

/-- A non-null `Node *` inside a member function: `&_dummy` or the address of
a value node. -/
inductive NodeRef where
  | dummy : NodeRef
  | node (a : Nat) : NodeRef
deriving DecidableEq, Repr

/-- Ways a call on a list fails to return a result: undefined behaviour (a
null or dangling pointer is dereferenced), or the fuel of the model ran out. -/
inductive FLFault where
  | ub : FLFault
  | fuel : FLFault
deriving DecidableEq, Repr

/-- The assignment `a->_next = q` on the value node at `a`. -/
def FLStore.set_next {α : Type} (st : FLStore α) (a : Nat) (q : Option Nat) :
    Option (FLStore α) :=
  match st a with
  | some nd => some (fun i => if i = a then some { nd with _next := q } else st i)
  | none => none

/-- The assignment `p->_next = q` through a `Node *` that may be `&_dummy`. -/
def NodeRef.set_next {α : Type} (st : FLStore α) (l : forward_list) (p : NodeRef)
    (q : Option Nat) : Except FLFault (FLStore α × forward_list) :=
  match p with
  | NodeRef.dummy => Except.ok (st, { _dummy := { _next := q } })
  | NodeRef.node a =>
    match st.set_next a q with
    | some st1 => Except.ok (st1, l)
    | none => Except.error FLFault.ub

namespace forward_list

/-- The constructor `forward_list()` (`forward_list.hpp` 72-74). -/
def init : forward_list := { _dummy := { _next := none } }

/-- The member `empty()` (`forward_list.hpp` 204-206). -/
def empty (l : forward_list) : Bool := l._dummy._next.isNone

/-- The loop of `reverse()` (`forward_list.hpp` 762-767), started with `prev`
and `curr`; the result is the store and the final `prev`. -/
def reverse_loop {α : Type} :
    Nat → FLStore α → Option Nat → Option Nat → Except FLFault (FLStore α × Option Nat)
  | _, st, prev, none => Except.ok (st, prev)
  | 0, _, _, some _ => Except.error FLFault.fuel
  | f + 1, st, prev, some c =>
    match st c with
    | none => Except.error FLFault.ub
    | some nd =>
      match st.set_next c prev with
      | none => Except.error FLFault.ub
      | some st1 => reverse_loop f st1 (some c) nd._next

/-- The member `reverse()` (`forward_list.hpp` 754-769). -/
def reverse {α : Type} (fuel : Nat) (st : FLStore α) (l : forward_list) :
    Except FLFault (FLStore α × forward_list) :=
  match l._dummy._next with
  | none => Except.ok (st, l)
  | some h =>
    match st h with
    | none => Except.error FLFault.ub
    | some nd =>
      if nd._next = none then Except.ok (st, l)
      else
        match reverse_loop fuel st none (some h) with
        | Except.ok r => Except.ok (r.1, { _dummy := { _next := r.2 } })
        | Except.error e => Except.error e

/-- The loop of `merge` (`forward_list.hpp` 659-671) from the state
`this_curr_prev`, `this_curr`, `other_curr`; the result is the store, the list
`*this`, and the final `this_curr_prev` and `other_curr`. -/
def merge_loop {α : Type} (comp : α → α → Bool) :
    Nat → FLStore α → forward_list → NodeRef → Option Nat → Option Nat →
      Except FLFault (FLStore α × forward_list × NodeRef × Option Nat)
  | _, st, l, prev, none, oc => Except.ok (st, l, prev, oc)
  | _, st, l, prev, some _, none => Except.ok (st, l, prev, none)
  | 0, _, _, _, some _, some _ => Except.error FLFault.fuel
  | f + 1, st, l, prev, some t, some o =>
    match st o, st t with
    | some ond, some tnd =>
      if comp ond._value tnd._value = true then
        match st.set_next o (some t) with
        | none => Except.error FLFault.ub
        | some st1 =>
          match prev.set_next st1 l (some o) with
          | Except.error e => Except.error e
          | Except.ok r => merge_loop comp f r.1 r.2 (NodeRef.node o) (some t) ond._next
      else merge_loop comp f st l (NodeRef.node t) tnd._next (some o)
    | _, _ => Except.error FLFault.ub

/-- The member `merge(other, comp)` (`forward_list.hpp` 647-676); `same` is
the outcome of the test `this == &other`.  The result is the store, `*this`
and `other`. -/
def merge {α : Type} (comp : α → α → Bool) (fuel : Nat) (st : FLStore α)
    (this other : forward_list) (same : Bool) :
    Except FLFault (FLStore α × forward_list × forward_list) :=
  if same = true then Except.ok (st, this, other)
  else
    match merge_loop comp fuel st this NodeRef.dummy this._dummy._next other._dummy._next with
    | Except.error e => Except.error e
    | Except.ok (st1, l1, prev, oc) =>
      match oc with
      | some o =>
        match prev.set_next st1 l1 (some o) with
        | Except.error e => Except.error e
        | Except.ok r => Except.ok (r.1, r.2, { _dummy := { _next := none } })
      | none => Except.ok (st1, l1, { _dummy := { _next := none } })

/-- The first loop of `sort` (`forward_list.hpp` 689-692): the final `slow`. -/
def split_loop {α : Type} :
    Nat → FLStore α → Option Nat → Option Nat → Except FLFault (Option Nat)
  | _, _, slow, none => Except.ok slow
  | 0, _, _, some _ => Except.error FLFault.fuel
  | f + 1, st, slow, some fa =>
    match st fa with
    | none => Except.error FLFault.ub
    | some fn =>
      match fn._next with
      | none => Except.ok slow
      | some fb =>
        match slow with
        | none => Except.error FLFault.ub
        | some s =>
          match st s, st fb with
          | some sn, some fbn => split_loop f st sn._next fbn._next
          | _, _ => Except.error FLFault.ub

/-- The second loop of `sort` (`forward_list.hpp` 709-718) from the state
`cur_tail`, `l_curr`, `r_curr`; the result is the store, the list `*this`, and
the final `cur_tail`, `l_curr` and `r_curr`. -/
def sort_merge_loop {α : Type} (comp : α → α → Bool) :
    Nat → FLStore α → forward_list → NodeRef → Option Nat → Option Nat →
      Except FLFault (FLStore α × forward_list × NodeRef × Option Nat × Option Nat)
  | _, st, l, tail, none, rc => Except.ok (st, l, tail, none, rc)
  | _, st, l, tail, some lc, none => Except.ok (st, l, tail, some lc, none)
  | 0, _, _, _, some _, some _ => Except.error FLFault.fuel
  | f + 1, st, l, tail, some lc, some rc =>
    match st rc, st lc with
    | some rn, some ln =>
      if comp rn._value ln._value = true then
        match tail.set_next st l (some rc) with
        | Except.error e => Except.error e
        | Except.ok r =>
          match r.1 rc with
          | some rn1 => sort_merge_loop comp f r.1 r.2 (NodeRef.node rc) (some lc) rn1._next
          | none => Except.error FLFault.ub
      else
        match tail.set_next st l (some lc) with
        | Except.error e => Except.error e
        | Except.ok r =>
          match r.1 lc with
          | some ln1 => sort_merge_loop comp f r.1 r.2 (NodeRef.node lc) ln1._next (some rc)
          | none => Except.error FLFault.ub
    | _, _ => Except.error FLFault.ub

/-- The member `sort(comp)` (`forward_list.hpp` 678-729).  The fuel bounds the
depth of the recursion and the length of each loop. -/
def sort {α : Type} (comp : α → α → Bool) :
    Nat → FLStore α → forward_list → Except FLFault (FLStore α × forward_list)
  | 0, _, _ => Except.error FLFault.fuel
  | f + 1, st, l =>
    match l._dummy._next with
    | none => Except.ok (st, l)
    | some head =>
      match st head with
      | none => Except.error FLFault.ub
      | some hn =>
        if hn._next = none then Except.ok (st, l)
        else
          match split_loop f st (some head) hn._next with
          | Except.error e => Except.error e
          | Except.ok none => Except.error FLFault.ub
          | Except.ok (some slow) =>
            match st slow with
            | none => Except.error FLFault.ub
            | some sn =>
              -- left_half, right_half; slow->_next = nullptr
              match st.set_next slow none with
              | none => Except.error FLFault.ub
              | some st1 =>
                match sort comp f st1 { _dummy := { _next := some head } } with
                | Except.error e => Except.error e
                | Except.ok (st2, left_half) =>
                  match sort comp f st2 { _dummy := { _next := sn._next } } with
                  | Except.error e => Except.error e
                  | Except.ok (st3, right_half) =>
                    match sort_merge_loop comp f st3 { _dummy := { _next := none } }
                        NodeRef.dummy left_half._dummy._next right_half._dummy._next with
                    | Except.error e => Except.error e
                    | Except.ok (st4, l4, tail, lc, rc) =>
                      match lc, rc with
                      | some a, _ =>
                        match tail.set_next st4 l4 (some a) with
                        | Except.error e => Except.error e
                        | Except.ok r => Except.ok r
                      | none, some b =>
                        match tail.set_next st4 l4 (some b) with
                        | Except.error e => Except.error e
                        | Except.ok r => Except.ok r
                      | none, none => Except.ok (st4, l4)

end forward_list

/-- The nodes `ns`, given by address and value, are linked in this order from
the pointer `p` up to the pointer `q`. -/
def FLStore.seg {α : Type} (st : FLStore α) : Option Nat → List (Nat × α) → Option Nat → Prop
  | p, [], q => p = q
  | p, x :: ns, q =>
    p = some x.1 ∧ ∃ nx, st x.1 = some { _next := nx, _value := x.2 } ∧ FLStore.seg st nx ns q

/-- The list whose first node is `p` consists of the nodes `ns`, which are
distinct: it holds the values `ns.map (·.2)`. -/
def FLStore.is_list {α : Type} (st : FLStore α) (p : Option Nat) (ns : List (Nat × α)) :
    Prop :=
  st.seg p ns none ∧ (ns.map (fun x => x.1)).Nodup

/-- The requirement `std::strict_weak_order` on a comparison: irreflexive,
transitive, and with a transitive incomparability. -/
structure strict_weak_order {α : Type} (comp : α → α → Bool) : Prop where
  irrefl : ∀ a, comp a a = false
  trans : ∀ a b c, comp a b = true → comp b c = true → comp a c = true
  incomp_trans : ∀ a b c, comp a b = false → comp b a = false → comp b c = false →
    comp c b = false → comp a c = false ∧ comp c a = false

/-- The order in which the merge steps of `merge` and `sort` take nodes: the
node of the first list unless `comp` puts the node of the second list first. -/
def node_le {α : Type} (comp : α → α → Bool) (x y : Nat × α) : Bool := !comp y.2 x.2

/-- Reading `p->_next` through a `Node *` that may be `&_dummy`; `none` if
`p` is not the address of a node. -/
def NodeRef.next {α : Type} (st : FLStore α) (l : forward_list) : NodeRef → Option (Option Nat)
  | NodeRef.dummy => some l._dummy._next
  | NodeRef.node a =>
    match st a with
    | some nd => some nd._next
    | none => none

/-- The elements of a list in order, read as by `for (it = begin(); it != end();
++it) *it` with at most `fuel` steps; `none` if a pointer is dangling or the
fuel runs out. -/
def FLStore.values {α : Type} (st : FLStore α) : Nat → Option Nat → Option (List α)
  | _, none => some []
  | 0, some _ => none
  | f + 1, some a =>
    match st a with
    | some nd =>
      match FLStore.values st f nd._next with
      | some xs => some (nd._value :: xs)
      | none => none
    | none => none

/-- The store of the examples: the nodes 10, 11, 12 holding 3, 1, 2 linked in
this order, and the nodes 20, 21 holding 1, 4 linked in this order. -/
def test_store : FLStore Nat := fun a =>
  if a = 10 then some { _next := some 11, _value := 3 }
  else if a = 11 then some { _next := some 12, _value := 1 }
  else if a = 12 then some { _next := none, _value := 2 }
  else if a = 20 then some { _next := some 21, _value := 1 }
  else if a = 21 then some { _next := none, _value := 4 }
  else none

/-- The values `vs` are sorted with respect to `comp`: no adjacent pair is out
of order. -/
def sorted_by {α : Type} (comp : α → α → Bool) (vs : List α) : Prop :=
  List.Chain' (fun x y => comp y x = false) vs

/-- The default comparison `std::less<T>` at `T = int`-like values. -/
def less (x y : Nat) : Bool := decide (x < y)

/-- The pointer to the node of index `i` of the nodes `ns`: null from the
length of `ns` on. -/
def node_ptr {α : Type} (ns : List (Nat × α)) (i : Nat) : Option Nat :=
  (ns[i]?).map (fun x => x.1)

/-! ## Theorems -/

/-- C7: on a fresh container, for the block capacity of every element size,
`push_back(1,2,3); push_front(0)` shows `[0,1,2,3]`, then `erase` at index 1
shows `[0,2,3]`, then `insert` of 9 at index 1 shows `[0,9,2,3]`, then
`pop_back()` shows `[0,9,2]`. -/
theorem scenario_contents (sz : Nat) (h : 1 ≤ sz) :
    contents_after (_deque_get_block_size sz) scenario_log 4 = some [0, 1, 2, 3] ∧
    contents_after (_deque_get_block_size sz) scenario_log 5 = some [0, 2, 3] ∧
    contents_after (_deque_get_block_size sz) scenario_log 6 = some [0, 9, 2, 3] ∧
    contents_after (_deque_get_block_size sz) scenario_log 7 = some [0, 9, 2] := by
  by_cases h32 : sz < 32
  · interval_cases sz <;> decide
  · have hB : _deque_get_block_size sz = 16 := by simp [_deque_get_block_size, h32]
    rw [hB]; decide

/-- Witness for C7 at 4-byte elements (block capacity 128). -/
theorem scenario_contents_witness :
    1 ≤ 4 ∧
    contents_after (_deque_get_block_size 4) scenario_log 4 = some [0, 1, 2, 3] ∧
    contents_after (_deque_get_block_size 4) scenario_log 5 = some [0, 2, 3] ∧
    contents_after (_deque_get_block_size 4) scenario_log 6 = some [0, 9, 2, 3] ∧
    contents_after (_deque_get_block_size 4) scenario_log 7 = some [0, 9, 2] :=
  ⟨by decide, scenario_contents 4 (by decide)⟩

/-- C1 (the code departs from the claim): with block capacity 16, after 16
`push_back`, 16 `pop_front` and one `push_back(7)` the reference queue holds
`[7]`, every call returned, but `size()` subtracts pointers into different
allocations and `operator[](0)` reads through the stale start cursor. -/
theorem round_trip_diverges :
    ref_run (fill_drain_log ++ [Call.push_back 7]) [] = some [7] ∧
    (run 16 (fill_drain_log ++ [Call.push_back 7]) State.init).toOption.map (size 16)
      = some none ∧
    (run 16 (fill_drain_log ++ [Call.push_back 7]) State.init).toOption.map
      (fun s => (index 16 s 0).toOption) = some none := by
  decide

/-- C2 (the code departs from the claim): with block capacity 16, after 16
`push_back` and 16 `pop_front` the container reports `size() == 0` while
`empty()` returns false. -/
theorem empty_disagrees_with_size :
    ref_run fill_drain_log [] = some [] ∧
    (run 16 fill_drain_log State.init).toOption.map (fun s => (size 16 s, empty s))
      = some (some 0, false) := by
  decide

/-- C3 (the code departs from the claim): with block capacity 16, after 16
`push_back` the size is 16, yet the cursor obtained from `begin()` by `k`
increments does not compare equal to `end()` for any `k ≤ 64`, in particular
not for `k = size()`. -/
theorem iteration_misses_end :
    (run 16 (List.replicate 16 (Call.push_back 0)) State.init).toOption.map (size 16)
      = some (some 16) ∧
    (run 16 (List.replicate 16 (Call.push_back 0)) State.init).toOption.map
      (fun s => (List.range 65).all
        (fun k => !(deque_iterator.eq (step_from_begin 16 s k) s.d._finish))) = some true := by
  decide

/-- C5 (the code departs from the claim): with block capacity 16, after 48
`push_front` and 17 `pop_back` the container shows exactly the 31 elements of
the reference queue, and `insert(begin() + 1, 99)` is undefined: the start
cursor sits in slot 0 of the map and `_reallocate_map` leaves it there, so
`_push_front_aux` writes the slot before the map. -/
theorem insert_writes_before_map :
    contents_after 16 front_drift_log 65 = ref_run front_drift_log [] ∧
    (ref_run (front_drift_log ++ [Call.insert 1 99]) []).isSome = true ∧
    (contents_after 16 front_drift_log 65).isSome = true ∧
    is_ub (run 16 (front_drift_log ++ [Call.insert 1 99]) State.init) = true := by
  decide

/-- C6 (the code departs from the claim): with block capacity 16, (a) after 48
`push_front` and 17 `pop_back` the container shows exactly the 31 reference
elements, the reference queue is unchanged by `insert(begin() + 1, 99)`
followed by `erase(begin() + 1)`, but on the container this round trip is
undefined; (b) after 16 `push_back`, 16 `pop_front` and `push_back(5)` (all
of which return) the reference queue holds `[5]`, and `erase(begin() + 0)` is
undefined. -/
theorem erase_round_trip_undefined :
    contents_after 16 front_drift_log 65 = ref_run front_drift_log [] ∧
    (contents_after 16 front_drift_log 65).isSome = true ∧
    ref_run (front_drift_log ++ [Call.insert 1 99, Call.erase 1]) []
      = ref_run front_drift_log [] ∧
    is_ub (run 16 (front_drift_log ++ [Call.insert 1 99, Call.erase 1]) State.init) = true ∧
    ref_run (fill_drain_log ++ [Call.push_back 5, Call.erase 0]) [] = some [] ∧
    (run 16 (fill_drain_log ++ [Call.push_back 5]) State.init).toOption.isSome = true ∧
    is_ub (run 16 (fill_drain_log ++ [Call.push_back 5, Call.erase 0]) State.init) = true := by
  decide

/-- C9 (the code departs from the claim): with block capacity 16, in the state
after 16 `push_back` and 16 `pop_front` the map is non-null, `size()` is 0 and
the visible contents are `[]`; an `emplace_back` whose constructor throws
leaves a state whose `size()` is no longer defined. -/
theorem failed_push_back_changes_size :
    (run 16 fill_drain_log State.init).toOption.map
      (fun s => (s.d._map.isSome, size 16 s, contents 16 s)) = some (true, some 0, some []) ∧
    ((run 16 fill_drain_log State.init).toOption.bind
      (fun s => thrown_state (emplace_back 16 s none))).map (size 16) = some none := by
  decide

/-- C10 (the code departs from the claim): with block capacity 16, after one
`push_front(1)` the size is 1; an `emplace_front` whose constructor throws
leaves the start cursor one element further to the front and `size()` at 2. -/
theorem failed_push_front_moves_start :
    (run 16 [Call.push_front 1] State.init).toOption.map
      (fun s => (s.d._map.isSome, s.d._start._current.off, size 16 s))
      = some (true, 15, some 1) ∧
    ((run 16 [Call.push_front 1] State.init).toOption.bind
      (fun s => thrown_state (emplace_front 16 s none))).map
      (fun s => (s.d._start._current.off, size 16 s, (index 16 s 0).toOption))
      = some (14, some 2, none) := by
  decide

/-- `operator[]` never signals `std::out_of_range`: it is unchecked. -/
theorem index_ne_out_of_range {α : Type} (B : Nat) (s : State α) (i : Nat) :
    index B s i ≠ Except.error Fault.out_of_range := by
  unfold index
  cases deque_iterator.advance B s.d.slots s.d._start (i : Int) with
  | none => simp
  | some it =>
    simp only
    cases s.h.read B it._current <;> simp [ofOpt]

/-- C8: in every state in which `size()` is defined, `at(i)` signals
`std::out_of_range` exactly when `i ≥ size()`, and for `i < size()` it returns
what `operator[](i)` returns.  `at` only reads the container: the model
function has no state result because the source function performs no write. -/
theorem at_bounds_checked {α : Type} (B : Nat) (s : State α) (i n : Nat)
    (h : size B s = some n) :
    (deque_at B s i = Except.error Fault.out_of_range ↔ n ≤ i) ∧
    (i < n → deque_at B s i = index B s i) := by
  unfold deque_at
  rw [h]
  by_cases hi : n ≤ i
  · simp [hi]
  · have hlt : ¬ i ≥ n := hi
    have hne := index_ne_out_of_range B s i
    simp [hlt, hi, hne]

/-- Witness for C8: after `push_back(1,2,3); push_front(0)` with block capacity
16 the container holds 4 elements; `at(2)` returns the element `operator[](2)`
reads in the block after the one of the start cursor, and `at(4)` signals the
out-of-range error. -/
theorem at_bounds_checked_witness :
    size 16 (state_after 16 (scenario_log.take 4)) = some 4 ∧
    ((deque_at 16 (state_after 16 (scenario_log.take 4)) 2
        = Except.error Fault.out_of_range ↔ 4 ≤ 2) ∧
     (2 < 4 → deque_at 16 (state_after 16 (scenario_log.take 4)) 2
        = index 16 (state_after 16 (scenario_log.take 4)) 2)) ∧
    deque_at 16 (state_after 16 (scenario_log.take 4)) 2 = Except.ok 2 ∧
    deque_at 16 (state_after 16 (scenario_log.take 4)) 4 = Except.error Fault.out_of_range :=
  ⟨by decide, at_bounds_checked 16 (state_after 16 (scenario_log.take 4)) 2 4 (by decide),
    by rfl, by rfl⟩

/-! ### Cursor arithmetic and preservation of the invariant -/

theorem deque_iterator.inc_mk (B : Nat) (m : Int → Base) (b : Base) (o n : Int) :
    deque_iterator.inc B m ⟨⟨b, o⟩, ⟨b, 0⟩, ⟨b, (B : Int)⟩, n⟩ =
      if o + 1 = (B : Int) then ⟨⟨m (n + 1), 0⟩, ⟨m (n + 1), 0⟩, ⟨m (n + 1), (B : Int)⟩, n + 1⟩
      else ⟨⟨b, o + 1⟩, ⟨b, 0⟩, ⟨b, (B : Int)⟩, n⟩ := by
  by_cases h : o + 1 = (B : Int)
  · simp [deque_iterator.inc, Ptr.add, deque_iterator._set_node, h]
  · simp [deque_iterator.inc, Ptr.add, deque_iterator._set_node, h]

theorem deque_iterator.inc_shifted (B : Nat) (hB : 1 < B) (m : Int → Base) (c : deque_iterator)
    (hc : c.shaped B) (t : Nat) :
    deque_iterator.inc B m (c.shifted B m t) = c.shifted B m (t + 1) := by
  obtain ⟨cur, ⟨fb, fo⟩, last, node⟩ := c
  obtain ⟨h0, hl⟩ := hc
  simp only at h0 hl
  subst h0; subst hl
  unfold deque_iterator.shifted
  have hpos : 0 < B := by omega
  by_cases ht : t < B
  · by_cases ht1 : t + 1 < B
    · rw [if_pos ht, if_pos ht1]
      show deque_iterator.inc B m ⟨⟨fb, (t : Int)⟩, ⟨fb, 0⟩, ⟨fb, (B : Int)⟩, node⟩ = _
      rw [deque_iterator.inc_mk, if_neg (by omega)]
      simp
    · have hB1 : t + 1 = B := by omega
      have hdiv : (t + 1) / B = 1 := by rw [hB1]; exact Nat.div_self hpos
      have hmod : (t + 1) % B = 0 := by rw [hB1]; exact Nat.mod_self B
      rw [if_pos ht, if_neg ht1, hdiv, hmod]
      show deque_iterator.inc B m ⟨⟨fb, (t : Int)⟩, ⟨fb, 0⟩, ⟨fb, (B : Int)⟩, node⟩ = _
      rw [deque_iterator.inc_mk, if_pos (by omega)]
      simp
  · have ht1 : ¬ t + 1 < B := by omega
    have hdm := Nat.div_add_mod t B
    have hml := Nat.mod_lt t hpos
    rw [if_neg ht, if_neg ht1, deque_iterator.inc_mk]
    by_cases hr : t % B + 1 < B
    · have hdiv : (t + 1) / B = t / B := by
        apply Nat.div_eq_of_lt_le
        · calc t / B * B ≤ t := Nat.div_mul_le_self t B
            _ ≤ t + 1 := Nat.le_succ t
        · have : (t / B + 1) * B = B * (t / B) + B := by ring
          rw [this]; omega
      have hmod : (t + 1) % B = t % B + 1 := by
        have h2 : t + 1 = (t % B + 1) + B * (t / B) := by omega
        rw [h2, Nat.add_mul_mod_self_left, Nat.mod_eq_of_lt hr]
      rw [if_neg (by omega), hdiv, hmod]
      simp
    · have hr' : t % B + 1 = B := by omega
      have h2 : t + 1 = B * (t / B + 1) := by rw [Nat.mul_add]; omega
      have hdiv : (t + 1) / B = t / B + 1 := by
        rw [h2]; exact Nat.mul_div_cancel_left _ hpos
      have hmod : (t + 1) % B = 0 := by
        rw [h2]; exact Nat.mul_mod_right _ _
      rw [if_pos (by omega), hdiv, hmod]
      have e : node + ((t / B : Nat) : Int) + 1 = node + ((t / B + 1 : Nat) : Int) := by
        push_cast; ring
      rw [e]; simp

theorem deque_iterator.iterate_inc_shifted (B : Nat) (hB : 1 < B) (m : Int → Base)
    (c : deque_iterator) (hc : c.shaped B) (t i : Nat) :
    (deque_iterator.inc B m)^[i] (c.shifted B m t) = c.shifted B m (t + i) := by
  induction i with
  | zero => rfl
  | succ k ih =>
    rw [Function.iterate_succ_apply', ih, deque_iterator.inc_shifted B hB m c hc]
    rfl

theorem deque_iterator.shifted_self (B : Nat) (m : Int → Base) (c : deque_iterator)
    (t : Nat) (ht : t < B) (hcur : c._current = ⟨c._first.base, (t : Int)⟩) :
    c.shifted B m t = c := by
  unfold deque_iterator.shifted
  rw [if_pos ht, ← hcur]

theorem deque_iterator.advance_shifted (B : Nat) (hB : 1 < B) (m : Int → Base)
    (c : deque_iterator) (hc : c.shaped B) (t : Nat)
    (hcur : c._current = ⟨c._first.base, (t : Int)⟩) (i : Nat) :
    deque_iterator.advance B m c (i : Int) = some (c.shifted B m (t + i)) := by
  obtain ⟨cur, ⟨fb, fo⟩, last, node⟩ := c
  obtain ⟨h0, hl⟩ := hc
  simp only at h0 hl hcur
  subst h0; subst hl; subst hcur
  have hpos : 0 < B := by omega
  unfold deque_iterator.advance deque_iterator.shifted
  simp only [Ptr.diff, if_true, sub_zero]
  by_cases h : t + i < B
  · have h1 : 0 ≤ (i : Int) + (t : Int) ∧ (i : Int) + (t : Int) < (B : Int) := by omega
    rw [if_pos h1, if_pos h]
    simp [Ptr.add]
  · have h1 : ¬ (0 ≤ (i : Int) + (t : Int) ∧ (i : Int) + (t : Int) < (B : Int)) := by omega
    rw [if_neg h1, if_neg h]
    have h2 : (i : Int) + (t : Int) > 0 := by omega
    have e : (i : Int) + (t : Int) = ((t + i : Nat) : Int) := by push_cast; ring
    simp only [deque_iterator._set_node, Ptr.add, e]
    have h2' : ((t + i : Nat) : Int) > 0 := by omega
    rw [if_pos h2']
    have hd : ((t + i : Nat) : Int) / (B : Int) = (((t + i) / B : Nat) : Int) := by
      exact (Int.natCast_div _ _).symm
    have hm : ((t + i : Nat) : Int) - (((t + i) / B : Nat) : Int) * (B : Int)
        = (((t + i) % B : Nat) : Int) := by
      have := Nat.div_add_mod (t + i) B
      have h3 : (((t + i) / B * B + (t + i) % B : Nat) : Int) = ((t + i : Nat) : Int) := by
        congr 1; rw [Nat.mul_comm]; exact this
      push_cast at h3 ⊢
      linarith
    rw [zero_add, hd, hm]

theorem move_slots_some (M : Nat) (src dst : Int → Base) (first last df : Int)
    (m : Int → Base) (h : move_slots M src dst first last df = some m) :
    (last - first ≤ 0 ∧ m = dst) ∨
    (0 < last - first ∧ 0 ≤ df ∧ df + (last - first) ≤ (M : Int) ∧
      m = fun j => if df ≤ j ∧ j < df + (last - first) then src (first + (j - df)) else dst j) := by
  unfold move_slots at h
  simp only at h
  by_cases hc : last - first ≤ 0
  · rw [if_pos hc] at h
    left; exact ⟨hc, (Option.some.inj h).symm⟩
  · rw [if_neg hc] at h
    by_cases hr : 0 ≤ df ∧ df + (last - first) ≤ (M : Int)
    · rw [if_pos hr] at h
      right; exact ⟨by omega, hr.1, hr.2, (Option.some.inj h).symm⟩
    · rw [if_neg hr] at h; exact absurd h (by simp)

theorem to_size_of_bounded (z : Int) (h0 : 0 ≤ z) (h1 : z ≤ (map_alloc_limit : Int)) :
    ((to_size z : Nat) : Int) = z := by
  unfold to_size
  have hl : (map_alloc_limit : Int) < 2 ^ 64 := by decide
  rw [Int.emod_eq_of_lt h0 (by omega)]
  exact Int.toNat_of_nonneg h0

theorem WF0.relocate {B next : Nat} {live : Nat → Bool} {d : deque}
    (hw : WF0 B next live d) (M' : Nat) (ns : Int) (m' : Int → Base)
    (hM : M' ≤ map_alloc_limit) (hns : 0 ≤ ns)
    (hfit : ns + (d._finish._node - d._start._node + 1) ≤ (M' : Int))
    (hin : ∀ j, ns ≤ j → j < ns + (d._finish._node - d._start._node + 1) →
      m' j = d.slots (d._start._node + (j - ns)))
    (hfr : ∀ j id, m' j = Base.blk id → id < next) :
    WF0 B next live
      { _map := some m', _map_size := M',
        _start := deque_iterator._set_node B m' d._start ns,
        _finish := deque_iterator._set_node B m' d._finish
          (ns + (d._finish._node - d._start._node + 1) - 1) } := by
  have hgap := hw.gap
  refine
    { map_some := rfl, map_bound := hM, node_lo := hns, node_hi := ?_, gap := ?_,
      shaped_st := ⟨rfl, rfl⟩, shaped_fi := ⟨rfl, rfl⟩, fresh_map := ?_,
      fresh_st := hw.fresh_st, fresh_fi := hw.fresh_fi, own := ?_, st_ok := ?_, fi_ok := ?_,
      st_rng := hw.st_rng }
  · simp only [deque_iterator._set_node]; omega
  · simp only [deque_iterator._set_node]; omega
  · intro j id h; exact hfr j id h
  · intro id hl
    obtain ⟨j, h1, h2, h3⟩ := hw.own id hl
    refine ⟨ns + (j - d._start._node), ?_, ?_, ?_⟩
    · simp only [deque_iterator._set_node]; omega
    · simp only [deque_iterator._set_node]; omega
    · simp only [deque.slots]
      rw [hin _ (by omega) (by omega), ← h3]
      congr 1; omega
  · intro id hb hl
    obtain ⟨h1, h2, h3⟩ := hw.st_ok id hb hl
    have e : m' ns = Base.blk id := by
      rw [hin ns (le_refl _) (by omega), ← h2]; congr 1; omega
    refine ⟨?_, ?_, ?_⟩
    · simpa only [deque_iterator._set_node] using e
    · simpa only [deque_iterator._set_node, deque.slots] using e
    · simp only [deque_iterator._set_node]; omega
  · intro id hb hl
    obtain ⟨h1, h2, h3⟩ := hw.fi_ok id hb hl
    have e : m' (ns + (d._finish._node - d._start._node + 1) - 1) = Base.blk id := by
      rw [hin _ (by omega) (by omega), ← h2]; congr 1; omega
    refine ⟨?_, ?_, ?_⟩
    · simpa only [deque_iterator._set_node] using e
    · simpa only [deque_iterator._set_node, deque.slots] using e
    · simp only [deque_iterator._set_node]; omega

theorem WF0.reallocate {B next : Nat} {live : Nat → Bool} {d : deque}
    (hw : WF0 B next live d) (k : Nat) (front : Bool) (d' : deque)
    (h : _reallocate_map B d k front = MapResult.done d') :
    WF0 B next live d' ∧ d'._start._current = d._start._current ∧
      d'._finish._current = d._finish._current := by
  have hlo := hw.node_lo
  have hhi := hw.node_hi
  have hgap := hw.gap
  have hMb := hw.map_bound
  have hc0 : 0 ≤ d._finish._node - d._start._node + 1 := by omega
  have hcM : d._finish._node - d._start._node + 1 ≤ (map_alloc_limit : Int) := by omega
  have hold := to_size_of_bounded _ hc0 hcM
  unfold _reallocate_map at h
  simp only at h
  split at h
  · split at h
    · -- recentre in place
      split at h
      · exact absurd h (by simp)
      · rename_i m hm
        have hd := (MapResult.done.inj h).symm
        subst hd
        refine ⟨?_, rfl, rfl⟩
        rw [hold]
        have hlast : d._finish._node + 1 - d._start._node
            = d._finish._node - d._start._node + 1 := by ring
        rcases move_slots_some _ _ _ _ _ _ _ hm with ⟨hc, hmm⟩ | ⟨hc, h0, hf, hmm⟩
        · refine hw.relocate d._map_size _ m hMb (by omega) (by omega) ?_ ?_
          · intro j h1 h2; omega
          · intro j id hj; rw [hmm] at hj; exact hw.fresh_map j id hj
        · refine hw.relocate d._map_size _ m hMb (by omega) (by omega) ?_ ?_
          · intro j h1 h2
            rw [hmm]; simp only
            rw [if_pos ⟨h1, by omega⟩]
          · intro j id hj
            rw [hmm] at hj; simp only at hj
            split_ifs at hj <;> exact hw.fresh_map _ id hj
    · have hd := (MapResult.done.inj h).symm
      subst hd
      exact ⟨hw, rfl, rfl⟩
  · split at h
    · exact absurd h (by simp)
    · rename_i hnew
      split at h
      · exact absurd h (by simp)
      · rename_i m hm
        have hd := (MapResult.done.inj h).symm
        subst hd
        refine ⟨?_, rfl, rfl⟩
        rw [hold]
        have hk : k ≤ d._map_size + max d._map_size k + 2 := by
          have := Nat.le_max_right d._map_size k; omega
        rcases move_slots_some _ _ _ _ _ _ _ hm with ⟨hc, hmm⟩ | ⟨hc, h0, hf, hmm⟩
        · have hc' : d._finish._node - d._start._node + 1 = 0 := by omega
          refine hw.relocate _ _ m (by omega) ?_ ?_ ?_ ?_
          · split <;> omega
          · split <;> push_cast <;> omega
          · intro j h1 h2; omega
          · intro j id hj; rw [hmm] at hj; exact absurd hj (by simp)
        · refine hw.relocate _ _ m (by omega) ?_ (by omega) ?_ ?_
          · split <;> omega
          · intro j h1 h2
            rw [hmm]; simp only
            rw [if_pos ⟨h1, by omega⟩]
          · intro j id hj
            rw [hmm] at hj; simp only at hj
            split_ifs at hj <;> exact hw.fresh_map _ id hj

theorem slot_write_some (M : Nat) (m : Int → Base) (i : Int) (b : Base) (m' : Int → Base)
    (h : slot_write M m i b = some m') :
    0 ≤ i ∧ i < (M : Int) ∧ m' = fun j => if j = i then b else m j := by
  unfold slot_write at h
  by_cases hr : 0 ≤ i ∧ i < (M : Int)
  · rw [if_pos hr] at h; exact ⟨hr.1, hr.2, (Option.some.inj h).symm⟩
  · rw [if_neg hr] at h; exact absurd h (by simp)

theorem WF0.push_back_slot {B next : Nat} {live : Nat → Bool} {d : deque}
    (hw : WF0 B next live d) (hk : d._finish._node + 1 < (d._map_size : Int)) :
    WF B (next + 1) (fun b => if b = next then true else live b)
      { d with
        _map := some (fun j => if j = d._finish._node + 1 then Base.blk next else d.slots j),
        _finish :=
          { deque_iterator._set_node B
              (fun j => if j = d._finish._node + 1 then Base.blk next else d.slots j)
              d._finish (d._finish._node + 1) with
            _current := ⟨Base.blk next, 0⟩ } } := by
  have hlo := hw.node_lo
  have hgap := hw.gap
  refine
    { map_some := rfl, map_bound := hw.map_bound, node_lo := hw.node_lo, node_hi := ?_,
      gap := ?_, shaped_st := hw.shaped_st, shaped_fi := ?_, fresh_map := ?_,
      fresh_st := ?_, fresh_fi := ?_, own := ?_, st_ok := ?_, fi_ok := ?_,
      st_rng := hw.st_rng, apart := ?_ }
  · simpa only [deque_iterator._set_node] using hk
  · simp only [deque_iterator._set_node]; omega
  · exact ⟨rfl, by simp [deque_iterator._set_node]⟩
  · intro j id hj
    simp only [deque.slots] at hj
    split_ifs at hj with h1
    · injection hj with e; omega
    · have := hw.fresh_map j id hj; omega
  · intro id hb; have := hw.fresh_st id hb; omega
  · intro id hb
    simp only at hb
    injection hb with e; omega
  · intro id hl
    simp only at hl
    split_ifs at hl with h1
    · refine ⟨d._finish._node + 1, ?_, ?_, ?_⟩
      · simpa using hgap
      · simp [deque_iterator._set_node]
      · simp [deque.slots, h1]
    · obtain ⟨j, h2, h3, h4⟩ := hw.own id hl
      refine ⟨j, h2, ?_, ?_⟩
      · simp only [deque_iterator._set_node]; omega
      · simp only [deque.slots]
        rw [if_neg (by omega)]; exact h4
  · intro id hb hl
    have hf := hw.fresh_st id hb
    simp only at hl
    rw [if_neg (by omega)] at hl
    obtain ⟨h1, h2, h3⟩ := hw.st_ok id hb hl
    refine ⟨h1, ?_, ?_⟩
    · simp only [deque.slots]
      rw [if_neg (by omega)]; exact h2
    · simp only [deque_iterator._set_node]; omega
  · intro id hb hl
    simp only at hb
    injection hb with e
    subst e
    refine ⟨?_, ?_, ?_⟩
    · simp [deque_iterator._set_node]
    · simp [deque.slots, deque_iterator._set_node]
    · simpa [deque_iterator._set_node] using hgap
  · intro _ hc
    simp only at hc
    have := hw.fresh_st next hc.symm
    omega

theorem WF0.push_front_slot {B next : Nat} {live : Nat → Bool} {d : deque}
    (hB : 0 < B) (hw : WF0 B next live d) (hk : 0 ≤ d._start._node - 1) :
    WF B (next + 1) (fun b => if b = next then true else live b)
      { d with
        _map := some (fun j => if j = d._start._node - 1 then Base.blk next else d.slots j),
        _start :=
          { deque_iterator._set_node B
              (fun j => if j = d._start._node - 1 then Base.blk next else d.slots j)
              d._start (d._start._node - 1) with
            _current := ⟨Base.blk next, (B : Int) + -1⟩ } } := by
  have hhi := hw.node_hi
  have hgap := hw.gap
  refine
    { map_some := rfl, map_bound := hw.map_bound, node_lo := ?_, node_hi := hw.node_hi,
      gap := ?_, shaped_st := ?_, shaped_fi := hw.shaped_fi, fresh_map := ?_,
      fresh_st := ?_, fresh_fi := ?_, own := ?_, st_ok := ?_, fi_ok := ?_,
      st_rng := ?_, apart := ?_ }
  · simpa only [deque_iterator._set_node] using hk
  · simp only [deque_iterator._set_node]; omega
  · exact ⟨rfl, by simp [deque_iterator._set_node]⟩
  · intro j id hj
    simp only [deque.slots] at hj
    split_ifs at hj with h1
    · injection hj with e; omega
    · have := hw.fresh_map j id hj; omega
  · intro id hb
    simp only at hb
    injection hb with e; omega
  · intro id hb; have := hw.fresh_fi id hb; omega
  · intro id hl
    simp only at hl
    split_ifs at hl with h1
    · refine ⟨d._start._node - 1, ?_, ?_, ?_⟩
      · simp [deque_iterator._set_node]
      · simp only; omega
      · simp [deque.slots, h1]
    · obtain ⟨j, h2, h3, h4⟩ := hw.own id hl
      refine ⟨j, ?_, h3, ?_⟩
      · simp only [deque_iterator._set_node]; omega
      · simp only [deque.slots]
        rw [if_neg (by omega)]; exact h4
  · intro id hb hl
    simp only at hb
    injection hb with e
    subst e
    refine ⟨?_, ?_, ?_⟩
    · simp [deque_iterator._set_node]
    · simp [deque.slots, deque_iterator._set_node]
    · simp only [deque_iterator._set_node]; omega
  · intro id hb hl
    have hf := hw.fresh_fi id hb
    simp only at hl
    rw [if_neg (by omega)] at hl
    obtain ⟨h1, h2, h3⟩ := hw.fi_ok id hb hl
    refine ⟨h1, ?_, ?_⟩
    · simp only [deque.slots]
      rw [if_neg (by omega)]; exact h2
    · simp only [deque_iterator._set_node]; omega
  · simp only; omega
  · intro hc
    exact absurd (by simp [deque_iterator._set_node]) hc

theorem push_back_aux_wf {α : Type} {B : Nat} (s s' : State α)
    (hw : WF0 B s.h.next s.h.live s.d) (h : _push_back_aux B s = Except.ok s') :
    WF B s'.h.next s'.h.live s'.d ∧ s'.d._finish._current = s'.d._finish._first ∧
      (∃ id, s'.d._finish._first = ⟨Base.blk id, 0⟩ ∧ s'.h.live id = true) ∧
      s'.d._finish.shaped B := by
  unfold _push_back_aux at h
  simp only at h
  split at h
  · exact absurd h (by simp)
  · exact absurd h (by simp)
  · rename_i d1 hd1
    have hw1 : WF0 B s.h.next s.h.live d1 := by
      split_ifs at hd1 with hc
      · exact (hw.reallocate 1 false d1 hd1).1
      · have := MapResult.done.inj hd1; subst this; exact hw
    split at h
    · exact absurd h (by simp)
    · rename_i m hm
      obtain ⟨h0, h1, hmm⟩ := slot_write_some _ _ _ _ _ hm
      have hs := (Except.ok.inj h).symm
      subst hs
      subst hmm
      refine ⟨?_, ?_, ?_, ?_⟩
      · simpa [_allocate_block, deque_iterator._set_node] using hw1.push_back_slot h1
      · rfl
      · exact ⟨s.h.next, by simp [deque_iterator._set_node, _allocate_block],
          by simp [_allocate_block]⟩
      · exact ⟨rfl, by simp [deque_iterator._set_node]⟩

theorem push_front_aux_wf {α : Type} {B : Nat} (hB : 0 < B) (s s' : State α)
    (hw : WF0 B s.h.next s.h.live s.d) (h : _push_front_aux B s = Except.ok s') :
    WF B s'.h.next s'.h.live s'.d ∧
      (∃ id, s'.d._start._current = ⟨Base.blk id, (B : Int) + -1⟩ ∧ s'.h.live id = true) := by
  unfold _push_front_aux at h
  simp only at h
  split at h
  · exact absurd h (by simp)
  · exact absurd h (by simp)
  · rename_i d1 hd1
    have hw1 : WF0 B s.h.next s.h.live d1 := by
      split_ifs at hd1 with hc
      · exact (hw.reallocate 1 true d1 hd1).1
      · have := MapResult.done.inj hd1; subst this; exact hw
    split at h
    · exact absurd h (by simp)
    · rename_i m hm
      obtain ⟨h0, h1, hmm⟩ := slot_write_some _ _ _ _ _ hm
      have hs := (Except.ok.inj h).symm
      subst hs
      subst hmm
      refine ⟨?_, ?_⟩
      · simpa [_allocate_block, deque_iterator._set_node, Ptr.add] using
          hw1.push_front_slot hB h0
      · exact ⟨s.h.next, by simp [deque_iterator._set_node, _allocate_block, Ptr.add],
          by simp [_allocate_block]⟩

theorem WF.set_finish_off {B next : Nat} {live : Nat → Bool} {d : deque}
    (hw : WF B next live d) (o : Int) :
    WF B next live
      { d with _finish := { d._finish with _current := ⟨d._finish._current.base, o⟩ } } :=
  { map_some := hw.map_some, map_bound := hw.map_bound, node_lo := hw.node_lo,
    node_hi := hw.node_hi, gap := hw.gap, shaped_st := hw.shaped_st,
    shaped_fi := hw.shaped_fi, fresh_map := hw.fresh_map, fresh_st := hw.fresh_st,
    fresh_fi := hw.fresh_fi, own := hw.own, st_ok := hw.st_ok, fi_ok := hw.fi_ok,
    st_rng := hw.st_rng, apart := hw.apart }

theorem WF.set_start_off {B next : Nat} {live : Nat → Bool} {d : deque}
    (hw : WF B next live d) (o : Int) (ho : 0 ≤ o ∧ o < (B : Int)) :
    WF B next live
      { d with _start := { d._start with _current := ⟨d._start._current.base, o⟩ } } :=
  { map_some := hw.map_some, map_bound := hw.map_bound, node_lo := hw.node_lo,
    node_hi := hw.node_hi, gap := hw.gap, shaped_st := hw.shaped_st,
    shaped_fi := hw.shaped_fi, fresh_map := hw.fresh_map, fresh_st := hw.fresh_st,
    fresh_fi := hw.fresh_fi, own := hw.own, st_ok := hw.st_ok, fi_ok := hw.fi_ok,
    st_rng := ho, apart := hw.apart }

theorem create_wf {α : Type} (B : Nat) (hB : 0 < B) (s : State α) (hdead : ∀ id, s.h.live id = false) :
    WF B (_create_map_and_nodes B s 0).h.next (_create_map_and_nodes B s 0).h.live
      (_create_map_and_nodes B s 0).d := by
  have h8 : (8 : Nat) ≤ map_alloc_limit := by decide
  refine
    { map_some := rfl, map_bound := ?_, node_lo := ?_, node_hi := ?_,
      gap := ?_, shaped_st := ?_, shaped_fi := ?_, fresh_map := ?_,
      fresh_st := ?_, fresh_fi := ?_, own := ?_, st_ok := ?_, fi_ok := ?_,
      st_rng := ?_, apart := ?_ }
  all_goals
    simp only [_create_map_and_nodes, alloc_nodes, _allocate_block, deque_iterator._set_node,
      deque.slots, deque_iterator.shaped, Ptr.add, Nat.zero_div, Nat.zero_mod, zero_add]
  · exact h8
  · norm_num
  · norm_num
  · norm_num
  · simp
  · simp
  · intro j id hj
    split_ifs at hj
    injection hj with e; omega
  · intro id hb
    simp at hb; omega
  · intro id hb
    simp at hb; omega
  · intro id hl
    split_ifs at hl with h1
    · exact ⟨3, by norm_num, by norm_num, by simp [h1]⟩
    · rw [hdead id] at hl; exact absurd hl (by simp)
  · intro id hb hl
    simp at hb
    subst hb
    simp
  · intro id hb hl
    simp at hb
    subst hb
    simp
  · exact ⟨le_refl _, by exact_mod_cast hB⟩
  · simp

theorem construct_at_some {α : Type} (B : Nat) (h h' : Heap α) (p : Ptr) (v : α)
    (hc : construct_at B h p v = some h') :
    (∃ id, p.base = Base.blk id ∧ h.live id = true) ∧ 0 ≤ p.off ∧ p.off < (B : Int) ∧
      h'.live = h.live ∧ h'.next = h.next := by
  unfold construct_at at hc
  split at hc
  · rename_i id hb
    split at hc
    · rename_i hv
      have := (Option.some.inj hc).symm; subst this
      simp only [Heap.valid, hb, Bool.and_eq_true, decide_eq_true_eq] at hv
      exact ⟨⟨id, hb, hv.1.1⟩, hv.1.2, hv.2, rfl, rfl⟩
    · exact absurd hc (by simp)
  · exact absurd hc (by simp)

theorem destroy_at_some {α : Type} (B : Nat) (h h' : Heap α) (p : Ptr)
    (hc : destroy_at B h p = some h') :
    (∃ id, p.base = Base.blk id ∧ h.live id = true) ∧ 0 ≤ p.off ∧ p.off < (B : Int) ∧
      h'.live = h.live ∧ h'.next = h.next := by
  unfold destroy_at at hc
  split at hc
  · rename_i id hb
    split at hc
    · rename_i hv
      have := (Option.some.inj hc).symm; subst this
      have hv1 := hv.1
      simp only [Heap.valid, hb, Bool.and_eq_true, decide_eq_true_eq] at hv1
      exact ⟨⟨id, hb, hv1.1.1⟩, hv1.1.2, hv1.2, rfl, rfl⟩
    · exact absurd hc (by simp)
  · exact absurd hc (by simp)

theorem ofOpt_ok {α β : Type} (x : Option β) (b : β)
    (h : (ofOpt x : Except (Fault α) β) = Except.ok b) : x = some b := by
  cases x with
  | none => exact absurd h (by simp [ofOpt])
  | some c => simp only [ofOpt] at h; exact congrArg some (Except.ok.inj h)

theorem construct_arg_ok {α : Type} (B : Nat) (s : State α) (p : Ptr) (a : Option α)
    (h' : Heap α) (hc : construct_arg B s p a = Except.ok h') :
    (∃ id, p.base = Base.blk id ∧ s.h.live id = true) ∧ 0 ≤ p.off ∧ p.off < (B : Int) ∧
      h'.live = s.h.live ∧ h'.next = s.h.next := by
  unfold construct_arg at hc
  cases a with
  | none => exact absurd hc (by simp)
  | some v => exact construct_at_some B s.h h' p v (ofOpt_ok _ _ hc)

theorem bind_ok {ε β γ : Type} (x : Except ε β) (f : β → Except ε γ) (c : γ)
    (h : (x >>= f) = Except.ok c) : ∃ b, x = Except.ok b ∧ f b = Except.ok c := by
  cases x with
  | error e => exact absurd h (by simp [bind, Except.bind])
  | ok b => exact ⟨b, rfl, h⟩

theorem Inv.entry {α : Type} {B : Nat} (hB : 0 < B) {s : State α} (hi : Inv B s) :
    WF B (if s.d._map.isNone then _create_map_and_nodes B s 0 else s).h.next
      (if s.d._map.isNone then _create_map_and_nodes B s 0 else s).h.live
      (if s.d._map.isNone then _create_map_and_nodes B s 0 else s).d := by
  rcases hi with ⟨hn, hd⟩ | hw
  · rw [hn]; simp only [Option.isNone_none, if_true]
    exact create_wf B hB s hd
  · have := hw.map_some
    have hnn : s.d._map.isNone = false := by
      cases hm : s.d._map with
      | none => rw [hm] at this; exact absurd this (by simp)
      | some m => rfl
    rw [hnn]; simp only [Bool.false_eq_true, if_false]
    exact hw

theorem emplace_back_wf {α : Type} {B : Nat} (hB : 0 < B) (s s' : State α) (a : Option α)
    (hi : Inv B s) (h : emplace_back B s a = Except.ok s') :
    WF B s'.h.next s'.h.live s'.d := by
  have hw1 := hi.entry hB
  unfold emplace_back at h
  simp only at h
  generalize (if s.d._map.isNone then _create_map_and_nodes B s 0 else s) = s1 at h hw1
  split_ifs at h with hc
  · obtain ⟨h1, hh1, hr⟩ := bind_ok _ _ _ h
    obtain ⟨_, _, _, hl, hn⟩ := construct_arg_ok B s1 _ a h1 hh1
    have hs := (Except.ok.inj hr).symm
    subst hs
    simp only [hl, hn]
    exact hw1.set_finish_off _
  · obtain ⟨s2, hs2, hr⟩ := bind_ok _ _ _ h
    obtain ⟨hw2, _⟩ := push_back_aux_wf s1 s2 hw1.toWF0 hs2
    obtain ⟨h1, hh1, hr⟩ := bind_ok _ _ _ hr
    obtain ⟨_, _, _, hl, hn⟩ := construct_arg_ok B s2 _ a h1 hh1
    have hs := (Except.ok.inj hr).symm
    subst hs
    simp only [hl, hn]
    exact hw2.set_finish_off _

theorem emplace_front_wf {α : Type} {B : Nat} (hB : 0 < B) (s s' : State α) (a : Option α)
    (hi : Inv B s) (h : emplace_front B s a = Except.ok s') :
    WF B s'.h.next s'.h.live s'.d := by
  have hw1 := hi.entry hB
  unfold emplace_front at h
  simp only at h
  generalize (if s.d._map.isNone then _create_map_and_nodes B s 0 else s) = s1 at h hw1
  split_ifs at h with hc
  · obtain ⟨h1, hh1, hr⟩ := bind_ok _ _ _ h
    obtain ⟨_, h0, hlt, hl, hn⟩ := construct_arg_ok B _ _ a h1 hh1
    have hs := (Except.ok.inj hr).symm
    subst hs
    simp only [hl, hn]
    exact hw1.set_start_off _ ⟨h0, hlt⟩
  · obtain ⟨s2, hs2, hr⟩ := bind_ok _ _ _ h
    obtain ⟨hw2, _⟩ := push_front_aux_wf hB s1 s2 hw1.toWF0 hs2
    obtain ⟨h1, hh1, hr⟩ := bind_ok _ _ _ hr
    obtain ⟨_, _, _, hl, hn⟩ := construct_arg_ok B s2 _ a h1 hh1
    have hs := (Except.ok.inj hr).symm
    subst hs
    simp only [hl, hn]
    exact hw2

theorem deallocate_some {α : Type} (h h' : Heap α) (p : Ptr)
    (hd : _deallocate_block h p = some h') :
    ∃ id, p = ⟨Base.blk id, 0⟩ ∧ h.live id = true ∧ h'.next = h.next ∧
      h'.live = fun b => if b = id then false else h.live b := by
  unfold _deallocate_block at hd
  split at hd
  · rename_i id hb
    split at hd
    · rename_i hc
      have := (Option.some.inj hd).symm; subst this
      refine ⟨id, ?_, hc.1, rfl, rfl⟩
      cases p with
      | mk b o => simp only at hb hc; rw [hb, hc.2]
    · exact absurd hd (by simp)
  · exact absurd hd (by simp)

theorem pop_front_aux_wf {α : Type} {B : Nat} (hB : 0 < B) (s s' : State α)
    (hw : WF B s.h.next s.h.live s.d)
    (hlv : ∃ id, s.d._start._current.base = Base.blk id ∧ s.h.live id = true)
    (h : _pop_front_aux B s = some s') : WF B s'.h.next s'.h.live s'.d := by
  unfold _pop_front_aux at h
  split at h
  · exact absurd h (by simp)
  · rename_i h1 hd
    obtain ⟨id0, hp, hl0, hn, hlive⟩ := deallocate_some _ _ _ hd
    obtain ⟨id, hb, hl⟩ := hlv
    obtain ⟨hf, hslot, hle⟩ := hw.st_ok id hb hl
    have hid : id = id0 := by
      rw [hp] at hf; simp only at hf; injection hf with e; exact e.symm
    subst hid
    have hs := (Option.some.inj h).symm
    subst hs
    simp only [hn, hlive]
    have hgap := hw.gap
    refine
      { map_some := hw.map_some, map_bound := hw.map_bound, node_lo := ?_,
        node_hi := hw.node_hi, gap := ?_, shaped_st := ?_, shaped_fi := hw.shaped_fi,
        fresh_map := hw.fresh_map, fresh_st := ?_, fresh_fi := hw.fresh_fi, own := ?_,
        st_ok := ?_, fi_ok := ?_, st_rng := ?_, apart := ?_ }
    · have := hw.node_lo; simp only [deque_iterator._set_node]; omega
    · simp only [deque_iterator._set_node]; omega
    · exact ⟨rfl, by simp [deque_iterator._set_node]⟩
    · intro id' hb'
      simp only [deque_iterator._set_node] at hb'
      exact hw.fresh_map _ id' hb'
    · intro id' hl'
      simp only at hl'
      split_ifs at hl' with hne
      obtain ⟨j, h1, h2, h3⟩ := hw.own id' hl'
      refine ⟨j, ?_, h2, h3⟩
      simp only [deque_iterator._set_node]
      have : j ≠ s.d._start._node := by
        intro e; rw [e, hslot] at h3; injection h3 with e'; exact hne e'.symm
      omega
    · intro id' hb' hl'
      simp only at hl'
      split_ifs at hl' with hne
      simp only [deque_iterator._set_node] at hb'
      obtain ⟨j, h1, h2, h3⟩ := hw.own id' hl'
      have : j ≠ s.d._start._node := by
        intro e; rw [e, hslot] at h3; injection h3 with e'; exact hne e'.symm
      refine ⟨by simpa [deque_iterator._set_node] using hb',
        by simpa [deque_iterator._set_node] using hb', ?_⟩
      simp only [deque_iterator._set_node]; omega
    · intro id' hb' hl'
      simp only at hl'
      split_ifs at hl' with hne
      simp only at hb'
      obtain ⟨h1, h2, h3⟩ := hw.fi_ok id' hb' hl'
      refine ⟨h1, h2, ?_⟩
      have : s.d._finish._node ≠ s.d._start._node := by
        intro e; rw [e, hslot] at h2; injection h2 with e'; exact hne e'.symm
      simp only [deque_iterator._set_node]; omega
    · simp only [deque_iterator._set_node]
      exact ⟨le_refl _, by exact_mod_cast hB⟩
    · intro hc
      exact absurd (by simp [deque_iterator._set_node]) hc

theorem pop_front_wf {α : Type} {B : Nat} (hB : 0 < B) (s s' : State α)
    (hi : Inv B s) (h : pop_front B s = Except.ok s') :
    WF B s'.h.next s'.h.live s'.d := by
  unfold pop_front at h
  have key : ∀ h1, destroy_at B s.h s.d._start._current = some h1 →
      WF B s.h.next s.h.live s.d ∧
      ∃ id, s.d._start._current.base = Base.blk id ∧ s.h.live id = true := by
    intro h1 hd
    obtain ⟨⟨id, hb, hl⟩, _⟩ := destroy_at_some B _ _ _ hd
    rcases hi with ⟨_, hdead⟩ | hw
    · rw [hdead id] at hl; exact absurd hl (by simp)
    · exact ⟨hw, id, hb, hl⟩
  split_ifs at h with hc
  · obtain ⟨h1, hh1, hr⟩ := bind_ok _ _ _ h
    have hd := ofOpt_ok _ _ hh1
    obtain ⟨hw, id, hb, hl⟩ := key h1 hd
    obtain ⟨_, h0, hlt, hlv, hn⟩ := destroy_at_some B _ _ _ hd
    have hs := (Except.ok.inj hr).symm
    subst hs
    simp only [hlv, hn]
    refine hw.set_start_off _ ⟨by show 0 ≤ s.d._start._current.off + 1; omega, ?_⟩
    obtain ⟨hf, _, _⟩ := hw.st_ok id hb hl
    have hlast := hw.shaped_st.2
    show s.d._start._current.off + 1 < (B : Int)
    by_contra hge
    apply hc
    rw [hlast, hf]
    cases hcur : s.d._start._current with
    | mk b o =>
      rw [hcur] at hb hge h0 hlt
      simp only at hb hge h0 hlt
      simp only [Ptr.add]
      rw [hb]; congr 1; omega
  · obtain ⟨h1, hh1, hr⟩ := bind_ok _ _ _ h
    have hd := ofOpt_ok _ _ hh1
    obtain ⟨hw, id, hb, hl⟩ := key h1 hd
    obtain ⟨_, h0, hlt, hlv, hn⟩ := destroy_at_some B _ _ _ hd
    have hp := ofOpt_ok _ _ hr
    refine pop_front_aux_wf hB { s with h := h1 } s' ?_ ⟨id, hb, ?_⟩ hp
    · simp only [hlv, hn]; exact hw
    · simp only [hlv]; exact hl

theorem pop_back_aux_wf {α : Type} {B : Nat} (s s1 : State α)
    (hw : WF B s.h.next s.h.live s.d)
    (hcur : s.d._finish._current = s.d._finish._first)
    (h : _pop_back_aux B s = some s1)
    (hv : ∃ id, s1.d._finish._current.base = Base.blk id ∧ s1.h.live id = true) :
    WF B s1.h.next s1.h.live s1.d := by
  unfold _pop_back_aux at h
  split at h
  · exact absurd h (by simp)
  · rename_i h1 hd
    obtain ⟨id0, hp, hl0, hn, hlive⟩ := deallocate_some _ _ _ hd
    have hb0 : s.d._finish._current.base = Base.blk id0 := by rw [hcur, hp]
    obtain ⟨hf, hslot, hle⟩ := hw.fi_ok id0 hb0 hl0
    have hs := (Option.some.inj h).symm
    subst hs
    obtain ⟨id1, hb1, hl1⟩ := hv
    simp only [deque_iterator._set_node, Ptr.add, hlive] at hb1 hl1
    split_ifs at hl1 with hne1
    obtain ⟨j1, hj1a, hj1b, hj1c⟩ := hw.own id1 hl1
    have hj1 : j1 ≠ s.d._finish._node := by
      intro e; rw [e, hslot] at hj1c; injection hj1c with e'; exact hne1 e'.symm
    simp only [hn, hlive]
    refine
      { map_some := hw.map_some, map_bound := hw.map_bound, node_lo := hw.node_lo,
        node_hi := ?_, gap := ?_, shaped_st := hw.shaped_st, shaped_fi := ?_,
        fresh_map := hw.fresh_map, fresh_st := hw.fresh_st, fresh_fi := ?_, own := ?_,
        st_ok := ?_, fi_ok := ?_, st_rng := hw.st_rng, apart := ?_ }
    · have := hw.node_hi; simp only [deque_iterator._set_node]; omega
    · simp only [deque_iterator._set_node]; omega
    · exact ⟨rfl, by simp [deque_iterator._set_node]⟩
    · intro id' hb'
      simp only [deque_iterator._set_node, Ptr.add] at hb'
      exact hw.fresh_map _ id' hb'
    · intro id' hl'
      simp only at hl'
      split_ifs at hl' with hne
      obtain ⟨j, h1, h2, h3⟩ := hw.own id' hl'
      refine ⟨j, h1, ?_, h3⟩
      simp only [deque_iterator._set_node]
      have : j ≠ s.d._finish._node := by
        intro e; rw [e, hslot] at h3; injection h3 with e'; exact hne e'.symm
      omega
    · intro id' hb' hl'
      simp only at hl'
      split_ifs at hl' with hne
      simp only at hb'
      obtain ⟨h1, h2, h3⟩ := hw.st_ok id' hb' hl'
      refine ⟨h1, h2, ?_⟩
      have : s.d._start._node ≠ s.d._finish._node := by
        intro e; rw [e, hslot] at h2; injection h2 with e'; exact hne e'.symm
      simp only [deque_iterator._set_node]; omega
    · intro id' hb' hl'
      simp only [deque_iterator._set_node, Ptr.add] at hb'
      refine ⟨by simpa [deque_iterator._set_node] using hb',
        by simpa [deque_iterator._set_node] using hb', ?_⟩
      simp only [deque_iterator._set_node]; omega
    · intro hc hc2
      simp only [deque_iterator._set_node, Ptr.add] at hc2
      apply hc
      have hsb : s.d._start._current.base = Base.blk id1 := by rw [← hc2, hb1]
      exact ((hw.st_ok id1 hsb hl1).1.trans hsb.symm).symm

theorem pop_back_wf {α : Type} {B : Nat} (s s' : State α)
    (hi : Inv B s) (h : pop_back B s = Except.ok s') :
    WF B s'.h.next s'.h.live s'.d := by
  unfold pop_back at h
  split_ifs at h with hc
  · simp only at h
    obtain ⟨h1, hh1, hr⟩ := bind_ok _ _ _ h
    have hd := ofOpt_ok _ _ hh1
    obtain ⟨⟨id, hb, hl⟩, _, _, hlv, hn⟩ := destroy_at_some B _ _ _ hd
    have hs := (Except.ok.inj hr).symm
    subst hs
    rcases hi with ⟨_, hdead⟩ | hw
    · rw [hdead id] at hl; exact absurd hl (by simp)
    · simp only [hlv, hn]
      exact hw.set_finish_off _
  · have hcur : s.d._finish._current = s.d._finish._first := not_not.mp hc
    obtain ⟨s1, hs1, hr⟩ := bind_ok _ _ _ h
    have hp := ofOpt_ok _ _ hs1
    obtain ⟨h1, hh1, hr⟩ := bind_ok _ _ _ hr
    have hd := ofOpt_ok _ _ hh1
    obtain ⟨hv, _, _, hlv, hn⟩ := destroy_at_some B _ _ _ hd
    have hs := (Except.ok.inj hr).symm
    subst hs
    simp only [hlv, hn]
    rcases hi with ⟨_, hdead⟩ | hw
    · exfalso
      unfold _pop_back_aux at hp
      split at hp
      · exact absurd hp (by simp)
      · rename_i h0 hd0
        obtain ⟨id0, _, hl0, _⟩ := deallocate_some _ _ _ hd0
        rw [hdead id0] at hl0; exact absurd hl0 (by simp)
    · exact pop_back_aux_wf s s1 hw hcur hp hv

theorem move_assign_frame {α : Type} (B : Nat) (h h' : Heap α) (d s : Ptr)
    (hm : move_assign B h d s = some h') : h'.live = h.live ∧ h'.next = h.next := by
  unfold move_assign at hm
  split at hm
  · rename_i v _ _ _
    obtain ⟨_, _, _, hl, hn⟩ := construct_at_some B h h' d v hm
    exact ⟨hl, hn⟩
  · exact absurd hm (by simp)

theorem move_loop_frame {α : Type} (B : Nat) (m : Int → Base) (n : Nat) :
    ∀ (h : Heap α) (f d : deque_iterator) (r : Heap α × deque_iterator),
      move_loop B m n h f d = some r → r.1.live = h.live ∧ r.1.next = h.next := by
  induction n with
  | zero =>
    intro h f d r hr
    simp only [move_loop] at hr
    have := (Option.some.inj hr).symm; subst this
    exact ⟨rfl, rfl⟩
  | succ k ih =>
    intro h f d r hr
    simp only [move_loop] at hr
    split at hr
    · exact absurd hr (by simp)
    · rename_i h1 hm
      obtain ⟨hl, hn⟩ := move_assign_frame B h h1 _ _ hm
      obtain ⟨hl2, hn2⟩ := ih h1 _ _ r hr
      exact ⟨hl2.trans hl, hn2.trans hn⟩

theorem move_backward_loop_frame {α : Type} (B : Nat) (m : Int → Base) (n : Nat) :
    ∀ (h : Heap α) (l d : deque_iterator) (r : Heap α),
      move_backward_loop B m n h l d = some r → r.live = h.live ∧ r.next = h.next := by
  induction n with
  | zero =>
    intro h l d r hr
    simp only [move_backward_loop] at hr
    have := (Option.some.inj hr).symm; subst this
    exact ⟨rfl, rfl⟩
  | succ k ih =>
    intro h l d r hr
    simp only [move_backward_loop] at hr
    split at hr
    · exact absurd hr (by simp)
    · rename_i h1 hm
      obtain ⟨hl, hn⟩ := move_assign_frame B h h1 _ _ hm
      obtain ⟨hl2, hn2⟩ := ih h1 _ _ r hr
      exact ⟨hl2.trans hl, hn2.trans hn⟩

theorem std_move_frame {α : Type} (B : Nat) (m : Int → Base) (h : Heap α)
    (f l d : deque_iterator) (r : Heap α × deque_iterator)
    (hr : std_move B m h f l d = some r) : r.1.live = h.live ∧ r.1.next = h.next := by
  unfold std_move at hr
  split at hr
  · exact absurd hr (by simp)
  · exact move_loop_frame B m _ h f d r hr

theorem std_move_backward_frame {α : Type} (B : Nat) (m : Int → Base) (h : Heap α)
    (f l d : deque_iterator) (r : Heap α)
    (hr : std_move_backward B m h f l d = some r) : r.live = h.live ∧ r.next = h.next := by
  unfold std_move_backward at hr
  split at hr
  · exact absurd hr (by simp)
  · exact move_backward_loop_frame B m _ h l d r hr

theorem Inv.frame {α : Type} {B : Nat} {s : State α} (hi : Inv B s) (h' : Heap α)
    (hl : h'.live = s.h.live) (hn : h'.next = s.h.next) : Inv B { s with h := h' } := by
  rcases hi with ⟨hm, hd⟩ | hw
  · exact Or.inl ⟨hm, fun id => by simp only [hl]; exact hd id⟩
  · refine Or.inr ?_
    simp only [hl, hn]; exact hw

theorem emplace_wf {α : Type} {B : Nat} (hB : 0 < B) (s : State α) (pos : deque_iterator)
    (a : Option α) (r : State α × deque_iterator)
    (hi : Inv B s) (h : emplace B s pos a = Except.ok r) :
    WF B r.1.h.next r.1.h.live r.1.d := by
  unfold emplace at h
  split_ifs at h with c1 c2 c3
  · obtain ⟨s1, hs1, hr⟩ := bind_ok _ _ _ h
    have := (Except.ok.inj hr).symm; subst this
    exact emplace_front_wf hB s s1 a hi hs1
  · obtain ⟨s1, hs1, hr⟩ := bind_ok _ _ _ h
    obtain ⟨q, _, hr⟩ := bind_ok _ _ _ hr
    have := (Except.ok.inj hr).symm; subst this
    exact emplace_back_wf hB s s1 a hi hs1
  · obtain ⟨s1, hs1, hr⟩ := bind_ok _ _ _ h
    have := (Except.ok.inj hr).symm; subst this
    exact emplace_back_wf hB s s1 a hi hs1
  · obtain ⟨p, _, hr⟩ := bind_ok _ _ _ h
    obtain ⟨idx, _, hr⟩ := bind_ok _ _ _ hr
    obtain ⟨sz, _, hr⟩ := bind_ok _ _ _ hr
    split_ifs at hr with c4
    · obtain ⟨fr, _, hr⟩ := bind_ok _ _ _ hr
      obtain ⟨s1, hs1, hr⟩ := bind_ok _ _ _ hr
      have hw1 := emplace_front_wf hB s s1 (some fr) hi hs1
      obtain ⟨ip, _, hr⟩ := bind_ok _ _ _ hr
      obtain ⟨t, _, hr⟩ := bind_ok _ _ _ hr
      obtain ⟨last, _, hr⟩ := bind_ok _ _ _ hr
      obtain ⟨mv, hmv, hr⟩ := bind_ok _ _ _ hr
      obtain ⟨tgt, _, hr⟩ := bind_ok _ _ _ hr
      obtain ⟨h2, hh2, hr⟩ := bind_ok _ _ _ hr
      obtain ⟨h3, hh3, hr⟩ := bind_ok _ _ _ hr
      have := (Except.ok.inj hr).symm; subst this
      obtain ⟨l1, n1⟩ := std_move_frame B _ _ _ _ _ _ (ofOpt_ok _ _ hmv)
      obtain ⟨_, _, _, l2, n2⟩ := destroy_at_some B _ _ _ (ofOpt_ok _ _ hh2)
      obtain ⟨_, _, _, l3, n3⟩ := construct_arg_ok B _ _ a h3 hh3
      simp only at l3 n3
      simp only [l3, n3, l2, n2, l1, n1]
      exact hw1
    · obtain ⟨bk, _, hr⟩ := bind_ok _ _ _ hr
      obtain ⟨s1, hs1, hr⟩ := bind_ok _ _ _ hr
      have hw1 := emplace_back_wf hB s s1 (some bk) hi hs1
      obtain ⟨ap, _, hr⟩ := bind_ok _ _ _ hr
      obtain ⟨e2, _, hr⟩ := bind_ok _ _ _ hr
      obtain ⟨e1, _, hr⟩ := bind_ok _ _ _ hr
      obtain ⟨h1, hh1, hr⟩ := bind_ok _ _ _ hr
      obtain ⟨h2, hh2, hr⟩ := bind_ok _ _ _ hr
      obtain ⟨h3, hh3, hr⟩ := bind_ok _ _ _ hr
      have := (Except.ok.inj hr).symm; subst this
      obtain ⟨l1, n1⟩ := std_move_backward_frame B _ _ _ _ _ _ (ofOpt_ok _ _ hh1)
      obtain ⟨_, _, _, l2, n2⟩ := destroy_at_some B _ _ _ (ofOpt_ok _ _ hh2)
      obtain ⟨_, _, _, l3, n3⟩ := construct_arg_ok B _ _ a h3 hh3
      simp only at l3 n3
      simp only [l3, n3, l2, n2, l1, n1]
      exact hw1

theorem erase_wf {α : Type} {B : Nat} (hB : 0 < B) (s : State α) (pos : deque_iterator)
    (r : State α × deque_iterator)
    (hi : Inv B s) (h : erase B s pos = Except.ok r) :
    WF B r.1.h.next r.1.h.live r.1.d := by
  unfold erase at h
  simp only at h
  obtain ⟨p, _, hr⟩ := bind_ok _ _ _ h
  obtain ⟨idx, _, hr⟩ := bind_ok _ _ _ hr
  obtain ⟨sz, _, hr⟩ := bind_ok _ _ _ hr
  split_ifs at hr with c
  · obtain ⟨p1, _, hr⟩ := bind_ok _ _ _ hr
    obtain ⟨h1, hh1, hr⟩ := bind_ok _ _ _ hr
    obtain ⟨s1, hs1, hr⟩ := bind_ok _ _ _ hr
    obtain ⟨q, _, hr⟩ := bind_ok _ _ _ hr
    have := (Except.ok.inj hr).symm; subst this
    obtain ⟨l1, n1⟩ := std_move_backward_frame B _ _ _ _ _ _ (ofOpt_ok _ _ hh1)
    exact pop_front_wf hB _ s1 (hi.frame h1 l1 n1) hs1
  · obtain ⟨p1, _, hr⟩ := bind_ok _ _ _ hr
    obtain ⟨mv, hmv, hr⟩ := bind_ok _ _ _ hr
    obtain ⟨s1, hs1, hr⟩ := bind_ok _ _ _ hr
    obtain ⟨q, _, hr⟩ := bind_ok _ _ _ hr
    have := (Except.ok.inj hr).symm; subst this
    obtain ⟨l1, n1⟩ := std_move_frame B _ _ _ _ _ _ (ofOpt_ok _ _ hmv)
    exact pop_back_wf _ s1 (hi.frame mv.1 l1 n1) hs1

theorem Call.apply_inv {α : Type} {B : Nat} (hB : 0 < B) (s s' : State α) (c : Call α)
    (hi : Inv B s) (h : c.apply B s = Except.ok s') : Inv B s' := by
  refine Or.inr ?_
  cases c with
  | push_back v => exact emplace_back_wf hB s s' (some v) hi h
  | push_front v => exact emplace_front_wf hB s s' (some v) hi h
  | pop_back => exact pop_back_wf s s' hi h
  | pop_front => exact pop_front_wf hB s s' hi h
  | insert i v =>
    simp only [Call.apply] at h
    obtain ⟨p, _, hr⟩ := bind_ok _ _ _ h
    obtain ⟨r, hr1, hr⟩ := bind_ok _ _ _ hr
    have := (Except.ok.inj hr).symm; subst this
    exact emplace_wf hB s p (some v) r hi hr1
  | erase i =>
    simp only [Call.apply] at h
    obtain ⟨p, _, hr⟩ := bind_ok _ _ _ h
    obtain ⟨r, hr1, hr⟩ := bind_ok _ _ _ hr
    have := (Except.ok.inj hr).symm; subst this
    exact erase_wf hB s p r hi hr1

theorem Inv.init {α : Type} (B : Nat) : Inv B (State.init : State α) :=
  Or.inl ⟨rfl, fun _ => rfl⟩

theorem WF.start_in_block {α : Type} {B : Nat} {s : State α}
    (hw : WF B s.h.next s.h.live s.d) (n : Nat) (hn : size B s = some n) :
    s.d._start._current.base = s.d._start._first.base := by
  by_contra hne
  have hap := hw.apart hne
  have hl := hw.shaped_st.2
  unfold size at hn
  cases hm : s.d._map with
  | none => have := hw.map_some; rw [hm] at this; exact absurd this (by simp)
  | some m =>
    rw [hm] at hn
    simp only [deque_iterator.sub, Ptr.diff] at hn
    split_ifs at hn with h1 h2 h3
    rw [hl] at h3
    exact hne h3.symm

theorem index_agrees_aux {α : Type} (B : Nat) (hB : 1 < B) (s : State α)
    (hi : Inv B s) (n i : Nat) (hn : size B s = some n) (hlt : i < n) :
    deque_iterator.advance B s.d.slots s.d._start (i : Int)
      = some (step_from_begin B s i) := by
  rcases hi with ⟨hm, _⟩ | hw
  · unfold size at hn; rw [hm] at hn
    have := Option.some.inj hn; omega
  · have hbase := hw.start_in_block n hn
    obtain ⟨h0, h1⟩ := hw.st_rng
    have hcur : s.d._start._current
        = ⟨s.d._start._first.base, ((s.d._start._current.off.toNat : Nat) : Int)⟩ := by
      cases hc : s.d._start._current with
      | mk b o =>
        rw [hc] at hbase h0
        simp only at hbase h0
        rw [hbase, Int.toNat_of_nonneg h0]
    have ht : s.d._start._current.off.toNat < B := by omega
    rw [deque_iterator.advance_shifted B hB _ _ hw.shaped_st _ hcur i]
    unfold step_from_begin
    have hself := deque_iterator.shifted_self B s.d.slots s.d._start _ ht hcur
    conv_rhs => rw [← hself]
    rw [deque_iterator.iterate_inc_shifted B hB _ _ hw.shaped_st]

/-! ### Bulk operations -/

/-- C11 (the code departs from the claim): with block capacity 16 and a
container holding `[1, 2, 3]`, `insert(begin() + 1, 2, 7)` whose first copy of
the value throws: when the exception leaves the fill the prefix element has
already been moved out of the container (it shows `[0, 2, 3]`), and unwinding
runs the destructor of the temporary over cells that were never constructed,
which is undefined. -/
theorem bulk_insert_failure_modifies :
    (state_of 16 [Call.push_back 1, Call.push_back 2, Call.push_back 3]).bind (contents 16)
      = some [1, 2, 3] ∧
    (state_of 16 [Call.push_back 1, Call.push_back 2, Call.push_back 3]).bind
      (contents_at_throw 16 1 2 7 (some 0)) = some [0, 2, 3] ∧
    (state_of 16 [Call.push_back 1, Call.push_back 2, Call.push_back 3]).map
      (fun s => is_ub (insert_n_at 16 1 2 7 (some 0) s)) = some true := by
  decide

/-- C12 (the code departs from the claim): on a default-constructed container
(`_map` null, `_map_size` 0) the lazy `_create_map_and_nodes(0)` of a push
(a) leaves `_map_size == 8` when the map allocation throws, (b) calls
`_deallocate_block` on the never-written slot when the block allocation
throws, which is undefined, and (c) even if that slot reads as null, leaves
`_map` non-null (dangling) with `_map_size == 8`. -/
theorem failed_first_allocation_changes_map :
    ((State.init : State Nat).d._map.isSome, (State.init : State Nat).d._map_size)
      = (false, 0) ∧
    map_fields_after (emplace_first_alloc_failing 16 (State.init : State Nat) Base.junk
      AllocFailure.map) = some (false, 8) ∧
    map_fields_after (emplace_first_alloc_failing 16 (State.init : State Nat) Base.junk
      (AllocFailure.block 0)) = none ∧
    map_fields_after (emplace_first_alloc_failing 16 (State.init : State Nat) Base.null
      (AllocFailure.block 0)) = some (true, 8) := by
  decide

/-- C13 (the code departs from the claim): with block capacity 16, (a) after
16 `push_back` the container shows its 16 elements and both
`insert(begin() + 1, 2, 7)` and `insert(begin() + 16, 2, 7)` are undefined:
the loop of the second `std::uninitialized_move` steps a cursor by
`operator++` and never meets `end()`, whose `_current` is `_last`;
(b) after 48 `push_front` and 17 `pop_back` the container shows the 31
reference elements and `insert(begin(), 1, 7)` is undefined (its `push_front`
writes the slot before the map). -/
theorem bulk_insert_undefined :
    (state_of 16 ((List.range 16).map Call.push_back)).bind (contents 16)
      = some (List.range 16) ∧
    (state_of 16 ((List.range 16).map Call.push_back)).map
      (fun s => is_ub (insert_n_at 16 1 2 7 none s)) = some true ∧
    (state_of 16 ((List.range 16).map Call.push_back)).map
      (fun s => is_ub (insert_n_at 16 16 2 7 none s)) = some true ∧
    (state_of 16 front_drift_log).bind (contents 16) = ref_run front_drift_log [] ∧
    ((state_of 16 front_drift_log).bind (contents 16)).isSome = true ∧
    (state_of 16 front_drift_log).map
      (fun s => is_ub (insert_n_at 16 0 1 7 none s)) = some true := by
  decide

/-- C15 (the code departs from the claim): with block capacity 16,
`assign(1, 7)` on a default-constructed container, and `assign(200, 7)` on a
container holding `[1, 2]`, return with `size()` equal to the requested count
but without any element constructed: `operator[](0)` reads storage that holds
no element.  `assign(3, 7)` on the latter, which fits the capacity, gives
`[7, 7, 7]`. -/
theorem assign_beyond_capacity_constructs_nothing :
    (assign 16 (State.init : State Nat) 1 7).toOption.map
      (fun s => (size 16 s, (index 16 s 0).toOption, contents 16 s))
      = some (some 1, none, none) ∧
    ((state_of 16 [Call.push_back 1, Call.push_back 2]).bind
      (fun s => (assign 16 s 200 7).toOption)).map
      (fun s => (size 16 s, (index 16 s 0).toOption, contents 16 s))
      = some (some 200, none, none) ∧
    ((state_of 16 [Call.push_back 1, Call.push_back 2]).bind
      (fun s => (assign 16 s 3 7).toOption)).bind (contents 16) = some [7, 7, 7] := by
  decide

/-- C16 (the code departs from the claim): with block capacity 16, after 16
`push_back` and 16 `pop_front` the map is non-null, no block is allocated any
more and the start cursor points into a slot that was never written;
`clear()` runs `std::destroy_at` over that cursor's range, which is
undefined, and cannot leave a block owned at the start slot. -/
theorem clear_after_drain_undefined :
    (state_of 16 fill_drain_log).map
      (fun s => (s.d._map.isSome, live_blocks s, s.d._start._first.base))
      = some (true, [], Base.junk) ∧
    (state_of 16 fill_drain_log).map (fun s => is_ub (clear 16 s)) = some true := by
  decide

/-- C17 (the code departs from the claim): with block capacity 16, (a) after 16
`push_back` the container shows its 16 elements and `shrink_to_fit()` is
undefined: the loop `first != last` of the range constructor never meets
`end()`; (b) after 16 `push_back` and 16 `pop_front` the container shows no
element and `shrink_to_fit()` is undefined instead of returning to the state
with a null map. -/
theorem shrink_to_fit_undefined :
    (state_of 16 ((List.range 16).map Call.push_back)).bind (contents 16)
      = some (List.range 16) ∧
    (state_of 16 ((List.range 16).map Call.push_back)).map
      (fun s => is_ub (shrink_to_fit 16 s)) = some true ∧
    (state_of 16 fill_drain_log).bind (contents 16) = some [] ∧
    (state_of 16 fill_drain_log).map (fun s => is_ub (shrink_to_fit 16 s)) = some true := by
  decide

/-- C19: move construction gives the new container exactly the map, map size
and cursors of the source, so it shows the same size and elements, and leaves
the source with a null map, map size 0 and default cursors, for which
`size()` is 0 and `empty()` is true. -/
theorem move_ctor_transfers {α : Type} (B : Nat) (h : Heap α) (d : deque) :
    (move_ctor d).1 = d ∧
    size B { h := h, d := (move_ctor d).1 } = size B { h := h, d := d } ∧
    (∀ i, index B { h := h, d := (move_ctor d).1 } i = index B { h := h, d := d } i) ∧
    contents B { h := h, d := (move_ctor d).1 } = contents B { h := h, d := d } ∧
    (move_ctor d).2 = deque.nil ∧
    (move_ctor d).2._map = none ∧ (move_ctor d).2._map_size = 0 ∧
    (move_ctor d).2._start = deque_iterator.default ∧
    (move_ctor d).2._finish = deque_iterator.default ∧
    size B { h := h, d := (move_ctor d).2 } = some 0 ∧
    empty { h := h, d := (move_ctor d).2 } = true := by
  refine ⟨rfl, rfl, fun _ => rfl, rfl, rfl, rfl, rfl, rfl, rfl, rfl, rfl⟩

/-- C20 (the code departs from the claim): with block capacity 16, `b` a
container showing the 16 elements it received by `push_back` and `a` a
default-constructed container of the same store, the copy assignment `a = b`
is undefined: the loop `first != last` of `assign(first, last)` steps past the
last block of `b` because `b.end()` has `_current == _last`.  With 3 elements
the assignment gives `a` the 3 elements. -/
theorem copy_assign_full_block_undefined :
    (state_of 16 ((List.range 16).map Call.push_back)).bind (contents 16)
      = some (List.range 16) ∧
    (state_of 16 ((List.range 16).map Call.push_back)).map
      (fun sb => is_ub (copy_assign 16 { h := sb.h, d := deque.nil } (some sb.d)))
      = some true ∧
    ((state_of 16 ((List.range 3).map Call.push_back)).bind
      (fun sb => (copy_assign 16 { h := sb.h, d := deque.nil } (some sb.d)).toOption)).bind
      (contents 16) = some [0, 1, 2] := by
  decide

/-! ### Block count after `shrink_to_fit` -/

theorem to_size_lt (z : Int) : to_size z < 2 ^ 64 := by
  unfold to_size
  have h1 : 0 ≤ z % (2 ^ 64 : Int) := Int.emod_nonneg z (by norm_num)
  have h2 : z % (2 ^ 64 : Int) < 2 ^ 64 := Int.emod_lt_of_pos z (by norm_num)
  omega

theorem to_size_natCast (n : Nat) (h : n < 2 ^ 64) : to_size (n : Int) = n := by
  unfold to_size
  have h1 : ((n : Int)) % (2 ^ 64 : Int) = (n : Int) :=
    Int.emod_eq_of_lt (by omega) (by exact_mod_cast h)
  rw [h1]; simp

theorem create_blocks_in_use {α : Type} (B : Nat) (s : State α) (n : Nat) :
    blocks_in_use (_create_map_and_nodes B s n).d = ((n / B + 1 : Nat) : Int) := by
  simp only [blocks_in_use, _create_map_and_nodes, deque_iterator._set_node]
  push_cast
  ring

theorem create_size {α : Type} (B : Nat) (s : State α) (n : Nat)
    (hn : n < 2 ^ 64) (h' : Heap α) :
    size B { h := h', d := (_create_map_and_nodes B s n).d } = some n := by
  have hdm := Nat.div_add_mod n B
  have key : ∀ z : Int, z = (n : Int) → to_size z = n :=
    fun z hz => by rw [hz]; exact to_size_natCast n hn
  have h3 : ((B * (n / B) + n % B : Nat) : Int) = (n : Int) := by rw [hdm]
  simp only [size, _create_map_and_nodes, deque_iterator._set_node, deque_iterator.sub,
    Ptr.diff, Ptr.add]
  by_cases hq : n / B = 0
  · have hlt : n % B = n := by
      rw [hq] at hdm; simp at hdm; exact hdm
    simp only [hq, zero_add, Nat.cast_one, add_sub_cancel_right, if_true]
    refine congrArg some (key _ ?_)
    rw [hlt]; ring
  · have hne : ¬ ((((max 8 (n / B + 1 + 2) - (n / B + 1)) / 2 : Nat) : Int)
        + ((n / B + 1 : Nat) : Int) - 1
        = (((max 8 (n / B + 1 + 2) - (n / B + 1)) / 2 : Nat) : Int)) := by
      push_cast; omega
    simp only [hne, if_false, if_true]
    refine congrArg some (key _ ?_)
    push_cast at h3 ⊢
    linarith

theorem Call.apply_wf {α : Type} {B : Nat} (hB : 0 < B) (s s' : State α) (c : Call α)
    (hi : Inv B s) (h : c.apply B s = Except.ok s') : WF B s'.h.next s'.h.live s'.d := by
  cases c with
  | push_back v => exact emplace_back_wf hB s s' (some v) hi h
  | push_front v => exact emplace_front_wf hB s s' (some v) hi h
  | pop_back => exact pop_back_wf s s' hi h
  | pop_front => exact pop_front_wf hB s s' hi h
  | insert i v =>
    simp only [Call.apply] at h
    obtain ⟨p, _, hr⟩ := bind_ok _ _ _ h
    obtain ⟨r, hr1, hr⟩ := bind_ok _ _ _ hr
    have := (Except.ok.inj hr).symm; subst this
    exact emplace_wf hB s p (some v) r hi hr1
  | erase i =>
    simp only [Call.apply] at h
    obtain ⟨p, _, hr⟩ := bind_ok _ _ _ h
    obtain ⟨r, hr1, hr⟩ := bind_ok _ _ _ hr
    have := (Except.ok.inj hr).symm; subst this
    exact erase_wf hB s p r hi hr1

theorem run_same_or_wf {α : Type} {B : Nat} (hB : 0 < B) (log : List (Call α)) :
    ∀ (s s' : State α), Inv B s → run B log s = Except.ok s' →
      s' = s ∨ WF B s'.h.next s'.h.live s'.d := by
  induction log with
  | nil =>
    intro s s' _ h
    simp only [run] at h
    exact Or.inl (Except.ok.inj h).symm
  | cons c cs ih =>
    intro s s' hi h
    simp only [run] at h
    split at h
    · rename_i s1 hs1
      have hw1 := Call.apply_wf hB s s1 c hi hs1
      rcases ih s1 s' (Or.inr hw1) h with e | hw
      · rw [e]; exact Or.inr hw1
      · exact Or.inr hw
    · exact absurd h (by simp)

theorem ceil_div_cases (n B : Nat) (hB : 0 < B) :
    (n % B ≠ 0 → (n + B - 1) / B = n / B + 1) ∧ (n % B = 0 → (n + B - 1) / B = n / B) := by
  have hdm := Nat.div_add_mod n B
  have hml := Nat.mod_lt n hB
  constructor
  · intro h
    apply Nat.div_eq_of_lt_le
    · have : (n / B + 1) * B = B * (n / B) + B := by ring
      rw [this]; omega
    · have : (n / B + 1 + 1) * B = B * (n / B) + B + B := by ring
      rw [this]; omega
  · intro h
    apply Nat.div_eq_of_lt_le
    · have : n / B * B = B * (n / B) := by ring
      rw [this]; omega
    · have : (n / B + 1) * B = B * (n / B) + B := by ring
      rw [this]; omega

/-- C18 (the claim as stated fails): with block capacity 16, a container of 17
elements reduced to 16 by one `pop_back` shows 16 elements in 2 blocks;
`shrink_to_fit()` returns, the container still shows the 16 elements, and 2
blocks are in use, while `ceil(16 / 16)` is 1. -/
theorem shrink_to_fit_keeps_spare_block :
    ((state_of 16 ((List.range 17).map Call.push_back ++ [Call.pop_back])).bind
      (fun s => (shrink_to_fit 16 s).toOption)).map
      (fun s => (contents 16 s, blocks_in_use s.d)) = some (some (List.range 16), 2) ∧
    (16 + 16 - 1) / 16 = 1 := by
  decide

/-! ### Range erasure -/

/-- C14 (the code departs from the claim): with block capacity 16, on a
container showing the 40 elements it received by `push_back`,
`erase(begin() + i, begin() + j)` leaves `xs[0..i) ++ xs[j..n)` and returns the
cursor at index `i` on both shifting paths, and erasing the full range leaves
the state `clear()` leaves.  But (a) after 16 `push_back` and 16 `pop_front`
the container shows no element, `erase(begin(), begin() + 0)` returns at once
while `clear()` is undefined, and (b) after two further `push_back`, where the
container should hold `[5, 6]`, `size()` and every `erase(begin() + i,
begin() + j)` with `i < j` are undefined: the start cursor was left in a slot
that had not been written when `_pop_front_aux` read it. -/
theorem range_erase_after_drain :
    (state_of 16 ((List.range 40).map Call.push_back)).bind (erase_range_view 16 3 30)
      = some ([0, 1, 2] ++ (List.range 40).drop 30, true) ∧
    (state_of 16 ((List.range 40).map Call.push_back)).bind (erase_range_view 16 20 38)
      = some (List.range 20 ++ [38, 39], true) ∧
    (state_of 16 ((List.range 40).map Call.push_back)).bind
        (fun s => (erase_range_at 16 0 40 s).toOption.map (fun r => r.1.view 16))
      = (state_of 16 ((List.range 40).map Call.push_back)).bind
        (fun s => (clear 16 s).toOption.map (fun r => r.view 16)) ∧
    (state_of 16 ((List.range 40).map Call.push_back)).bind (erase_range_view 16 0 40)
      = some ([], true) ∧
    (state_of 16 fill_drain_log).bind (contents 16) = some [] ∧
    (state_of 16 fill_drain_log).bind (erase_range_view 16 0 0) = some ([], true) ∧
    (state_of 16 fill_drain_log).map (fun s => is_ub (clear 16 s)) = some true ∧
    ref_run refill_log [] = some [5, 6] ∧
    (state_of 16 refill_log).map (fun s => (size 16 s, contents 16 s)) = some (none, none) ∧
    (state_of 16 refill_log).map (fun s => is_ub (erase_range_at 16 0 1 s)) = some true ∧
    (state_of 16 refill_log).map (fun s => is_ub (erase_range_at 16 1 2 s)) = some true ∧
    (state_of 16 refill_log).map (fun s => is_ub (erase_range_at 16 0 2 s)) = some true := by
  refine ⟨?_, ?_, ?_, ?_, ?_, ?_, ?_, ?_, ?_, ?_, ?_, ?_⟩ <;> decide

/-! ### Block capacity and the invariants of the map and the cursors -/

/-- C21: for every element size `s >= 1` the block capacity computed by
`_deque_get_block_size` is `max(512 / s, 16)` with truncating division, and is
at least 16. -/
theorem block_size_formula (s : Nat) (hs : 1 ≤ s) :
    _deque_get_block_size s = max (512 / s) 16 ∧ 16 ≤ _deque_get_block_size s := by
  unfold _deque_get_block_size
  by_cases h : s < 32
  · have h16 : 16 ≤ 512 / s := (Nat.le_div_iff_mul_le (by omega)).mpr (by omega)
    rw [if_pos h]
    exact ⟨(max_eq_left h16).symm, h16⟩
  · have h16 : 512 / s ≤ 16 := by
      apply Nat.div_le_of_le_mul
      nlinarith
    rw [if_neg h]
    exact ⟨(max_eq_right h16).symm, le_refl 16⟩

/-- Witness for C21: an element of 8 bytes gives blocks of 64 elements. -/
theorem block_size_formula_witness :
    1 ≤ 8 ∧ (_deque_get_block_size 8 = max (512 / 8) 16 ∧ 16 ≤ _deque_get_block_size 8) :=
  ⟨by decide, block_size_formula 8 (by decide)⟩

/-- C28 (the code departs from the claim): with block capacity 16, after 16
`push_back` on a fresh container the finish cursor has intra-block offset 16
and `_current == _last`: `emplace_back` steps `_current` without moving to the
next slot.  The start cursor has offset 0, and after one more `push_back` the
finish cursor is at offset 1 of the next slot. -/
theorem finish_cursor_at_block_end :
    (state_of 16 ((List.range 16).map Call.push_back)).map
      (fun s => (s.d._map.isSome, s.d._finish.offset_view, s.d._start.offset_view))
      = some (true, (some 16, true), (some 0, false)) ∧
    (state_of 16 ((List.range 17).map Call.push_back)).map
      (fun s => (s.d._finish._node - s.d._start._node, s.d._finish.offset_view))
      = some (1, (some 1, false)) := by
  decide

/-- C30 (the code departs from the claim): with block capacity 16, after 16
`push_back` and 16 `pop_front` on a fresh container (every pop on a non-empty
container) the map is non-null, the start cursor is at slot 4 and the finish
cursor at slot 3, so the start slot is past the finish slot, and no block is
allocated: the last `pop_front` released the block the finish cursor is in,
and the slot of the start cursor was never written. -/
theorem drained_start_past_finish :
    ref_run fill_drain_log [] = some [] ∧
    (state_of 16 fill_drain_log).map
      (fun s => (s.d._map.isSome, s.d._map_size, s.d._start._node, s.d._finish._node))
      = some (true, 8, 4, 3) ∧
    (state_of 16 fill_drain_log).map
      (fun s => (live_blocks s, s.d.slots 3, s.d.slots 4))
      = some ([], Base.blk 0, Base.junk) := by
  refine ⟨?_, ?_, ?_⟩ <;> decide

/-! ### The type-erased value holder `any` -/

theorem AnyMem.holds_shows {τ : Type} [DecidableEq τ] {El : τ → Type} (m : AnyMem τ El)
    (r : Nat) (t : τ) (v : El t) (h : m.holds r t v) : m.shows r t v := by
  obtain ⟨p, hp, ho⟩ := h
  simp [AnyMem.shows, any.has_value, any.type, AnyConcept.type, any_cast, any_cast_const,
    any_cast_impl_ref, any._get_value_ptr, AnyConcept.get_ptr, AnyMem.deref, AnyMem.read,
    hp, ho]

theorem AnyMem.holds_declare_new {τ : Type} {El : τ → Type} (m : AnyMem τ El)
    (r : Nat) (t : τ) (v : El t) :
    (AnyMem.declare (any.of_value m t v) r).holds r t v := by
  refine ⟨m.next, ?_, ?_⟩ <;>
    simp [AnyMem.declare, any.of_value, AnyMem.new_model, AnyMem.set]

/-- C22: an `any` object defined from a value `v` of type `T`, by the value
constructor, by the in-place constructor or by `make_any`, has
`has_value() == true` and `type() == typeid(T)`, and `any_cast<T>` of it
returns `v`. -/
theorem constructed_any_shows_value {τ : Type} [DecidableEq τ] {El : τ → Type}
    (m : AnyMem τ El) (a : Nat) (t : τ) (v : El t) :
    (AnyMem.declare (any.of_value m t v) a).shows a t v ∧
    (AnyMem.declare (any.in_place m t v) a).shows a t v ∧
    (AnyMem.declare (make_any m t v) a).shows a t v :=
  ⟨AnyMem.holds_shows _ a t v (AnyMem.holds_declare_new m a t v),
   AnyMem.holds_shows _ a t v (AnyMem.holds_declare_new m a t v),
   AnyMem.holds_shows _ a t v (AnyMem.holds_declare_new m a t v)⟩
theorem AnyMem.WF.lt_next {τ : Type} {El : τ → Type} {m : AnyMem τ El} (hw : m.WF)
    (r p : Nat) (h : (m.var r)._storage = some p) : p < m.next := by
  by_contra hge
  have h1 := hw.fresh p (by omega)
  have h2 := hw.live r p h
  rw [h1] at h2
  exact absurd h2 (by simp)

theorem AnyMem.is_copy_of_null {τ : Type} [DecidableEq τ] {El : τ → Type}
    (m m' : AnyMem τ El) (a b : Nat)
    (ha : (m.var a)._storage = none) (ha' : (m'.var a)._storage = none)
    (hb' : (m'.var b)._storage = none) : m.is_copy m' a b := by
  refine ⟨?_, ?_, ?_, ?_, ?_⟩
  · simp [any.has_value, ha, hb']
  · simp [any.type, ha, hb']
  · simp [any.has_value, ha, ha']
  · simp [any.type, ha, ha']
  · intro t v ⟨p, hp, _⟩
    rw [ha] at hp
    exact absurd hp (by simp)

theorem AnyMem.is_copy_of_object {τ : Type} [DecidableEq τ] {El : τ → Type}
    (m m' : AnyMem τ El) (a b : Nat) (p q : Nat) (x : AnyModel τ El)
    (ha : (m.var a)._storage = some p) (hx : m.obj p = some x)
    (ha' : (m'.var a)._storage = some p) (hx' : m'.obj p = some x)
    (hb' : (m'.var b)._storage = some q) (hy' : m'.obj q = some x) (hpq : q ≠ p) :
    m.is_copy m' a b := by
  refine ⟨?_, ?_, ?_, ?_, ?_⟩
  · simp [any.has_value, ha, hb']
  · simp [any.type, AnyConcept.type, ha, hb', hx, hy']
  · simp [any.has_value, ha, ha']
  · simp [any.type, AnyConcept.type, ha, ha', hx, hx']
  · intro t v ⟨p1, hp1, ho1⟩
    rw [ha] at hp1
    have hp1' := Option.some.inj hp1
    subst hp1'
    rw [hx] at ho1
    have hxe := Option.some.inj ho1
    subst hxe
    have hha : m'.holds a t v := ⟨p, ha', hx'⟩
    have hhb : m'.holds b t v := ⟨q, hb', hy'⟩
    refine ⟨AnyMem.holds_shows _ _ _ _ hhb, AnyMem.holds_shows _ _ _ _ hha, hha, ?_⟩
    rw [ha', hb']
    intro h
    exact hpq (Option.some.inj h)

/-- C23: for every `any` object `a`, empty or holding a value, and every other
object `b`, the copy construction `any b(a)` and the copy assignment `b = a`
return and leave `b` with the `has_value()` and `type()` of `a`, and, if `a`
held `v`, with `any_cast` of `b` giving `v` from storage other than that of
`a`; `a` is left as it was and still holds `v`. -/
theorem copy_gives_own_equal_value {τ : Type} [DecidableEq τ] {El : τ → Type}
    (m : AnyMem τ El) (hw : m.WF) (a b : Nat) (hab : a ≠ b) :
    ∃ m1 m2, (any.copy m a).map (fun r => AnyMem.declare r b) = some m1 ∧
      any.copy_assign m b a = some m2 ∧ m.is_copy m1 a b ∧ m.is_copy m2 a b := by
  have hba : b ≠ a := fun h => hab h.symm
  cases hpa : (m.var a)._storage with
  | none =>
    have h1 : any.copy m a = some (m, { _storage := none }) := by
      simp [any.copy, hpa]
    have hset_a : ((m.set b { _storage := none }).var a)._storage = none := by
      simp [AnyMem.set, hab, hpa]
    have hset_b : ((m.set b { _storage := none }).var b)._storage = none := by
      simp [AnyMem.set]
    refine ⟨m.set b { _storage := none }, ?_⟩
    cases hpb : (m.var b)._storage with
    | none =>
      refine ⟨m.set b { _storage := none }, ?_, ?_,
        AnyMem.is_copy_of_null m _ a b hpa hset_a hset_b,
        AnyMem.is_copy_of_null m _ a b hpa hset_a hset_b⟩
      · simp [h1, AnyMem.declare]
      · simp [any.copy_assign, h1, any.swap, any.dtor, AnyMem.delete_model, hpb]
    | some q =>
      have hq := hw.live b q hpb
      obtain ⟨y, hy⟩ := Option.isSome_iff_exists.mp hq
      refine ⟨{ (m.set b { _storage := none }) with
          obj := fun i => if i = q then none else (m.set b { _storage := none }).obj i }, ?_, ?_,
        AnyMem.is_copy_of_null m _ a b hpa hset_a hset_b,
        AnyMem.is_copy_of_null m _ a b hpa ?_ ?_⟩
      · simp [h1, AnyMem.declare]
      · simp [any.copy_assign, h1, any.swap, any.dtor, AnyMem.delete_model, hpb, AnyMem.set, hy]
      · simp [AnyMem.set, hab, hpa]
      · simp [AnyMem.set]
  | some p =>
    have hp := hw.live a p hpa
    obtain ⟨x, hx⟩ := Option.isSome_iff_exists.mp hp
    have hlt := hw.lt_next a p hpa
    have hne : p ≠ m.next := by omega
    have h1 : any.copy m a
        = some ((m.new_model x.T x._value).1, { _storage := some m.next }) := by
      simp [any.copy, hpa, AnyConcept.clone, hx, AnyMem.new_model]
    refine ⟨((m.new_model x.T x._value).1).set b { _storage := some m.next }, ?_⟩
    have hA : ((((m.new_model x.T x._value).1).set b { _storage := some m.next }).var a)._storage
        = some p := by
      simp [AnyMem.set, AnyMem.new_model, hab, hpa]
    have hB : ((((m.new_model x.T x._value).1).set b { _storage := some m.next }).var b)._storage
        = some m.next := by
      simp [AnyMem.set]
    have hXp : (((m.new_model x.T x._value).1).set b { _storage := some m.next }).obj p
        = some x := by
      simp [AnyMem.set, AnyMem.new_model, hne, hx]
    have hXq : (((m.new_model x.T x._value).1).set b { _storage := some m.next }).obj m.next
        = some x := by
      simp [AnyMem.set, AnyMem.new_model]
    have hc1 := AnyMem.is_copy_of_object m _ a b p m.next x hpa hx hA hXp hB hXq (Ne.symm hne)
    cases hpb : (m.var b)._storage with
    | none =>
      refine ⟨((m.new_model x.T x._value).1).set b { _storage := some m.next }, ?_, ?_, hc1, hc1⟩
      · simp [h1, AnyMem.declare]
      · simp [any.copy_assign, h1, any.swap, any.dtor, AnyMem.delete_model, AnyMem.new_model,
          hpb]
    | some q =>
      have hq := hw.live b q hpb
      obtain ⟨y, hy⟩ := Option.isSome_iff_exists.mp hq
      have hqlt := hw.lt_next b q hpb
      have hqne : q ≠ m.next := by omega
      have hqp : q ≠ p := by
        intro h
        rw [h] at hpb
        exact hba (hw.own b a p hpb hpa)
      refine ⟨{ (((m.new_model x.T x._value).1).set b { _storage := some m.next }) with
          obj := fun i => if i = q then none
            else (((m.new_model x.T x._value).1).set b { _storage := some m.next }).obj i },
        ?_, ?_, hc1, ?_⟩
      · simp [h1, AnyMem.declare]
      · simp [any.copy_assign, h1, any.swap, any.dtor, AnyMem.delete_model, AnyMem.new_model,
          hpb, AnyMem.set, hqne, hy]
      · refine AnyMem.is_copy_of_object m _ a b p m.next x hpa hx ?_ ?_ ?_ ?_ (Ne.symm hne)
        · simp [AnyMem.set, AnyMem.new_model, hab, hpa]
        · simp [AnyMem.set, AnyMem.new_model, hne, hx, Ne.symm hqp]
        · simp [AnyMem.set]
        · simp [AnyMem.set, AnyMem.new_model, Ne.symm hqne]

theorem AnyMem.null_observe {τ : Type} {El : τ → Type} (m : AnyMem τ El) (r : Nat)
    (h : (m.var r)._storage = none) :
    (m.var r).has_value = false ∧ (m.var r).type m = some type_info.void := by
  simp [any.has_value, any.type, h]

/-- C24: for every `any` object `a` holding a value `v` of type `T` and every
other object `b`, after the move construction `any b(std::move(a))`, and after
the move assignment `b = std::move(a)`, which returns, `b` has a value, its
`type()` is `typeid(T)` and `any_cast<T>` of it gives `v`, and `a` has no
value and `type() == typeid(void)`. -/
theorem move_transfers_value {τ : Type} [DecidableEq τ] {El : τ → Type}
    (m : AnyMem τ El) (hw : m.WF) (a b : Nat) (hab : a ≠ b) (t : τ) (v : El t)
    (h : m.holds a t v) :
    ((AnyMem.declare (any.move m a) b).shows b t v ∧
      ((AnyMem.declare (any.move m a) b).var a).has_value = false ∧
      ((AnyMem.declare (any.move m a) b).var a).type (AnyMem.declare (any.move m a) b)
        = some type_info.void) ∧
    ∃ m2, any.move_assign m b a = some m2 ∧ m2.shows b t v ∧
      (m2.var a).has_value = false ∧ (m2.var a).type m2 = some type_info.void := by
  have hba : b ≠ a := fun e => hab e.symm
  obtain ⟨p, hp, ho⟩ := h
  constructor
  · have hb : (AnyMem.declare (any.move m a) b).holds b t v := by
      refine ⟨p, ?_, ?_⟩
      · simp [AnyMem.declare, any.move, AnyMem.set, hp]
      · simp [AnyMem.declare, any.move, AnyMem.set, ho]
    have ha : ((AnyMem.declare (any.move m a) b).var a)._storage = none := by
      simp [AnyMem.declare, any.move, AnyMem.set, hab]
    have hn := AnyMem.null_observe _ a ha
    exact ⟨AnyMem.holds_shows _ _ _ _ hb, hn.1, hn.2⟩
  · cases hpb : (m.var b)._storage with
    | none =>
      refine ⟨(m.set a { _storage := none }).set b { _storage := some p }, ?_, ?_, ?_⟩
      · simp [any.move_assign, any.move, any.swap, any.dtor, AnyMem.delete_model, AnyMem.set,
          hba, hpb, hp]
      · apply AnyMem.holds_shows
        refine ⟨p, ?_, ?_⟩
        · simp [AnyMem.set]
        · simp [AnyMem.set, ho]
      · exact AnyMem.null_observe _ a (by simp [AnyMem.set, hab])
    | some q =>
      have hq := hw.live b q hpb
      obtain ⟨y, hy⟩ := Option.isSome_iff_exists.mp hq
      have hqp : q ≠ p := by
        intro e
        rw [e] at hpb
        exact hba (hw.own b a p hpb hp)
      refine ⟨{ ((m.set a { _storage := none }).set b { _storage := some p }) with
          obj := fun i => if i = q then none
            else ((m.set a { _storage := none }).set b { _storage := some p }).obj i },
        ?_, ?_, ?_⟩
      · simp [any.move_assign, any.move, any.swap, any.dtor, AnyMem.delete_model, AnyMem.set,
          hba, hpb, hp, hy]
      · apply AnyMem.holds_shows
        refine ⟨p, ?_, ?_⟩
        · simp [AnyMem.set]
        · simp [AnyMem.set, ho, Ne.symm hqp]
      · exact AnyMem.null_observe _ a (by simp [AnyMem.set, hab])

/-- C27: for every `any` object `e` holding a value `v` of type `T`, the self
copy assignment `e = e` and the self move assignment `e = std::move(e)` return
and leave `e` with a value, `type() == typeid(T)` and `any_cast<T>` giving
`v`. -/
theorem self_assignment_keeps_value {τ : Type} [DecidableEq τ] {El : τ → Type}
    (m : AnyMem τ El) (hw : m.WF) (e : Nat) (t : τ) (v : El t) (h : m.holds e t v) :
    ∃ m1 m2, any.copy_assign m e e = some m1 ∧ m1.shows e t v ∧
      any.move_assign m e e = some m2 ∧ m2.shows e t v := by
  obtain ⟨p, hp, ho⟩ := h
  have hlt := hw.lt_next e p hp
  have hne : p ≠ m.next := by omega
  refine ⟨{ ((m.new_model t v).1.set e { _storage := some m.next }) with
      obj := fun i => if i = p then none
        else ((m.new_model t v).1.set e { _storage := some m.next }).obj i },
    (m.set e { _storage := none }).set e { _storage := some p }, ?_, ?_, ?_, ?_⟩
  · simp [any.copy_assign, any.copy, AnyConcept.clone, any.swap, any.dtor,
      AnyMem.delete_model, AnyMem.set, AnyMem.new_model, hp, ho, hne]
  · apply AnyMem.holds_shows
    refine ⟨m.next, ?_, ?_⟩
    · simp [AnyMem.set]
    · simp [AnyMem.set, AnyMem.new_model, Ne.symm hne]
  · simp [any.move_assign, any.move, any.swap, any.dtor, AnyMem.delete_model, AnyMem.set, hp]
  · apply AnyMem.holds_shows
    refine ⟨p, ?_, ?_⟩
    · simp [AnyMem.set]
    · simp [AnyMem.set, ho]

theorem AnyMem.WF.empty_or_holds {τ : Type} {El : τ → Type} {m : AnyMem τ El} (hw : m.WF)
    (r : Nat) : (m.var r).has_value = false ∨ ∃ (t : τ) (v : El t), m.holds r t v := by
  cases hp : (m.var r)._storage with
  | none => exact Or.inl (by simp [any.has_value, hp])
  | some p =>
    obtain ⟨x, hx⟩ := Option.isSome_iff_exists.mp (hw.live r p hp)
    exact Or.inr ⟨x.T, x._value, p, hp, hx⟩

theorem AnyMem.holds_write {τ : Type} [DecidableEq τ] {El : τ → Type} (m : AnyMem τ El)
    (r : Nat) (t : τ) (v w : El t) (p : Nat) (hp : (m.var r)._storage = some p)
    (ho : m.obj p = some { T := t, _value := v }) :
    ∃ m1, m.write (some p) t w = some m1 ∧ m1.holds r t w ∧ m1.read p t = some w := by
  refine ⟨{ m with obj := fun i => if i = p then some { T := t, _value := w } else m.obj i },
    ?_, ⟨p, ?_, ?_⟩, ?_⟩
  · simp [AnyMem.write, ho]
  · exact hp
  · simp
  · simp [AnyMem.read]

theorem any_cast_impl_ref_holds {τ : Type} [DecidableEq τ] {El : τ → Type} (m : AnyMem τ El)
    (r : Nat) (t : τ) (v : El t) (p : Nat) (hp : (m.var r)._storage = some p)
    (ho : m.obj p = some { T := t, _value := v }) :
    any_cast_impl_ref m (some r) (type_info.of t) = Except.ok (some p) ∧
    m.deref (some p) t = Except.ok v := by
  simp [any_cast_impl_ref, any.has_value, any.type, AnyConcept.type, any._get_value_ptr,
    AnyConcept.get_ptr, AnyMem.deref, AnyMem.read, hp, ho]

theorem any_cast_impl_ref_throws_iff {τ : Type} [DecidableEq τ] {El : τ → Type}
    (m : AnyMem τ El) (r : Nat) (t : τ) :
    (any_cast_impl_ref m (some r) (type_info.of t) = Except.error AnyFault.bad_any_cast ↔
      ((m.var r).has_value = false ∨ ∃ (t' : τ) (v : El t'), m.holds r t' v ∧ t' ≠ t)) ∧
    (∀ q, any_cast_impl_ref m (some r) (type_info.of t) = Except.ok q →
      ∃ v, m.holds r t v) := by
  cases hp : (m.var r)._storage with
  | none =>
    constructor
    · simp [any_cast_impl_ref, any.has_value, hp]
    · intro q hq
      simp [any_cast_impl_ref, any.has_value, hp] at hq
  | some p =>
    cases ho : m.obj p with
    | none =>
      constructor
      · simp only [any_cast_impl_ref, any.has_value, any.type, AnyConcept.type, hp, ho]
        simp only [Option.isSome_some, Bool.true_eq_false, if_false, false_or]
        constructor
        · intro h; exact absurd h (by simp)
        · rintro ⟨t', v, ⟨p1, hp1, ho1⟩, _⟩
          rw [hp] at hp1; have := Option.some.inj hp1; subst this
          rw [ho] at ho1; exact absurd ho1 (by simp)
      · intro q hq
        simp [any_cast_impl_ref, any.has_value, any.type, AnyConcept.type, hp, ho] at hq
    | some x =>
      by_cases hT : x.T = t
      · constructor
        · simp only [any_cast_impl_ref, any.has_value, any.type, AnyConcept.type,
            any._get_value_ptr, AnyConcept.get_ptr, hp, ho, hT]
          simp only [Option.isSome_some, Bool.true_eq_false, if_false, false_or, ne_eq,
            not_true_eq_false]
          constructor
          · intro h; exact absurd h (by simp)
          · rintro ⟨t', v, ⟨p1, hp1, ho1⟩, hne⟩
            rw [hp] at hp1; have := Option.some.inj hp1; subst this
            rw [ho] at ho1
            have hx := Option.some.inj ho1
            subst hx
            exact absurd hT hne
        · intro q _
          subst hT
          exact ⟨x._value, p, hp, ho⟩
      · constructor
        · simp only [any_cast_impl_ref, any.has_value, any.type, AnyConcept.type, hp, ho]
          have hne : type_info.of x.T ≠ type_info.of t := by
            intro h; exact hT (type_info.of.inj h)
          simp only [Option.isSome_some, Bool.true_eq_false, if_false, false_or, ne_eq, hne,
            not_false_eq_true, if_true, true_iff]
          exact ⟨x.T, x._value, ⟨p, hp, ho⟩, hT⟩
        · intro q hq
          have hne : type_info.of x.T ≠ type_info.of t := by
            intro h; exact hT (type_info.of.inj h)
          simp [any_cast_impl_ref, any.has_value, any.type, AnyConcept.type, hp, ho, hne] at hq

theorem any_cast_rvalue_holds {τ : Type} [DecidableEq τ] {El : τ → Type}
    (moved : (t : τ) → El t → El t) (m : AnyMem τ El) (r : Nat) (t : τ) (v : El t)
    (h : m.holds r t v) :
    ∃ m1, any_cast_rvalue moved m r t = Except.ok (m1, v) ∧ m1.holds r t (moved t v) := by
  obtain ⟨p, hp, ho⟩ := h
  obtain ⟨h1, h2⟩ := any_cast_impl_ref_holds m r t v p hp ho
  obtain ⟨m1, hw1, hh1, _⟩ := AnyMem.holds_write m r t v (moved t v) p hp ho
  refine ⟨m1, ?_, hh1⟩
  simp only [any_cast_rvalue, h1, h2, hw1]

/-- C25: for every `any` object `a` and requested type `T`, each reference
form of `any_cast<T>` (on `any &`, on `const any &` and on `any &&`) throws
`BadAnyCast` exactly when `a` is empty or holds a value of a type other than
`T`; when `a` holds `v` of type `T` the call returns `v`. -/
theorem any_cast_throws_iff {τ : Type} [DecidableEq τ] {El : τ → Type}
    (moved : (t : τ) → El t → El t) (m : AnyMem τ El) (hw : m.WF) (a : Nat) (t : τ) :
    ((m.var a).has_value = false ∨ ∃ (t' : τ) (v : El t'), m.holds a t' v) ∧
    (any_cast m a t = Except.error AnyFault.bad_any_cast ↔
      ((m.var a).has_value = false ∨ ∃ (t' : τ) (v : El t'), m.holds a t' v ∧ t' ≠ t)) ∧
    (any_cast_const m a t = Except.error AnyFault.bad_any_cast ↔
      ((m.var a).has_value = false ∨ ∃ (t' : τ) (v : El t'), m.holds a t' v ∧ t' ≠ t)) ∧
    (any_cast_rvalue moved m a t = Except.error AnyFault.bad_any_cast ↔
      ((m.var a).has_value = false ∨ ∃ (t' : τ) (v : El t'), m.holds a t' v ∧ t' ≠ t)) ∧
    (∀ v : El t, m.holds a t v →
      any_cast m a t = Except.ok v ∧ any_cast_const m a t = Except.ok v ∧
      ∃ m1, any_cast_rvalue moved m a t = Except.ok (m1, v) ∧
        m1.holds a t (moved t v)) := by
  obtain ⟨hiff, hok⟩ := any_cast_impl_ref_throws_iff m a t
  have key : ∀ (P : Prop),
      ((any_cast_impl_ref m (some a) (type_info.of t) = Except.error AnyFault.bad_any_cast)
        → P) →
      (∀ e, any_cast_impl_ref m (some a) (type_info.of t) = Except.error e →
        e ≠ AnyFault.bad_any_cast → ¬ P) →
      (∀ v : El t, m.holds a t v → ¬ P) →
      (P ↔ ((m.var a).has_value = false ∨
        ∃ (t' : τ) (v : El t'), m.holds a t' v ∧ t' ≠ t)) := by
    intro P h1 h2 h3
    rw [← hiff]
    cases himpl : any_cast_impl_ref m (some a) (type_info.of t) with
    | error e =>
      by_cases he : e = AnyFault.bad_any_cast
      · subst he
        exact ⟨fun _ => rfl, fun _ => h1 himpl⟩
      · constructor
        · intro hP; exact absurd hP (h2 e himpl he)
        · intro h; exact absurd (Except.error.inj h) he
    | ok q =>
      obtain ⟨v, hv⟩ := hok q himpl
      constructor
      · intro hP; exact absurd hP (h3 v hv)
      · intro h; exact absurd h (by simp)
  refine ⟨hw.empty_or_holds a, ?_, ?_, ?_, ?_⟩
  · apply key
    · intro h; simp only [any_cast, h]
    · intro e h he; simp only [any_cast, h]
      intro h'; exact he (Except.error.inj h')
    · intro v hv
      rw [(AnyMem.holds_shows m a t v hv).2.2.1]
      simp
  · apply key
    · intro h; simp only [any_cast_const, h]
    · intro e h he; simp only [any_cast_const, h]
      intro h'; exact he (Except.error.inj h')
    · intro v hv
      rw [(AnyMem.holds_shows m a t v hv).2.2.2]
      simp
  · apply key
    · intro h; simp only [any_cast_rvalue, h]
    · intro e h he; simp only [any_cast_rvalue, h]
      intro h'; exact he (Except.error.inj h')
    · intro v hv
      obtain ⟨m1, h1, _⟩ := any_cast_rvalue_holds moved m a t v hv
      rw [h1]
      simp
  · intro v hv
    exact ⟨(AnyMem.holds_shows m a t v hv).2.2.1, (AnyMem.holds_shows m a t v hv).2.2.2,
      any_cast_rvalue_holds moved m a t v hv⟩

theorem any_cast_ptr_holds {τ : Type} [DecidableEq τ] {El : τ → Type} (m : AnyMem τ El)
    (r : Nat) (t : τ) (v : El t) (p : Nat) (hp : (m.var r)._storage = some p)
    (ho : m.obj p = some { T := t, _value := v }) :
    any_cast_ptr m (some r) t = some (some p) ∧
    any_cast_ptr_const m (some r) t = some (some p) ∧ m.read p t = some v := by
  simp [any_cast_ptr, any_cast_ptr_const, any.has_value, any.type, AnyConcept.type,
    any._get_value_ptr, AnyConcept.get_ptr, AnyMem.read, hp, ho]

/-- C26: for every pointer operand `p`, null or the address of an `any`
object, and requested type `T`, both pointer forms of `any_cast<T>` return,
and return null exactly when `p` is null, `*p` is empty, or `*p` holds a value
of a type other than `T`; otherwise the result points to the contained value
`v`, and after a write `*q = w` through it the reference forms of `any_cast<T>`
give `w`, the pointer form gives the same pointer and reading it gives `w`. -/
theorem any_cast_ptr_null_iff {τ : Type} [DecidableEq τ] {El : τ → Type}
    (m : AnyMem τ El) (hw : m.WF) (operand : Option Nat) (t : τ) :
    ∃ res, any_cast_ptr m operand t = some res ∧ any_cast_ptr_const m operand t = some res ∧
      (res = none ↔
        (operand = none ∨ ∃ r, operand = some r ∧
          ((m.var r).has_value = false ∨
            ∃ (t' : τ) (v : El t'), m.holds r t' v ∧ t' ≠ t))) ∧
      (∀ q, res = some q →
        ∃ (r : Nat) (v : El t), operand = some r ∧ m.holds r t v ∧ m.read q t = some v ∧
          ∀ w : El t, ∃ m1, m.write (some q) t w = some m1 ∧
            any_cast m1 r t = Except.ok w ∧ any_cast_const m1 r t = Except.ok w ∧
            any_cast_ptr m1 (some r) t = some (some q) ∧ m1.read q t = some w) := by
  cases operand with
  | none =>
    refine ⟨none, by simp [any_cast_ptr], by simp [any_cast_ptr_const], by simp, ?_⟩
    intro q hq; exact absurd hq (by simp)
  | some r =>
    cases hp : (m.var r)._storage with
    | none =>
      refine ⟨none, by simp [any_cast_ptr, any.has_value, hp],
        by simp [any_cast_ptr_const, any.has_value, hp], ?_, ?_⟩
      · simp [any.has_value, hp]
      · intro q hq; exact absurd hq (by simp)
    | some p =>
      obtain ⟨x, hx⟩ := Option.isSome_iff_exists.mp (hw.live r p hp)
      by_cases hT : x.T = t
      · subst hT
        obtain ⟨h1, h2, h3⟩ := any_cast_ptr_holds m r x.T x._value p hp hx
        refine ⟨some p, h1, h2, ?_, ?_⟩
        · constructor
          · intro h; exact absurd h (by simp)
          · rintro (h | ⟨r1, hr1, h | ⟨t', v, ⟨p1, hp1, ho1⟩, hne⟩⟩)
            · exact absurd h (by simp)
            · have := Option.some.inj hr1; subst this
              simp [any.has_value, hp] at h
            · have := Option.some.inj hr1; subst this
              rw [hp] at hp1
              have := Option.some.inj hp1; subst this
              rw [hx] at ho1
              have hxe := Option.some.inj ho1
              subst hxe
              exact absurd rfl hne
        · intro q hq
          have := Option.some.inj hq; subst this
          refine ⟨r, x._value, rfl, ⟨p, hp, hx⟩, h3, ?_⟩
          intro w
          obtain ⟨m1, hw1, ⟨p1, hp1, ho1⟩, hr1⟩ := AnyMem.holds_write m r x.T x._value w p hp hx
          have hs := AnyMem.holds_shows m1 r x.T w ⟨p1, hp1, ho1⟩
          refine ⟨m1, hw1, hs.2.2.1, hs.2.2.2, ?_, hr1⟩
          have hpe : (m1.var r)._storage = some p := by
            simp only [AnyMem.write, hx, if_true] at hw1
            have := Option.some.inj hw1
            rw [← this]
            exact hp
          rw [hpe] at hp1
          have := Option.some.inj hp1; subst this
          exact (any_cast_ptr_holds m1 r x.T w p hpe ho1).1
      · have hne : type_info.of x.T ≠ type_info.of t := by
          intro h; exact hT (type_info.of.inj h)
        refine ⟨none, ?_, ?_, ?_, ?_⟩
        · simp [any_cast_ptr, any.has_value, any.type, AnyConcept.type, hp, hx, hne]
        · simp [any_cast_ptr_const, any.has_value, any.type, AnyConcept.type, hp, hx, hne]
        · simp only [true_iff]
          exact Or.inr ⟨r, rfl, Or.inr ⟨x.T, x._value, ⟨p, hp, hx⟩, hT⟩⟩
        · intro q hq; exact absurd hq (by simp)

theorem AnyMem.WF.empty {τ : Type} {El : τ → Type} : (AnyMem.empty : AnyMem τ El).WF :=
  { fresh := fun _ _ => rfl
    live := fun _ _ h => by simp [AnyMem.empty] at h
    own := fun _ _ _ h => by simp [AnyMem.empty] at h }

theorem AnyMem.WF.declare_value {τ : Type} {El : τ → Type} {m : AnyMem τ El} (hw : m.WF)
    (r : Nat) (t : τ) (v : El t) : (AnyMem.declare (any.of_value m t v) r).WF := by
  refine ⟨?_, ?_, ?_⟩
  · intro p hp
    simp only [AnyMem.declare, any.of_value, AnyMem.new_model, AnyMem.set] at hp ⊢
    have hne : p ≠ m.next := by omega
    rw [if_neg hne]
    exact hw.fresh p (by omega)
  · intro r1 p h
    simp only [AnyMem.declare, any.of_value, AnyMem.new_model, AnyMem.set] at h ⊢
    by_cases hr : r1 = r
    · rw [if_pos hr] at h
      have := Option.some.inj h
      rw [← this]; simp
    · rw [if_neg hr] at h
      have hlt := hw.lt_next r1 p h
      have hne : p ≠ m.next := by omega
      rw [if_neg hne]
      exact hw.live r1 p h
  · intro r1 r2 p h1 h2
    simp only [AnyMem.declare, any.of_value, AnyMem.new_model, AnyMem.set] at h1 h2
    by_cases hr1 : r1 = r
    · by_cases hr2 : r2 = r
      · rw [hr1, hr2]
      · rw [if_pos hr1] at h1
        rw [if_neg hr2] at h2
        have := Option.some.inj h1
        have hlt := hw.lt_next r2 p h2
        omega
    · by_cases hr2 : r2 = r
      · rw [if_neg hr1] at h1
        rw [if_pos hr2] at h2
        have := Option.some.inj h2
        have hlt := hw.lt_next r1 p h1
        omega
      · rw [if_neg hr1] at h1
        rw [if_neg hr2] at h2
        exact hw.own r1 r2 p h1 h2

theorem test_mem_wf : test_mem.WF := by
  unfold test_mem
  exact AnyMem.WF.declare_value
    (AnyMem.WF.declare_value
      (AnyMem.WF.empty : (AnyMem.empty : AnyMem TestType TestType.El).WF) 0
      TestType.int (456 : Int)) 1
    TestType.string ("x" : String)

theorem test_mem_holds_int : test_mem.holds 0 TestType.int (456 : Int) :=
  ⟨0, rfl, rfl⟩

theorem test_mem_holds_string : test_mem.holds 1 TestType.string "x" :=
  ⟨1, rfl, rfl⟩

/-- Witness for C23: with `a` holding the `int` 456 and `b` holding the string
`"x"`, `any c(a)` built in place of `b` and `b = a`. -/
theorem copy_gives_own_equal_value_witness :
    test_mem.WF ∧ (0 : Nat) ≠ 1 ∧
    ∃ m1 m2, (any.copy test_mem 0).map (fun r => AnyMem.declare r 1) = some m1 ∧
      any.copy_assign test_mem 1 0 = some m2 ∧ test_mem.is_copy m1 0 1 ∧
      test_mem.is_copy m2 0 1 :=
  ⟨test_mem_wf, by decide, copy_gives_own_equal_value test_mem test_mem_wf 0 1 (by decide)⟩

/-- Witness for C24: with `a` holding the `int` 456 and `b` holding the string
`"x"`, `any c(std::move(a))` built in place of `b` and `b = std::move(a)`. -/
theorem move_transfers_value_witness :
    test_mem.WF ∧ (0 : Nat) ≠ 1 ∧ test_mem.holds 0 TestType.int (456 : Int) ∧
    (((AnyMem.declare (any.move test_mem 0) 1).shows 1 TestType.int (456 : Int) ∧
      ((AnyMem.declare (any.move test_mem 0) 1).var 0).has_value = false ∧
      ((AnyMem.declare (any.move test_mem 0) 1).var 0).type
          (AnyMem.declare (any.move test_mem 0) 1)
        = some type_info.void) ∧
    ∃ m2, any.move_assign test_mem 1 0 = some m2 ∧ m2.shows 1 TestType.int (456 : Int) ∧
      (m2.var 0).has_value = false ∧ (m2.var 0).type m2 = some type_info.void) :=
  ⟨test_mem_wf, by decide, test_mem_holds_int,
    move_transfers_value test_mem test_mem_wf 0 1 (by decide) TestType.int 456
      test_mem_holds_int⟩

/-- Witness for C25: `any_cast<std::string>` on the object holding the `int`
456 and on the object holding the string `"x"`. -/
theorem any_cast_throws_iff_witness :
    test_mem.WF ∧
    any_cast test_mem 0 TestType.string = Except.error AnyFault.bad_any_cast ∧
    any_cast test_mem 1 TestType.string = Except.ok "x" :=
  ⟨test_mem_wf,
   (any_cast_throws_iff TestType.moved test_mem test_mem_wf 0 TestType.string).2.1.mpr
     (Or.inr ⟨TestType.int, 456, test_mem_holds_int, by decide⟩),
   ((any_cast_throws_iff TestType.moved test_mem test_mem_wf 1 TestType.string).2.2.2.2 "x"
     test_mem_holds_string).1⟩

/-- Witness for C26: the pointer form of `any_cast<int>` on the object holding
the `int` 456 gives a non-null pointer, on the object holding a string and on
a null operand it gives null. -/
theorem any_cast_ptr_null_iff_witness :
    test_mem.WF ∧
    (∃ res, any_cast_ptr test_mem (some 0) TestType.int = some res ∧
      any_cast_ptr_const test_mem (some 0) TestType.int = some res ∧
      (res = none ↔
        ((some 0 : Option Nat) = none ∨ ∃ r, (some 0 : Option Nat) = some r ∧
          ((test_mem.var r).has_value = false ∨
            ∃ (t' : TestType) (v : t'.El), test_mem.holds r t' v ∧ t' ≠ TestType.int))) ∧
      (∀ q, res = some q →
        ∃ (r : Nat) (v : TestType.int.El), (some 0 : Option Nat) = some r ∧
          test_mem.holds r TestType.int v ∧ test_mem.read q TestType.int = some v ∧
          ∀ w : TestType.int.El, ∃ m1, test_mem.write (some q) TestType.int w = some m1 ∧
            any_cast m1 r TestType.int = Except.ok w ∧
            any_cast_const m1 r TestType.int = Except.ok w ∧
            any_cast_ptr m1 (some r) TestType.int = some (some q) ∧
            m1.read q TestType.int = some w)) ∧
    any_cast_ptr test_mem (some 0) TestType.int = some (some 0) ∧
    any_cast_ptr test_mem (some 1) TestType.int = some none ∧
    any_cast_ptr test_mem none TestType.int = some none :=
  ⟨test_mem_wf, any_cast_ptr_null_iff test_mem test_mem_wf (some 0) TestType.int,
    by decide, by decide, by decide⟩

/-- Witness for C27: `e = e` and `e = std::move(e)` on the object holding the
`int` 456. -/
theorem self_assignment_keeps_value_witness :
    test_mem.WF ∧ test_mem.holds 0 TestType.int (456 : Int) ∧
    ∃ m1 m2, any.copy_assign test_mem 0 0 = some m1 ∧ m1.shows 0 TestType.int (456 : Int) ∧
      any.move_assign test_mem 0 0 = some m2 ∧ m2.shows 0 TestType.int (456 : Int) :=
  ⟨test_mem_wf, test_mem_holds_int,
    self_assignment_keeps_value test_mem test_mem_wf 0 TestType.int 456 test_mem_holds_int⟩

/-! #### The ownership invariant is kept by the member functions -/

theorem AnyMem.WF.set {τ : Type} {El : τ → Type} {m : AnyMem τ El} (hw : m.WF)
    (r : Nat) (x : any)
    (hx : ∀ p, x._storage = some p →
      (m.obj p).isSome = true ∧ ∀ r', r' ≠ r → (m.var r')._storage ≠ some p) :
    (m.set r x).WF := by
  refine ⟨hw.fresh, ?_, ?_⟩
  · intro r1 p h
    simp only [AnyMem.set] at h ⊢
    by_cases hr : r1 = r
    · rw [if_pos hr] at h; exact (hx p h).1
    · rw [if_neg hr] at h; exact hw.live r1 p h
  · intro r1 r2 p h1 h2
    simp only [AnyMem.set] at h1 h2
    by_cases hr1 : r1 = r
    · by_cases hr2 : r2 = r
      · rw [hr1, hr2]
      · rw [if_pos hr1] at h1
        rw [if_neg hr2] at h2
        exact absurd h2 ((hx p h1).2 r2 hr2)
    · by_cases hr2 : r2 = r
      · rw [if_neg hr1] at h1
        rw [if_pos hr2] at h2
        exact absurd h1 ((hx p h2).2 r1 hr1)
      · rw [if_neg hr1] at h1
        rw [if_neg hr2] at h2
        exact hw.own r1 r2 p h1 h2

theorem AnyMem.WF.new_model {τ : Type} {El : τ → Type} {m : AnyMem τ El} (hw : m.WF)
    (t : τ) (v : El t) : (m.new_model t v).1.WF := by
  refine ⟨?_, ?_, hw.own⟩
  · intro p hp
    simp only [AnyMem.new_model] at hp ⊢
    have hne : p ≠ m.next := by omega
    rw [if_neg hne]
    exact hw.fresh p (by omega)
  · intro r1 p h
    simp only [AnyMem.new_model] at h ⊢
    have hlt := hw.lt_next r1 p h
    have hne : p ≠ m.next := by omega
    rw [if_neg hne]
    exact hw.live r1 p h

theorem AnyMem.WF.delete_model {τ : Type} {El : τ → Type} {m m' : AnyMem τ El} (hw : m.WF)
    (q : Option Nat) (hfree : ∀ p, q = some p → ∀ r, (m.var r)._storage ≠ some p)
    (h : m.delete_model q = some m') : m'.WF := by
  cases q with
  | none =>
    simp only [AnyMem.delete_model] at h
    rw [← Option.some.inj h]; exact hw
  | some p =>
    simp only [AnyMem.delete_model] at h
    cases ho : m.obj p with
    | none => rw [ho] at h; exact absurd h (by simp)
    | some x =>
      rw [ho] at h
      have := Option.some.inj h
      subst this
      refine ⟨?_, ?_, hw.own⟩
      · intro i hi
        show (if i = p then none else m.obj i) = none
        split
        · rfl
        · exact hw.fresh i hi
      · intro r1 p1 h1
        show (if p1 = p then none else m.obj p1).isSome = true
        have hne : p1 ≠ p := by
          intro e
          rw [e] at h1
          exact hfree p rfl r1 h1
        rw [if_neg hne]
        exact hw.live r1 p1 h1

theorem AnyMem.WF.write {τ : Type} [DecidableEq τ] {El : τ → Type} {m m' : AnyMem τ El}
    (hw : m.WF) (q : Option Nat) (t : τ) (w : El t) (h : m.write q t w = some m') :
    m'.WF := by
  cases q with
  | none => simp [AnyMem.write] at h
  | some p =>
    simp only [AnyMem.write] at h
    cases ho : m.obj p with
    | none => rw [ho] at h; exact absurd h (by simp)
    | some x =>
      rw [ho] at h
      dsimp only at h
      split_ifs at h with hT
      have := Option.some.inj h
      subst this
      refine ⟨?_, ?_, hw.own⟩
      · intro i hi
        show (if i = p then some _ else m.obj i) = none
        have hne : i ≠ p := by
          intro e
          rw [e] at hi
          have := hw.fresh p hi
          rw [ho] at this
          exact absurd this (by simp)
        rw [if_neg hne]
        exact hw.fresh i hi
      · intro r1 p1 h1
        show (if p1 = p then some _ else m.obj p1).isSome = true
        split
        · rfl
        · exact hw.live r1 p1 h1

theorem AnyMem.WF.copy_construct {τ : Type} {El : τ → Type} {m : AnyMem τ El} (hw : m.WF)
    (a b : Nat) (r : AnyMem τ El × any) (h : any.copy m a = some r) :
    (AnyMem.declare r b).WF := by
  simp only [any.copy] at h
  cases hpa : (m.var a)._storage with
  | none =>
    rw [hpa] at h
    have := Option.some.inj h
    subst this
    exact hw.set b _ (fun p hp => absurd hp (by simp))
  | some p =>
    rw [hpa] at h
    simp only [AnyConcept.clone] at h
    cases ho : m.obj p with
    | none => rw [ho] at h; exact absurd h (by simp)
    | some x =>
      rw [ho] at h
      have := Option.some.inj h
      subst this
      refine (hw.new_model x.T x._value).set b _ ?_
      intro p1 hp1
      have hp1' : m.next = p1 := Option.some.inj hp1
      subst hp1'
      constructor
      · simp [AnyMem.new_model]
      · intro r' _ hr'
        have := hw.lt_next r' m.next hr'
        omega

theorem AnyMem.WF.move_construct {τ : Type} {El : τ → Type} {m : AnyMem τ El} (hw : m.WF)
    (a b : Nat) : (AnyMem.declare (any.move m a) b).WF := by
  have h1 : (m.set a { _storage := none }).WF :=
    hw.set a _ (fun p hp => absurd hp (by simp))
  refine h1.set b _ ?_
  intro p hp
  have hp' : (m.var a)._storage = some p := hp
  refine ⟨hw.live a p hp', ?_⟩
  intro r' _ hr'
  simp only [AnyMem.set] at hr'
  by_cases hra : r' = a
  · rw [if_pos hra] at hr'; exact absurd hr' (by simp)
  · rw [if_neg hra] at hr'
    exact hra (hw.own r' a p hr' hp')

theorem AnyMem.WF.copy_assign {τ : Type} {El : τ → Type} {m m' : AnyMem τ El} (hw : m.WF)
    (this other : Nat) (h : any.copy_assign m this other = some m') : m'.WF := by
  simp only [any.copy_assign] at h
  cases hc : any.copy m other with
  | none => rw [hc] at h; exact absurd h (by simp)
  | some r =>
    obtain ⟨m1, tmp⟩ := r
    rw [hc] at h
    simp only [any.swap, any.dtor] at h
    have hd := hw.copy_construct other this (m1, tmp) hc
    have hvar : m1.var = m.var := by
      simp only [any.copy] at hc
      cases hpa : (m.var other)._storage with
      | none =>
        rw [hpa] at hc
        have := Option.some.inj hc
        rw [← (Prod.mk.inj this).1]
      | some p =>
        rw [hpa] at hc
        simp only [AnyConcept.clone] at hc
        cases ho : m.obj p with
        | none => rw [ho] at hc; exact absurd hc (by simp)
        | some x =>
          rw [ho] at hc
          have := Option.some.inj hc
          rw [← (Prod.mk.inj this).1]
          rfl
    have hnew : ∀ p, tmp._storage = some p → ∀ r, (m.var r)._storage ≠ some p := by
      intro p hp r hr
      simp only [any.copy] at hc
      cases hpa : (m.var other)._storage with
      | none =>
        rw [hpa] at hc
        have := Option.some.inj hc
        rw [← (Prod.mk.inj this).2] at hp
        exact absurd hp (by simp)
      | some p0 =>
        rw [hpa] at hc
        simp only [AnyConcept.clone] at hc
        cases ho : m.obj p0 with
        | none => rw [ho] at hc; exact absurd hc (by simp)
        | some x =>
          rw [ho] at hc
          have := Option.some.inj hc
          rw [← (Prod.mk.inj this).2] at hp
          have hpe : m.next = p := Option.some.inj hp
          have := hw.lt_next r p hr
          simp only [AnyMem.new_model] at hpe
          omega
    refine AnyMem.WF.delete_model (m := m1.set this { _storage := tmp._storage }) hd _ ?_ h
    intro p hp r hr
    simp only [AnyMem.set] at hr
    rw [hvar] at hp
    by_cases hrt : r = this
    · rw [if_pos hrt] at hr
      exact hnew p hr this hp
    · rw [if_neg hrt, hvar] at hr
      exact hrt (hw.own r this p hr hp)

theorem AnyMem.WF.move_assign {τ : Type} {El : τ → Type} {m m' : AnyMem τ El} (hw : m.WF)
    (this other : Nat) (h : any.move_assign m this other = some m') : m'.WF := by
  simp only [any.move_assign, any.swap, any.dtor, any.move] at h
  have hd := hw.move_construct other this
  refine AnyMem.WF.delete_model
    (m := (m.set other { _storage := none }).set this { _storage := (m.var other)._storage })
    hd _ ?_ h
  intro p hp r hr
  simp only [AnyMem.set] at hp hr
  by_cases hto : this = other
  · rw [if_pos hto] at hp; exact absurd hp (by simp)
  · rw [if_neg hto] at hp
    by_cases hrt : r = this
    · rw [if_pos hrt] at hr
      exact hto (hw.own this other p hp hr)
    · rw [if_neg hrt] at hr
      by_cases hro : r = other
      · rw [if_pos hro] at hr; exact absurd hr (by simp)
      · rw [if_neg hro] at hr
        exact hrt (hw.own r this p hr hp)

/-! ### The queue adaptor and the growth policy at the front -/

/-- C36 (the code departs from the claim): with block capacity 16 and the
values 1..16, after 16 `push` and 15 `pop` the queue shows `front() == 16`
and `size() == 1`, but after the 16th `pop` `size()` is 0 while `empty()`
returns false (the start cursor was moved to the next slot, the finish cursor
stayed at the end of the released block).  With 17 values, or with 3, the
queue is empty after as many `pop`. -/
theorem queue_not_empty_after_drain :
    queue.after 16 ((List.range 16).map (fun i => i + 1)) 0 = some (some 1, some 16, false) ∧
    queue.after 16 ((List.range 16).map (fun i => i + 1)) 15 = some (some 16, some 1, false) ∧
    queue.after 16 ((List.range 16).map (fun i => i + 1)) 16 = some (none, some 0, false) ∧
    queue.after 16 ((List.range 17).map (fun i => i + 1)) 16 = some (some 17, some 1, false) ∧
    queue.after 16 ((List.range 17).map (fun i => i + 1)) 17 = some (none, some 0, true) ∧
    queue.after 16 [1, 2, 3] 3 = some (none, some 0, true) := by
  refine ⟨?_, ?_, ?_, ?_, ?_, ?_⟩ <;> decide

/-- C33 (the code departs from the claim): with block capacity 16, after 48
`push_front` and 17 `pop_back` the container shows the 31 reference elements,
the start cursor is at offset 0 of slot 0 and two of the 8 slots are in use;
`_reallocate_map(1, true)` takes its in-place branch, finds no slot before
the start and returns with the start slot still 0, and `_push_front_aux` then
writes slot -1, which is undefined, as is `push_front`. -/
theorem front_growth_keeps_slot_zero :
    (state_of 16 front_drift_log).bind (contents 16) = ref_run front_drift_log [] ∧
    (state_of 16 front_drift_log).map
      (fun s => (s.d._start.offset_view, s.d._start._node, s.d._finish._node, s.d._map_size))
      = some ((some 0, false), 0, 1, 8) ∧
    (state_of 16 front_drift_log).bind (fun s => (_reallocate_map 16 s.d 1 true).view)
      = some (0, 1, 8) ∧
    (state_of 16 front_drift_log).map (fun s => is_ub (_push_front_aux 16 s)) = some true ∧
    (state_of 16 front_drift_log).map (fun s => is_ub (push_front 16 s 7)) = some true := by
  refine ⟨?_, ?_, ?_, ?_, ?_⟩ <;> decide

/-! ### `optional::swap` -/

/-- C40 (the code departs from the claim): `a.swap(b)` exchanges the states
when both hold a value, when both are empty, and when `a` is empty and `b`
holds `w`; but when `a` holds `v` and `b` is empty, `b` is given `v` by
`other.emplace(std::move(_value))` and `a` is not reset: afterwards
`a.has_value()` is still true (over the moved-from value) instead of false. -/
theorem optional_swap_keeps_source_engaged {α : Type} (moved : α → α) (v w : α) :
    optional.swap moved (optional.of_value v) (optional.of_value w)
      = some (optional.of_value w, optional.of_value v) ∧
    optional.swap moved (optional.empty : optional α) optional.empty
      = some (optional.empty, optional.empty) ∧
    optional.swap moved optional.empty (optional.of_value w)
      = some (optional.of_value w, optional.empty) ∧
    optional.swap moved (optional.of_value v) optional.empty
      = some (optional.of_value (moved v), optional.of_value v) ∧
    (optional.swap moved (optional.of_value v) optional.empty).map
      (fun r => (r.1.has_value, r.2.has_value, r.2.value)) = some (true, true, some (some v)) ∧
    ((optional.empty : optional α).has_value, (optional.of_value v).has_value)
      = (false, true) := by
  refine ⟨rfl, rfl, rfl, rfl, rfl, rfl⟩

/-! ### The layout `_create_map_and_nodes` produces -/

theorem alloc_nodes_spec {α : Type} (k : Nat) :
    ∀ (h : Heap α) (m : Int → Base) (cur : Int),
      (alloc_nodes h m cur k).1.next = h.next + k ∧
      (∀ id, (alloc_nodes h m cur k).1.live id
        = if h.next ≤ id ∧ id < h.next + k then true else h.live id) ∧
      (∀ j, (alloc_nodes h m cur k).2 j
        = if cur ≤ j ∧ j < cur + (k : Int) then Base.blk (h.next + (j - cur).toNat)
          else m j) := by
  induction k with
  | zero =>
    intro h m cur
    refine ⟨rfl, ?_, ?_⟩
    · intro id
      rw [if_neg (by omega)]
      rfl
    · intro j
      rw [if_neg (by omega)]
      rfl
  | succ k ih =>
    intro h m cur
    obtain ⟨h1, h2, h3⟩ := ih (_allocate_block h).1
      (fun j => if j = cur then (_allocate_block h).2 else m j) (cur + 1)
    have hn : (_allocate_block h).1.next = h.next + 1 := rfl
    refine ⟨?_, ?_, ?_⟩
    · show (alloc_nodes (_allocate_block h).1 _ (cur + 1) k).1.next = _
      rw [h1, hn]; omega
    · intro id
      show (alloc_nodes (_allocate_block h).1 _ (cur + 1) k).1.live id = _
      rw [h2 id, hn]
      simp only [_allocate_block]
      by_cases c1 : h.next + 1 ≤ id ∧ id < h.next + 1 + k
      · rw [if_pos c1, if_pos (by omega)]
      · rw [if_neg c1]
        by_cases c2 : id = h.next
        · rw [if_pos c2, if_pos (by omega)]
        · rw [if_neg c2, if_neg (by omega)]
    · intro j
      show (alloc_nodes (_allocate_block h).1 _ (cur + 1) k).2 j = _
      rw [h3 j, hn]
      by_cases c1 : cur + 1 ≤ j ∧ j < cur + 1 + (k : Int)
      · rw [if_pos c1, if_pos (by push_cast; omega)]
        congr 1
        omega
      · rw [if_neg c1]
        by_cases c2 : j = cur
        · rw [if_pos c2, if_pos (by push_cast; omega)]
          simp [_allocate_block, c2]
        · rw [if_neg c2, if_neg (by push_cast; omega)]

/-- C35: for every element count `n` (a `size_type` value),
`_create_map_and_nodes(n)` with allocation succeeding gives a map of
`M = max(8, nodes + 2)` slots with `nodes = n / B + 1`, allocates exactly
`nodes` new blocks and stores them in order in the slots from
`(M - nodes) / 2` on, puts the start cursor at offset 0 of that slot and the
finish cursor at offset `n mod B` of slot `start + nodes - 1`; `size()` is
`n`, a slot stays unused before the start and after the finish, and the slack
after the finish exceeds the slack before the start by at most one slot. -/
theorem create_layout {α : Type} (B : Nat) (s : State α) (n : Nat)
    (hn : n < 2 ^ 64) :
    (_create_map_and_nodes B s n).d._map.isSome = true ∧
    (_create_map_and_nodes B s n).d._map_size = max 8 (n / B + 1 + 2) ∧
    (_create_map_and_nodes B s n).d._start._node
      = (((max 8 (n / B + 1 + 2) - (n / B + 1)) / 2 : Nat) : Int) ∧
    (_create_map_and_nodes B s n).d._finish._node
      = (_create_map_and_nodes B s n).d._start._node + ((n / B + 1 : Nat) : Int) - 1 ∧
    (_create_map_and_nodes B s n).h.next = s.h.next + (n / B + 1) ∧
    (∀ id, (_create_map_and_nodes B s n).h.live id
      = if s.h.next ≤ id ∧ id < s.h.next + (n / B + 1) then true else s.h.live id) ∧
    (∀ i : Nat, i < n / B + 1 →
      (_create_map_and_nodes B s n).d.slots
        ((_create_map_and_nodes B s n).d._start._node + (i : Int))
        = Base.blk (s.h.next + i)) ∧
    (_create_map_and_nodes B s n).d._start._current = ⟨Base.blk s.h.next, 0⟩ ∧
    (_create_map_and_nodes B s n).d._start._first = ⟨Base.blk s.h.next, 0⟩ ∧
    (_create_map_and_nodes B s n).d._finish._current
      = ⟨Base.blk (s.h.next + n / B), ((n % B : Nat) : Int)⟩ ∧
    (_create_map_and_nodes B s n).d._finish._first = ⟨Base.blk (s.h.next + n / B), 0⟩ ∧
    size B (_create_map_and_nodes B s n) = some n ∧
    1 ≤ (_create_map_and_nodes B s n).d._start._node ∧
    (_create_map_and_nodes B s n).d._finish._node + 1
      < ((_create_map_and_nodes B s n).d._map_size : Int) ∧
    (_create_map_and_nodes B s n).d._start._node
      ≤ ((_create_map_and_nodes B s n).d._map_size : Int) - 1
        - (_create_map_and_nodes B s n).d._finish._node ∧
    ((_create_map_and_nodes B s n).d._map_size : Int) - 1
        - (_create_map_and_nodes B s n).d._finish._node
      ≤ (_create_map_and_nodes B s n).d._start._node + 1 := by
  obtain ⟨a1, a2, a3⟩ := alloc_nodes_spec (n / B + 1) s.h (fun _ => Base.junk)
    (((max 8 (n / B + 1 + 2) - (n / B + 1)) / 2 : Nat) : Int)
  have hM : n / B + 1 + 2 ≤ max 8 (n / B + 1 + 2) := le_max_right _ _
  have hM8 : 8 ≤ max 8 (n / B + 1 + 2) := le_max_left _ _
  have hsl : ∀ i : Nat, i < n / B + 1 →
      (alloc_nodes s.h (fun _ => Base.junk)
        (((max 8 (n / B + 1 + 2) - (n / B + 1)) / 2 : Nat) : Int) (n / B + 1)).2
        ((((max 8 (n / B + 1 + 2) - (n / B + 1)) / 2 : Nat) : Int) + (i : Int))
        = Base.blk (s.h.next + i) := by
    intro i hi
    have hi' : (i : Int) < ((n / B + 1 : Nat) : Int) := by exact_mod_cast hi
    rw [a3, if_pos ⟨by omega, by omega⟩]
    congr 1
    simp
  have hs0 := hsl 0 (Nat.succ_pos _)
  have hsn := hsl (n / B) (Nat.lt_succ_self _)
  simp only [Nat.cast_zero, add_zero] at hs0
  have hfin : (((max 8 (n / B + 1 + 2) - (n / B + 1)) / 2 : Nat) : Int)
        + ((n / B + 1 : Nat) : Int) - 1
      = (((max 8 (n / B + 1 + 2) - (n / B + 1)) / 2 : Nat) : Int) + ((n / B : Nat) : Int) := by
    push_cast; ring
  refine ⟨rfl, rfl, rfl, rfl, a1, a2, ?_, ?_, ?_, ?_, ?_, create_size B s n hn _, ?_, ?_, ?_, ?_⟩
  · intro i hi
    exact hsl i hi
  · show (⟨(alloc_nodes s.h (fun _ => Base.junk) _ (n / B + 1)).2 _, 0⟩ : Ptr) = _
    rw [hs0]
  · show (⟨(alloc_nodes s.h (fun _ => Base.junk) _ (n / B + 1)).2 _, 0⟩ : Ptr) = _
    rw [hs0]
  · show Ptr.add ⟨(alloc_nodes s.h (fun _ => Base.junk) _ (n / B + 1)).2 _, 0⟩ _ = _
    rw [hfin, hsn]
    simp [Ptr.add]
  · show (⟨(alloc_nodes s.h (fun _ => Base.junk) _ (n / B + 1)).2 _, 0⟩ : Ptr) = _
    rw [hfin, hsn]
  · show (1 : Int) ≤ (((max 8 (n / B + 1 + 2) - (n / B + 1)) / 2 : Nat) : Int)
    have : 1 ≤ (max 8 (n / B + 1 + 2) - (n / B + 1)) / 2 := by omega
    exact_mod_cast this
  · show (((max 8 (n / B + 1 + 2) - (n / B + 1)) / 2 : Nat) : Int)
        + ((n / B + 1 : Nat) : Int) - 1 + 1 < ((max 8 (n / B + 1 + 2) : Nat) : Int)
    have : (max 8 (n / B + 1 + 2) - (n / B + 1)) / 2 + (n / B + 1) < max 8 (n / B + 1 + 2) := by
      omega
    have h2 : (((max 8 (n / B + 1 + 2) - (n / B + 1)) / 2 + (n / B + 1) : Nat) : Int)
        < ((max 8 (n / B + 1 + 2) : Nat) : Int) := by exact_mod_cast this
    push_cast at h2 ⊢
    omega
  · show (((max 8 (n / B + 1 + 2) - (n / B + 1)) / 2 : Nat) : Int)
        ≤ ((max 8 (n / B + 1 + 2) : Nat) : Int) - 1
          - ((((max 8 (n / B + 1 + 2) - (n / B + 1)) / 2 : Nat) : Int)
              + ((n / B + 1 : Nat) : Int) - 1)
    have : (max 8 (n / B + 1 + 2) - (n / B + 1)) / 2 + (max 8 (n / B + 1 + 2) - (n / B + 1)) / 2
        + (n / B + 1) ≤ max 8 (n / B + 1 + 2) := by omega
    have h2 : (((max 8 (n / B + 1 + 2) - (n / B + 1)) / 2
        + (max 8 (n / B + 1 + 2) - (n / B + 1)) / 2 + (n / B + 1) : Nat) : Int)
        ≤ ((max 8 (n / B + 1 + 2) : Nat) : Int) := by exact_mod_cast this
    push_cast at h2 ⊢
    omega
  · show ((max 8 (n / B + 1 + 2) : Nat) : Int) - 1
          - ((((max 8 (n / B + 1 + 2) - (n / B + 1)) / 2 : Nat) : Int)
              + ((n / B + 1 : Nat) : Int) - 1)
        ≤ (((max 8 (n / B + 1 + 2) - (n / B + 1)) / 2 : Nat) : Int) + 1
    have : max 8 (n / B + 1 + 2) ≤ (max 8 (n / B + 1 + 2) - (n / B + 1)) / 2
        + (max 8 (n / B + 1 + 2) - (n / B + 1)) / 2 + 1 + (n / B + 1) := by omega
    have h2 : ((max 8 (n / B + 1 + 2) : Nat) : Int)
        ≤ (((max 8 (n / B + 1 + 2) - (n / B + 1)) / 2
          + (max 8 (n / B + 1 + 2) - (n / B + 1)) / 2 + 1 + (n / B + 1) : Nat) : Int) := by
      exact_mod_cast this
    push_cast at h2 ⊢
    omega

/-- Witness for C35: `_create_map_and_nodes(40)` on a default-constructed
container with block capacity 16 (3 blocks in a map of 8). -/
theorem create_layout_witness :
    40 < 2 ^ 64 ∧
    (_create_map_and_nodes 16 (State.init : State Nat) 40).d._map_size = 8 ∧
    (_create_map_and_nodes 16 (State.init : State Nat) 40).d._start._node = 2 ∧
    (_create_map_and_nodes 16 (State.init : State Nat) 40).d._finish._node = 4 ∧
    (_create_map_and_nodes 16 (State.init : State Nat) 40).d._finish._current
      = ⟨Base.blk 2, 8⟩ ∧
    size 16 (_create_map_and_nodes 16 (State.init : State Nat) 40) = some 40 :=
  ⟨by decide,
    (create_layout 16 (State.init : State Nat) 40 (by decide)).2.1,
    (create_layout 16 (State.init : State Nat) 40 (by decide)).2.2.1,
    by decide,
    by decide,
    (create_layout 16 (State.init : State Nat) 40 (by decide)).2.2.2.2.2.2.2.2.2.2.2.1⟩

/-! ### The growth policy at the back -/

theorem move_slots_eq (M : Nat) (src dst : Int → Base) (first last df : Int)
    (h0 : 0 ≤ df) (hfit : df + (last - first) ≤ (M : Int)) :
    ∃ m, move_slots M src dst first last df = some m ∧
      ∀ j, df ≤ j → j < df + (last - first) → m j = src (first + (j - df)) := by
  unfold move_slots
  simp only
  by_cases hc : last - first ≤ 0
  · rw [if_pos hc]
    exact ⟨dst, rfl, fun j h1 h2 => by omega⟩
  · rw [if_neg hc, if_pos ⟨h0, hfit⟩]
    refine ⟨_, rfl, ?_⟩
    intro j h1 h2
    exact if_pos ⟨h1, h2⟩

theorem WF0.reallocate_back {B next : Nat} {live : Nat → Bool} {d : deque}
    (hw : WF0 B next live d) (hlast : d._finish._node + 1 = (d._map_size : Int)) :
    (_reallocate_map B d 1 false = MapResult.bad_alloc ∧
      map_alloc_limit < d._map_size + max d._map_size 1 + 2) ∨
    ∃ d', _reallocate_map B d 1 false = MapResult.done d' ∧
      d'._finish._node + 2 ≤ (d'._map_size : Int) ∧ 0 ≤ d'._start._node ∧
      d'._finish._node - d'._start._node = d._finish._node - d._start._node ∧
      (∀ i : Int, 0 ≤ i → i ≤ d._finish._node - d._start._node →
        d'.slots (d'._start._node + i) = d.slots (d._start._node + i)) := by
  have hlo := hw.node_lo
  have hhi := hw.node_hi
  have hgap := hw.gap
  have hMb := hw.map_bound
  have hc0 : 0 ≤ d._finish._node - d._start._node + 1 := by omega
  have hcM : d._finish._node - d._start._node + 1 ≤ (map_alloc_limit : Int) := by omega
  have hold := to_size_of_bounded _ hc0 hcM
  have hst := to_size_of_bounded d._start._node hlo (by omega)
  unfold _reallocate_map
  simp only
  generalize hc : to_size (d._finish._node - d._start._node + 1) = c at hold ⊢
  generalize hsb : to_size d._start._node = sb at hst ⊢
  by_cases h1 : d._map_size > 2 * (c + 1)
  · rw [if_pos h1]
    have h2 : sb > (c + 1) / 2 := by omega
    rw [if_pos h2]
    right
    have hns : (0 : Int) ≤ (((d._map_size - (c + 1)) / 2 : Nat) : Int) := Int.natCast_nonneg _
    have hle : (d._map_size - (c + 1)) / 2 + (c + 1) ≤ d._map_size := by omega
    have hle' : (((d._map_size - (c + 1)) / 2 : Nat) : Int) + ((c : Int) + 1)
        ≤ (d._map_size : Int) := by exact_mod_cast hle
    obtain ⟨m, hm, hmv⟩ := move_slots_eq d._map_size d.slots d.slots d._start._node
      (d._finish._node + 1) (((d._map_size - (c + 1)) / 2 : Nat) : Int) hns (by omega)
    rw [hm]
    refine ⟨_, rfl, ?_, ?_, ?_, ?_⟩
    · simp only [deque_iterator._set_node]; omega
    · simp only [deque_iterator._set_node]; exact hns
    · simp only [deque_iterator._set_node]; omega
    · intro i hi0 hi1
      simp only [deque_iterator._set_node, deque.slots]
      rw [hmv _ (by omega) (by omega)]
      congr 1
      omega
  · rw [if_neg h1]
    by_cases h3 : d._map_size + max d._map_size 1 + 2 > map_alloc_limit
    · rw [if_pos h3]
      exact Or.inl ⟨rfl, h3⟩
    · rw [if_neg h3]
      right
      have hmax : d._map_size ≤ max d._map_size 1 := le_max_left _ _
      have hns : (0 : Int)
          ≤ (((d._map_size + max d._map_size 1 + 2 - (c + 1)) / 2 : Nat) : Int) :=
        Int.natCast_nonneg _
      have hcle : c ≤ d._map_size := by omega
      have hle : (d._map_size + max d._map_size 1 + 2 - (c + 1)) / 2 + (c + 1)
          ≤ d._map_size + max d._map_size 1 + 2 := by omega
      have hle' : (((d._map_size + max d._map_size 1 + 2 - (c + 1)) / 2 : Nat) : Int)
          + ((c : Int) + 1) ≤ ((d._map_size + max d._map_size 1 + 2 : Nat) : Int) := by
        exact_mod_cast hle
      simp only [Bool.false_eq_true, if_false, add_zero]
      obtain ⟨m, hm, hmv⟩ := move_slots_eq (d._map_size + max d._map_size 1 + 2) d.slots
        (fun _ => Base.junk) d._start._node (d._finish._node + 1)
        (((d._map_size + max d._map_size 1 + 2 - (c + 1)) / 2 : Nat) : Int) hns (by omega)
      rw [hm]
      refine ⟨_, rfl, ?_, ?_, ?_, ?_⟩
      · simp only [deque_iterator._set_node]; omega
      · simp only [deque_iterator._set_node]; exact hns
      · simp only [deque_iterator._set_node]; omega
      · intro i hi0 hi1
        simp only [deque_iterator._set_node, deque.slots]
        rw [hmv _ (by omega) (by omega)]
        congr 1
        omega

theorem push_back_aux_defined {α : Type} {B : Nat} (s : State α)
    (hw : WF0 B s.h.next s.h.live s.d) : is_ub (_push_back_aux B s) = false := by
  have hhi := hw.node_hi
  have hlo := hw.node_lo
  have hgap := hw.gap
  unfold _push_back_aux
  simp only
  by_cases hlast : s.d._finish._node + 1 = (s.d._map_size : Int)
  · rw [if_pos hlast]
    rcases hw.reallocate_back hlast with ⟨hb, _⟩ | ⟨d', hd, h1, h2, h3, _⟩
    · rw [hb]; rfl
    · rw [hd]
      simp only [slot_write]
      rw [if_pos ⟨by omega, by omega⟩]
      rfl
  · rw [if_neg hlast]
    simp only [slot_write]
    rw [if_pos ⟨by omega, by omega⟩]
    rfl

/-! ### Cursor arithmetic -/

theorem ediv_emod_of_eq (b z q r : Int) (h : z = b * q + r) (h0 : 0 ≤ r) (h1 : r < b) :
    z / b = q ∧ z % b = r := by
  have hb : 0 < b := by omega
  exact (Int.ediv_emod_unique hb).mpr ⟨by rw [h]; ring, h0, h1⟩

theorem deque_iterator.at_offset_eq (B : Nat) (m : Int → Base) (k z z' : Int)
    (hq : z / (B : Int) = z' / (B : Int)) (hr : z % (B : Int) = z' % (B : Int)) :
    deque_iterator.at_offset B m k z = deque_iterator.at_offset B m k z' := by
  unfold deque_iterator.at_offset
  rw [hq, hr]

theorem deque_iterator.at_offset_of (B : Nat) (m : Int → Base) (k z q r : Int)
    (h : z = (B : Int) * q + r) (h0 : 0 ≤ r) (h1 : r < (B : Int)) :
    deque_iterator.at_offset B m k z
      = ⟨⟨m (k + q), r⟩, ⟨m (k + q), 0⟩, ⟨m (k + q), (B : Int)⟩, k + q⟩ := by
  obtain ⟨hq, hr⟩ := ediv_emod_of_eq (B : Int) z q r h h0 h1
  unfold deque_iterator.at_offset
  rw [hq, hr]

theorem deque_iterator.normal_eq (B : Nat) (m : Int → Base) (c : deque_iterator)
    (hc : c.normal B m) :
    c = deque_iterator.at_offset B m c._node c._current.off := by
  obtain ⟨⟨cb, co⟩, first, last, node⟩ := c
  obtain ⟨h1, h2, h3, h4, h5⟩ := hc
  simp only at h1 h2 h3 h4 h5
  subst h1; subst h2; subst h3
  rw [deque_iterator.at_offset_of B m node co 0 co (by ring) h4 h5]
  simp

theorem deque_iterator.at_offset_normal (B : Nat) (hB : 0 < B) (m : Int → Base) (k z : Int) :
    (deque_iterator.at_offset B m k z).normal B m := by
  have hb : (0 : Int) < (B : Int) := by exact_mod_cast hB
  exact ⟨rfl, rfl, rfl, Int.emod_nonneg z (by omega), Int.emod_lt_of_pos z hb⟩

theorem deque_iterator.inc_at_offset (B : Nat) (hB : 0 < B) (m : Int → Base) (k z : Int) :
    deque_iterator.inc B m (deque_iterator.at_offset B m k z)
      = deque_iterator.at_offset B m k (z + 1) := by
  have hb : (0 : Int) < (B : Int) := by exact_mod_cast hB
  have hr0 := Int.emod_nonneg z (show (B : Int) ≠ 0 by omega)
  have hr1 := Int.emod_lt_of_pos z hb
  have hz := Int.ediv_add_emod z (B : Int)
  rw [deque_iterator.at_offset_of B m k z (z / (B : Int)) (z % (B : Int)) hz.symm hr0 hr1,
    deque_iterator.inc_mk]
  by_cases h : z % (B : Int) + 1 = (B : Int)
  · rw [if_pos h,
      deque_iterator.at_offset_of B m k (z + 1) (z / (B : Int) + 1) 0
        (by rw [mul_add]; omega) (le_refl 0) hb]
    simp [add_assoc]
  · rw [if_neg h,
      deque_iterator.at_offset_of B m k (z + 1) (z / (B : Int)) (z % (B : Int) + 1)
        (by omega) (by omega) (by omega)]

theorem deque_iterator.dec_at_offset (B : Nat) (hB : 0 < B) (m : Int → Base) (k z : Int) :
    deque_iterator.dec B m (deque_iterator.at_offset B m k z)
      = deque_iterator.at_offset B m k (z - 1) := by
  have hb : (0 : Int) < (B : Int) := by exact_mod_cast hB
  have hr0 := Int.emod_nonneg z (show (B : Int) ≠ 0 by omega)
  have hr1 := Int.emod_lt_of_pos z hb
  have hz := Int.ediv_add_emod z (B : Int)
  rw [deque_iterator.at_offset_of B m k z (z / (B : Int)) (z % (B : Int)) hz.symm hr0 hr1]
  by_cases h : z % (B : Int) = 0
  · rw [deque_iterator.at_offset_of B m k (z - 1) (z / (B : Int) - 1) ((B : Int) - 1)
        (by rw [mul_sub]; omega) (by omega) (by omega)]
    simp [deque_iterator.dec, deque_iterator._set_node, Ptr.add, h, add_sub_assoc,
      sub_eq_add_neg, add_assoc]
  · rw [deque_iterator.at_offset_of B m k (z - 1) (z / (B : Int)) (z % (B : Int) - 1)
        (by omega) (by omega) (by omega)]
    have hne : ¬ ((⟨m (k + z / (B : Int)), z % (B : Int)⟩ : Ptr)
        = ⟨m (k + z / (B : Int)), 0⟩) := by
      intro e
      exact h (congrArg Ptr.off e)
    simp [deque_iterator.dec, Ptr.add, hne, sub_eq_add_neg]

theorem deque_iterator.iterate_inc_at_offset (B : Nat) (hB : 0 < B) (m : Int → Base)
    (k z : Int) (i : Nat) :
    (deque_iterator.inc B m)^[i] (deque_iterator.at_offset B m k z)
      = deque_iterator.at_offset B m k (z + (i : Int)) := by
  induction i with
  | zero => simp
  | succ j ih =>
    rw [Function.iterate_succ_apply', ih, deque_iterator.inc_at_offset B hB]
    congr 1
    push_cast; ring

theorem deque_iterator.iterate_dec_at_offset (B : Nat) (hB : 0 < B) (m : Int → Base)
    (k z : Int) (i : Nat) :
    (deque_iterator.dec B m)^[i] (deque_iterator.at_offset B m k z)
      = deque_iterator.at_offset B m k (z - (i : Int)) := by
  induction i with
  | zero => simp
  | succ j ih =>
    rw [Function.iterate_succ_apply', ih, deque_iterator.dec_at_offset B hB]
    congr 1
    push_cast; ring
theorem deque_iterator.advance_at_offset (B : Nat) (hB : 0 < B) (m : Int → Base)
    (k z n : Int) :
    deque_iterator.advance B m (deque_iterator.at_offset B m k z) n
      = some (deque_iterator.at_offset B m k (z + n)) := by
  have hb : (0 : Int) < (B : Int) := by exact_mod_cast hB
  have hr0 := Int.emod_nonneg z (show (B : Int) ≠ 0 by omega)
  have hr1 := Int.emod_lt_of_pos z hb
  have hz := Int.ediv_add_emod z (B : Int)
  rw [deque_iterator.at_offset_of B m k z (z / (B : Int)) (z % (B : Int)) hz.symm hr0 hr1]
  unfold deque_iterator.advance
  simp only [Ptr.diff, if_true, sub_zero]
  by_cases h : 0 ≤ n + z % (B : Int) ∧ n + z % (B : Int) < (B : Int)
  · rw [if_pos h,
      deque_iterator.at_offset_of B m k (z + n) (z / (B : Int)) (n + z % (B : Int))
        (by omega) h.1 h.2]
    simp [Ptr.add, add_comm]
  · rw [if_neg h]
    -- the quotient and remainder of the offset
    have hq0 := Int.emod_nonneg (n + z % (B : Int)) (show (B : Int) ≠ 0 by omega)
    have hq1 := Int.emod_lt_of_pos (n + z % (B : Int)) hb
    have hqz := Int.ediv_add_emod (n + z % (B : Int)) (B : Int)
    have hno : (if n + z % (B : Int) > 0 then (n + z % (B : Int)) / (B : Int)
        else -((-(n + z % (B : Int)) - 1) / (B : Int)) - 1) = (n + z % (B : Int)) / (B : Int) := by
      by_cases hp : n + z % (B : Int) > 0
      · rw [if_pos hp]
      · rw [if_neg hp]
        have hneg : n + z % (B : Int) < 0 := by omega
        have := (ediv_emod_of_eq (B : Int) (-(n + z % (B : Int)) - 1)
          (-((n + z % (B : Int)) / (B : Int)) - 1)
          ((B : Int) - 1 - (n + z % (B : Int)) % (B : Int))
          (by rw [mul_sub, mul_neg]; omega) (by omega) (by omega)).1
        rw [this]; ring
    simp only [hno, deque_iterator._set_node, Ptr.add]
    rw [deque_iterator.at_offset_of B m k (z + n)
        (z / (B : Int) + (n + z % (B : Int)) / (B : Int)) ((n + z % (B : Int)) % (B : Int))
        (by rw [mul_add]; omega) hq0 hq1]
    have e : n + z % (B : Int) - (n + z % (B : Int)) / (B : Int) * (B : Int)
        = (n + z % (B : Int)) % (B : Int) := by
      rw [mul_comm]; omega
    simp [e, add_assoc]

theorem deque_iterator.sub_at_offset (B : Nat) (hB : 0 < B) (m : Int → Base)
    (k z z' : Int) :
    deque_iterator.sub B (deque_iterator.at_offset B m k z')
        (deque_iterator.at_offset B m k z) = some (z' - z) := by
  have hb : (0 : Int) < (B : Int) := by exact_mod_cast hB
  have hz := Int.ediv_add_emod z (B : Int)
  have hz' := Int.ediv_add_emod z' (B : Int)
  unfold deque_iterator.sub deque_iterator.at_offset
  simp only [Ptr.diff, if_true]
  by_cases h : k + z' / (B : Int) = k + z / (B : Int)
  · rw [if_pos h]
    simp only [h, if_true]
    have hq : z' / (B : Int) = z / (B : Int) := by omega
    rw [hq] at hz'
    congr 1
    omega
  · rw [if_neg h]
    congr 1
    have e : (B : Int) * (k + z' / (B : Int) - (k + z / (B : Int)) - 1)
        = (B : Int) * (z' / (B : Int)) - (B : Int) * (z / (B : Int)) - (B : Int) := by ring
    rw [e]
    omega
theorem to_size_cast (z : Int) : ((to_size z : Nat) : Int) = z % (2 ^ 64 : Int) := by
  unfold to_size
  exact Int.toNat_of_nonneg (Int.emod_nonneg z (by norm_num))

theorem sub_u64_cast (a b : Nat) :
    ((sub_u64 a b : Nat) : Int) = ((a : Int) - (b : Int)) % (2 ^ 64 : Int) := by
  unfold sub_u64 neg_u64
  omega

theorem deque_iterator.node_offset_floor (B : Nat) (hB : 0 < B) (offset : Int) :
    (if offset > 0 then offset / (B : Int) else -((-offset - 1) / (B : Int)) - 1)
      = offset / (B : Int) := by
  have hb : (0 : Int) < (B : Int) := by exact_mod_cast hB
  have hq0 := Int.emod_nonneg offset (show (B : Int) ≠ 0 by omega)
  have hq1 := Int.emod_lt_of_pos offset hb
  have hqz := Int.ediv_add_emod offset (B : Int)
  by_cases hp : offset > 0
  · rw [if_pos hp]
  · rw [if_neg hp]
    have := (ediv_emod_of_eq (B : Int) (-offset - 1) (-(offset / (B : Int)) - 1)
      ((B : Int) - 1 - offset % (B : Int))
      (by rw [mul_sub, mul_neg]; omega) (by omega) (by omega)).1
    rw [this]; ring

theorem deque_iterator.node_offset_u64_eq (B : Nat) (hB : 0 < B) (offset : Int)
    (hlo : -(2 ^ 63 : Int) < offset) (hhi : offset < (2 ^ 63 : Int)) (hne : offset ≠ 0) :
    deque_iterator.node_offset_u64 B offset = offset / (B : Int) := by
  have hfl := deque_iterator.node_offset_floor B hB offset
  unfold deque_iterator.node_offset_u64
  by_cases hp : offset > 0
  · rw [if_pos hp]
    have hu : to_size offset = offset.toNat := by
      unfold to_size
      rw [Int.emod_eq_of_lt (by omega) (by omega)]
    have hcast : ((offset.toNat : Nat) : Int) = offset := Int.toNat_of_nonneg (by omega)
    have hle : offset.toNat / B ≤ offset.toNat := Nat.div_le_self _ _
    have hd : ((offset.toNat / B : Nat) : Int) = offset / (B : Int) := by
      rw [Int.natCast_div, hcast]
    rw [hu, ← hd]
    have hlt : offset.toNat < 2 ^ 63 := by omega
    generalize offset.toNat / B = q at hle ⊢
    unfold to_diff
    split_ifs <;> omega
  · rw [if_neg hp]
    rw [if_neg hp] at hfl
    have hx0 : 0 ≤ -offset - 1 := by omega
    have hu : to_size (-offset - 1) = (-offset - 1).toNat := by
      unfold to_size
      rw [Int.emod_eq_of_lt (by omega) (by omega)]
    have hcast : (((-offset - 1).toNat : Nat) : Int) = -offset - 1 := Int.toNat_of_nonneg hx0
    have hle : (-offset - 1).toNat / B ≤ (-offset - 1).toNat := Nat.div_le_self _ _
    have hd : (((-offset - 1).toNat / B : Nat) : Int) = (-offset - 1) / (B : Int) := by
      rw [Int.natCast_div, hcast]
    rw [← hfl, ← hd, hu]
    have hlt : (-offset - 1).toNat < 2 ^ 63 := by omega
    generalize (-offset - 1).toNat / B = q at hle ⊢
    unfold to_diff sub_u64 neg_u64
    split_ifs <;> omega

theorem deque_iterator.remainder_u64_eq (B : Nat) (hB : 0 < B) (hB63 : B < 2 ^ 63)
    (offset : Int) :
    ((deque_iterator.remainder_u64 B offset (offset / (B : Int)) : Nat) : Int)
      = offset % (B : Int) := by
  have hb : (0 : Int) < (B : Int) := by exact_mod_cast hB
  have hq0 := Int.emod_nonneg offset (show (B : Int) ≠ 0 by omega)
  have hq1 := Int.emod_lt_of_pos offset hb
  have hqz := Int.ediv_add_emod offset (B : Int)
  unfold deque_iterator.remainder_u64
  rw [sub_u64_cast]
  simp only [Int.natCast_mod, Nat.cast_mul, Nat.cast_pow, Nat.cast_ofNat]
  rw [to_size_cast, to_size_cast]
  have key : Int.ModEq (2 ^ 64 : Int)
      (offset % (2 ^ 64 : Int) - offset / (B : Int) % (2 ^ 64 : Int) * (B : Int) % (2 ^ 64 : Int))
      (offset - offset / (B : Int) * (B : Int)) := by
    apply Int.ModEq.sub
    · exact Int.mod_modEq _ _
    · exact (Int.mod_modEq _ _).trans ((Int.mod_modEq _ _).mul_right _)
  have key' := key.eq
  have e : offset - offset / (B : Int) * (B : Int) = offset % (B : Int) := by
    rw [mul_comm]; omega
  rw [e] at key'
  rw [key']
  have hB63' : (B : Int) < 2 ^ 63 := by exact_mod_cast hB63
  exact Int.emod_eq_of_lt hq0 (by omega)
theorem deque_iterator.normal_eq_from (B : Nat) (m : Int → Base) (c : deque_iterator)
    (hc : c.normal B m) (k : Int) :
    c = deque_iterator.at_offset B m k ((B : Int) * (c._node - k) + c._current.off) := by
  obtain ⟨⟨cb, co⟩, first, last, node⟩ := c
  obtain ⟨h1, h2, h3, h4, h5⟩ := hc
  simp only at h1 h2 h3 h4 h5
  subst h1; subst h2; subst h3
  rw [deque_iterator.at_offset_of B m k _ (node - k) co rfl h4 h5]
  simp

/-- C31: for every normalized cursor `c` into a map and every integer `n`,
`c += n` returns the cursor at slot `slot(c) + floor((offset(c) + n) / B)` and
offset `(offset(c) + n) mod B`, which lies in `[0, B)`; it is the cursor that
`n` applications of `operator++` give when `n >= 0`, and `|n|` applications of
`operator--` when `n < 0`.  On the path that changes the slot, the 64-bit
unsigned arithmetic the source performs (`_block_size` is a `std::size_t`)
gives this slot delta and this offset. -/
theorem advance_matches_steps (B : Nat) (hB : 0 < B) (hB63 : B < 2 ^ 63) (m : Int → Base)
    (c : deque_iterator) (hc : c.normal B m) (n : Int) :
    deque_iterator.advance B m c n
      = some (deque_iterator.at_offset B m c._node (c._current.off + n)) ∧
    (if 0 ≤ n then (deque_iterator.inc B m)^[n.toNat] c
      else (deque_iterator.dec B m)^[(-n).toNat] c)
      = deque_iterator.at_offset B m c._node (c._current.off + n) ∧
    (deque_iterator.at_offset B m c._node (c._current.off + n))._node
      = c._node + (c._current.off + n) / (B : Int) ∧
    (deque_iterator.at_offset B m c._node (c._current.off + n))._current.off
      = (c._current.off + n) % (B : Int) ∧
    0 ≤ (c._current.off + n) % (B : Int) ∧ (c._current.off + n) % (B : Int) < (B : Int) ∧
    (deque_iterator.at_offset B m c._node (c._current.off + n)).normal B m ∧
    (-(2 ^ 63 : Int) < c._current.off + n → c._current.off + n < (2 ^ 63 : Int) →
      ¬ (0 ≤ c._current.off + n ∧ c._current.off + n < (B : Int)) →
      deque_iterator.node_offset_u64 B (c._current.off + n)
          = (c._current.off + n) / (B : Int) ∧
        ((deque_iterator.remainder_u64 B (c._current.off + n)
            ((c._current.off + n) / (B : Int)) : Nat) : Int)
          = (c._current.off + n) % (B : Int)) := by
  have hb : (0 : Int) < (B : Int) := by exact_mod_cast hB
  have hce := deque_iterator.normal_eq B m c hc
  refine ⟨?_, ?_, rfl, rfl, Int.emod_nonneg _ (by omega), Int.emod_lt_of_pos _ hb,
    deque_iterator.at_offset_normal B hB m _ _, ?_⟩
  · conv_lhs => rw [hce]
    exact deque_iterator.advance_at_offset B hB m _ _ n
  · by_cases hn : 0 ≤ n
    · rw [if_pos hn]
      conv_lhs => rw [hce]
      rw [deque_iterator.iterate_inc_at_offset B hB, Int.toNat_of_nonneg hn]
    · rw [if_neg hn]
      conv_lhs => rw [hce]
      rw [deque_iterator.iterate_dec_at_offset B hB, Int.toNat_of_nonneg (by omega)]
      congr 1
      ring
  · intro h1 h2 h3
    exact ⟨deque_iterator.node_offset_u64_eq B hB _ h1 h2 (by omega),
      deque_iterator.remainder_u64_eq B hB hB63 _⟩

/-- Witness for C31: with block capacity 16, the cursor at offset 5 of slot 3
and `n = -22` (slot 1, offset 15). -/
theorem advance_matches_steps_witness :
    0 < 16 ∧ 16 < 2 ^ 63 ∧
    deque_iterator.normal 16 (fun j => Base.blk j.toNat)
      ⟨⟨Base.blk 3, 5⟩, ⟨Base.blk 3, 0⟩, ⟨Base.blk 3, 16⟩, 3⟩ ∧
    deque_iterator.advance 16 (fun j => Base.blk j.toNat)
        ⟨⟨Base.blk 3, 5⟩, ⟨Base.blk 3, 0⟩, ⟨Base.blk 3, 16⟩, 3⟩ (-22)
      = some (deque_iterator.at_offset 16 (fun j => Base.blk j.toNat) 3 (5 + -22)) ∧
    deque_iterator.at_offset 16 (fun j => Base.blk j.toNat) 3 (5 + -22)
      = ⟨⟨Base.blk 1, 15⟩, ⟨Base.blk 1, 0⟩, ⟨Base.blk 1, 16⟩, 1⟩ ∧
    (deque_iterator.dec 16 (fun j => Base.blk j.toNat))^[22]
        ⟨⟨Base.blk 3, 5⟩, ⟨Base.blk 3, 0⟩, ⟨Base.blk 3, 16⟩, 3⟩
      = ⟨⟨Base.blk 1, 15⟩, ⟨Base.blk 1, 0⟩, ⟨Base.blk 1, 16⟩, 1⟩ :=
  ⟨by decide, by decide, ⟨rfl, rfl, rfl, by decide, by decide⟩,
    (advance_matches_steps 16 (by decide) (by decide) (fun j => Base.blk j.toNat)
      ⟨⟨Base.blk 3, 5⟩, ⟨Base.blk 3, 0⟩, ⟨Base.blk 3, 16⟩, 3⟩
      ⟨rfl, rfl, rfl, by decide, by decide⟩ (-22)).1,
    by decide, by decide⟩

/-- C32: for normalized cursors `a` and `b` into the same map, `b - a` is
`B * (slot(b) - slot(a)) + (offset(b) - offset(a))` whatever the sign of the
slot difference, `a - b` is its negation, and `(a + n) - a == n` for every
integer `n`. -/
theorem difference_formula (B : Nat) (hB : 0 < B) (m : Int → Base)
    (a b : deque_iterator) (ha : a.normal B m) (hb : b.normal B m) (n : Int) :
    deque_iterator.sub B b a
      = some ((B : Int) * (b._node - a._node) + (b._current.off - a._current.off)) ∧
    deque_iterator.sub B a b
      = some (-((B : Int) * (b._node - a._node) + (b._current.off - a._current.off))) ∧
    ∃ r, deque_iterator.advance B m a n = some r ∧ deque_iterator.sub B r a = some n := by
  have hae := deque_iterator.normal_eq B m a ha
  have hbe := deque_iterator.normal_eq_from B m b hb a._node
  refine ⟨?_, ?_, ?_⟩
  · conv_lhs => rw [hae, hbe]
    rw [deque_iterator.sub_at_offset B hB]
    congr 1
    ring
  · conv_lhs => rw [hae, hbe]
    rw [deque_iterator.sub_at_offset B hB]
    congr 1
    ring
  · refine ⟨deque_iterator.at_offset B m a._node (a._current.off + n), ?_, ?_⟩
    · conv_lhs => rw [hae]
      exact deque_iterator.advance_at_offset B hB m _ _ n
    · have h := deque_iterator.sub_at_offset B hB m a._node a._current.off
        (a._current.off + n)
      rw [← hae] at h
      rw [h]
      congr 1
      ring

/-- Witness for C32: with block capacity 16, `a` at offset 5 of slot 3 and `b`
at offset 2 of slot 1 give `b - a == -35` and `a - b == 35`. -/
theorem difference_formula_witness :
    0 < 16 ∧
    deque_iterator.normal 16 (fun j => Base.blk j.toNat)
      ⟨⟨Base.blk 3, 5⟩, ⟨Base.blk 3, 0⟩, ⟨Base.blk 3, 16⟩, 3⟩ ∧
    deque_iterator.normal 16 (fun j => Base.blk j.toNat)
      ⟨⟨Base.blk 1, 2⟩, ⟨Base.blk 1, 0⟩, ⟨Base.blk 1, 16⟩, 1⟩ ∧
    deque_iterator.sub 16 ⟨⟨Base.blk 1, 2⟩, ⟨Base.blk 1, 0⟩, ⟨Base.blk 1, 16⟩, 1⟩
        ⟨⟨Base.blk 3, 5⟩, ⟨Base.blk 3, 0⟩, ⟨Base.blk 3, 16⟩, 3⟩
      = some ((16 : Int) * (1 - 3) + (2 - 5)) ∧
    deque_iterator.sub 16 ⟨⟨Base.blk 3, 5⟩, ⟨Base.blk 3, 0⟩, ⟨Base.blk 3, 16⟩, 3⟩
        ⟨⟨Base.blk 1, 2⟩, ⟨Base.blk 1, 0⟩, ⟨Base.blk 1, 16⟩, 1⟩
      = some 35 :=
  ⟨by decide, ⟨rfl, rfl, rfl, by decide, by decide⟩, ⟨rfl, rfl, rfl, by decide, by decide⟩,
    (difference_formula 16 (by decide) (fun j => Base.blk j.toNat)
      ⟨⟨Base.blk 3, 5⟩, ⟨Base.blk 3, 0⟩, ⟨Base.blk 3, 16⟩, 3⟩
      ⟨⟨Base.blk 1, 2⟩, ⟨Base.blk 1, 0⟩, ⟨Base.blk 1, 16⟩, 1⟩
      ⟨rfl, rfl, rfl, by decide, by decide⟩ ⟨rfl, rfl, rfl, by decide, by decide⟩ 0).1,
    by decide⟩

/-! ### The singly-linked list: links and frames -/

theorem FLStore.set_next_some {α : Type} (st : FLStore α) (a : Nat) (q : Option Nat)
    (nd : ForwardListValueNode α) (h : st a = some nd) :
    ∃ st1, st.set_next a q = some st1 ∧
      st1 a = some { _next := q, _value := nd._value } ∧ ∀ i, i ≠ a → st1 i = st i := by
  refine ⟨fun i => if i = a then some { nd with _next := q } else st i, ?_, ?_, ?_⟩
  · simp [FLStore.set_next, h]
  · simp
  · intro i hi
    simp [hi]

theorem FLStore.seg_frame {α : Type} (st st' : FLStore α) (ns : List (Nat × α)) :
    ∀ (p q : Option Nat), st.seg p ns q → (∀ x ∈ ns, st' x.1 = st x.1) → st'.seg p ns q := by
  induction ns with
  | nil => intro p q h _; exact h
  | cons x ns ih =>
    intro p q h hf
    obtain ⟨hp, nx, hx, hs⟩ := h
    refine ⟨hp, nx, ?_, ih nx q hs (fun y hy => hf y (List.mem_cons_of_mem _ hy))⟩
    rw [hf x (List.mem_cons_self _ _)]
    exact hx

theorem FLStore.seg_append {α : Type} (st : FLStore α) (as bs : List (Nat × α)) :
    ∀ (p q : Option Nat),
      st.seg p (as ++ bs) q ↔ ∃ r, st.seg p as r ∧ st.seg r bs q := by
  induction as with
  | nil =>
    intro p q
    constructor
    · intro h; exact ⟨p, rfl, h⟩
    · rintro ⟨r, hr, h⟩
      have : p = r := hr
      subst this; exact h
  | cons x as ih =>
    intro p q
    constructor
    · rintro ⟨hp, nx, hx, hs⟩
      obtain ⟨r, h1, h2⟩ := (ih nx q).mp hs
      exact ⟨r, ⟨hp, nx, hx, h1⟩, h2⟩
    · rintro ⟨r, ⟨hp, nx, hx, h1⟩, h2⟩
      exact ⟨hp, nx, hx, (ih nx q).mpr ⟨r, h1, h2⟩⟩

theorem FLStore.seg_functional {α : Type} (st : FLStore α) (ns : List (Nat × α)) :
    ∀ (p q q' : Option Nat), st.seg p ns q → st.seg p ns q' → q = q' := by
  induction ns with
  | nil =>
    intro p q q' h h'
    have e1 : p = q := h
    have e2 : p = q' := h'
    rw [← e1, ← e2]
  | cons x ns ih =>
    intro p q q' h h'
    obtain ⟨_, nx, hx, hs⟩ := h
    obtain ⟨_, nx', hx', hs'⟩ := h'
    rw [hx] at hx'
    have e : nx = nx' := by
      have := Option.some.inj hx'
      exact congrArg ForwardListValueNode._next this
    subst e
    exact ih nx q q' hs hs'

theorem forward_list.reverse_loop_none {α : Type} (f : Nat) (st : FLStore α)
    (prev : Option Nat) : forward_list.reverse_loop f st prev none = Except.ok (st, prev) := by
  cases f <;> rfl

theorem forward_list.reverse_loop_spec {α : Type} (cs : List (Nat × α)) :
    ∀ (ps : List (Nat × α)) (st : FLStore α) (prev curr : Option Nat) (f : Nat),
      st.seg curr cs none → st.seg prev ps none →
      ((cs ++ ps).map (fun x => x.1)).Nodup → cs.length ≤ f →
      ∃ st' r, forward_list.reverse_loop f st prev curr = Except.ok (st', r) ∧
        st'.seg r (cs.reverse ++ ps) none ∧
        ∀ i, i ∉ cs.map (fun x => x.1) → st' i = st i := by
  induction cs with
  | nil =>
    intro ps st prev curr f hc hp _ _
    have : curr = none := hc
    subst this
    exact ⟨st, prev, forward_list.reverse_loop_none f st prev, hp, fun _ _ => rfl⟩
  | cons x cs ih =>
    intro ps st prev curr f hc hp hnd hf
    obtain ⟨hcur, nx, hx, hs⟩ := hc
    subst hcur
    cases f with
    | zero => simp at hf
    | succ g =>
      obtain ⟨st1, h1, h2, h3⟩ := st.set_next_some x.1 prev _ hx
      simp only [List.cons_append, List.map_cons, List.nodup_cons, List.map_append,
        List.mem_append, not_or] at hnd
      obtain ⟨⟨hx1, hx2⟩, hnd'⟩ := hnd
      have hs1 : st1.seg nx cs none := by
        apply FLStore.seg_frame st st1 cs nx none hs
        intro y hy
        apply h3
        intro e
        exact hx1 (e ▸ List.mem_map_of_mem (fun x => x.1) hy)
      have hp1 : st1.seg (some x.1) (x :: ps) none := by
        refine ⟨rfl, prev, h2, ?_⟩
        apply FLStore.seg_frame st st1 ps prev none hp
        intro y hy
        apply h3
        intro e
        exact hx2 (e ▸ List.mem_map_of_mem (fun x => x.1) hy)
      have hnd1 : ((cs ++ x :: ps).map (fun x => x.1)).Nodup := by
        simp only [List.map_append, List.map_cons]
        rw [List.nodup_append] at hnd' ⊢
        refine ⟨hnd'.1, List.nodup_cons.mpr ⟨hx2, hnd'.2.1⟩, ?_⟩
        intro a ha hb
        rcases List.mem_cons.mp hb with e | hb'
        · exact hx1 (e ▸ ha)
        · exact hnd'.2.2 ha hb'
      obtain ⟨st', r, hr, hseg, hfr⟩ :=
        ih (x :: ps) st1 (some x.1) nx g hs1 hp1 hnd1 (by simpa using hf)
      refine ⟨st', r, ?_, ?_, ?_⟩
      · simp only [forward_list.reverse_loop, hx, h1]
        exact hr
      · simpa [List.reverse_cons, List.append_assoc] using hseg
      · intro i hi
        simp only [List.map_cons, List.mem_cons, not_or] at hi
        rw [hfr i hi.2, h3 i hi.1]
theorem forward_list.reverse_spec {α : Type} (st : FLStore α) (l : forward_list)
    (ns : List (Nat × α)) (h : st.is_list l._dummy._next ns) (fuel : Nat)
    (hf : ns.length ≤ fuel) :
    ∃ st1 l1, forward_list.reverse fuel st l = Except.ok (st1, l1) ∧
      st1.is_list l1._dummy._next ns.reverse ∧
      ∀ i, i ∉ ns.map (fun x => x.1) → st1 i = st i := by
  obtain ⟨hseg, hnd⟩ := h
  have hnd' : (ns.reverse.map (fun x => x.1)).Nodup := by
    rw [List.map_reverse]; exact List.nodup_reverse.mpr hnd
  match ns, hseg, hnd, hnd', hf with
  | [], hseg, _, _, _ =>
    have e : l._dummy._next = none := hseg
    refine ⟨st, l, ?_, ⟨hseg, List.nodup_nil⟩, fun _ _ => rfl⟩
    simp [forward_list.reverse, e]
  | [x], hseg, hnd, _, _ =>
    obtain ⟨e, nx, hx, hn⟩ := hseg
    have e2 : nx = none := hn
    subst e2
    refine ⟨st, l, ?_, ⟨⟨e, none, hx, rfl⟩, hnd⟩, fun _ _ => rfl⟩
    simp [forward_list.reverse, e, hx]
  | x :: y :: rest, hseg, hnd, hnd', hf =>
    obtain ⟨e, nx, hx, hn⟩ := hseg
    have hnx : nx = some y.1 := hn.1
    obtain ⟨st', r, hr, hs', hfr⟩ := forward_list.reverse_loop_spec (x :: y :: rest) [] st none
      (some x.1) fuel ⟨rfl, nx, hx, hn⟩ rfl (by simpa using hnd) hf
    refine ⟨st', { _dummy := { _next := r } }, ?_, ⟨by simpa using hs', hnd'⟩, hfr⟩
    simp [forward_list.reverse, e, hx, hnx, hr]

/-- C39: for every list whose nodes, in order, are `ns` (so that it holds the
values `ns.map (·.2)`), `reverse()` returns, given fuel for one loop over the
list, and leaves the list consisting of the same nodes in reverse order, so
holding the values in reverse order; a second `reverse()` restores the
nodes, and the values, to the original order. -/
theorem reverse_reverses {α : Type} (st : FLStore α) (l : forward_list)
    (ns : List (Nat × α)) (h : st.is_list l._dummy._next ns) (fuel : Nat)
    (hf : ns.length ≤ fuel) :
    ∃ st1 l1, forward_list.reverse fuel st l = Except.ok (st1, l1) ∧
      st1.is_list l1._dummy._next ns.reverse ∧
      ns.reverse.map (fun x => x.2) = (ns.map (fun x => x.2)).reverse ∧
      ∃ st2 l2, forward_list.reverse fuel st1 l1 = Except.ok (st2, l2) ∧
        st2.is_list l2._dummy._next ns := by
  obtain ⟨st1, l1, h1, hl1, _⟩ := forward_list.reverse_spec st l ns h fuel hf
  obtain ⟨st2, l2, h2, hl2, _⟩ :=
    forward_list.reverse_spec st1 l1 ns.reverse hl1 fuel (by simpa using hf)
  refine ⟨st1, l1, h1, hl1, List.map_reverse _ _, st2, l2, h2, ?_⟩
  simpa using hl2
theorem test_store_list_a :
    test_store.is_list (some 10) [(10, 3), (11, 1), (12, 2)] :=
  ⟨⟨rfl, some 11, rfl, rfl, some 12, rfl, rfl, none, rfl, rfl⟩, by decide⟩

/-- Witness for C39: the list of the nodes 10, 11, 12 holding 3, 1, 2. -/
theorem reverse_reverses_witness :
    test_store.is_list (some 10) [(10, 3), (11, 1), (12, 2)] ∧ 3 ≤ 3 ∧
    (∃ st1 l1, forward_list.reverse 3 test_store { _dummy := { _next := some 10 } }
        = Except.ok (st1, l1) ∧
      st1.is_list l1._dummy._next [(10, 3), (11, 1), (12, 2)].reverse ∧
      [(10, 3), (11, 1), (12, 2)].reverse.map (fun x => x.2)
        = ([(10, 3), (11, 1), (12, 2)].map (fun x => x.2)).reverse ∧
      ∃ st2 l2, forward_list.reverse 3 st1 l1 = Except.ok (st2, l2) ∧
        st2.is_list l2._dummy._next [(10, 3), (11, 1), (12, 2)]) ∧
    (forward_list.reverse 3 test_store { _dummy := { _next := some 10 } }).toOption.bind
      (fun r => r.1.values 3 r.2._dummy._next) = some [2, 1, 3] :=
  ⟨test_store_list_a, by decide,
    reverse_reverses test_store { _dummy := { _next := some 10 } } [(10, 3), (11, 1), (12, 2)]
      test_store_list_a 3 (by decide),
    by decide⟩

theorem NodeRef.set_next_spec {α : Type} (st : FLStore α) (l : forward_list) (prev : NodeRef)
    (q : Option Nat) (hv : ∀ a, prev = NodeRef.node a → ∃ nd, st a = some nd) :
    ∃ st1 l1, prev.set_next st l q = Except.ok (st1, l1) ∧
      NodeRef.next st1 l1 prev = some q ∧
      (∀ i, NodeRef.node i ≠ prev → st1 i = st i) ∧
      (prev ≠ NodeRef.dummy → l1 = l) ∧
      (∀ a nd, prev = NodeRef.node a → st a = some nd →
        st1 a = some { _next := q, _value := nd._value }) := by
  cases prev with
  | dummy =>
    refine ⟨st, { _dummy := { _next := q } }, rfl, rfl, fun _ _ => rfl, ?_, ?_⟩
    · intro h; exact absurd rfl h
    · intro a nd h; exact absurd h (by simp)
  | node a =>
    obtain ⟨nd, hnd⟩ := hv a rfl
    obtain ⟨st1, h1, h2, h3⟩ := st.set_next_some a q nd hnd
    refine ⟨st1, l, ?_, ?_, ?_, fun _ => rfl, ?_⟩
    · simp [NodeRef.set_next, h1]
    · simp [NodeRef.next, h2]
    · intro i hi
      apply h3
      intro e
      exact hi (by rw [e])
    · intro a' nd' ha' hnd'
      have e : a = a' := NodeRef.node.inj ha'
      subst e
      rw [hnd] at hnd'
      have := Option.some.inj hnd'
      subst this
      exact h2

theorem forward_list.merge_loop_spec {α : Type} (comp : α → α → Bool) (f : Nat) :
    ∀ (ts os : List (Nat × α)) (st : FLStore α) (l : forward_list) (prev : NodeRef)
      (tcur ocur : Option Nat),
      st.seg tcur ts none → st.seg ocur os none →
      ((ts ++ os).map (fun x => x.1)).Nodup →
      (∀ a, prev = NodeRef.node a → (∃ nd, st a = some nd) ∧
        a ∉ (ts ++ os).map (fun x => x.1)) →
      NodeRef.next st l prev = some tcur →
      ts.length + os.length ≤ f →
      ∃ st1 l1 p1 oc1, forward_list.merge_loop comp f st l prev tcur ocur
          = Except.ok (st1, l1, p1, oc1) ∧
        ∃ st2 l2,
          (match oc1 with
            | some o => p1.set_next st1 l1 (some o)
            | none => Except.ok (st1, l1)) = Except.ok (st2, l2) ∧
          ∃ p', NodeRef.next st2 l2 prev = some p' ∧
            st2.seg p' (List.merge ts os (node_le comp)) none ∧
            (∀ i, i ∉ (ts ++ os).map (fun x => x.1) → NodeRef.node i ≠ prev → st2 i = st i) ∧
            (prev ≠ NodeRef.dummy → l2 = l) ∧
            (∀ a nd, prev = NodeRef.node a → st a = some nd →
              st2 a = some { _next := p', _value := nd._value }) := by
  induction f with
  | zero =>
    intro ts os st l prev tcur ocur ht ho _ hprev hnext hf
    have hts : ts = [] := List.eq_nil_of_length_eq_zero (by omega)
    have hos : os = [] := List.eq_nil_of_length_eq_zero (by omega)
    subst hts; subst hos
    have e1 : tcur = none := ht
    have e2 : ocur = none := ho
    subst e1; subst e2
    refine ⟨st, l, prev, none, rfl, st, l, rfl, none, hnext, by simp [FLStore.seg],
      fun _ _ _ => rfl, fun _ => rfl, ?_⟩
    intro a nd ha hnd
    rw [ha] at hnext
    simp only [NodeRef.next, hnd] at hnext
    have := Option.some.inj hnext
    rw [← this]; exact hnd
  | succ g ih =>
    intro ts os st l prev tcur ocur ht ho hnd hprev hnext hf
    have keep : ∀ a nd, prev = NodeRef.node a → st a = some nd →
        st a = some { _next := tcur, _value := nd._value } := by
      intro a nd ha hnd'
      rw [ha] at hnext
      simp only [NodeRef.next, hnd'] at hnext
      have := Option.some.inj hnext
      rw [← this]; exact hnd'
    match ts, os, ht, ho, hnd, hprev, hf with
    | [], os, ht, ho, _, hprev, _ =>
      have e1 : tcur = none := ht
      subst e1
      cases ocur with
      | none =>
        have hos : os = [] := by
          cases os with
          | nil => rfl
          | cons y os => exact absurd ho.1 (by simp)
        subst hos
        exact ⟨st, l, prev, none, rfl, st, l, rfl, none, hnext, by simp [FLStore.seg],
          fun _ _ _ => rfl, fun _ => rfl, keep⟩
      | some o =>
        obtain ⟨st2, l2, h1, h2, h3, h4, h5⟩ := NodeRef.set_next_spec st l prev (some o)
          (fun a ha => (hprev a ha).1)
        refine ⟨st, l, prev, some o, rfl, st2, l2, h1, some o, h2, ?_, ?_, h4, h5⟩
        · rw [List.nil_merge]
          apply FLStore.seg_frame st st2 os (some o) none ho
          intro y hy
          apply h3
          intro e
          exact (hprev y.1 e.symm).2 (by simpa using List.mem_map_of_mem (fun x => x.1) hy)
        · intro i _ hi; exact h3 i hi
    | t :: ts', [], ht, ho, _, hprev, _ =>
      have e2 : ocur = none := ho
      subst e2
      have ht0 := ht
      obtain ⟨e1, _⟩ := ht
      subst e1
      refine ⟨st, l, prev, none, rfl, st, l, rfl, some t.1, hnext, ?_, fun _ _ _ => rfl,
        fun _ => rfl, keep⟩
      rw [List.merge_right]
      exact ht0
    | t :: ts', o :: os', ht, ho, hnd, hprev, hf =>
      obtain ⟨e1, tnx, htn, hts⟩ := ht
      obtain ⟨e2, onx, hon, hos⟩ := ho
      subst e1; subst e2
      -- facts about distinctness
      simp only [List.map_append, List.map_cons, List.cons_append, List.nodup_cons,
        List.mem_append, List.mem_cons, not_or] at hnd
      obtain ⟨⟨ht1, hto, ht2⟩, hnd1⟩ := hnd
      rw [List.nodup_append] at hnd1
      obtain ⟨hndt, hndo, hdisj⟩ := hnd1
      obtain ⟨ho1, hndo'⟩ := List.nodup_cons.mp hndo
      have hot : o.1 ∉ ts'.map (fun x => x.1) := fun h =>
        hdisj h (List.mem_cons_self _ _)
      have hpm : ∀ a, prev = NodeRef.node a → a ≠ t.1 ∧ a ≠ o.1 ∧
          a ∉ ts'.map (fun x => x.1) ∧ a ∉ os'.map (fun x => x.1) := by
        intro a ha
        have := (hprev a ha).2
        simp only [List.map_append, List.map_cons, List.cons_append, List.mem_cons,
          List.mem_append, not_or] at this
        exact ⟨this.1, this.2.2.1, this.2.1, this.2.2.2⟩
      by_cases hc : comp o.2 t.2 = true
      · -- the node of `other` is moved in front of `this_curr`
        obtain ⟨sta, ha1, ha2, ha3⟩ := st.set_next_some o.1 (some t.1) _ hon
        have hva : ∀ a, prev = NodeRef.node a → ∃ nd, sta a = some nd := by
          intro a ha
          obtain ⟨nd, hnd'⟩ := (hprev a ha).1
          exact ⟨nd, by rw [ha3 a (hpm a ha).2.1]; exact hnd'⟩
        obtain ⟨stb, lb, hb1, hb2, hb3, hb4, hb5⟩ :=
          NodeRef.set_next_spec sta l prev (some o.1) hva
        have hbo : stb o.1 = some { _next := some t.1, _value := o.2 } := by
          rw [hb3 o.1 (fun e => (hpm o.1 e.symm).2.1 rfl)]
          exact ha2
        have hfr : ∀ i, i ≠ o.1 → NodeRef.node i ≠ prev → stb i = st i := by
          intro i h1 h2
          rw [hb3 i h2, ha3 i h1]
        have hts' : stb.seg (some t.1) (t :: ts') none := by
          apply FLStore.seg_frame st stb (t :: ts') (some t.1) none ⟨rfl, tnx, htn, hts⟩
          intro y hy
          apply hfr
          · intro e
            rcases List.mem_cons.mp hy with h | h
            · exact hto (by rw [← e, h])
            · exact hot (e ▸ List.mem_map_of_mem (fun x => x.1) h)
          · intro e
            have := (hprev y.1 e.symm).2
            exact this (by
              simp only [List.map_append, List.mem_append]
              exact Or.inl (List.mem_map_of_mem (fun x => x.1) hy))
        have hos' : stb.seg onx os' none := by
          apply FLStore.seg_frame st stb os' onx none hos
          intro y hy
          apply hfr
          · intro e
            exact ho1 (e ▸ List.mem_map_of_mem (fun x => x.1) hy)
          · intro e
            exact (hpm y.1 e.symm).2.2.2 (List.mem_map_of_mem (fun x => x.1) hy)
        have hnd' : (((t :: ts') ++ os').map (fun x => x.1)).Nodup := by
          simp only [List.map_append, List.map_cons, List.cons_append]
          refine List.nodup_cons.mpr ⟨?_, ?_⟩
          · simp only [List.mem_append, not_or]
            exact ⟨ht1, ht2⟩
          · rw [List.nodup_append]
            exact ⟨hndt, hndo', fun _ h1 h2 => hdisj h1 (List.mem_cons_of_mem _ h2)⟩
        obtain ⟨st1, l1, p1, oc1, hl, st2, l2, hfix, p', hq1, hq2, hq3, hq4, hq5⟩ :=
          ih (t :: ts') os' stb lb (NodeRef.node o.1) (some t.1) onx hts' hos' hnd'
            (by
              intro a ha
              have e : o.1 = a := NodeRef.node.inj ha
              subst e
              refine ⟨⟨_, hbo⟩, ?_⟩
              simp only [List.map_append, List.map_cons, List.cons_append, List.mem_cons,
                List.mem_append, not_or]
              exact ⟨fun e => hto e.symm, hot, ho1⟩)
            (by simp [NodeRef.next, hbo])
            (by simp only [List.length_cons] at hf ⊢; omega)
        have hq5' := hq5 o.1 _ rfl hbo
        have hunch : ∀ i, NodeRef.node i = prev → st2 i = stb i := by
          intro i hi
          apply hq3
          · simp only [List.map_append, List.map_cons, List.cons_append, List.mem_cons,
              List.mem_append, not_or]
            exact ⟨(hpm i hi.symm).1, (hpm i hi.symm).2.2.1, (hpm i hi.symm).2.2.2⟩
          · intro e
            have := NodeRef.node.inj e
            exact (hpm i hi.symm).2.1 this
        refine ⟨st1, l1, p1, oc1, ?_, st2, l2, hfix, some o.1, ?_, ?_, ?_, ?_, ?_⟩
        · simp only [forward_list.merge_loop, hon, htn, hc, if_true, ha1, hb1]
          exact hl
        · cases prev with
          | dummy =>
            have e := hq4 (by simp)
            rw [e]; exact hb2
          | node a =>
            simp only [NodeRef.next] at hb2 ⊢
            rw [hunch a rfl]; exact hb2
        · have hm : List.merge (t :: ts') (o :: os') (node_le comp)
              = o :: List.merge (t :: ts') os' (node_le comp) := by
            rw [List.cons_merge_cons, if_neg (by simp [node_le, hc])]
          rw [hm]
          exact ⟨rfl, p', hq5', hq2⟩
        · intro i hi hip
          simp only [List.map_append, List.map_cons, List.cons_append, List.mem_cons,
            List.mem_append, not_or] at hi
          rw [hq3 i (by
              simp only [List.map_append, List.map_cons, List.cons_append, List.mem_cons,
                List.mem_append, not_or]
              exact ⟨hi.1, hi.2.1, hi.2.2.2⟩)
            (fun e => hi.2.2.1 (NodeRef.node.inj e))]
          exact hfr i hi.2.2.1 hip
        · intro hp
          rw [hq4 (by simp), hb4 hp]
        · intro a nd ha hnd'
          rw [hunch a ha.symm]
          have hnda : sta a = some nd := by rw [ha3 a (hpm a ha).2.1]; exact hnd'
          exact hb5 a nd ha hnda
      · -- `this_curr` stays in place
        have hc' : comp o.2 t.2 = false := by simpa using hc
        obtain ⟨st1, l1, p1, oc1, hl, st2, l2, hfix, p', hq1, hq2, hq3, hq4, hq5⟩ :=
          ih ts' (o :: os') st l (NodeRef.node t.1) tnx (some o.1) hts ⟨rfl, onx, hon, hos⟩
            (by
              simp only [List.map_append, List.map_cons]
              rw [List.nodup_append]
              exact ⟨hndt, hndo, hdisj⟩)
            (by
              intro a ha
              have e : t.1 = a := NodeRef.node.inj ha
              subst e
              refine ⟨⟨_, htn⟩, ?_⟩
              simp only [List.map_append, List.map_cons, List.mem_cons, List.mem_append, not_or]
              exact ⟨ht1, hto, ht2⟩)
            (by simp [NodeRef.next, htn])
            (by simp only [List.length_cons] at hf ⊢; omega)
        have hq5' := hq5 t.1 _ rfl htn
        have hunch : ∀ i, NodeRef.node i = prev → st2 i = st i := by
          intro i hi
          apply hq3
          · simp only [List.map_append, List.map_cons, List.mem_cons, List.mem_append, not_or]
            exact ⟨(hpm i hi.symm).2.2.1, (hpm i hi.symm).2.1, (hpm i hi.symm).2.2.2⟩
          · intro e
            exact (hpm i hi.symm).1 (NodeRef.node.inj e)
        refine ⟨st1, l1, p1, oc1, ?_, st2, l2, hfix, some t.1, ?_, ?_, ?_, ?_, ?_⟩
        · simp only [forward_list.merge_loop, hon, htn, hc', Bool.false_eq_true, if_false]
          exact hl
        · cases prev with
          | dummy =>
            have e := hq4 (by simp)
            rw [e]; exact hnext
          | node a =>
            simp only [NodeRef.next] at hnext ⊢
            rw [hunch a rfl]; exact hnext
        · have hm : List.merge (t :: ts') (o :: os') (node_le comp)
              = t :: List.merge ts' (o :: os') (node_le comp) := by
            rw [List.cons_merge_cons, if_pos (by simp [node_le, hc'])]
          rw [hm]
          exact ⟨rfl, p', hq5', hq2⟩
        · intro i hi hip
          simp only [List.map_append, List.map_cons, List.cons_append, List.mem_cons,
            List.mem_append, not_or] at hi
          exact hq3 i (by
              simp only [List.map_append, List.map_cons, List.mem_cons, List.mem_append, not_or]
              exact ⟨hi.2.1, hi.2.2.1, hi.2.2.2⟩)
            (fun e => hi.1 (NodeRef.node.inj e))
        · intro hp
          exact hq4 (by simp)
        · intro a nd ha hnd'
          rw [hunch a ha.symm]
          exact keep a nd ha hnd'
theorem node_le_total {α : Type} (comp : α → α → Bool) (hc : strict_weak_order comp)
    (a b : Nat × α) : (node_le comp a b || node_le comp b a) = true := by
  simp only [node_le, Bool.or_eq_true, Bool.not_eq_true']
  by_contra h
  simp only [not_or, Bool.not_eq_false] at h
  have := hc.trans _ _ _ h.1 h.2
  rw [hc.irrefl] at this
  exact Bool.noConfusion this

theorem comp_neg_trans {α : Type} (comp : α → α → Bool) (hc : strict_weak_order comp)
    (a b c : α) (h1 : comp b a = false) (h2 : comp c b = false) : comp c a = false := by
  by_contra h
  have hca : comp c a = true := by simpa using h
  have hbc : comp b c = false := by
    by_contra h'
    have h' : comp b c = true := by simpa using h'
    have := hc.trans _ _ _ h' hca
    rw [h1] at this
    exact Bool.noConfusion this
  have hab : comp a b = false := by
    by_contra h'
    have h' : comp a b = true := by simpa using h'
    have := hc.trans _ _ _ hca h'
    rw [h2] at this
    exact Bool.noConfusion this
  have := (hc.incomp_trans a b c hab h1 hbc h2).2
  rw [hca] at this
  exact Bool.noConfusion this

theorem node_le_trans {α : Type} (comp : α → α → Bool) (hc : strict_weak_order comp)
    (a b c : Nat × α) (h1 : node_le comp a b = true) (h2 : node_le comp b c = true) :
    node_le comp a c = true := by
  simp only [node_le, Bool.not_eq_true'] at h1 h2 ⊢
  exact comp_neg_trans comp hc _ _ _ h1 h2

theorem sorted_by_pairwise {α : Type} (comp : α → α → Bool) (hc : strict_weak_order comp)
    (ns : List (Nat × α)) (h : sorted_by comp (ns.map (fun x => x.2))) :
    ns.Pairwise (fun x y => node_le comp x y = true) := by
  haveI : IsTrans α (fun x y => comp y x = false) :=
    ⟨fun a b c h1 h2 => comp_neg_trans comp hc a b c h1 h2⟩
  have hp := List.chain'_iff_pairwise.mp h
  rw [List.pairwise_map] at hp
  exact hp.imp (by
    intro a b hab
    simp only [node_le, Bool.not_eq_true']
    exact hab)

theorem pairwise_node_le_values {α : Type} (comp : α → α → Bool) (ns : List (Nat × α))
    (h : ns.Pairwise (fun x y => node_le comp x y = true)) :
    (ns.map (fun x => x.2)).Pairwise (fun x y => comp y x = false) := by
  rw [List.pairwise_map]
  exact h.imp (by
    intro a b hab
    simpa only [node_le, Bool.not_eq_true'] using hab)

theorem merge_cross {β : Type} (le : β → β → Bool)
    (trans : ∀ a b c, le a b = true → le b c = true → le a c = true) :
    ∀ (xs ys : List β), xs.Pairwise (fun x y => le x y = true) →
      ∀ a ∈ xs, ∀ b ∈ ys, le a b = true → List.Sublist [a, b] (List.merge xs ys le) := by
  intro xs
  induction xs with
  | nil => intro ys _ a ha; exact absurd ha (List.not_mem_nil _)
  | cons x xs ihx =>
    intro ys
    induction ys with
    | nil => intro _ a _ b hb; exact absurd hb (List.not_mem_nil _)
    | cons y ys ihy =>
      intro hs a ha b hb hab
      rw [List.cons_merge_cons]
      have hs' := List.pairwise_cons.mp hs
      by_cases hxy : le x y = true
      · rw [if_pos hxy]
        rcases List.mem_cons.mp ha with rfl | ha'
        · apply List.Sublist.cons₂
          exact List.singleton_sublist.mpr (List.mem_merge.mpr (Or.inr hb))
        · exact List.Sublist.cons _ (ihx (y :: ys) hs'.2 a ha' b hb hab)
      · rw [if_neg hxy]
        rcases List.mem_cons.mp hb with rfl | hb'
        · exfalso
          apply hxy
          rcases List.mem_cons.mp ha with rfl | ha'
          · exact hab
          · exact trans _ _ _ (hs'.1 a ha') hab
        · exact List.Sublist.cons _ (ihy hs a ha b hb' hab)

/-- Claim C38: for two distinct lists `a` (nodes `xs`) and `b` (nodes `ys`),
both sorted with respect to a strict weak order `comp`, `a.merge(b, comp)`
returns, given fuel for `|xs| + |ys|` loop steps, and leaves `a` holding the
nodes of `xs ++ ys` rearranged into a sorted list in which a node of `xs`
precedes every node of `ys` that `comp` does not put before it (so equivalent
elements of `xs` come first), and leaves `b` empty. -/
theorem merge_sorted_lists {α : Type} (comp : α → α → Bool) (hc : strict_weak_order comp)
    (st : FLStore α) (a b : forward_list) (xs ys : List (Nat × α))
    (ha : st.seg a._dummy._next xs none) (hb : st.seg b._dummy._next ys none)
    (hnd : ((xs ++ ys).map (fun x => x.1)).Nodup)
    (hxs : sorted_by comp (xs.map (fun x => x.2)))
    (hys : sorted_by comp (ys.map (fun x => x.2)))
    (fuel : Nat) (hf : xs.length + ys.length ≤ fuel) :
    ∃ st1 a1 b1, forward_list.merge comp fuel st a b false = Except.ok (st1, a1, b1) ∧
      ∃ zs, st1.is_list a1._dummy._next zs ∧
        zs.Perm (xs ++ ys) ∧
        (zs.map (fun x => x.2)).Pairwise (fun x y => comp y x = false) ∧
        sorted_by comp (zs.map (fun x => x.2)) ∧
        (∀ x ∈ xs, ∀ y ∈ ys, comp y.2 x.2 = false → List.Sublist [x, y] zs) ∧
        b1.empty = true := by
  obtain ⟨st1, l1, p1, oc1, hl, st2, l2, hfix, p', hq1, hq2, _, _, _⟩ :=
    forward_list.merge_loop_spec comp fuel xs ys st a NodeRef.dummy a._dummy._next
      b._dummy._next ha hb hnd (fun a h => absurd h (by simp)) rfl hf
  have hperm : (List.merge xs ys (node_le comp)).Perm (xs ++ ys) := List.merge_perm_append _
  have hpx := sorted_by_pairwise comp hc xs hxs
  have hpy := sorted_by_pairwise comp hc ys hys
  have hsorted : (List.merge xs ys (node_le comp)).Pairwise
      (fun x y => node_le comp x y = true) :=
    List.sorted_merge (node_le_trans comp hc) (node_le_total comp hc) xs ys hpx hpy
  have hval := pairwise_node_le_values comp _ hsorted
  refine ⟨st2, l2, { _dummy := { _next := none } }, ?_, List.merge xs ys (node_le comp),
    ⟨?_, ?_⟩, hperm, hval, List.Pairwise.chain' hval, ?_, rfl⟩
  · simp only [forward_list.merge, Bool.false_eq_true, if_false, hl]
    cases oc1 with
    | none =>
      simp only at hfix ⊢
      exact congrArg Except.ok (by
        have := Except.ok.inj hfix
        rw [Prod.mk.injEq] at this
        rw [this.1, this.2])
    | some o =>
      simp only at hfix ⊢
      rw [hfix]
  · have e : l2._dummy._next = p' := Option.some.inj hq1
    rw [e]; exact hq2
  · exact (List.Perm.nodup_iff (List.Perm.map _ hperm)).mpr hnd
  · intro x hx y hy hxy
    exact merge_cross (node_le comp) (node_le_trans comp hc) xs ys hpx x hx y hy
      (by simp only [node_le, Bool.not_eq_true']; exact hxy)

theorem less_strict_weak_order : strict_weak_order less := by
  refine ⟨?_, ?_, ?_⟩
  · intro a; simp [less]
  · intro a b c; simp only [less, decide_eq_true_eq]; omega
  · intro a b c; simp only [less, decide_eq_false_iff_not]; omega

/-- Witness for C38: the sorted lists of the nodes 11, 12 holding 1, 2 and of
the nodes 20, 21 holding 1, 4. -/
theorem merge_sorted_lists_witness :
    test_store.seg (some 11) [(11, 1), (12, 2)] none ∧
    test_store.seg (some 20) [(20, 1), (21, 4)] none ∧
    sorted_by less [1, 2] ∧ sorted_by less [1, 4] ∧
    (∃ st1 a1 b1, forward_list.merge less 4 test_store { _dummy := { _next := some 11 } }
        { _dummy := { _next := some 20 } } false = Except.ok (st1, a1, b1) ∧
      ∃ zs, st1.is_list a1._dummy._next zs ∧
        zs.Perm ([(11, 1), (12, 2)] ++ [(20, 1), (21, 4)]) ∧
        (zs.map (fun x => x.2)).Pairwise (fun x y => less y x = false) ∧
        sorted_by less (zs.map (fun x => x.2)) ∧
        (∀ x ∈ [(11, 1), (12, 2)], ∀ y ∈ [(20, 1), (21, 4)], less y.2 x.2 = false →
          List.Sublist [x, y] zs) ∧
        b1.empty = true) ∧
    (forward_list.merge less 4 test_store { _dummy := { _next := some 11 } }
        { _dummy := { _next := some 20 } } false).toOption.bind
      (fun r => r.1.values 4 r.2.1._dummy._next) = some [1, 1, 2, 4] :=
  ⟨⟨rfl, some 12, rfl, rfl, none, rfl, rfl⟩, ⟨rfl, some 21, rfl, rfl, none, rfl, rfl⟩,
    by simp [sorted_by, less], by simp [sorted_by, less],
    merge_sorted_lists less less_strict_weak_order test_store
      { _dummy := { _next := some 11 } } { _dummy := { _next := some 20 } }
      [(11, 1), (12, 2)] [(20, 1), (21, 4)]
      ⟨rfl, some 12, rfl, rfl, none, rfl, rfl⟩ ⟨rfl, some 21, rfl, rfl, none, rfl, rfl⟩
      (by decide) (by simp [sorted_by, less]) (by simp [sorted_by, less]) 4 (by decide),
    by decide⟩

theorem FLStore.seg_index {α : Type} (st : FLStore α) (ns : List (Nat × α)) :
    ∀ (p : Option Nat), st.seg p ns none →
      p = node_ptr ns 0 ∧
      ∀ i x, ns[i]? = some x →
        st x.1 = some { _next := node_ptr ns (i + 1), _value := x.2 } := by
  induction ns with
  | nil =>
    intro p h
    refine ⟨h, ?_⟩
    intro i x hx
    simp at hx
  | cons y ns ih =>
    intro p h
    obtain ⟨hp, nx, hy, hs⟩ := h
    obtain ⟨e, hi⟩ := ih nx hs
    refine ⟨by simp [node_ptr, hp], ?_⟩
    intro i x hx
    cases i with
    | zero =>
      simp only [List.getElem?_cons_zero, Option.some.injEq] at hx
      subst hx
      rw [hy, e]
      simp [node_ptr]
    | succ j =>
      simp only [List.getElem?_cons_succ] at hx
      rw [hi j x hx]
      simp [node_ptr]

theorem node_ptr_of_lt {α : Type} (ns : List (Nat × α)) (i : Nat) (h : i < ns.length) :
    ∃ x, ns[i]? = some x ∧ node_ptr ns i = some x.1 := by
  refine ⟨ns[i], List.getElem?_eq_getElem h, ?_⟩
  simp [node_ptr, List.getElem?_eq_getElem h]

theorem node_ptr_of_le {α : Type} (ns : List (Nat × α)) (i : Nat) (h : ns.length ≤ i) :
    node_ptr ns i = none := by
  simp [node_ptr, List.getElem?_eq_none h]

theorem forward_list.split_loop_spec {α : Type} (st : FLStore α) (ns : List (Nat × α))
    (p : Option Nat) (h : st.seg p ns none) :
    ∀ (f k : Nat), 2 * k + 1 ≤ ns.length → ns.length ≤ f + 2 * k + 1 →
      forward_list.split_loop f st (node_ptr ns k) (node_ptr ns (2 * k + 1))
        = Except.ok (node_ptr ns ((ns.length - 1) / 2)) := by
  have hidx := (st.seg_index ns p h).2
  have stop : ∀ (f k : Nat), 2 * k + 1 = ns.length →
      forward_list.split_loop f st (node_ptr ns k) (node_ptr ns (2 * k + 1))
        = Except.ok (node_ptr ns ((ns.length - 1) / 2)) := by
    intro f k hk
    rw [node_ptr_of_le ns (2 * k + 1) (by omega)]
    have e : (ns.length - 1) / 2 = k := by omega
    rw [e]
    cases f <;> rfl
  intro f
  induction f with
  | zero =>
    intro k h1 h2
    exact stop 0 k (by omega)
  | succ g ih =>
    intro k h1 h2
    by_cases hk : 2 * k + 1 = ns.length
    · exact stop (g + 1) k hk
    · obtain ⟨fa, hfa, hfp⟩ := node_ptr_of_lt ns (2 * k + 1) (by omega)
      have hfn := hidx _ _ hfa
      rw [hfp]
      by_cases hk2 : 2 * k + 2 = ns.length
      · have e0 : node_ptr ns (2 * k + 1 + 1) = none := node_ptr_of_le ns _ (by omega)
        rw [e0] at hfn
        have e : (ns.length - 1) / 2 = k := by omega
        rw [e]
        simp only [forward_list.split_loop, hfn]
      · obtain ⟨fb, hfb, hfbp⟩ := node_ptr_of_lt ns (2 * k + 1 + 1) (by omega)
        obtain ⟨s, hs, hsp⟩ := node_ptr_of_lt ns k (by omega)
        have hsn := hidx _ _ hs
        have hfbn := hidx _ _ hfb
        rw [hfbp] at hfn
        rw [hsp]
        simp only [forward_list.split_loop, hfn, hsn, hfbn]
        have := ih (k + 1) (by omega) (by omega)
        have e : 2 * (k + 1) + 1 = 2 * k + 1 + 1 + 1 := by ring
        rw [e] at this
        exact this

theorem FLStore.seg_cut {α : Type} (st : FLStore α) (x : Nat × α) (R : List (Nat × α)) :
    ∀ (A : List (Nat × α)) (p : Option Nat), st.seg p (A ++ x :: R) none →
      x.1 ∉ A.map (fun y => y.1) → x.1 ∉ R.map (fun y => y.1) →
      ∃ nx st1, st x.1 = some { _next := nx, _value := x.2 } ∧
        st.set_next x.1 none = some st1 ∧
        st1.seg p (A ++ [x]) none ∧ st1.seg nx R none ∧
        ∀ i, i ≠ x.1 → st1 i = st i := by
  intro A
  induction A with
  | nil =>
    intro p h _ hR
    obtain ⟨hp, nx, hx, hs⟩ := h
    obtain ⟨st1, h1, h2, h3⟩ := st.set_next_some x.1 none _ hx
    refine ⟨nx, st1, hx, h1, ⟨hp, none, h2, rfl⟩, ?_, h3⟩
    apply FLStore.seg_frame st st1 R nx none hs
    intro y hy
    apply h3
    intro e
    exact hR (e ▸ List.mem_map_of_mem (fun y => y.1) hy)
  | cons a A ih =>
    intro p h hA hR
    obtain ⟨hp, na, ha, hs⟩ := h
    simp only [List.map_cons, List.mem_cons, not_or] at hA
    obtain ⟨nx, st1, h1, h2, h3, h4, h5⟩ := ih na hs hA.2 hR
    refine ⟨nx, st1, h1, h2, ⟨hp, na, ?_, h3⟩, h4, h5⟩
    rw [h5 a.1 (fun e => hA.1 e.symm)]
    exact ha

theorem mergeSort_halves {β : Type} (le : β → β → Bool) (l : List β) (h : 2 ≤ l.length) :
    l.mergeSort le = List.merge ((l.take ((l.length + 1) / 2)).mergeSort le)
      ((l.drop ((l.length + 1) / 2)).mergeSort le) le := by
  match l, h with
  | a :: b :: xs, _ =>
    rw [List.mergeSort]
    simp only [List.splitInTwo, List.splitAt_eq]

theorem forward_list.sort_merge_loop_spec {α : Type} (comp : α → α → Bool) (f : Nat) :
    ∀ (ls rs : List (Nat × α)) (st : FLStore α) (l : forward_list) (tail : NodeRef)
      (lc rc : Option Nat),
      st.seg lc ls none → st.seg rc rs none →
      ((ls ++ rs).map (fun x => x.1)).Nodup →
      (∀ a, tail = NodeRef.node a → (∃ nd, st a = some nd) ∧
        a ∉ (ls ++ rs).map (fun x => x.1)) →
      (ls = [] → rs = [] → NodeRef.next st l tail = some none) →
      ls.length + rs.length ≤ f →
      ∃ st1 l1 t1 lc1 rc1, forward_list.sort_merge_loop comp f st l tail lc rc
          = Except.ok (st1, l1, t1, lc1, rc1) ∧
        ∃ st2 l2,
          (match lc1, rc1 with
            | some a, _ => t1.set_next st1 l1 (some a)
            | none, some b => t1.set_next st1 l1 (some b)
            | none, none => Except.ok (st1, l1)) = Except.ok (st2, l2) ∧
          ∃ p', NodeRef.next st2 l2 tail = some p' ∧
            st2.seg p' (List.merge ls rs (node_le comp)) none ∧
            (∀ i, i ∉ (ls ++ rs).map (fun x => x.1) → NodeRef.node i ≠ tail → st2 i = st i) ∧
            (tail ≠ NodeRef.dummy → l2 = l) ∧
            (∀ a nd, tail = NodeRef.node a → st a = some nd →
              st2 a = some { _next := p', _value := nd._value }) := by
  have base : ∀ (ls rs : List (Nat × α)) (st : FLStore α) (l : forward_list) (tail : NodeRef)
      (lc rc : Option Nat) (g : Nat),
      st.seg lc ls none → st.seg rc rs none →
      (∀ a, tail = NodeRef.node a → (∃ nd, st a = some nd) ∧
        a ∉ (ls ++ rs).map (fun x => x.1)) →
      (ls = [] → rs = [] → NodeRef.next st l tail = some none) →
      (ls = [] ∨ rs = []) →
      ∃ st1 l1 t1 lc1 rc1, forward_list.sort_merge_loop comp g st l tail lc rc
          = Except.ok (st1, l1, t1, lc1, rc1) ∧
        ∃ st2 l2,
          (match lc1, rc1 with
            | some a, _ => t1.set_next st1 l1 (some a)
            | none, some b => t1.set_next st1 l1 (some b)
            | none, none => Except.ok (st1, l1)) = Except.ok (st2, l2) ∧
          ∃ p', NodeRef.next st2 l2 tail = some p' ∧
            st2.seg p' (List.merge ls rs (node_le comp)) none ∧
            (∀ i, i ∉ (ls ++ rs).map (fun x => x.1) → NodeRef.node i ≠ tail → st2 i = st i) ∧
            (tail ≠ NodeRef.dummy → l2 = l) ∧
            (∀ a nd, tail = NodeRef.node a → st a = some nd →
              st2 a = some { _next := p', _value := nd._value }) := by
    intro ls rs st l tail lc rc g hl hr htail hnone hemp
    have hv : ∀ a, tail = NodeRef.node a → ∃ nd, st a = some nd := fun a ha => (htail a ha).1
    have hout : ∀ y ∈ ls ++ rs, NodeRef.node y.1 ≠ tail := by
      intro y hy e
      exact (htail y.1 e.symm).2 (List.mem_map_of_mem (fun x => x.1) hy)
    cases ls with
    | nil =>
      have e1 : lc = none := hl
      subst e1
      cases rs with
      | nil =>
        have e2 : rc = none := hr
        subst e2
        have hnext := hnone rfl rfl
        refine ⟨st, l, tail, none, none, by cases g <;> rfl, st, l, rfl, none, hnext,
          by simp [FLStore.seg], fun _ _ _ => rfl, fun _ => rfl, ?_⟩
        intro a nd ha hnd
        rw [ha] at hnext
        simp only [NodeRef.next, hnd] at hnext
        have := Option.some.inj hnext
        rw [← this]; exact hnd
      | cons y rs' =>
        have e2 : rc = some y.1 := hr.1
        subst e2
        obtain ⟨st2, l2, h1, h2, h3, h4, h5⟩ := NodeRef.set_next_spec st l tail (some y.1) hv
        refine ⟨st, l, tail, none, some y.1, by cases g <;> rfl, st2, l2, h1, some y.1, h2,
          ?_, fun i _ hi => h3 i hi, h4, h5⟩
        rw [List.nil_merge]
        apply FLStore.seg_frame st st2 (y :: rs') (some y.1) none hr
        intro z hz
        exact h3 z.1 (hout z (by simpa using hz))
    | cons x ls' =>
      have e1 : lc = some x.1 := hl.1
      subst e1
      have hrs : rs = [] := by
        rcases hemp with h | h
        · exact absurd h (by simp)
        · exact h
      subst hrs
      have e2 : rc = none := hr
      subst e2
      obtain ⟨st2, l2, h1, h2, h3, h4, h5⟩ := NodeRef.set_next_spec st l tail (some x.1) hv
      refine ⟨st, l, tail, some x.1, none, by cases g <;> rfl, st2, l2, h1, some x.1, h2,
        ?_, fun i _ hi => h3 i hi, h4, h5⟩
      rw [List.merge_right]
      apply FLStore.seg_frame st st2 (x :: ls') (some x.1) none hl
      intro z hz
      exact h3 z.1 (hout z (by simpa using hz))
  induction f with
  | zero =>
    intro ls rs st l tail lc rc hl hr _ htail hnone hf
    have hls : ls = [] := List.eq_nil_of_length_eq_zero (by omega)
    exact base ls rs st l tail lc rc 0 hl hr htail hnone (Or.inl hls)
  | succ g ih =>
    intro ls rs st l tail lc rc hl hr hnd htail hnone hf
    match ls, rs, hl, hr, hnd, htail, hnone, hf with
    | [], rs, hl, hr, _, htail, hnone, _ =>
      exact base [] rs st l tail lc rc (g + 1) hl hr htail hnone (Or.inl rfl)
    | x :: ls', [], hl, hr, _, htail, hnone, _ =>
      exact base (x :: ls') [] st l tail lc rc (g + 1) hl hr htail hnone (Or.inr rfl)
    | x :: ls', y :: rs', hl, hr, hnd, htail, _, hf =>
      obtain ⟨e1, xnx, hxn, hxs⟩ := hl
      obtain ⟨e2, ynx, hyn, hys⟩ := hr
      subst e1; subst e2
      simp only [List.map_append, List.map_cons, List.cons_append, List.nodup_cons,
        List.mem_append, List.mem_cons, not_or] at hnd
      obtain ⟨⟨hx1, hxy, hx2⟩, hnd1⟩ := hnd
      rw [List.nodup_append] at hnd1
      obtain ⟨hndl, hndr, hdisj⟩ := hnd1
      obtain ⟨hy1, hndr'⟩ := List.nodup_cons.mp hndr
      have hyl : y.1 ∉ ls'.map (fun z => z.1) := fun h =>
        hdisj h (List.mem_cons_self _ _)
      have hpm : ∀ a, tail = NodeRef.node a → a ≠ x.1 ∧ a ≠ y.1 ∧
          a ∉ ls'.map (fun z => z.1) ∧ a ∉ rs'.map (fun z => z.1) := by
        intro a ha
        have := (htail a ha).2
        simp only [List.map_append, List.map_cons, List.cons_append, List.mem_cons,
          List.mem_append, not_or] at this
        exact ⟨this.1, this.2.2.1, this.2.1, this.2.2.2⟩
      have hv : ∀ a, tail = NodeRef.node a → ∃ nd, st a = some nd :=
        fun a ha => (htail a ha).1
      by_cases hc : comp y.2 x.2 = true
      · -- the node of the right half becomes the tail
        obtain ⟨stb, lb, hb1, hb2, hb3, hb4, hb5⟩ :=
          NodeRef.set_next_spec st l tail (some y.1) hv
        have hby : stb y.1 = some { _next := ynx, _value := y.2 } := by
          rw [hb3 y.1 (fun e => (hpm y.1 e.symm).2.1 rfl)]
          exact hyn
        have hls' : stb.seg (some x.1) (x :: ls') none := by
          apply FLStore.seg_frame st stb (x :: ls') (some x.1) none ⟨rfl, xnx, hxn, hxs⟩
          intro z hz
          apply hb3
          intro e
          exact (htail z.1 e.symm).2 (by
            simp only [List.map_append, List.mem_append]
            exact Or.inl (List.mem_map_of_mem (fun z => z.1) hz))
        have hrs' : stb.seg ynx rs' none := by
          apply FLStore.seg_frame st stb rs' ynx none hys
          intro z hz
          apply hb3
          intro e
          exact (hpm z.1 e.symm).2.2.2 (List.mem_map_of_mem (fun z => z.1) hz)
        have hnd' : (((x :: ls') ++ rs').map (fun z => z.1)).Nodup := by
          simp only [List.map_append, List.map_cons, List.cons_append]
          refine List.nodup_cons.mpr ⟨?_, ?_⟩
          · simp only [List.mem_append, not_or]
            exact ⟨hx1, hx2⟩
          · rw [List.nodup_append]
            exact ⟨hndl, hndr', fun _ h1 h2 => hdisj h1 (List.mem_cons_of_mem _ h2)⟩
        obtain ⟨st1, l1, t1, lc1, rc1, hl, st2, l2, hfix, p', hq1, hq2, hq3, hq4, hq5⟩ :=
          ih (x :: ls') rs' stb lb (NodeRef.node y.1) (some x.1) ynx hls' hrs' hnd'
            (by
              intro a ha
              have e : y.1 = a := NodeRef.node.inj ha
              subst e
              refine ⟨⟨_, hby⟩, ?_⟩
              simp only [List.map_append, List.map_cons, List.cons_append, List.mem_cons,
                List.mem_append, not_or]
              exact ⟨fun e => hxy e.symm, hyl, hy1⟩)
            (fun h => absurd h (by simp))
            (by simp only [List.length_cons] at hf ⊢; omega)
        have hq5' := hq5 y.1 _ rfl hby
        have hunch : ∀ i, NodeRef.node i = tail → st2 i = stb i := by
          intro i hi
          apply hq3
          · simp only [List.map_append, List.map_cons, List.cons_append, List.mem_cons,
              List.mem_append, not_or]
            exact ⟨(hpm i hi.symm).1, (hpm i hi.symm).2.2.1, (hpm i hi.symm).2.2.2⟩
          · intro e
            exact (hpm i hi.symm).2.1 (NodeRef.node.inj e)
        refine ⟨st1, l1, t1, lc1, rc1, ?_, st2, l2, hfix, some y.1, ?_, ?_, ?_, ?_, ?_⟩
        · simp only [forward_list.sort_merge_loop, hyn, hxn, hc, if_true, hb1, hby]
          exact hl
        · cases tail with
          | dummy =>
            have e := hq4 (by simp)
            rw [e]; exact hb2
          | node a =>
            simp only [NodeRef.next] at hb2 ⊢
            rw [hunch a rfl]; exact hb2
        · have hm : List.merge (x :: ls') (y :: rs') (node_le comp)
              = y :: List.merge (x :: ls') rs' (node_le comp) := by
            rw [List.cons_merge_cons, if_neg (by simp [node_le, hc])]
          rw [hm]
          exact ⟨rfl, p', hq5', hq2⟩
        · intro i hi hip
          simp only [List.map_append, List.map_cons, List.cons_append, List.mem_cons,
            List.mem_append, not_or] at hi
          rw [hq3 i (by
              simp only [List.map_append, List.map_cons, List.cons_append, List.mem_cons,
                List.mem_append, not_or]
              exact ⟨hi.1, hi.2.1, hi.2.2.2⟩)
            (fun e => hi.2.2.1 (NodeRef.node.inj e))]
          exact hb3 i hip
        · intro hp
          rw [hq4 (by simp), hb4 hp]
        · intro a nd ha hnd'
          rw [hunch a ha.symm]
          exact hb5 a nd ha hnd'
      · -- the node of the left half becomes the tail
        have hc' : comp y.2 x.2 = false := by simpa using hc
        obtain ⟨stb, lb, hb1, hb2, hb3, hb4, hb5⟩ :=
          NodeRef.set_next_spec st l tail (some x.1) hv
        have hbx : stb x.1 = some { _next := xnx, _value := x.2 } := by
          rw [hb3 x.1 (fun e => (hpm x.1 e.symm).1 rfl)]
          exact hxn
        have hls' : stb.seg xnx ls' none := by
          apply FLStore.seg_frame st stb ls' xnx none hxs
          intro z hz
          apply hb3
          intro e
          exact (hpm z.1 e.symm).2.2.1 (List.mem_map_of_mem (fun z => z.1) hz)
        have hrs' : stb.seg (some y.1) (y :: rs') none := by
          apply FLStore.seg_frame st stb (y :: rs') (some y.1) none ⟨rfl, ynx, hyn, hys⟩
          intro z hz
          apply hb3
          intro e
          exact (htail z.1 e.symm).2 (by
            simp only [List.map_append, List.mem_append]
            exact Or.inr (List.mem_map_of_mem (fun z => z.1) hz))
        obtain ⟨st1, l1, t1, lc1, rc1, hl, st2, l2, hfix, p', hq1, hq2, hq3, hq4, hq5⟩ :=
          ih ls' (y :: rs') stb lb (NodeRef.node x.1) xnx (some y.1) hls' hrs'
            (by
              simp only [List.map_append, List.map_cons]
              rw [List.nodup_append]
              exact ⟨hndl, hndr, hdisj⟩)
            (by
              intro a ha
              have e : x.1 = a := NodeRef.node.inj ha
              subst e
              refine ⟨⟨_, hbx⟩, ?_⟩
              simp only [List.map_append, List.map_cons, List.mem_cons, List.mem_append, not_or]
              exact ⟨hx1, hxy, hx2⟩)
            (fun _ h => absurd h (by simp))
            (by simp only [List.length_cons] at hf ⊢; omega)
        have hq5' := hq5 x.1 _ rfl hbx
        have hunch : ∀ i, NodeRef.node i = tail → st2 i = stb i := by
          intro i hi
          apply hq3
          · simp only [List.map_append, List.map_cons, List.mem_cons, List.mem_append, not_or]
            exact ⟨(hpm i hi.symm).2.2.1, (hpm i hi.symm).2.1, (hpm i hi.symm).2.2.2⟩
          · intro e
            exact (hpm i hi.symm).1 (NodeRef.node.inj e)
        refine ⟨st1, l1, t1, lc1, rc1, ?_, st2, l2, hfix, some x.1, ?_, ?_, ?_, ?_, ?_⟩
        · simp only [forward_list.sort_merge_loop, hyn, hxn, hc', Bool.false_eq_true, if_false,
            hb1, hbx]
          exact hl
        · cases tail with
          | dummy =>
            have e := hq4 (by simp)
            rw [e]; exact hb2
          | node a =>
            simp only [NodeRef.next] at hb2 ⊢
            rw [hunch a rfl]; exact hb2
        · have hm : List.merge (x :: ls') (y :: rs') (node_le comp)
              = x :: List.merge ls' (y :: rs') (node_le comp) := by
            rw [List.cons_merge_cons, if_pos (by simp [node_le, hc'])]
          rw [hm]
          exact ⟨rfl, p', hq5', hq2⟩
        · intro i hi hip
          simp only [List.map_append, List.map_cons, List.cons_append, List.mem_cons,
            List.mem_append, not_or] at hi
          rw [hq3 i (by
              simp only [List.map_append, List.map_cons, List.mem_cons, List.mem_append, not_or]
              exact ⟨hi.2.1, hi.2.2.1, hi.2.2.2⟩)
            (fun e => hi.1 (NodeRef.node.inj e))]
          exact hb3 i hip
        · intro hp
          rw [hq4 (by simp), hb4 hp]
        · intro a nd ha hnd'
          rw [hunch a ha.symm]
          exact hb5 a nd ha hnd'

theorem split_at_index {β : Type} (ns : List β) :
    ∀ (m : Nat) (s : β), ns[m]? = some s →
      ns = ns.take m ++ s :: ns.drop (m + 1) ∧ ns.take (m + 1) = ns.take m ++ [s] := by
  induction ns with
  | nil => intro m s h; simp at h
  | cons a ns ih =>
    intro m s h
    cases m with
    | zero =>
      simp only [List.getElem?_cons_zero, Option.some.injEq] at h
      subst h
      simp
    | succ k =>
      simp only [List.getElem?_cons_succ] at h
      obtain ⟨h1, h2⟩ := ih k s h
      refine ⟨?_, ?_⟩
      · simp only [List.take_succ_cons, List.drop_succ_cons, List.cons_append]
        rw [← h1]
      · simp only [List.take_succ_cons, List.cons_append]
        rw [← h2]

theorem forward_list.sort_spec {α : Type} (comp : α → α → Bool) :
    ∀ (f : Nat) (ns : List (Nat × α)) (st : FLStore α) (l : forward_list),
      st.seg l._dummy._next ns none → (ns.map (fun x => x.1)).Nodup → ns.length < f →
      ∃ st1 l1, forward_list.sort comp f st l = Except.ok (st1, l1) ∧
        st1.seg l1._dummy._next (ns.mergeSort (node_le comp)) none ∧
        ∀ i, i ∉ ns.map (fun x => x.1) → st1 i = st i := by
  intro f
  induction f with
  | zero => intro ns st l _ _ hf; exact absurd hf (Nat.not_lt_zero _)
  | succ g ih =>
    intro ns st l hs hnd hf
    match ns, hs, hnd, hf with
    | [], hs, _, _ =>
      have e : l._dummy._next = none := hs
      refine ⟨st, l, ?_, ?_, fun _ _ => rfl⟩
      · simp only [forward_list.sort, e]
      · simpa using hs
    | [x], hs, _, _ =>
      obtain ⟨e, nx, hx, hn⟩ := hs
      have e' : nx = none := hn
      subst e'
      refine ⟨st, l, ?_, ?_, fun _ _ => rfl⟩
      · simp only [forward_list.sort, e, hx, if_true]
      · simpa using (⟨e, none, hx, rfl⟩ : st.seg l._dummy._next [x] none)
    | x :: y :: r, hs, hnd, hf =>
      have hs0 := hs
      obtain ⟨e, nx, hx, hn⟩ := hs
      have ey : nx = some y.1 := hn.1
      subst ey
      have hlen : 2 ≤ (x :: y :: r).length := by simp
      generalize hns : x :: y :: r = ns at hs0 hnd hf hlen
      obtain ⟨hp0, hidx⟩ := st.seg_index ns _ hs0
      have hsplit := forward_list.split_loop_spec st ns _ hs0 g 0 (by omega) (by omega)
      have e0 : node_ptr ns 0 = some x.1 := by rw [← hns]; simp [node_ptr]
      have e1 : node_ptr ns (2 * 0 + 1) = some y.1 := by rw [← hns]; simp [node_ptr]
      rw [e0, e1] at hsplit
      obtain ⟨s, hsm, hsp⟩ := node_ptr_of_lt ns ((ns.length - 1) / 2) (by omega)
      rw [hsp] at hsplit
      have hsn := hidx _ _ hsm
      obtain ⟨hcut, htake⟩ := split_at_index ns _ s hsm
      have hm : (ns.length - 1) / 2 + 1 = (ns.length + 1) / 2 := by omega
      rw [hm] at hcut htake
      generalize hA : ns.take ((ns.length - 1) / 2) = A at hcut htake
      generalize hR : ns.drop ((ns.length + 1) / 2) = R at hcut
      have hlenA : A.length = (ns.length - 1) / 2 := by
        rw [← hA, List.length_take]; omega
      have hlenR : R.length = ns.length - (ns.length + 1) / 2 := by
        rw [← hR, List.length_drop]
      have hnd0 : ((A ++ s :: R).map (fun z => z.1)).Nodup := by rw [← hcut]; exact hnd
      simp only [List.map_append, List.map_cons] at hnd0
      rw [List.nodup_append] at hnd0
      obtain ⟨hndA, hndsR, hdisj⟩ := hnd0
      obtain ⟨hsR, hndR⟩ := List.nodup_cons.mp hndsR
      have hsA : s.1 ∉ A.map (fun z => z.1) := fun h => hdisj h (List.mem_cons_self _ _)
      have hs1 : st.seg l._dummy._next (A ++ s :: R) none := by rw [← hcut]; exact hs0
      obtain ⟨nx, st1, hq1, hq2, hq3, hq4, hq5⟩ := st.seg_cut s R A _ hs1 hsA hsR
      have enx : node_ptr ns ((ns.length - 1) / 2 + 1) = nx := by
        rw [hsn] at hq1
        have := Option.some.inj hq1
        exact congrArg (fun n => n._next) this
      rw [enx] at hsn
      rw [e] at hq3
      -- the left half
      have hndL : ((A ++ [s]).map (fun z => z.1)).Nodup := by
        simp only [List.map_append, List.map_cons, List.map_nil]
        rw [List.nodup_append]
        refine ⟨hndA, List.nodup_singleton _, ?_⟩
        intro a h1 h2
        rw [List.mem_singleton] at h2
        exact hsA (h2 ▸ h1)
      obtain ⟨st2, lh, hsortL, hsegL, hfrL⟩ :=
        ih (A ++ [s]) st1 { _dummy := { _next := some x.1 } } hq3 hndL
          (by simp only [List.length_append, List.length_singleton]; omega)
      -- the right half
      have hRL : ∀ z ∈ R, z.1 ∉ (A ++ [s]).map (fun z => z.1) := by
        intro z hz h
        simp only [List.map_append, List.map_cons, List.map_nil, List.mem_append,
          List.mem_singleton] at h
        rcases h with h | h
        · exact hdisj h (List.mem_cons_of_mem _ (List.mem_map_of_mem (fun z => z.1) hz))
        · exact hsR (h ▸ List.mem_map_of_mem (fun z => z.1) hz)
      have hsegR1 : st2.seg nx R none :=
        FLStore.seg_frame st1 st2 R nx none hq4 (fun z hz => hfrL z.1 (hRL z hz))
      obtain ⟨st3, rh, hsortR, hsegR, hfrR⟩ :=
        ih R st2 { _dummy := { _next := nx } } hsegR1 hndR (by omega)
      have hpermL := List.mergeSort_perm (A ++ [s]) (node_le comp)
      have hpermR := List.mergeSort_perm R (node_le comp)
      have hsegL3 : st3.seg lh._dummy._next ((A ++ [s]).mergeSort (node_le comp)) none := by
        apply FLStore.seg_frame st2 st3 _ _ none hsegL
        intro z hz
        apply hfrR
        intro h
        obtain ⟨w, hw, hwz⟩ := List.mem_map.mp h
        exact hRL w hw (hwz ▸ List.mem_map_of_mem (fun z => z.1) (hpermL.mem_iff.mp hz))
      have hpermLR : (((A ++ [s]).mergeSort (node_le comp))
          ++ (R.mergeSort (node_le comp))).Perm ns := by
        have := List.Perm.append hpermL hpermR
        rw [List.append_assoc, List.singleton_append, ← hcut] at this
        exact this
      obtain ⟨st4, l4, t4, lc4, rc4, hloop, st5, l5, hfix, p', hr1, hr2, hr3, _, _⟩ :=
        forward_list.sort_merge_loop_spec comp g _ _ st3 { _dummy := { _next := none } }
          NodeRef.dummy lh._dummy._next rh._dummy._next hsegL3 hsegR
          ((List.Perm.nodup_iff (List.Perm.map _ hpermLR)).mpr hnd)
          (fun a h => absurd h (by simp)) (fun _ _ => rfl)
          (by
            rw [← List.length_append, hpermLR.length_eq]
            omega)
      refine ⟨st5, l5, ?_, ?_, ?_⟩
      · simp only [forward_list.sort, e, hx, reduceCtorEq, if_false, hsplit, hsn, hq2,
          hsortL, hsortR, hloop]
        cases lc4 with
        | some a =>
          simp only at hfix ⊢
          rw [hfix]
        | none =>
          cases rc4 with
          | some b =>
            simp only at hfix ⊢
            rw [hfix]
          | none =>
            simp only at hfix ⊢
            exact hfix
      · have e5 : l5._dummy._next = p' := Option.some.inj hr1
        rw [e5, mergeSort_halves (node_le comp) ns hlen, htake, hR]
        exact hr2
      · intro i hi
        have hiA : i ∉ A.map (fun z => z.1) := by
          intro h
          apply hi
          rw [hcut]
          simp only [List.map_append, List.mem_append]
          exact Or.inl h
        have hiR : i ∉ R.map (fun z => z.1) := by
          intro h
          apply hi
          rw [hcut]
          simp only [List.map_append, List.map_cons, List.mem_append, List.mem_cons]
          exact Or.inr (Or.inr h)
        have his : i ≠ s.1 := by
          intro h
          apply hi
          rw [hcut]
          simp only [List.map_append, List.map_cons, List.mem_append, List.mem_cons]
          exact Or.inr (Or.inl h)
        have hiL : i ∉ (A ++ [s]).map (fun z => z.1) := by
          simp only [List.map_append, List.map_cons, List.map_nil, List.mem_append,
            List.mem_singleton, not_or]
          exact ⟨hiA, his⟩
        rw [hr3 i (by
            intro h
            apply hi
            exact (List.Perm.mem_iff (List.Perm.map _ hpermLR)).mp h) (by simp),
          hfrR i hiR, hfrL i hiL, hq5 i his]

/-- Claim C37: for a list of distinct nodes `ns` and a strict weak order
`comp`, `sort(comp)` returns once the fuel exceeds the length, and leaves the
list holding the same nodes rearranged (a permutation) so that no value comes
before a value that `comp` puts before it (in particular no adjacent pair is
out of order), where two nodes keep their relative order whenever `comp` does
not put the later one first (so equivalent elements are not reordered). -/
theorem sort_sorts_stably {α : Type} (comp : α → α → Bool) (hc : strict_weak_order comp)
    (st : FLStore α) (l : forward_list) (ns : List (Nat × α))
    (h : st.is_list l._dummy._next ns) (fuel : Nat) (hf : ns.length < fuel) :
    ∃ st1 l1, forward_list.sort comp fuel st l = Except.ok (st1, l1) ∧
      ∃ zs, st1.is_list l1._dummy._next zs ∧
        zs.Perm ns ∧
        (zs.map (fun x => x.2)).Perm (ns.map (fun x => x.2)) ∧
        sorted_by comp (zs.map (fun x => x.2)) ∧
        (zs.map (fun x => x.2)).Pairwise (fun x y => comp y x = false) ∧
        ∀ x y, List.Sublist [x, y] ns → comp y.2 x.2 = false → List.Sublist [x, y] zs := by
  obtain ⟨st1, l1, h1, h2, _⟩ := forward_list.sort_spec comp fuel ns st l h.1 h.2 hf
  have hperm := List.mergeSort_perm ns (node_le comp)
  have hsorted : (ns.mergeSort (node_le comp)).Pairwise (fun x y => node_le comp x y = true) :=
    List.sorted_mergeSort (node_le_trans comp hc) (node_le_total comp hc) ns
  have hval := pairwise_node_le_values comp _ hsorted
  refine ⟨st1, l1, h1, ns.mergeSort (node_le comp), ⟨h2, ?_⟩, hperm, List.Perm.map _ hperm,
    List.Pairwise.chain' hval, hval, ?_⟩
  · exact (List.Perm.nodup_iff (List.Perm.map _ hperm)).mpr h.2
  · intro x y hxy hle
    exact List.pair_sublist_mergeSort (node_le_trans comp hc) (node_le_total comp hc)
      (by simp only [node_le, Bool.not_eq_true']; exact hle) hxy

/-- Witness for C37: the list of the nodes 10, 11, 12 holding 3, 1, 2. -/
theorem sort_sorts_stably_witness :
    test_store.is_list (some 10) [(10, 3), (11, 1), (12, 2)] ∧ 3 < 4 ∧
    (∃ st1 l1, forward_list.sort less 4 test_store { _dummy := { _next := some 10 } }
        = Except.ok (st1, l1) ∧
      ∃ zs, st1.is_list l1._dummy._next zs ∧
        zs.Perm [(10, 3), (11, 1), (12, 2)] ∧
        (zs.map (fun x => x.2)).Perm ([(10, 3), (11, 1), (12, 2)].map (fun x => x.2)) ∧
        sorted_by less (zs.map (fun x => x.2)) ∧
        (zs.map (fun x => x.2)).Pairwise (fun x y => less y x = false) ∧
        ∀ x y, List.Sublist [x, y] [(10, 3), (11, 1), (12, 2)] → less y.2 x.2 = false →
          List.Sublist [x, y] zs) ∧
    (forward_list.sort less 4 test_store { _dummy := { _next := some 10 } }).toOption.bind
      (fun r => r.1.values 3 r.2._dummy._next) = some [1, 2, 3] :=
  ⟨test_store_list_a, by decide,
    sort_sorts_stably less less_strict_weak_order test_store
      { _dummy := { _next := some 10 } } [(10, 3), (11, 1), (12, 2)] test_store_list_a 4
      (by decide),
    by decide⟩

/-! ### The states of a container and their invariant -/

theorem destroy_cells_frame {α : Type} (B : Nat) (base : Base) (k : Nat) :
    ∀ (h h' : Heap α) (off : Int), destroy_cells B base k h off = some h' →
      h'.live = h.live ∧ h'.next = h.next := by
  induction k with
  | zero =>
    intro h h' off hd
    simp only [destroy_cells] at hd
    have := Option.some.inj hd; subst this
    exact ⟨rfl, rfl⟩
  | succ k ih =>
    intro h h' off hd
    simp only [destroy_cells] at hd
    split at hd
    · exact absurd hd (by simp)
    · rename_i h1 hh1
      obtain ⟨_, _, _, l1, n1⟩ := destroy_at_some B _ _ _ hh1
      obtain ⟨l2, n2⟩ := ih h1 h' _ hd
      exact ⟨l2.trans l1, n2.trans n1⟩

theorem destroy_range_frame {α : Type} (B : Nat) (h h' : Heap α) (p q : Ptr)
    (hd : destroy_range B h p q = some h') : h'.live = h.live ∧ h'.next = h.next := by
  unfold destroy_range at hd
  split_ifs at hd
  exact destroy_cells_frame B _ _ _ _ _ hd

theorem destroy_blocks_frame {α : Type} (B : Nat) (m : Int → Base) (k : Nat) :
    ∀ (h h' : Heap α) (node : Int), destroy_blocks B m k h node = some h' →
      h'.live = h.live ∧ h'.next = h.next := by
  induction k with
  | zero =>
    intro h h' node hd
    simp only [destroy_blocks] at hd
    have := Option.some.inj hd; subst this
    exact ⟨rfl, rfl⟩
  | succ k ih =>
    intro h h' node hd
    simp only [destroy_blocks] at hd
    split at hd
    · exact absurd hd (by simp)
    · rename_i h1 hh1
      obtain ⟨l1, n1⟩ := destroy_range_frame B _ _ _ _ hh1
      obtain ⟨l2, n2⟩ := ih h1 h' _ hd
      exact ⟨l2.trans l1, n2.trans n1⟩

theorem destroy_elements_frame {α : Type} (B : Nat) (m : Int → Base) (h h' : Heap α)
    (first last : deque_iterator) (hd : _destroy_elements B m h first last = some h') :
    h'.live = h.live ∧ h'.next = h.next := by
  unfold _destroy_elements at hd
  split at hd
  · exact absurd hd (by simp)
  · rename_i h1 hh1
    obtain ⟨l1, n1⟩ := destroy_blocks_frame B m _ _ _ _ hh1
    split_ifs at hd with hc
    · split at hd
      · exact absurd hd (by simp)
      · rename_i h2 hh2
        obtain ⟨l2, n2⟩ := destroy_range_frame B _ _ _ _ hh2
        obtain ⟨l3, n3⟩ := destroy_range_frame B _ _ _ _ hd
        exact ⟨l3.trans (l2.trans l1), n3.trans (n2.trans n1)⟩
    · obtain ⟨l2, n2⟩ := destroy_range_frame B _ _ _ _ hd
      exact ⟨l2.trans l1, n2.trans n1⟩

/-- What a successful run of the release loop over `k` slots says: the slots
hold pairwise distinct allocated blocks, which are exactly the blocks no
longer allocated afterwards. -/
theorem dealloc_nodes_spec {α : Type} (m : Int → Base) (k : Nat) :
    ∀ (h h' : Heap α) (node : Int), dealloc_nodes m k h node = some h' →
      h'.next = h.next ∧
      (∀ i : Nat, i < k → ∃ id, m (node + (i : Int)) = Base.blk id ∧ h.live id = true) ∧
      (∀ id, h'.live id = true ↔
        (h.live id = true ∧ ∀ i : Nat, i < k → m (node + (i : Int)) ≠ Base.blk id)) := by
  induction k with
  | zero =>
    intro h h' node hd
    simp only [dealloc_nodes] at hd
    have := Option.some.inj hd; subst this
    refine ⟨rfl, fun i hi => absurd hi (Nat.not_lt_zero _), fun id => ?_⟩
    constructor
    · intro hl; exact ⟨hl, fun i hi => absurd hi (Nat.not_lt_zero _)⟩
    · intro hl; exact hl.1
  | succ k ih =>
    intro h h' node hd
    simp only [dealloc_nodes] at hd
    split at hd
    · exact absurd hd (by simp)
    · rename_i h1 hh1
      obtain ⟨id0, hp, hl0, hn1, hlv1⟩ := deallocate_some _ _ _ hh1
      have hm0 : m node = Base.blk id0 := congrArg Ptr.base hp
      obtain ⟨hn2, hex, hiff⟩ := ih h1 h' (node + 1) hd
      refine ⟨hn2.trans hn1, ?_, ?_⟩
      · intro i hi
        cases i with
        | zero => exact ⟨id0, by simpa using hm0, hl0⟩
        | succ j =>
          obtain ⟨id, hid, hl⟩ := hex j (by omega)
          refine ⟨id, ?_, ?_⟩
          · have e : node + ((j + 1 : Nat) : Int) = node + 1 + (j : Int) := by push_cast; ring
            rw [e]; exact hid
          · rw [hlv1] at hl
            simp only at hl
            split_ifs at hl
            exact hl
      · intro id
        rw [hiff id, hlv1]
        simp only
        constructor
        · rintro ⟨hl, hne⟩
          split_ifs at hl with c
          refine ⟨hl, ?_⟩
          intro i hi
          cases i with
          | zero =>
            simp only [Nat.cast_zero, add_zero]
            rw [hm0]
            intro e
            exact c (Base.blk.inj e).symm
          | succ j =>
            have e : node + ((j + 1 : Nat) : Int) = node + 1 + (j : Int) := by push_cast; ring
            rw [e]; exact hne j (by omega)
        · rintro ⟨hl, hne⟩
          have c : ¬ id = id0 := by
            intro e
            have := hne 0 (by omega)
            simp only [Nat.cast_zero, add_zero] at this
            exact this (by rw [hm0, e])
          refine ⟨by rw [if_neg c]; exact hl, ?_⟩
          intro i hi
          have e : node + 1 + (i : Int) = node + ((i + 1 : Nat) : Int) := by push_cast; ring
          rw [e]; exact hne (i + 1) (by omega)

theorem construct_list_frame {α : Type} (B : Nat) (m : Int → Base) (xs : List α) :
    ∀ (h : Heap α) (cur : deque_iterator) (r : Heap α × deque_iterator),
      construct_list B m xs h cur = some r → r.1.live = h.live ∧ r.1.next = h.next := by
  induction xs with
  | nil =>
    intro h cur r hc
    simp only [construct_list] at hc
    have := Option.some.inj hc; subst this
    exact ⟨rfl, rfl⟩
  | cons v vs ih =>
    intro h cur r hc
    simp only [construct_list] at hc
    split at hc
    · exact absurd hc (by simp)
    · rename_i h1 hh1
      obtain ⟨_, _, _, l1, n1⟩ := construct_at_some B _ _ _ _ hh1
      obtain ⟨l2, n2⟩ := ih h1 _ r hc
      exact ⟨l2.trans l1, n2.trans n1⟩

theorem construct_loop_frame {α : Type} (B : Nat) (msrc mdst : Int → Base) (f : Nat) :
    ∀ (h : Heap α) (first last cur : deque_iterator) (r : Heap α × deque_iterator),
      construct_loop B msrc mdst f h first last cur = Except.ok r →
      r.1.live = h.live ∧ r.1.next = h.next := by
  induction f with
  | zero =>
    intro h first last cur r hc
    simp only [construct_loop] at hc
    split_ifs at hc
    have := Except.ok.inj hc; subst this
    exact ⟨rfl, rfl⟩
  | succ f ih =>
    intro h first last cur r hc
    simp only [construct_loop] at hc
    split_ifs at hc
    · have := Except.ok.inj hc; subst this
      exact ⟨rfl, rfl⟩
    · split at hc
      · exact absurd hc (by simp)
      · split at hc
        · exact absurd hc (by simp)
        · rename_i h1 hh1
          obtain ⟨_, _, _, l1, n1⟩ := construct_at_some B _ _ _ _ hh1
          obtain ⟨l2, n2⟩ := ih h1 _ _ _ r hc
          exact ⟨l2.trans l1, n2.trans n1⟩

theorem uninit_move_loop_frame {α : Type} (B : Nat) (moved : α → α) (msrc mdst : Int → Base)
    (f : Nat) :
    ∀ (h : Heap α) (first last cur : deque_iterator) (r : Heap α × deque_iterator),
      uninit_move_loop B moved msrc mdst f h first last cur = Except.ok r →
      r.1.live = h.live ∧ r.1.next = h.next := by
  induction f with
  | zero =>
    intro h first last cur r hc
    simp only [uninit_move_loop] at hc
    split_ifs at hc
    have := Except.ok.inj hc; subst this
    exact ⟨rfl, rfl⟩
  | succ f ih =>
    intro h first last cur r hc
    simp only [uninit_move_loop] at hc
    split_ifs at hc
    · have := Except.ok.inj hc; subst this
      exact ⟨rfl, rfl⟩
    · split at hc
      · exact absurd hc (by simp)
      · split at hc
        · exact absurd hc (by simp)
        · rename_i h1 hh1
          split at hc
          · exact absurd hc (by simp)
          · rename_i h2 hh2
            obtain ⟨_, _, _, l1, n1⟩ := construct_at_some B _ _ _ _ hh1
            obtain ⟨_, _, _, l2, n2⟩ := construct_at_some B _ _ _ _ hh2
            obtain ⟨l3, n3⟩ := ih h2 _ _ _ r hc
            exact ⟨l3.trans (l2.trans l1), n3.trans (n2.trans n1)⟩

theorem destroy_run_frame {α : Type} (B : Nat) (m : Int → Base) (k : Nat) :
    ∀ (h h' : Heap α) (cur : deque_iterator), destroy_run B m k h cur = some h' →
      h'.live = h.live ∧ h'.next = h.next := by
  induction k with
  | zero =>
    intro h h' cur hd
    simp only [destroy_run] at hd
    have := Option.some.inj hd; subst this
    exact ⟨rfl, rfl⟩
  | succ k ih =>
    intro h h' cur hd
    simp only [destroy_run] at hd
    split at hd
    · exact absurd hd (by simp)
    · rename_i h1 hh1
      obtain ⟨_, _, _, l1, n1⟩ := destroy_at_some B _ _ _ hh1
      obtain ⟨l2, n2⟩ := ih h1 h' _ hd
      exact ⟨l2.trans l1, n2.trans n1⟩

theorem uninit_fill_n_frame {α : Type} (B : Nat) (m : Int → Base) (v : α)
    (throw_at : Option Nat) (first : deque_iterator) (k : Nat) :
    ∀ (done : Nat) (h : Heap α) (cur : deque_iterator),
      (∀ h' c, uninit_fill_n B m v throw_at first k done h cur = FillResult.filled h' c →
        h'.live = h.live ∧ h'.next = h.next) ∧
      (∀ h', uninit_fill_n B m v throw_at first k done h cur = FillResult.threw h' →
        h'.live = h.live ∧ h'.next = h.next) := by
  induction k with
  | zero =>
    intro done h cur
    refine ⟨?_, ?_⟩
    · intro h' c hf
      simp only [uninit_fill_n] at hf
      injection hf with e1 e2
      subst e1
      exact ⟨rfl, rfl⟩
    · intro h' hf
      simp only [uninit_fill_n] at hf
      exact absurd hf (by simp)
  | succ k ih =>
    intro done h cur
    refine ⟨?_, ?_⟩
    · intro h' c hf
      simp only [uninit_fill_n] at hf
      split_ifs at hf
      · split at hf <;> exact absurd hf (by simp)
      · split at hf
        · exact absurd hf (by simp)
        · rename_i h1 hh1
          obtain ⟨_, _, _, l1, n1⟩ := construct_at_some B _ _ _ _ hh1
          obtain ⟨l2, n2⟩ := (ih _ h1 _).1 h' c hf
          exact ⟨l2.trans l1, n2.trans n1⟩
    · intro h' hf
      simp only [uninit_fill_n] at hf
      split_ifs at hf
      · split at hf
        · exact absurd hf (by simp)
        · rename_i h1 hh1
          injection hf with e
          subst e
          exact destroy_run_frame B m _ _ _ _ hh1
      · split at hf
        · exact absurd hf (by simp)
        · rename_i h1 hh1
          obtain ⟨_, _, _, l1, n1⟩ := construct_at_some B _ _ _ _ hh1
          obtain ⟨l2, n2⟩ := (ih _ h1 _).2 h' hf
          exact ⟨l2.trans l1, n2.trans n1⟩
theorem ReachInv.of_wf {α : Type} {B : Nat} {s : State α}
    (hw : WF B s.h.next s.h.live s.d) (hf : s.d._finish._current.off ≤ (B : Int)) :
    ReachInv B s := by
  refine ⟨Or.inr hw, hf, ?_⟩
  intro hm
  have := hw.map_some
  rw [hm] at this
  exact absurd this (by simp)

theorem ReachInv.same_store {α : Type} {B : Nat} {s : State α} (hi : ReachInv B s)
    (h' : Heap α)
    (hl : h'.live = s.h.live) (hn : h'.next = s.h.next) : ReachInv B { s with h := h' } :=
  ⟨hi.inv.frame h' hl hn, hi.fin_off, hi.null_map⟩

theorem entry_fin_off {α : Type} {B : Nat} {s : State α} (hi : ReachInv B s) :
    (if s.d._map.isNone then _create_map_and_nodes B s 0 else s).d._finish._current.off
      ≤ (B : Int) := by
  split_ifs
  · simp [_create_map_and_nodes, deque_iterator._set_node, Ptr.add]
  · exact hi.fin_off

theorem emplace_back_reach {α : Type} {B : Nat} (hB : 0 < B) (s s' : State α) (a : Option α)
    (hi : ReachInv B s) (h : emplace_back B s a = Except.ok s') : ReachInv B s' := by
  refine ReachInv.of_wf (emplace_back_wf hB s s' a hi.inv h) ?_
  have hw1 := hi.inv.entry hB
  have hb : (1 : Int) ≤ (B : Int) := by exact_mod_cast hB
  unfold emplace_back at h
  simp only at h
  generalize (if s.d._map.isNone then _create_map_and_nodes B s 0 else s) = s1 at h hw1
  split_ifs at h with hc
  · obtain ⟨h1, hh1, hr⟩ := bind_ok _ _ _ h
    obtain ⟨_, _, hlt, _, _⟩ := construct_arg_ok B s1 _ a h1 hh1
    have hs := (Except.ok.inj hr).symm
    subst hs
    show (s1.d._finish._current.add 1).off ≤ (B : Int)
    simp only [Ptr.add]
    omega
  · obtain ⟨s2, hs2, hr⟩ := bind_ok _ _ _ h
    obtain ⟨_, hcur, _, hsh⟩ := push_back_aux_wf s1 s2 hw1.toWF0 hs2
    obtain ⟨h1, hh1, hr⟩ := bind_ok _ _ _ hr
    have hs := (Except.ok.inj hr).symm
    subst hs
    show (s2.d._finish._current.add 1).off ≤ (B : Int)
    simp only [Ptr.add, hcur, hsh.1]
    omega

theorem push_front_aux_finish {α : Type} {B : Nat} (s s' : State α)
    (hw : WF0 B s.h.next s.h.live s.d) (h : _push_front_aux B s = Except.ok s') :
    s'.d._finish._current = s.d._finish._current := by
  unfold _push_front_aux at h
  simp only at h
  split at h
  · exact absurd h (by simp)
  · exact absurd h (by simp)
  · rename_i d1 hd1
    split at h
    · exact absurd h (by simp)
    · have hs := (Except.ok.inj h).symm
      subst hs
      simp only
      split_ifs at hd1 with hc
      · exact (hw.reallocate 1 true d1 hd1).2.2
      · injection hd1 with e
        rw [← e]

theorem emplace_front_reach {α : Type} {B : Nat} (hB : 0 < B) (s s' : State α) (a : Option α)
    (hi : ReachInv B s) (h : emplace_front B s a = Except.ok s') : ReachInv B s' := by
  refine ReachInv.of_wf (emplace_front_wf hB s s' a hi.inv h) ?_
  have hw1 := hi.inv.entry hB
  have hf1 := entry_fin_off hi
  unfold emplace_front at h
  simp only at h
  generalize (if s.d._map.isNone then _create_map_and_nodes B s 0 else s) = s1 at h hw1 hf1
  split_ifs at h with hc
  · obtain ⟨h1, hh1, hr⟩ := bind_ok _ _ _ h
    have hs := (Except.ok.inj hr).symm
    subst hs
    exact hf1
  · obtain ⟨s2, hs2, hr⟩ := bind_ok _ _ _ h
    obtain ⟨h1, hh1, hr⟩ := bind_ok _ _ _ hr
    have hs := (Except.ok.inj hr).symm
    subst hs
    show s2.d._finish._current.off ≤ (B : Int)
    rw [push_front_aux_finish s1 s2 hw1.toWF0 hs2]
    exact hf1

theorem pop_back_reach {α : Type} {B : Nat} (s s' : State α)
    (hi : ReachInv B s) (h : pop_back B s = Except.ok s') : ReachInv B s' := by
  refine ReachInv.of_wf (pop_back_wf s s' hi.inv h) ?_
  have hf := hi.fin_off
  unfold pop_back at h
  split_ifs at h with hc
  · simp only at h
    obtain ⟨h1, hh1, hr⟩ := bind_ok _ _ _ h
    have hs := (Except.ok.inj hr).symm
    subst hs
    show (s.d._finish._current.add (-1)).off ≤ (B : Int)
    simp only [Ptr.add]
    omega
  · obtain ⟨s1, hs1, hr⟩ := bind_ok _ _ _ h
    have hp := ofOpt_ok _ _ hs1
    obtain ⟨h1, hh1, hr⟩ := bind_ok _ _ _ hr
    have hs := (Except.ok.inj hr).symm
    subst hs
    unfold _pop_back_aux at hp
    split at hp
    · exact absurd hp (by simp)
    · have e := (Option.some.inj hp).symm
      subst e
      simp only [deque_iterator._set_node, Ptr.add]
      omega

theorem pop_front_reach {α : Type} {B : Nat} (hB : 0 < B) (s s' : State α)
    (hi : ReachInv B s) (h : pop_front B s = Except.ok s') : ReachInv B s' := by
  refine ReachInv.of_wf (pop_front_wf hB s s' hi.inv h) ?_
  have hf := hi.fin_off
  unfold pop_front at h
  split_ifs at h with hc
  · obtain ⟨h1, hh1, hr⟩ := bind_ok _ _ _ h
    have hs := (Except.ok.inj hr).symm
    subst hs
    exact hf
  · obtain ⟨h1, hh1, hr⟩ := bind_ok _ _ _ h
    have hp := ofOpt_ok _ _ hr
    unfold _pop_front_aux at hp
    split at hp
    · exact absurd hp (by simp)
    · have e := (Option.some.inj hp).symm
      subst e
      exact hf

theorem emplace_reach {α : Type} {B : Nat} (hB : 0 < B) (s : State α) (pos : deque_iterator)
    (a : Option α) (r : State α × deque_iterator)
    (hi : ReachInv B s) (h : emplace B s pos a = Except.ok r) : ReachInv B r.1 := by
  unfold emplace at h
  split_ifs at h with c1 c2 c3
  · obtain ⟨s1, hs1, hr⟩ := bind_ok _ _ _ h
    have := (Except.ok.inj hr).symm; subst this
    exact emplace_front_reach hB s s1 a hi hs1
  · obtain ⟨s1, hs1, hr⟩ := bind_ok _ _ _ h
    obtain ⟨q, _, hr⟩ := bind_ok _ _ _ hr
    have := (Except.ok.inj hr).symm; subst this
    exact emplace_back_reach hB s s1 a hi hs1
  · obtain ⟨s1, hs1, hr⟩ := bind_ok _ _ _ h
    have := (Except.ok.inj hr).symm; subst this
    exact emplace_back_reach hB s s1 a hi hs1
  · obtain ⟨p, _, hr⟩ := bind_ok _ _ _ h
    obtain ⟨idx, _, hr⟩ := bind_ok _ _ _ hr
    obtain ⟨sz, _, hr⟩ := bind_ok _ _ _ hr
    split_ifs at hr with c4
    · obtain ⟨fr, _, hr⟩ := bind_ok _ _ _ hr
      obtain ⟨s1, hs1, hr⟩ := bind_ok _ _ _ hr
      have hw1 := emplace_front_reach hB s s1 (some fr) hi hs1
      obtain ⟨ip, _, hr⟩ := bind_ok _ _ _ hr
      obtain ⟨t, _, hr⟩ := bind_ok _ _ _ hr
      obtain ⟨last, _, hr⟩ := bind_ok _ _ _ hr
      obtain ⟨mv, hmv, hr⟩ := bind_ok _ _ _ hr
      obtain ⟨tgt, _, hr⟩ := bind_ok _ _ _ hr
      obtain ⟨h2, hh2, hr⟩ := bind_ok _ _ _ hr
      obtain ⟨h3, hh3, hr⟩ := bind_ok _ _ _ hr
      have := (Except.ok.inj hr).symm; subst this
      obtain ⟨l1, n1⟩ := std_move_frame B _ _ _ _ _ _ (ofOpt_ok _ _ hmv)
      obtain ⟨_, _, _, l2, n2⟩ := destroy_at_some B _ _ _ (ofOpt_ok _ _ hh2)
      obtain ⟨_, _, _, l3, n3⟩ := construct_arg_ok B _ _ a h3 hh3
      simp only at l3 n3
      exact hw1.same_store h3 (l3.trans (l2.trans l1)) (n3.trans (n2.trans n1))
    · obtain ⟨bk, _, hr⟩ := bind_ok _ _ _ hr
      obtain ⟨s1, hs1, hr⟩ := bind_ok _ _ _ hr
      have hw1 := emplace_back_reach hB s s1 (some bk) hi hs1
      obtain ⟨ap, _, hr⟩ := bind_ok _ _ _ hr
      obtain ⟨e2, _, hr⟩ := bind_ok _ _ _ hr
      obtain ⟨e1, _, hr⟩ := bind_ok _ _ _ hr
      obtain ⟨h1, hh1, hr⟩ := bind_ok _ _ _ hr
      obtain ⟨h2, hh2, hr⟩ := bind_ok _ _ _ hr
      obtain ⟨h3, hh3, hr⟩ := bind_ok _ _ _ hr
      have := (Except.ok.inj hr).symm; subst this
      obtain ⟨l1, n1⟩ := std_move_backward_frame B _ _ _ _ _ _ (ofOpt_ok _ _ hh1)
      obtain ⟨_, _, _, l2, n2⟩ := destroy_at_some B _ _ _ (ofOpt_ok _ _ hh2)
      obtain ⟨_, _, _, l3, n3⟩ := construct_arg_ok B _ _ a h3 hh3
      simp only at l3 n3
      exact hw1.same_store h3 (l3.trans (l2.trans l1)) (n3.trans (n2.trans n1))

theorem erase_reach {α : Type} {B : Nat} (hB : 0 < B) (s : State α) (pos : deque_iterator)
    (r : State α × deque_iterator)
    (hi : ReachInv B s) (h : erase B s pos = Except.ok r) : ReachInv B r.1 := by
  unfold erase at h
  simp only at h
  obtain ⟨p, _, hr⟩ := bind_ok _ _ _ h
  obtain ⟨idx, _, hr⟩ := bind_ok _ _ _ hr
  obtain ⟨sz, _, hr⟩ := bind_ok _ _ _ hr
  split_ifs at hr with c
  · obtain ⟨p1, _, hr⟩ := bind_ok _ _ _ hr
    obtain ⟨h1, hh1, hr⟩ := bind_ok _ _ _ hr
    obtain ⟨s1, hs1, hr⟩ := bind_ok _ _ _ hr
    obtain ⟨q, _, hr⟩ := bind_ok _ _ _ hr
    have := (Except.ok.inj hr).symm; subst this
    obtain ⟨l1, n1⟩ := std_move_backward_frame B _ _ _ _ _ _ (ofOpt_ok _ _ hh1)
    exact pop_front_reach hB _ s1 (hi.same_store h1 l1 n1) hs1
  · obtain ⟨p1, _, hr⟩ := bind_ok _ _ _ hr
    obtain ⟨mv, hmv, hr⟩ := bind_ok _ _ _ hr
    obtain ⟨s1, hs1, hr⟩ := bind_ok _ _ _ hr
    obtain ⟨q, _, hr⟩ := bind_ok _ _ _ hr
    have := (Except.ok.inj hr).symm; subst this
    obtain ⟨l1, n1⟩ := std_move_frame B _ _ _ _ _ _ (ofOpt_ok _ _ hmv)
    exact pop_back_reach _ s1 (hi.same_store mv.1 l1 n1) hs1
theorem destroy_range_pos {α : Type} (B : Nat) (h h' : Heap α) (p q : Ptr)
    (hd : destroy_range B h p q = some h') :
    p.base = q.base ∧ (p.off < q.off → ∃ id, p.base = Base.blk id ∧ h.live id = true) := by
  unfold destroy_range at hd
  split_ifs at hd with hb
  refine ⟨hb, ?_⟩
  intro hlt
  obtain ⟨k, hk⟩ : ∃ k, (q.off - p.off).toNat = k + 1 := ⟨(q.off - p.off).toNat - 1, by omega⟩
  rw [hk] at hd
  simp only [destroy_cells] at hd
  split at hd
  · exact absurd hd (by simp)
  · rename_i h1 hh1
    obtain ⟨hv, _⟩ := destroy_at_some B _ _ _ hh1
    exact hv

/-- What a returning `_destroy_elements(_start, _finish)` says about the start
cursor of a well-formed container: it lies in its cached block, and not in a
slot after the finish slot. -/
theorem destroy_all_start {α : Type} {B : Nat} {s : State α}
    (hw : WF B s.h.next s.h.live s.d) (h' : Heap α)
    (hd : _destroy_elements B s.d.slots s.h s.d._start s.d._finish = some h') :
    s.d._start._current.base = s.d._start._first.base ∧
      s.d._start._node ≤ s.d._finish._node := by
  unfold _destroy_elements at hd
  split at hd
  · exact absurd hd (by simp)
  · rename_i h1 hh1
    obtain ⟨l1, n1⟩ := destroy_blocks_frame B _ _ _ _ _ hh1
    split_ifs at hd with hc
    · split at hd
      · exact absurd hd (by simp)
      · rename_i h2 hh2
        obtain ⟨hb, hpos⟩ := destroy_range_pos B _ _ _ _ hh2
        have hl := hw.shaped_st.2
        rw [hl] at hb hpos
        simp only at hb hpos
        refine ⟨hb, ?_⟩
        obtain ⟨id, hid, hlv⟩ := hpos hw.st_rng.2
        rw [l1] at hlv
        exact (hw.st_ok id hid hlv).2.2
    · have hn : s.d._start._node = s.d._finish._node := not_not.mp hc
      obtain ⟨hb, _⟩ := destroy_range_pos B _ _ _ _ hd
      refine ⟨?_, le_of_eq hn⟩
      by_contra hne
      exact hw.apart hne hb.symm

theorem clear_reach {α : Type} {B : Nat} (s s' : State α)
    (hi : ReachInv B s) (h : clear B s = Except.ok s') : ReachInv B s' := by
  unfold clear at h
  cases hm : s.d._map with
  | none =>
    rw [hm] at h
    simp only at h
    have := (Except.ok.inj h).symm; subst this
    exact hi
  | some m =>
    rw [hm] at h
    simp only at h
    obtain ⟨h1, hh1, hr⟩ := bind_ok _ _ _ h
    obtain ⟨h2, hh2, hr⟩ := bind_ok _ _ _ hr
    have hs := (Except.ok.inj hr).symm
    subst hs
    have hsl : s.d.slots = m := by simp [deque.slots, hm]
    have hw : WF B s.h.next s.h.live s.d := by
      rcases hi.inv with ⟨hn, _⟩ | hw
      · rw [hm] at hn; exact absurd hn (by simp)
      · exact hw
    have hde := ofOpt_ok _ _ hh1
    rw [← hsl] at hde
    obtain ⟨hbase, hle⟩ := destroy_all_start hw h1 hde
    obtain ⟨l1, n1⟩ := destroy_elements_frame B _ _ _ _ _ hde
    obtain ⟨n2, hex, hiff⟩ := dealloc_nodes_spec m _ _ _ _ (ofOpt_ok _ _ hh2)
    have hlive : ∀ id, h2.live id = true → s.h.live id = true := by
      intro id hl
      have := ((hiff id).mp hl).1
      rw [l1] at this; exact this
    have hslots : ({ s.d with _finish := s.d._start } : deque).slots = s.d.slots := rfl
    refine ReachInv.of_wf ?_ (le_of_lt hw.st_rng.2)
    refine
      { map_some := hw.map_some, map_bound := hw.map_bound, node_lo := hw.node_lo,
        node_hi := ?_, gap := ?_, shaped_st := hw.shaped_st, shaped_fi := hw.shaped_st,
        fresh_map := ?_, fresh_st := ?_, fresh_fi := ?_, own := ?_, st_ok := ?_,
        fi_ok := ?_, st_rng := hw.st_rng, apart := ?_ }
    · show s.d._start._node < (s.d._map_size : Int)
      have := hw.node_hi
      omega
    · show s.d._start._node ≤ s.d._start._node + 1
      omega
    · intro j id hj
      rw [n2, n1]
      exact hw.fresh_map j id hj
    · intro id hb
      rw [n2, n1]
      exact hw.fresh_st id hb
    · intro id hb
      rw [n2, n1]
      exact hw.fresh_st id hb
    · intro id hl
      obtain ⟨hl1, hne⟩ := (hiff id).mp hl
      rw [l1] at hl1
      obtain ⟨j, hj1, hj2, hj3⟩ := hw.own id hl1
      refine ⟨s.d._start._node, le_refl _, le_refl _, ?_⟩
      by_cases hj : j = s.d._start._node
      · rw [← hj]; exact hj3
      · exfalso
        have hi' := hne (j - (s.d._start._node + 1)).toNat (by omega)
        apply hi'
        have e : s.d._start._node + 1 + (((j - (s.d._start._node + 1)).toNat : Nat) : Int) = j := by
          omega
        rw [e, ← hsl]
        exact hj3
    · intro id hb hl
      obtain ⟨a, b, _⟩ := hw.st_ok id hb (hlive id hl)
      exact ⟨a, b, le_refl _⟩
    · intro id hb hl
      obtain ⟨a, b, _⟩ := hw.st_ok id hb (hlive id hl)
      exact ⟨a, b, le_refl _⟩
    · intro hne
      exact absurd hbase hne
theorem repeat_call_reach {α : Type} {B : Nat} (f : State α → Except (Fault α) (State α))
    (hf : ∀ s s', ReachInv B s → f s = Except.ok s' → ReachInv B s') (k : Nat) :
    ∀ (s s' : State α), ReachInv B s → repeat_call f k s = Except.ok s' → ReachInv B s' := by
  induction k with
  | zero =>
    intro s s' hi h
    simp only [repeat_call] at h
    have := (Except.ok.inj h).symm; subst this
    exact hi
  | succ k ih =>
    intro s s' hi h
    simp only [repeat_call] at h
    split at h
    · rename_i s1 hs1
      exact ih s1 s' (hf s s1 hi hs1) h
    · exact absurd h (by simp)

theorem resize_reach {α : Type} {B : Nat} (hB : 0 < B) (s s' : State α) (n : Nat) (v : α)
    (hi : ReachInv B s) (h : resize B s n v = Except.ok s') : ReachInv B s' := by
  unfold resize at h
  split at h
  · exact absurd h (by simp)
  · split_ifs at h
    · exact repeat_call_reach _ (fun t t' ht hh => emplace_back_reach hB t t' (some v) ht hh)
        _ s s' hi h
    · exact repeat_call_reach _ (fun t t' ht hh => pop_back_reach t t' ht hh) _ s s' hi h
    · have := (Except.ok.inj h).symm; subst this
      exact hi

theorem emplace_all_reach {α : Type} {B : Nat} (hB : 0 < B) (xs : List α) :
    ∀ (s s' : State α), ReachInv B s → emplace_all B xs s = Except.ok s' → ReachInv B s' := by
  induction xs with
  | nil =>
    intro s s' hi h
    simp only [emplace_all] at h
    have := (Except.ok.inj h).symm; subst this
    exact hi
  | cons v vs ih =>
    intro s s' hi h
    simp only [emplace_all] at h
    split at h
    · rename_i s1 hs1
      exact ih s1 s' (emplace_back_reach hB s s1 (some v) hi hs1) h
    · exact absurd h (by simp)

theorem assign_list_reach {α : Type} {B : Nat} (hB : 0 < B) (s s' : State α) (xs : List α)
    (hi : ReachInv B s) (h : assign_list B s xs = Except.ok s') : ReachInv B s' := by
  unfold assign_list at h
  obtain ⟨s1, hs1, hr⟩ := bind_ok _ _ _ h
  exact emplace_all_reach hB xs s1 s' (clear_reach s s1 hi hs1) hr

/-- The layout `_create_map_and_nodes(n)` gives is well-formed in every store
in which exactly the blocks it allocated are allocated. -/
theorem create_wf_in {α : Type} (B : Nat) (hB : 0 < B) (h0 : Heap α) (d0 : deque) (n : Nat)
    (hM : max 8 (n / B + 1 + 2) ≤ map_alloc_limit) (next : Nat) (live : Nat → Bool)
    (hnext : next = h0.next + (n / B + 1))
    (hlive : ∀ id, live id = true ↔ (h0.next ≤ id ∧ id < h0.next + (n / B + 1))) :
    WF B next live (_create_map_and_nodes B { h := h0, d := d0 } n).d ∧
      (_create_map_and_nodes B { h := h0, d := d0 } n).d._finish._current.off ≤ (B : Int) := by
  have hmod : ((n % B : Nat) : Int) < (B : Int) := by exact_mod_cast Nat.mod_lt n hB
  have hb : (0 : Int) < (B : Int) := by exact_mod_cast hB
  have hM8 : 8 ≤ max 8 (n / B + 1 + 2) := le_max_left _ _
  have hMq : n / B + 1 + 2 ≤ max 8 (n / B + 1 + 2) := le_max_right _ _
  simp only [_create_map_and_nodes, deque_iterator._set_node, Ptr.add]
  generalize max 8 (n / B + 1 + 2) = M at hM hM8 hMq ⊢
  generalize n / B = q at hMq hnext hlive ⊢
  obtain ⟨_, _, hsl⟩ := alloc_nodes_spec (q + 1) h0 (fun _ => Base.junk)
    (((M - (q + 1)) / 2 : Nat) : Int)
  have hns : (((M - (q + 1)) / 2 : Nat) : Int) + ((q + 1 : Nat) : Int) < (M : Int) := by
    have : (M - (q + 1)) / 2 + (q + 1) < M := by omega
    exact_mod_cast this
  have hq0 : (0 : Int) ≤ ((q + 1 : Nat) : Int) - 1 := by push_cast; omega
  have hns0 : (0 : Int) ≤ (((M - (q + 1)) / 2 : Nat) : Int) := Int.natCast_nonneg _
  generalize (((M - (q + 1)) / 2 : Nat) : Int) = ns at hsl hns hns0 ⊢
  refine ⟨?_, ?_⟩
  · refine
      { map_some := rfl, map_bound := hM, node_lo := ?_, node_hi := ?_,
        gap := ?_, shaped_st := ?_, shaped_fi := ?_, fresh_map := ?_,
        fresh_st := ?_, fresh_fi := ?_, own := ?_, st_ok := ?_, fi_ok := ?_,
        st_rng := ?_, apart := ?_ }
    all_goals
      simp only [_create_map_and_nodes, deque_iterator._set_node, deque.slots,
        deque_iterator.shaped, Ptr.add]
    · omega
    · omega
    · omega
    · simp
    · simp
    · intro j id hj
      rw [hsl j] at hj
      split_ifs at hj with c
      · injection hj with e
        rw [hnext, ← e]; omega
    · intro id hb'
      rw [hsl] at hb'
      split_ifs at hb' with c
      · injection hb' with e
        rw [hnext, ← e]; omega
    · intro id hb'
      rw [hsl] at hb'
      split_ifs at hb' with c
      · injection hb' with e
        rw [hnext, ← e]; omega
    · intro id hl
      obtain ⟨h1, h2⟩ := (hlive id).mp hl
      refine ⟨ns + ((id - h0.next : Nat) : Int), by omega, by omega, ?_⟩
      rw [hsl, if_pos ⟨by omega, by omega⟩]
      congr 1
      omega
    · intro id hb' hl
      refine ⟨hb', ?_, by omega⟩
      exact hb'
    · intro id hb' hl
      refine ⟨hb', ?_, by omega⟩
      exact hb'
    · exact ⟨le_refl _, hb⟩
    · intro hne; exact absurd rfl hne
  · omega
/-- Releasing every block of a container: of the blocks allocated before,
those of its slots in use are gone and the others (`P`) stay. -/
theorem deallocate_all_spec {α : Type} {B : Nat} (d : deque) (next0 : Nat)
    (live0 : Nat → Bool) (hw : WF0 B next0 live0 d) (h : Heap α) (P : Nat → Prop)
    (hlive : ∀ id, h.live id = true ↔ (live0 id = true ∨ P id))
    (hdisj : ∀ j id, d.slots j = Base.blk id → ¬ P id) (s2 : State α)
    (hd : _deallocate_all { h := h, d := d } = some s2) :
    s2.d = d ∧ s2.h.next = h.next ∧ ∀ id, s2.h.live id = true ↔ P id := by
  unfold _deallocate_all at hd
  cases hm : d._map with
  | none => have := hw.map_some; rw [hm] at this; exact absurd this (by simp)
  | some m =>
    have hsl : d.slots = m := by simp [deque.slots, hm]
    simp only [hm] at hd
    split at hd
    · exact absurd hd (by simp)
    · rename_i h1 hh1
      have e := (Option.some.inj hd).symm
      subst e
      obtain ⟨n1, _, hiff⟩ := dealloc_nodes_spec m _ _ _ _ hh1
      refine ⟨rfl, n1, ?_⟩
      intro id
      show h1.live id = true ↔ P id
      rw [hiff id, hlive id]
      constructor
      · rintro ⟨hl | hp, hne⟩
        · exfalso
          obtain ⟨j, hj1, hj2, hj3⟩ := hw.own id hl
          apply hne (j - d._start._node).toNat (by omega)
          have e : d._start._node + (((j - d._start._node).toNat : Nat) : Int) = j := by omega
          rw [e, ← hsl]; exact hj3
        · exact hp
      · intro hp
        refine ⟨Or.inr hp, ?_⟩
        intro i _ e
        rw [← hsl] at e
        exact hdisj _ id e hp

theorem deque_dtor_spec {α : Type} {B : Nat} (d : deque) (next0 : Nat)
    (live0 : Nat → Bool) (hw : WF0 B next0 live0 d) (h : Heap α) (P : Nat → Prop)
    (hlive : ∀ id, h.live id = true ↔ (live0 id = true ∨ P id))
    (hdisj : ∀ j id, d.slots j = Base.blk id → ¬ P id) (h3 : Heap α)
    (hd : deque_dtor B { h := h, d := d } = Except.ok h3) :
    h3.next = h.next ∧ ∀ id, h3.live id = true ↔ P id := by
  unfold deque_dtor at hd
  cases hm : d._map with
  | none => have := hw.map_some; rw [hm] at this; exact absurd this (by simp)
  | some m =>
    simp only [hm] at hd
    split at hd
    · exact absurd hd (by simp)
    · rename_i h1 hh1
      obtain ⟨l1, n1⟩ := destroy_elements_frame B _ _ _ _ _ hh1
      split at hd
      · exact absurd hd (by simp)
      · rename_i s2 hs2
        have e := (Except.ok.inj hd).symm
        subst e
        obtain ⟨_, n2, hiff⟩ := deallocate_all_spec d next0 live0 hw h1 P
          (fun id => by rw [l1]; exact hlive id) hdisj s2 hs2
        exact ⟨n2.trans n1, hiff⟩

theorem Inv.live_lt {α : Type} {B : Nat} {s : State α} (hi : Inv B s) (id : Nat)
    (hl : s.h.live id = true) : id < s.h.next := by
  rcases hi with ⟨_, hd⟩ | hw
  · rw [hd id] at hl; exact absurd hl (by simp)
  · obtain ⟨j, _, _, hj⟩ := hw.own id hl
    exact hw.fresh_map j id hj

/-- The destructor of a container in a store that also holds blocks allocated
later (`P`): those blocks are what stays allocated. -/
theorem Inv.dtor {α : Type} {B : Nat} {s : State α} (hi : Inv B s) (h : Heap α)
    (P : Nat → Prop) (hlive : ∀ id, h.live id = true ↔ (s.h.live id = true ∨ P id))
    (hP : ∀ id, P id → s.h.next ≤ id) (h3 : Heap α)
    (hd : deque_dtor B { h := h, d := s.d } = Except.ok h3) :
    h3.next = h.next ∧ ∀ id, h3.live id = true ↔ P id := by
  rcases hi with ⟨hm, hdead⟩ | hw
  · unfold deque_dtor at hd
    simp only [hm] at hd
    have e := (Except.ok.inj hd).symm
    subst e
    refine ⟨rfl, fun id => ?_⟩
    rw [hlive id, hdead id]
    simp
  · exact deque_dtor_spec s.d s.h.next s.h.live hw.toWF0 h P hlive
      (fun j id hj hp => by
        have := hw.fresh_map j id hj
        have := hP id hp
        omega) h3 hd

/-- A container rebuilt in a temporary of `n` elements whose storage it then
takes over, the old storage being destroyed (`shrink_to_fit`, bulk insertion):
the result is well-formed. -/
theorem rebuild_reach {α : Type} {B : Nat} (hB : 0 < B) (s : State α) (hi : ReachInv B s)
    (n : Nat) (hM : max 8 (n / B + 1 + 2) ≤ map_alloc_limit) (h' h3 : Heap α)
    (hl : h'.live = (_create_map_and_nodes B { h := s.h, d := deque.nil } n).h.live)
    (hn : h'.next = (_create_map_and_nodes B { h := s.h, d := deque.nil } n).h.next)
    (hd : deque_dtor B { h := h', d := s.d } = Except.ok h3) :
    ReachInv B { h := h3, d := (_create_map_and_nodes B { h := s.h, d := deque.nil } n).d } := by
  obtain ⟨c1, c2, _⟩ := alloc_nodes_spec (n / B + 1) s.h (fun _ => Base.junk)
    (((max 8 (n / B + 1 + 2) - (n / B + 1)) / 2 : Nat) : Int)
  have hcn : (_create_map_and_nodes B { h := s.h, d := deque.nil } n).h.next
      = s.h.next + (n / B + 1) := c1
  have hcl : ∀ id, (_create_map_and_nodes B { h := s.h, d := deque.nil } n).h.live id
      = if s.h.next ≤ id ∧ id < s.h.next + (n / B + 1) then true else s.h.live id := c2
  obtain ⟨n3, hiff⟩ := hi.inv.dtor h'
    (fun id => s.h.next ≤ id ∧ id < s.h.next + (n / B + 1))
    (fun id => by
      rw [hl, hcl id]
      by_cases c : s.h.next ≤ id ∧ id < s.h.next + (n / B + 1)
      · simp [c]
      · simp only [c, if_false, or_false])
    (fun id hp => hp.1) h3 hd
  obtain ⟨hw, hf⟩ := create_wf_in B hB s.h deque.nil n hM h3.next h3.live
    (by rw [n3, hn, hcn]) hiff
  exact ReachInv.of_wf hw hf
theorem map_fits {B n : Nat} (hB : 16 ≤ B) (hn : n < 2 ^ 64) :
    max 8 (n / B + 1 + 2) ≤ map_alloc_limit := by
  have h1 : n / B ≤ n / 16 := Nat.div_le_div_left hB (by norm_num)
  have h2 : n / 16 < 2 ^ 60 := by omega
  have h3 : map_alloc_limit = 2305843009213693951 := by decide
  rw [h3]
  exact max_le (by norm_num) (by omega)

theorem create_reach {α : Type} {B : Nat} (hB : 0 < B) (s : State α)
    (hdead : ∀ id, s.h.live id = false) (n : Nat)
    (hM : max 8 (n / B + 1 + 2) ≤ map_alloc_limit) :
    ReachInv B (_create_map_and_nodes B s n) := by
  obtain ⟨c1, c2, _⟩ := alloc_nodes_spec (n / B + 1) s.h (fun _ => Base.junk)
    (((max 8 (n / B + 1 + 2) - (n / B + 1)) / 2 : Nat) : Int)
  have hcn : (_create_map_and_nodes B s n).h.next = s.h.next + (n / B + 1) := c1
  have hcl : ∀ id, (_create_map_and_nodes B s n).h.live id
      = if s.h.next ≤ id ∧ id < s.h.next + (n / B + 1) then true else s.h.live id := c2
  obtain ⟨hw, hf⟩ := create_wf_in B hB s.h s.d n hM (_create_map_and_nodes B s n).h.next
    (_create_map_and_nodes B s n).h.live hcn
    (fun id => by
      rw [hcl id, hdead id]
      by_cases c : s.h.next ≤ id ∧ id < s.h.next + (n / B + 1)
      · simp [c]
      · simp [c])
  exact ReachInv.of_wf hw hf

theorem deallocate_all_dead {α : Type} {B : Nat} (s s' : State α) (hi : Inv B s)
    (hd : _deallocate_all s = some s') : ∀ id, s'.h.live id = false := by
  rcases hi with ⟨hm, hdead⟩ | hw
  · unfold _deallocate_all at hd
    simp only [hm] at hd
    have e := (Option.some.inj hd).symm
    subst e
    exact hdead
  · obtain ⟨_, _, hiff⟩ := deallocate_all_spec s.d s.h.next s.h.live hw.toWF0 s.h
      (fun _ => False) (fun id => by simp) (fun _ _ _ hp => hp) s' hd
    intro id
    cases hl : s'.h.live id with
    | false => rfl
    | true => exact absurd ((hiff id).mp hl) (by simp)

theorem assign_reach {α : Type} {B : Nat} (hB : 16 ≤ B) (s s' : State α) (n : Nat) (v : α)
    (hn : n < 2 ^ 64) (hi : ReachInv B s) (h : assign B s n v = Except.ok s') :
    ReachInv B s' := by
  have hB0 : 0 < B := by omega
  unfold assign at h
  obtain ⟨s1, hs1, hr⟩ := bind_ok _ _ _ h
  have hi1 := clear_reach s s1 hi hs1
  obtain ⟨cap, _, hr⟩ := bind_ok _ _ _ hr
  obtain ⟨s2, hs2, hr⟩ := bind_ok _ _ _ hr
  refine resize_reach hB0 s2 s' n v ?_ hr
  split_ifs at hs2 with hc
  · split at hs2
    · exact absurd hs2 (by simp)
    · rename_i t ht
      have e := (Except.ok.inj hs2).symm
      subst e
      exact create_reach hB0 t (deallocate_all_dead s1 t hi1.inv ht) n (map_fits hB hn)
  · have e := (Except.ok.inj hs2).symm
    subst e
    exact hi1
theorem nil_reach {α : Type} {B : Nat} (h : Heap α) (hdead : ∀ id, h.live id = false) :
    ReachInv B ({ h := h, d := deque.nil } : State α) :=
  ⟨Or.inl ⟨rfl, hdead⟩, by
    show (0 : Int) ≤ (B : Int)
    exact Int.natCast_nonneg _, fun _ => ⟨rfl, rfl⟩⟩

theorem shrink_to_fit_reach {α : Type} {B : Nat} (hB : 0 < B) (s s' : State α)
    (hi : ReachInv B s) (h : shrink_to_fit B s = Except.ok s') : ReachInv B s' := by
  unfold shrink_to_fit at h
  split_ifs at h with he
  · split at h
    · exact absurd h (by simp)
    · rename_i s1 hs1
      have e := (Except.ok.inj h).symm
      subst e
      exact nil_reach s1.h (deallocate_all_dead s s1 hi.inv hs1)
  · split at h
    · exact absurd h (by simp)
    · rename_i sz hsz
      simp only at h
      split_ifs at h with hc
      · have e := (Except.ok.inj h).symm
        subst e
        exact hi
      · obtain ⟨tmp, htmp, hr⟩ := bind_ok _ _ _ h
        obtain ⟨h1, hh1, hr⟩ := bind_ok _ _ _ hr
        have e := (Except.ok.inj hr).symm
        subst e
        unfold deque_range_ctor at htmp
        split at htmp
        · exact absurd htmp (by simp)
        · rename_i z hz
          simp only at htmp
          split_ifs at htmp with hbig
          split at htmp
          · rename_i r hr1
            have e := (Except.ok.inj htmp).symm
            subst e
            obtain ⟨l1, n1⟩ := construct_loop_frame B _ _ _ _ _ _ _ r hr1
            exact rebuild_reach hB s hi (to_size z) (not_lt.mp hbig) r.1 h1 l1 n1 hh1
          · exact absurd htmp (by simp)

theorem insert_n_reach {α : Type} {B : Nat} (hB : 16 ≤ B) (moved : α → α) (s : State α)
    (pos : deque_iterator) (count : Nat) (v : α) (throw_at : Option Nat)
    (r : State α × deque_iterator) (hi : ReachInv B s)
    (hp : ∀ k, size B s = some k → k + count < 2 ^ 64)
    (h : insert_n B moved s pos count v throw_at = Except.ok r) : ReachInv B r.1 := by
  have hB0 : 0 < B := by omega
  unfold insert_n at h
  split_ifs at h with hc c1 c2
  · obtain ⟨q, _, hr⟩ := bind_ok _ _ _ h
    have e := (Except.ok.inj hr).symm
    subst e
    exact hi
  · obtain ⟨offset, _, hr⟩ := bind_ok _ _ _ h
    obtain ⟨k, hk, hr⟩ := bind_ok _ _ _ hr
    obtain ⟨s1, hs1, hr⟩ := bind_ok _ _ _ hr
    have e := (Except.ok.inj hr).symm
    subst e
    exact repeat_call_reach _
      (fun t t' ht hh => emplace_front_reach hB0 t t' (some v) ht hh) _ s s1 hi hs1
  · obtain ⟨offset, _, hr⟩ := bind_ok _ _ _ h
    obtain ⟨k, hk, hr⟩ := bind_ok _ _ _ hr
    obtain ⟨s1, hs1, hr⟩ := bind_ok _ _ _ hr
    obtain ⟨q, _, hr⟩ := bind_ok _ _ _ hr
    have e := (Except.ok.inj hr).symm
    subst e
    exact repeat_call_reach _
      (fun t t' ht hh => emplace_back_reach hB0 t t' (some v) ht hh) _ s s1 hi hs1
  · obtain ⟨offset, _, hr⟩ := bind_ok _ _ _ h
    obtain ⟨k, hk, hr⟩ := bind_ok _ _ _ hr
    obtain ⟨b, hb, hr⟩ := bind_ok _ _ _ hr
    unfold insert_n_fill at hb
    obtain ⟨old, hold, hb⟩ := bind_ok _ _ _ hb
    obtain ⟨p, _, hb⟩ := bind_ok _ _ _ hb
    obtain ⟨r1, hr1, hb⟩ := bind_ok _ _ _ hb
    have e := (Except.ok.inj hb).symm
    subst e
    simp only at hr
    obtain ⟨l1, n1⟩ := uninit_move_loop_frame B moved _ _ _ _ _ _ _ r1 hr1
    split at hr
    · exact absurd hr (by simp)
    · obtain ⟨h2, _, hr⟩ := bind_ok _ _ _ hr
      exact absurd hr (by simp)
    · rename_i hf cf hfill
      obtain ⟨l2, n2⟩ := (uninit_fill_n_frame B _ v throw_at r1.2 count 0 r1.1 r1.2).1
        hf cf hfill
      obtain ⟨p2, _, hr⟩ := bind_ok _ _ _ hr
      obtain ⟨d0, _, hr⟩ := bind_ok _ _ _ hr
      obtain ⟨d1, _, hr⟩ := bind_ok _ _ _ hr
      obtain ⟨r3, hr3, hr⟩ := bind_ok _ _ _ hr
      obtain ⟨h3, hh3, hr⟩ := bind_ok _ _ _ hr
      obtain ⟨ret, _, hr⟩ := bind_ok _ _ _ hr
      have e := (Except.ok.inj hr).symm
      subst e
      obtain ⟨l3, n3⟩ := uninit_move_loop_frame B moved _ _ _ _ _ _ _ r3 hr3
      exact rebuild_reach hB0 s hi (old + count)
        (map_fits hB (hp old (ofOpt_ok _ _ hold))) r3.1 h3
        (l3.trans (l2.trans l1)) (n3.trans (n2.trans n1)) hh3

theorem insert_list_reach {α : Type} {B : Nat} (hB : 16 ≤ B) (moved : α → α) (s : State α)
    (pos : deque_iterator) (xs : List α)
    (r : State α × deque_iterator) (hi : ReachInv B s)
    (hp : ∀ k, size B s = some k → k + xs.length < 2 ^ 64)
    (h : insert_list B moved s pos xs = Except.ok r) : ReachInv B r.1 := by
  have hB0 : 0 < B := by omega
  unfold insert_list at h
  split_ifs at h with hc
  · obtain ⟨q, _, hr⟩ := bind_ok _ _ _ h
    have e := (Except.ok.inj hr).symm
    subst e
    exact hi
  · obtain ⟨offset, _, hr⟩ := bind_ok _ _ _ h
    obtain ⟨old, hold, hr⟩ := bind_ok _ _ _ hr
    obtain ⟨p, _, hr⟩ := bind_ok _ _ _ hr
    obtain ⟨r1, hr1, hr⟩ := bind_ok _ _ _ hr
    obtain ⟨r2, hr2, hr⟩ := bind_ok _ _ _ hr
    obtain ⟨p2, _, hr⟩ := bind_ok _ _ _ hr
    obtain ⟨d0, _, hr⟩ := bind_ok _ _ _ hr
    obtain ⟨d1, _, hr⟩ := bind_ok _ _ _ hr
    obtain ⟨r3, hr3, hr⟩ := bind_ok _ _ _ hr
    obtain ⟨h3, hh3, hr⟩ := bind_ok _ _ _ hr
    obtain ⟨ret, _, hr⟩ := bind_ok _ _ _ hr
    have e := (Except.ok.inj hr).symm
    subst e
    obtain ⟨l1, n1⟩ := uninit_move_loop_frame B moved _ _ _ _ _ _ _ r1 hr1
    obtain ⟨l2, n2⟩ := construct_list_frame B _ xs _ _ r2 (ofOpt_ok _ _ hr2)
    obtain ⟨l3, n3⟩ := uninit_move_loop_frame B moved _ _ _ _ _ _ _ r3 hr3
    exact rebuild_reach hB0 s hi (old + xs.length)
      (map_fits hB (hp old (ofOpt_ok _ _ hold))) r3.1 h3
      (l3.trans (l2.trans l1)) (n3.trans (n2.trans n1)) hh3

theorem ctor_reach {α : Type} {B : Nat} (hB : 0 < B) (h : Heap α)
    (hdead : ∀ id, h.live id = false) (xs : List α) (s : State α)
    (hc : deque_ctor_list B h xs = Except.ok s) : ReachInv B s := by
  unfold deque_ctor_list at hc
  split_ifs at hc with hbig
  simp only at hc
  split at hc
  · rename_i r hr
    have e := (Except.ok.inj hc).symm
    subst e
    obtain ⟨l1, n1⟩ := construct_list_frame B _ xs _ _ r hr
    exact (create_reach hB { h := h, d := deque.nil } hdead xs.length
      (not_lt.mp hbig)).same_store r.1 l1 n1
  · exact absurd hc (by simp)

theorem fill_loop_frame {α : Type} (B : Nat) (m : Int → Base) (vals : Nat → α) (f : Nat) :
    ∀ (k : Nat) (h : Heap α) (cur fin : deque_iterator) (r : Heap α),
      fill_loop B m vals f k h cur fin = Except.ok r →
      r.live = h.live ∧ r.next = h.next := by
  induction f with
  | zero =>
    intro k h cur fin r hc
    simp only [fill_loop] at hc
    split_ifs at hc
    have := Except.ok.inj hc; subst this
    exact ⟨rfl, rfl⟩
  | succ f ih =>
    intro k h cur fin r hc
    simp only [fill_loop] at hc
    split_ifs at hc
    · have := Except.ok.inj hc; subst this
      exact ⟨rfl, rfl⟩
    · split at hc
      · exact absurd hc (by simp)
      · rename_i h1 hh1
        obtain ⟨_, _, _, l1, n1⟩ := construct_at_some B _ _ _ _ hh1
        obtain ⟨l2, n2⟩ := ih _ h1 _ _ r hc
        exact ⟨l2.trans l1, n2.trans n1⟩

theorem ctor_fill_reach {α : Type} {B : Nat} (hB : 0 < B) (h : Heap α)
    (hdead : ∀ id, h.live id = false) (n : Nat) (vals : Nat → α) (s : State α)
    (hc : deque_ctor_fill B h n vals = Except.ok s) : ReachInv B s := by
  unfold deque_ctor_fill at hc
  split_ifs at hc with hbig
  simp only at hc
  split at hc
  · rename_i r hr
    have e := (Except.ok.inj hc).symm
    subst e
    obtain ⟨l1, n1⟩ := fill_loop_frame B _ vals _ _ _ _ _ r hr
    exact (create_reach hB { h := h, d := deque.nil } hdead n
      (not_lt.mp hbig)).same_store r l1 n1
  · exact absurd hc (by simp)

theorem shifted_facts (B : Nat) (hB : 0 < B) (m : Int → Base) (c : deque_iterator)
    (hc : c.shaped B) (T : Nat) :
    (c.shifted B m T).shaped B ∧
    (c.shifted B m T)._current.base = (c.shifted B m T)._first.base ∧
    (B : Int) * (c.shifted B m T)._node + (c.shifted B m T)._current.off
      = (B : Int) * c._node + (T : Int) ∧
    0 ≤ (c.shifted B m T)._current.off ∧ (c.shifted B m T)._current.off < (B : Int) ∧
    (c.shifted B m T)._node = c._node + ((T / B : Nat) : Int) ∧
    (T < B → (c.shifted B m T)._first = c._first) ∧
    (B ≤ T → (c.shifted B m T)._first.base = m (c.shifted B m T)._node) := by
  have hdm := Nat.div_add_mod T B
  have hml := Nat.mod_lt T hB
  unfold deque_iterator.shifted
  by_cases ht : T < B
  · rw [if_pos ht]
    have hq : T / B = 0 := Nat.div_eq_of_lt ht
    refine ⟨hc, rfl, rfl, ?_, ?_, ?_, fun _ => rfl, fun h => absurd ht (by omega)⟩
    · exact Int.natCast_nonneg _
    · show (T : Int) < (B : Int)
      exact_mod_cast ht
    · rw [hq]; simp
  · rw [if_neg ht]
    refine ⟨⟨rfl, rfl⟩, rfl, ?_, ?_, ?_, rfl, fun h => absurd h ht, fun _ => rfl⟩
    · show (B : Int) * (c._node + ((T / B : Nat) : Int)) + ((T % B : Nat) : Int)
        = (B : Int) * c._node + (T : Int)
      have : ((B * (T / B) + T % B : Nat) : Int) = (T : Int) := by rw [hdm]
      push_cast at this ⊢
      linarith
    · exact Int.natCast_nonneg _
    · show ((T % B : Nat) : Int) < (B : Int)
      exact_mod_cast hml

/-- The value of a cursor difference `x - y`, when it is defined, for `y` a
cursor `T` elements after the start of the block of `c`. -/
theorem sub_shifted_val (B : Nat) (hB : 0 < B) (m : Int → Base) (c : deque_iterator)
    (hc : c.shaped B) (x : deque_iterator) (hx : x._first.off = 0) (T : Nat) (z : Int)
    (h : deque_iterator.sub B x (c.shifted B m T) = some z) :
    z = (B : Int) * x._node + x._current.off - ((B : Int) * c._node + (T : Int)) := by
  obtain ⟨hsh, _, hpos, _, _, _, _, _⟩ := shifted_facts B hB m c hc T
  generalize c.shifted B m T = y at h hsh hpos
  unfold deque_iterator.sub at h
  split_ifs at h with hn
  · unfold Ptr.diff at h
    split_ifs at h
    have e := (Option.some.inj h).symm
    rw [e, hn]
    linarith
  · split at h
    · rename_i a b ha hb
      have e := (Option.some.inj h).symm
      unfold Ptr.diff at ha hb
      split_ifs at ha
      split_ifs at hb
      have ea := (Option.some.inj ha).symm
      have eb := (Option.some.inj hb).symm
      have hl := hsh.2
      rw [hl] at eb
      simp only at eb
      rw [e, ea, eb, hx]
      have : (B : Int) * (x._node - y._node - 1) = (B : Int) * x._node - (B : Int) * y._node
          - (B : Int) := by ring
      rw [this]
      linarith
    · exact absurd h (by simp)

theorem move_loop_cursor {α : Type} (B : Nat) (m : Int → Base) (n : Nat) :
    ∀ (h : Heap α) (f d : deque_iterator) (r : Heap α × deque_iterator),
      move_loop B m n h f d = some r → r.2 = (deque_iterator.inc B m)^[n] d := by
  induction n with
  | zero =>
    intro h f d r hr
    simp only [move_loop] at hr
    have e := (Option.some.inj hr).symm
    subst e
    rfl
  | succ n ih =>
    intro h f d r hr
    simp only [move_loop] at hr
    split at hr
    · exact absurd hr (by simp)
    · rw [ih _ _ _ r hr]
      rfl

theorem dealloc_nodes_inj {α : Type} (m : Int → Base) (k : Nat) :
    ∀ (h h' : Heap α) (node : Int), dealloc_nodes m k h node = some h' →
      ∀ i1 i2 : Nat, i1 < k → i2 < k → m (node + (i1 : Int)) = m (node + (i2 : Int)) →
        i1 = i2 := by
  induction k with
  | zero => intro h h' node _ i1 i2 h1; exact absurd h1 (Nat.not_lt_zero _)
  | succ k ih =>
    intro h h' node hd
    simp only [dealloc_nodes] at hd
    split at hd
    · exact absurd hd (by simp)
    · rename_i h1 hh1
      obtain ⟨id0, hp, hl0, hn1, hlv1⟩ := deallocate_some _ _ _ hh1
      have hm0 : m node = Base.blk id0 := congrArg Ptr.base hp
      obtain ⟨_, hex, _⟩ := dealloc_nodes_spec m k h1 h' (node + 1) hd
      have hne : ∀ i : Nat, i < k → m (node + 1 + (i : Int)) ≠ Base.blk id0 := by
        intro i hi e
        obtain ⟨id, hid, hl⟩ := hex i hi
        rw [e] at hid
        have := Base.blk.inj hid
        rw [hlv1, ← this] at hl
        simp at hl
      have hrec := ih h1 h' (node + 1) hd
      intro i1 i2 h1' h2' e
      cases i1 with
      | zero =>
        cases i2 with
        | zero => rfl
        | succ j2 =>
          exfalso
          apply hne j2 (by omega)
          have e2 : node + 1 + (j2 : Int) = node + ((j2 + 1 : Nat) : Int) := by push_cast; ring
          rw [e2, ← e]
          simpa using hm0
      | succ j1 =>
        cases i2 with
        | zero =>
          exfalso
          apply hne j1 (by omega)
          have e2 : node + 1 + (j1 : Int) = node + ((j1 + 1 : Nat) : Int) := by push_cast; ring
          rw [e2, e]
          simpa using hm0
        | succ j2 =>
          have e1 : node + ((j1 + 1 : Nat) : Int) = node + 1 + (j1 : Int) := by push_cast; ring
          have e2 : node + ((j2 + 1 : Nat) : Int) = node + 1 + (j2 : Int) := by push_cast; ring
          rw [e1, e2] at e
          have := hrec j1 j2 (by omega) (by omega) e
          omega
/-- The front branch of `erase(first, last)`: the start cursor moves `T - τ`
elements forward and the blocks of the slots it leaves are released. -/
theorem erase_front_wf {α : Type} {B : Nat} (hB : 0 < B) {next : Nat} {live : Nat → Bool}
    {d : deque} (hw : WF B next live d) (τ T : Nat)
    (hcur : d._start._current = ⟨d._start._first.base, (τ : Int)⟩)
    (h2 h3 : Heap α) (hl2 : h2.live = live) (hn2 : h2.next = next)
    (hd : dealloc_nodes d.slots
      ((d._start.shifted B d.slots T)._node - d._start._node).toNat h2 d._start._node
        = some h3) :
    WF B h3.next h3.live { d with _start := d._start.shifted B d.slots T } := by
  obtain ⟨hsh, hbase, _, ho0, ho1, hnode, hin, hout⟩ :=
    shifted_facts B hB d.slots d._start hw.shaped_st T
  obtain ⟨n3, hex, hiff⟩ := dealloc_nodes_spec _ _ _ _ _ hd
  have hinj := dealloc_nodes_inj _ _ _ _ _ hd
  have hK : ((d._start.shifted B d.slots T)._node - d._start._node).toNat = T / B := by
    rw [hnode]
    have : d._start._node + ((T / B : Nat) : Int) - d._start._node = ((T / B : Nat) : Int) := by
      ring
    rw [this]
    exact Int.toNat_natCast _
  rw [hK] at hex hiff hinj
  have hlive : ∀ id, h3.live id = true → live id = true := by
    intro id hl
    have := ((hiff id).mp hl).1
    rw [hl2] at this; exact this
  -- every block still allocated sits in a slot from the new start slot on
  have hown : ∀ id, h3.live id = true →
      ∃ j, d._start._node + ((T / B : Nat) : Int) ≤ j ∧ j ≤ d._finish._node ∧
        d.slots j = Base.blk id := by
    intro id hl
    obtain ⟨hl1, hne⟩ := (hiff id).mp hl
    rw [hl2] at hl1
    obtain ⟨j, hj1, hj2, hj3⟩ := hw.own id hl1
    refine ⟨j, ?_, hj2, hj3⟩
    by_contra hlt
    apply hne (j - d._start._node).toNat (by omega)
    have e : d._start._node + (((j - d._start._node).toNat : Nat) : Int) = j := by omega
    rw [e]; exact hj3
  have hgap : d._start._node + ((T / B : Nat) : Int) ≤ d._finish._node + 1 := by
    by_contra hlt
    have hG : 0 ≤ d._finish._node + 1 - d._start._node := by have := hw.gap; omega
    obtain ⟨id, hid, hl⟩ := hex (d._finish._node + 1 - d._start._node).toNat (by omega)
    rw [hl2] at hl
    obtain ⟨j, hj1, hj2, hj3⟩ := hw.own id hl
    have := hinj (d._finish._node + 1 - d._start._node).toNat (j - d._start._node).toNat
      (by omega) (by omega) (by
        have e1 : d._start._node + (((j - d._start._node).toNat : Nat) : Int) = j := by omega
        rw [hid, e1, hj3])
    omega
  have hslots : ({ d with _start := d._start.shifted B d.slots T } : deque).slots = d.slots :=
    rfl
  refine
    { map_some := hw.map_some, map_bound := hw.map_bound, node_lo := ?_,
      node_hi := hw.node_hi, gap := ?_, shaped_st := hsh, shaped_fi := hw.shaped_fi,
      fresh_map := ?_, fresh_st := ?_, fresh_fi := ?_, own := ?_, st_ok := ?_,
      fi_ok := ?_, st_rng := ⟨ho0, ho1⟩, apart := ?_ }
  · show 0 ≤ (d._start.shifted B d.slots T)._node
    rw [hnode]
    have := hw.node_lo
    omega
  · show (d._start.shifted B d.slots T)._node ≤ d._finish._node + 1
    rw [hnode]; exact hgap
  · intro j id hj
    rw [n3, hn2]
    exact hw.fresh_map j id hj
  · intro id hb
    rw [n3, hn2]
    show id < next
    have hb' : (d._start.shifted B d.slots T)._current.base = Base.blk id := hb
    rw [hbase] at hb'
    by_cases ht : T < B
    · rw [hin ht] at hb'
      apply hw.fresh_st id
      rw [hcur]; exact hb'
    · rw [hout (by omega)] at hb'
      exact hw.fresh_map _ id hb'
  · intro id hb
    rw [n3, hn2]
    exact hw.fresh_fi id hb
  · intro id hl
    obtain ⟨j, hj1, hj2, hj3⟩ := hown id hl
    refine ⟨j, ?_, hj2, hj3⟩
    show (d._start.shifted B d.slots T)._node ≤ j
    rw [hnode]; exact hj1
  · intro id hb hl
    have hb' : (d._start.shifted B d.slots T)._current.base = Base.blk id := hb
    show (d._start.shifted B d.slots T)._first.base = Base.blk id ∧
      d.slots (d._start.shifted B d.slots T)._node = Base.blk id ∧
      (d._start.shifted B d.slots T)._node ≤ d._finish._node
    rw [hbase] at hb'
    obtain ⟨j, hj1, hj2, _⟩ := hown id hl
    refine ⟨hb', ?_, by rw [hnode]; omega⟩
    by_cases ht : T < B
    · rw [hin ht] at hb'
      have hq : T / B = 0 := Nat.div_eq_of_lt ht
      rw [hnode, hq]
      simp only [Nat.cast_zero, add_zero]
      exact (hw.st_ok id (by rw [hcur]; exact hb') (hlive id hl)).2.1
    · rw [hout (by omega)] at hb'
      exact hb'
  · intro id hb hl
    obtain ⟨a, b, _⟩ := hw.fi_ok id hb (hlive id hl)
    obtain ⟨j, hj1, hj2, _⟩ := hown id hl
    refine ⟨a, b, ?_⟩
    show (d._start.shifted B d.slots T)._node ≤ d._finish._node
    rw [hnode]; omega
  · intro hne
    exact absurd hbase hne
/-- The back branch of `erase(first, last)`: the finish cursor becomes the
cursor `T` elements after the start of the first block, which lies before the
old finish cursor, and the blocks of the slots after it are released. -/
theorem erase_back_wf {α : Type} {B : Nat} (hB : 0 < B) {next : Nat} {live : Nat → Bool}
    {d : deque} (hw : WF B next live d) (hfo : d._finish._current.off ≤ (B : Int))
    (τ T : Nat) (hcur : d._start._current = ⟨d._start._first.base, (τ : Int)⟩)
    (hbefore : (B : Int) * d._start._node + (T : Int)
      < (B : Int) * d._finish._node + d._finish._current.off)
    (h2 h3 : Heap α) (hl2 : h2.live = live) (hn2 : h2.next = next)
    (hd : dealloc_nodes d.slots
      (d._finish._node - (d._start.shifted B d.slots T)._node).toNat h2
        ((d._start.shifted B d.slots T)._node + 1) = some h3) :
    WF B h3.next h3.live { d with _finish := d._start.shifted B d.slots T } ∧
      (d._start.shifted B d.slots T)._current.off ≤ (B : Int) := by
  obtain ⟨hsh, hbase, hpos, ho0, ho1, hnode, hin, hout⟩ :=
    shifted_facts B hB d.slots d._start hw.shaped_st T
  obtain ⟨n3, hex, hiff⟩ := dealloc_nodes_spec _ _ _ _ _ hd
  have hb : (0 : Int) < (B : Int) := by exact_mod_cast hB
  have hq0 : (0 : Int) ≤ ((T / B : Nat) : Int) := Int.natCast_nonneg _
  generalize d._start.shifted B d.slots T = r2 at *
  have hle : r2._node ≤ d._finish._node := by
    by_contra hlt
    have h1 : d._finish._node + 1 ≤ r2._node := by omega
    have h2' : (B : Int) * (d._finish._node + 1) ≤ (B : Int) * r2._node :=
      Int.mul_le_mul_of_nonneg_left h1 (le_of_lt hb)
    have h3' : (B : Int) * (d._finish._node + 1) = (B : Int) * d._finish._node + (B : Int) := by
      ring
    omega
  have hlive : ∀ id, h3.live id = true → live id = true := by
    intro id hl
    have := ((hiff id).mp hl).1
    rw [hl2] at this; exact this
  have hown : ∀ id, h3.live id = true →
      ∃ j, d._start._node ≤ j ∧ j ≤ r2._node ∧ d.slots j = Base.blk id := by
    intro id hl
    obtain ⟨hl1, hne⟩ := (hiff id).mp hl
    rw [hl2] at hl1
    obtain ⟨j, hj1, hj2, hj3⟩ := hw.own id hl1
    refine ⟨j, hj1, ?_, hj3⟩
    by_contra hlt
    apply hne (j - (r2._node + 1)).toNat (by omega)
    have e : r2._node + 1 + (((j - (r2._node + 1)).toNat : Nat) : Int) = j := by omega
    rw [e]; exact hj3
  refine ⟨?_, le_of_lt ho1⟩
  refine
    { map_some := hw.map_some, map_bound := hw.map_bound, node_lo := hw.node_lo,
      node_hi := ?_, gap := ?_, shaped_st := hw.shaped_st, shaped_fi := hsh,
      fresh_map := ?_, fresh_st := ?_, fresh_fi := ?_, own := ?_, st_ok := ?_,
      fi_ok := ?_, st_rng := hw.st_rng, apart := ?_ }
  · show r2._node < (d._map_size : Int)
    have := hw.node_hi
    omega
  · show d._start._node ≤ r2._node + 1
    omega
  · intro j id hj
    rw [n3, hn2]
    exact hw.fresh_map j id hj
  · intro id hb'
    rw [n3, hn2]
    exact hw.fresh_st id hb'
  · intro id hb'
    rw [n3, hn2]
    show id < next
    have hb2 : r2._current.base = Base.blk id := hb'
    rw [hbase] at hb2
    by_cases ht : T < B
    · rw [hin ht] at hb2
      apply hw.fresh_st id
      rw [hcur]; exact hb2
    · rw [hout (by omega)] at hb2
      exact hw.fresh_map _ id hb2
  · intro id hl
    exact hown id hl
  · intro id hb' hl
    obtain ⟨a, b, _⟩ := hw.st_ok id hb' (hlive id hl)
    refine ⟨a, b, ?_⟩
    show d._start._node ≤ r2._node
    omega
  · intro id hb' hl
    have hb2 : r2._current.base = Base.blk id := hb'
    show r2._first.base = Base.blk id ∧ d.slots r2._node = Base.blk id ∧
      d._start._node ≤ r2._node
    rw [hbase] at hb2
    refine ⟨hb2, ?_, by omega⟩
    by_cases ht : T < B
    · rw [hin ht] at hb2
      have hq : T / B = 0 := Nat.div_eq_of_lt ht
      rw [hnode, hq]
      simp only [Nat.cast_zero, add_zero]
      exact (hw.st_ok id (by rw [hcur]; exact hb2) (hlive id hl)).2.1
    · rw [hout (by omega)] at hb2
      exact hb2
  · intro hne
    exfalso
    apply hne
    rw [hcur]
theorem default_range (B : Nat) (hB : 0 < B) (m : Int → Base) (j : Nat) (q : deque_iterator)
    (z : Int) (hq : deque_iterator.advance B m deque_iterator.default (j : Int) = some q)
    (hz : deque_iterator.sub B deque_iterator.default q = some z) (hz0 : 0 ≤ z) : j = 0 := by
  have hb : (0 : Int) < (B : Int) := by exact_mod_cast hB
  have hj0 : (0 : Int) ≤ (j : Int) := Int.natCast_nonneg _
  unfold deque_iterator.advance at hq
  simp only [deque_iterator.default, Ptr.diff, if_true, sub_self, add_zero] at hq
  split_ifs at hq with hin hpos
  · have e := (Option.some.inj hq).symm
    subst e
    simp only [deque_iterator.sub, deque_iterator.default, Ptr.diff, Ptr.add, if_true,
      zero_add, zero_sub] at hz
    have := (Option.some.inj hz).symm
    omega
  · have hjB : (B : Int) ≤ (j : Int) := by
      by_contra hlt
      exact hin ⟨hj0, by omega⟩
    have e := (Option.some.inj hq).symm
    subst e
    have hq1 : (1 : Int) ≤ (j : Int) / (B : Int) := by
      have := Int.ediv_le_ediv hb hjB
      rw [Int.ediv_self (by omega)] at this
      exact this
    have hmod := Int.emod_add_ediv (j : Int) (B : Int)
    have hm0 := Int.emod_nonneg (j : Int) (by omega : (B : Int) ≠ 0)
    simp only [deque_iterator.sub, deque_iterator.default, deque_iterator._set_node, Ptr.diff,
      Ptr.add, if_true, zero_add, sub_self] at hz
    rw [if_neg (by omega)] at hz
    have e := (Option.some.inj hz).symm
    have e2 : (B : Int) * (0 - (j : Int) / (B : Int) - 1)
        = -((B : Int) * ((j : Int) / (B : Int))) - (B : Int) := by ring
    have e3 : (j : Int) / (B : Int) * (B : Int) = (B : Int) * ((j : Int) / (B : Int)) := by ring
    rw [e2, e3] at e
    omega
  · exfalso
    have hjB : (B : Int) ≤ (j : Int) := by
      by_contra hlt
      exact hin ⟨hj0, by omega⟩
    omega
theorem begin_plus_shifted {α : Type} {B : Nat} (hB : 1 < B) {s : State α}
    (hw : WF B s.h.next s.h.live s.d) (i : Nat) (p : deque_iterator)
    (hp : begin_plus B s i = Except.ok p) :
    ∃ τ : Nat, τ < B ∧ s.d._start._current = ⟨s.d._start._first.base, (τ : Int)⟩ ∧
      p = s.d._start.shifted B s.d.slots (τ + i) := by
  unfold begin_plus at hp
  have hadv := ofOpt_ok _ _ hp
  have hbase : s.d._start._current.base = s.d._start._first.base := by
    by_contra hne
    unfold deque_iterator.advance at hadv
    simp [Ptr.diff, hne] at hadv
  obtain ⟨h0, h1⟩ := hw.st_rng
  have hcur : s.d._start._current
      = ⟨s.d._start._first.base, ((s.d._start._current.off.toNat : Nat) : Int)⟩ := by
    cases hc : s.d._start._current with
    | mk b o =>
      rw [hc] at hbase h0
      simp only at hbase h0
      rw [hbase, Int.toNat_of_nonneg h0]
  refine ⟨s.d._start._current.off.toNat, by omega, hcur, ?_⟩
  have := deque_iterator.advance_shifted B hB s.d.slots s.d._start hw.shaped_st _ hcur i
  rw [this] at hadv
  exact (Option.some.inj hadv).symm

theorem get_iterator_shifted {α : Type} {B : Nat} (hB : 1 < B) {s : State α}
    (hw : WF B s.h.next s.h.live s.d) (τ : Nat) (hτ : τ < B)
    (hcur : s.d._start._current = ⟨s.d._start._first.base, (τ : Int)⟩) (i : Nat)
    (f : deque_iterator)
    (h : _get_iterator B s (s.d._start.shifted B s.d.slots (τ + i)) = some f) :
    f = s.d._start.shifted B s.d.slots (τ + i) := by
  have hB0 : 0 < B := by omega
  unfold _get_iterator at h
  split at h
  · exact absurd h (by simp)
  · rename_i k hk
    have hself := deque_iterator.shifted_self B s.d.slots s.d._start τ hτ hcur
    obtain ⟨_, _, hpos, _, _, _, _, _⟩ :=
      shifted_facts B hB0 s.d.slots s.d._start hw.shaped_st (τ + i)
    have hsh := (shifted_facts B hB0 s.d.slots s.d._start hw.shaped_st (τ + i)).1
    have hk' : deque_iterator.sub B (s.d._start.shifted B s.d.slots (τ + i))
        (s.d._start.shifted B s.d.slots τ) = some k := by rw [hself]; exact hk
    have hv := sub_shifted_val B hB0 s.d.slots s.d._start hw.shaped_st _ hsh.1 τ k hk'
    have hki : k = (i : Int) := by
      rw [hv, hpos]; push_cast; ring
    rw [hki, deque_iterator.advance_shifted B hB s.d.slots s.d._start hw.shaped_st _ hcur i]
      at h
    exact (Option.some.inj h).symm

theorem erase_range_reach {α : Type} {B : Nat} (hB : 1 < B) (s : State α) (i j : Nat)
    (r : State α × deque_iterator) (hi : ReachInv B s) (hij : i ≤ j)
    (q : deque_iterator) (z : Int) (hq : begin_plus B s j = Except.ok q)
    (hz : deque_iterator.sub B s.d._finish q = some z) (hz0 : 0 ≤ z)
    (h : erase_range_at B i j s = Except.ok r) : ReachInv B r.1 := by
  have hB0 : 0 < B := by omega
  unfold erase_range_at at h
  split at h
  · rename_i p q' hp hq'
    rw [hq] at hq'
    have e := Except.ok.inj hq'
    subst e
    by_cases hije : i = j
    · -- an empty range
      subst hije
      rw [hq] at hp
      have e := Except.ok.inj hp
      subst e
      unfold erase_range at h
      rw [if_pos (by simp [deque_iterator.eq])] at h
      obtain ⟨f, _, hr⟩ := bind_ok _ _ _ h
      have e := (Except.ok.inj hr).symm
      subst e
      exact hi
    · have hlt : i < j := by omega
      rcases hi.inv with ⟨hm, _⟩ | hw
      · -- a null map: no range but the empty one
        exfalso
        obtain ⟨hs, hf⟩ := hi.null_map hm
        unfold begin_plus at hq
        have hadv := ofOpt_ok _ _ hq
        rw [hs] at hadv
        rw [hf] at hz
        have := default_range B hB0 _ j q z hadv hz hz0
        omega
      · obtain ⟨τ, hτ, hcur, hpe⟩ := begin_plus_shifted hB hw i p hp
        obtain ⟨τ', _, hcur', hqe⟩ := begin_plus_shifted hB hw j q hq
        have hττ : τ' = τ := by
          rw [hcur] at hcur'
          have := congrArg Ptr.off hcur'
          simp only at this
          exact_mod_cast this.symm
        subst hττ
        subst hpe
        subst hqe
        have hposp := (shifted_facts B hB0 s.d.slots s.d._start hw.shaped_st (τ' + i)).2.2.1
        have hshp := (shifted_facts B hB0 s.d.slots s.d._start hw.shaped_st (τ' + i)).1
        have hshq := (shifted_facts B hB0 s.d.slots s.d._start hw.shaped_st (τ' + j)).1
        have hposq := (shifted_facts B hB0 s.d.slots s.d._start hw.shaped_st (τ' + j)).2.2.1
        have hzv := sub_shifted_val B hB0 s.d.slots s.d._start hw.shaped_st s.d._finish
          hw.shaped_fi.1 (τ' + j) z hz
        unfold erase_range at h
        split_ifs at h with c1 c2
        · obtain ⟨f, _, hr⟩ := bind_ok _ _ _ h
          have e := (Except.ok.inj hr).symm
          subst e
          exact hi
        · obtain ⟨s1, hs1, hr⟩ := bind_ok _ _ _ h
          have e := (Except.ok.inj hr).symm
          subst e
          exact clear_reach s s1 hi hs1
        · obtain ⟨f, hf, hr⟩ := bind_ok _ _ _ h
          obtain ⟨l, hl, hr⟩ := bind_ok _ _ _ hr
          obtain ⟨n, hn, hr⟩ := bind_ok _ _ _ hr
          obtain ⟨eb, heb, hr⟩ := bind_ok _ _ _ hr
          obtain ⟨ea, hea, hr⟩ := bind_ok _ _ _ hr
          have hfe := get_iterator_shifted hB hw τ' hτ hcur i f (ofOpt_ok _ _ hf)
          have hle := get_iterator_shifted hB hw τ' hτ hcur j l (ofOpt_ok _ _ hl)
          subst hfe
          subst hle
          split_ifs at hr with c3
          · -- the front branch
            obtain ⟨h1, hh1, hr⟩ := bind_ok _ _ _ hr
            obtain ⟨ns, hns, hr⟩ := bind_ok _ _ _ hr
            obtain ⟨h2, hh2, hr⟩ := bind_ok _ _ _ hr
            obtain ⟨h3, hh3, hr⟩ := bind_ok _ _ _ hr
            have e := (Except.ok.inj hr).symm
            subst e
            have hnv := sub_shifted_val B hB0 s.d.slots s.d._start hw.shaped_st _ hshq.1
              (τ' + i) n (ofOpt_ok _ _ hn)
            have hne : n = ((j - i : Nat) : Int) := by
              rw [hnv, hposq]; push_cast [Nat.cast_sub hij]; ring
            have hnse : ns = s.d._start.shifted B s.d.slots (τ' + (j - i)) := by
              have := ofOpt_ok _ _ hns
              rw [hne, deque_iterator.advance_shifted B hB s.d.slots s.d._start hw.shaped_st _
                hcur (j - i)] at this
              exact (Option.some.inj this).symm
            subst hnse
            obtain ⟨l1, n1⟩ := std_move_backward_frame B _ _ _ _ _ _ (ofOpt_ok _ _ hh1)
            obtain ⟨l2, n2⟩ := destroy_elements_frame B _ _ _ _ _ (ofOpt_ok _ _ hh2)
            exact ReachInv.of_wf
              (erase_front_wf hB0 hw τ' (τ' + (j - i)) hcur h2 h3 (l2.trans l1) (n2.trans n1)
                (ofOpt_ok _ _ hh3)) hi.fin_off
          · -- the back branch
            obtain ⟨r1, hr1, hr⟩ := bind_ok _ _ _ hr
            obtain ⟨h2, hh2, hr⟩ := bind_ok _ _ _ hr
            obtain ⟨h3, hh3, hr⟩ := bind_ok _ _ _ hr
            have e := (Except.ok.inj hr).symm
            subst e
            have hmv := ofOpt_ok _ _ hr1
            unfold std_move at hmv
            rw [hz] at hmv
            simp only at hmv
            obtain ⟨l1, n1⟩ := move_loop_frame B _ _ _ _ _ r1 hmv
            have hcurs := move_loop_cursor B _ _ _ _ _ r1 hmv
            rw [deque_iterator.iterate_inc_shifted B hB s.d.slots s.d._start hw.shaped_st]
              at hcurs
            obtain ⟨l2, n2⟩ := destroy_elements_frame B _ _ _ _ _ (ofOpt_ok _ _ hh2)
            have hd3 := ofOpt_ok _ _ hh3
            rw [hcurs] at hd3
            obtain ⟨hwf, hfo⟩ := erase_back_wf hB0 hw hi.fin_off τ' (τ' + i + z.toNat) hcur
              (by
                have : ((z.toNat : Nat) : Int) = z := Int.toNat_of_nonneg hz0
                push_cast
                rw [this, hzv]
                push_cast
                have : (i : Int) < (j : Int) := by exact_mod_cast hlt
                omega)
              h2 h3 (l2.trans l1) (n2.trans n1) hd3
            rw [hcurs]
            exact ReachInv.of_wf hwf hfo
  · exact absurd h (by simp)
  · exact absurd h (by simp)
theorem bind_err {ε β γ : Type} (x : Except ε β) (f : β → Except ε γ) (e : ε)
    (h : (x >>= f) = Except.error e) :
    x = Except.error e ∨ ∃ b, x = Except.ok b ∧ f b = Except.error e := by
  cases x with
  | error e' => exact Or.inl (by simpa [bind, Except.bind] using h)
  | ok b => exact Or.inr ⟨b, rfl, h⟩

theorem FailsInto.ofOpt {α β : Type} (P : State α → Prop) (x : Option β) :
    FailsInto P (ofOpt x : Except (Fault α) β) := by
  intro e s' he hs
  cases x with
  | none =>
    have he' : (Except.error Fault.ub : Except (Fault α) β) = Except.error e := he
    have := Except.error.inj he'
    subst this
    exact absurd hs (by simp [Fault.state])
  | some b =>
    have he' : (Except.ok b : Except (Fault α) β) = Except.error e := he
    exact absurd he' (by simp)

theorem FailsInto.ok {α β : Type} (P : State α → Prop) (b : β) :
    FailsInto P (Except.ok b : Except (Fault α) β) := by
  intro e s' he _
  exact absurd he (by simp)

theorem FailsInto.bind {α β γ : Type} (P : State α → Prop) (x : Except (Fault α) β)
    (f : β → Except (Fault α) γ) (hx : FailsInto P x)
    (hf : ∀ b, x = Except.ok b → FailsInto P (f b)) : FailsInto P (x >>= f) := by
  intro e s' he hs
  rcases bind_err x f e he with h | ⟨b, hb, h⟩
  · exact hx e s' h hs
  · exact hf b hb e s' h hs

theorem FailsInto.ub {α β : Type} (P : State α → Prop) :
    FailsInto P (Except.error Fault.ub : Except (Fault α) β) := by
  intro e s' he hs
  have := (Except.error.inj he).symm
  subst this
  exact absurd hs (by simp [Fault.state])

theorem construct_arg_fails {α : Type} {B : Nat} (s : State α) (p : Ptr) (a : Option α)
    (hi : ReachInv B s) : FailsInto (ReachInv B) (construct_arg B s p a) := by
  cases a with
  | none =>
    intro e s' he hs
    simp only [construct_arg] at he
    have := (Except.error.inj he).symm
    subst this
    simp only [Fault.state] at hs
    have := (Option.some.inj hs).symm
    subst this
    exact hi
  | some v => exact FailsInto.ofOpt _ _

theorem entry_reach {α : Type} {B : Nat} (hB : 0 < B) {s : State α} (hi : ReachInv B s) :
    ReachInv B (if s.d._map.isNone then _create_map_and_nodes B s 0 else s) :=
  ReachInv.of_wf (hi.inv.entry hB) (entry_fin_off hi)

theorem push_back_aux_fails {α : Type} {B : Nat} (s : State α) (hi : ReachInv B s) :
    FailsInto (ReachInv B) (_push_back_aux B s) := by
  intro e s' he hs
  unfold _push_back_aux at he
  simp only at he
  split at he
  · have := (Except.error.inj he).symm
    subst this
    exact absurd hs (by simp [Fault.state])
  · have := (Except.error.inj he).symm
    subst this
    simp only [Fault.state] at hs
    have := (Option.some.inj hs).symm
    subst this
    exact hi
  · split at he
    · have := (Except.error.inj he).symm
      subst this
      exact absurd hs (by simp [Fault.state])
    · exact absurd he (by simp)

theorem push_front_aux_fails {α : Type} {B : Nat} (s : State α) (hi : ReachInv B s) :
    FailsInto (ReachInv B) (_push_front_aux B s) := by
  intro e s' he hs
  unfold _push_front_aux at he
  simp only at he
  split at he
  · have := (Except.error.inj he).symm
    subst this
    exact absurd hs (by simp [Fault.state])
  · have := (Except.error.inj he).symm
    subst this
    simp only [Fault.state] at hs
    have := (Option.some.inj hs).symm
    subst this
    exact hi
  · split at he
    · have := (Except.error.inj he).symm
      subst this
      exact absurd hs (by simp [Fault.state])
    · exact absurd he (by simp)

theorem emplace_back_fails {α : Type} {B : Nat} (hB : 0 < B) (s : State α) (a : Option α)
    (hi : ReachInv B s) : FailsInto (ReachInv B) (emplace_back B s a) := by
  have hw1 := hi.inv.entry hB
  have hf1 := entry_fin_off hi
  unfold emplace_back
  simp only
  generalize (if s.d._map.isNone then _create_map_and_nodes B s 0 else s) = s1 at hw1 hf1
  have hi1 : ReachInv B s1 := ReachInv.of_wf hw1 hf1
  split_ifs with hc
  · exact FailsInto.bind _ _ _ (construct_arg_fails s1 _ a hi1) (fun _ _ => FailsInto.ok _ _)
  · refine FailsInto.bind _ _ _ (push_back_aux_fails s1 hi1) (fun s2 hs2 => ?_)
    obtain ⟨hw2, hcur, _, hsh⟩ := push_back_aux_wf s1 s2 hw1.toWF0 hs2
    have hi2 : ReachInv B s2 := ReachInv.of_wf hw2 (by
      rw [hcur, hsh.1]; exact Int.natCast_nonneg _)
    exact FailsInto.bind _ _ _ (construct_arg_fails s2 _ a hi2) (fun _ _ => FailsInto.ok _ _)
theorem emplace_front_fails {α : Type} {B : Nat} (hB : 0 < B) (s : State α) (a : Option α)
    (hi : ReachInv B s)
    (hside : a = none → ∀ s'', emplace_front B s a = Except.error (Fault.thrown s'') →
      ∃ v t, emplace_front B s (some v) = Except.ok t) :
    FailsInto (ReachInv B) (emplace_front B s a) := by
  have hw1 := hi.inv.entry hB
  have hf1 := entry_fin_off hi
  unfold emplace_front
  unfold emplace_front at hside
  simp only at hside ⊢
  generalize (if s.d._map.isNone then _create_map_and_nodes B s 0 else s) = s1
    at hw1 hf1 hside
  have hi1 : ReachInv B s1 := ReachInv.of_wf hw1 hf1
  split_ifs with hc
  · simp only [if_pos hc] at hside
    cases a with
    | some v =>
      exact FailsInto.bind _ _ _ (FailsInto.ofOpt _ _) (fun _ _ => FailsInto.ok _ _)
    | none =>
      obtain ⟨v, t, hv⟩ := hside rfl _ rfl
      obtain ⟨h1, hh1, _⟩ := bind_ok _ _ _ hv
      obtain ⟨_, h0, hlt, _, _⟩ := construct_arg_ok B _ _ (some v) h1 hh1
      refine FailsInto.bind _ _ _ (construct_arg_fails _ _ none ?_) (fun _ _ => FailsInto.ok _ _)
      exact ReachInv.of_wf (hw1.set_start_off _ ⟨h0, hlt⟩) hf1
  · refine FailsInto.bind _ _ _ (push_front_aux_fails s1 hi1) (fun s2 hs2 => ?_)
    obtain ⟨hw2, _⟩ := push_front_aux_wf hB s1 s2 hw1.toWF0 hs2
    have hi2 : ReachInv B s2 := ReachInv.of_wf hw2 (by
      rw [push_front_aux_finish s1 s2 hw1.toWF0 hs2]; exact hf1)
    exact FailsInto.bind _ _ _ (construct_arg_fails s2 _ a hi2) (fun _ _ => FailsInto.ok _ _)

theorem emplace_fails {α : Type} {B : Nat} (hB : 0 < B) (s : State α) (pos : deque_iterator)
    (a : Option α) (hi : ReachInv B s)
    (hside : a = none → ∀ s'', emplace B s pos a = Except.error (Fault.thrown s'') →
      ∃ v t, emplace B s pos (some v) = Except.ok t) :
    FailsInto (ReachInv B) (emplace B s pos a) := by
  unfold emplace
  unfold emplace at hside
  split_ifs with c1 c2 c3
  · simp only [if_pos c1] at hside
    refine FailsInto.bind _ _ _ (emplace_front_fails hB s a hi ?_) (fun _ _ => FailsInto.ok _ _)
    intro ha s'' he
    obtain ⟨v, t, hv⟩ := hside ha s'' (by rw [he]; rfl)
    obtain ⟨s1, hs1, _⟩ := bind_ok _ _ _ hv
    exact ⟨v, s1, hs1⟩
  · refine FailsInto.bind _ _ _ (emplace_back_fails hB s a hi) (fun _ _ => ?_)
    exact FailsInto.bind _ _ _ (FailsInto.ofOpt _ _) (fun _ _ => FailsInto.ok _ _)
  · exact FailsInto.bind _ _ _ (emplace_back_fails hB s a hi) (fun _ _ => FailsInto.ok _ _)
  · refine FailsInto.bind _ _ _ (FailsInto.ofOpt _ _) (fun p _ => ?_)
    refine FailsInto.bind _ _ _ (FailsInto.ofOpt _ _) (fun idx _ => ?_)
    refine FailsInto.bind _ _ _ (FailsInto.ofOpt _ _) (fun sz _ => ?_)
    split_ifs with c4
    · refine FailsInto.bind _ _ _ (FailsInto.ofOpt _ _) (fun fr _ => ?_)
      refine FailsInto.bind _ _ _
        (emplace_front_fails hB s (some fr) hi (fun h => absurd h (by simp)))
        (fun s1 hs1 => ?_)
      have hi1 := emplace_front_reach hB s s1 (some fr) hi hs1
      refine FailsInto.bind _ _ _ (FailsInto.ofOpt _ _) (fun ip _ => ?_)
      refine FailsInto.bind _ _ _ (FailsInto.ofOpt _ _) (fun t _ => ?_)
      refine FailsInto.bind _ _ _ (FailsInto.ofOpt _ _) (fun last _ => ?_)
      refine FailsInto.bind _ _ _ (FailsInto.ofOpt _ _) (fun mv hmv => ?_)
      refine FailsInto.bind _ _ _ (FailsInto.ofOpt _ _) (fun tgt _ => ?_)
      refine FailsInto.bind _ _ _ (FailsInto.ofOpt _ _) (fun h2 hh2 => ?_)
      obtain ⟨l1, n1⟩ := std_move_frame B _ _ _ _ _ _ (ofOpt_ok _ _ hmv)
      obtain ⟨_, _, _, l2, n2⟩ := destroy_at_some B _ _ _ (ofOpt_ok _ _ hh2)
      exact FailsInto.bind _ _ _
        (construct_arg_fails _ _ a (hi1.same_store h2 (l2.trans l1) (n2.trans n1)))
        (fun _ _ => FailsInto.ok _ _)
    · refine FailsInto.bind _ _ _ (FailsInto.ofOpt _ _) (fun bk _ => ?_)
      refine FailsInto.bind _ _ _ (emplace_back_fails hB s (some bk) hi) (fun s1 hs1 => ?_)
      have hi1 := emplace_back_reach hB s s1 (some bk) hi hs1
      refine FailsInto.bind _ _ _ (FailsInto.ofOpt _ _) (fun ap _ => ?_)
      refine FailsInto.bind _ _ _ (FailsInto.ofOpt _ _) (fun e2 _ => ?_)
      refine FailsInto.bind _ _ _ (FailsInto.ofOpt _ _) (fun e1 _ => ?_)
      refine FailsInto.bind _ _ _ (FailsInto.ofOpt _ _) (fun h1 hh1 => ?_)
      refine FailsInto.bind _ _ _ (FailsInto.ofOpt _ _) (fun h2 hh2 => ?_)
      obtain ⟨l1, n1⟩ := std_move_backward_frame B _ _ _ _ _ _ (ofOpt_ok _ _ hh1)
      obtain ⟨_, _, _, l2, n2⟩ := destroy_at_some B _ _ _ (ofOpt_ok _ _ hh2)
      exact FailsInto.bind _ _ _
        (construct_arg_fails _ _ a (hi1.same_store h2 (l2.trans l1) (n2.trans n1)))
        (fun _ _ => FailsInto.ok _ _)

theorem pop_back_fails {α : Type} {B : Nat} (s : State α) :
    FailsInto (ReachInv B) (pop_back B s) := by
  unfold pop_back
  split_ifs
  · exact FailsInto.bind _ _ _ (FailsInto.ofOpt _ _) (fun _ _ => FailsInto.ok _ _)
  · refine FailsInto.bind _ _ _ (FailsInto.ofOpt _ _) (fun _ _ => ?_)
    exact FailsInto.bind _ _ _ (FailsInto.ofOpt _ _) (fun _ _ => FailsInto.ok _ _)

theorem pop_front_fails {α : Type} {B : Nat} (s : State α) :
    FailsInto (ReachInv B) (pop_front B s) := by
  unfold pop_front
  split_ifs
  · exact FailsInto.bind _ _ _ (FailsInto.ofOpt _ _) (fun _ _ => FailsInto.ok _ _)
  · exact FailsInto.bind _ _ _ (FailsInto.ofOpt _ _) (fun _ _ => FailsInto.ofOpt _ _)

theorem erase_fails {α : Type} {B : Nat} (s : State α) (pos : deque_iterator) :
    FailsInto (ReachInv B) (erase B s pos) := by
  unfold erase
  simp only
  refine FailsInto.bind _ _ _ (FailsInto.ofOpt _ _) (fun p _ => ?_)
  refine FailsInto.bind _ _ _ (FailsInto.ofOpt _ _) (fun idx _ => ?_)
  refine FailsInto.bind _ _ _ (FailsInto.ofOpt _ _) (fun sz _ => ?_)
  split_ifs
  · refine FailsInto.bind _ _ _ (FailsInto.ofOpt _ _) (fun p1 _ => ?_)
    refine FailsInto.bind _ _ _ (FailsInto.ofOpt _ _) (fun h1 _ => ?_)
    refine FailsInto.bind _ _ _ (pop_front_fails _) (fun s1 _ => ?_)
    exact FailsInto.bind _ _ _ (FailsInto.ofOpt _ _) (fun _ _ => FailsInto.ok _ _)
  · refine FailsInto.bind _ _ _ (FailsInto.ofOpt _ _) (fun p1 _ => ?_)
    refine FailsInto.bind _ _ _ (FailsInto.ofOpt _ _) (fun r1 _ => ?_)
    refine FailsInto.bind _ _ _ (pop_back_fails _) (fun s1 _ => ?_)
    exact FailsInto.bind _ _ _ (FailsInto.ofOpt _ _) (fun _ _ => FailsInto.ok _ _)

theorem clear_fails {α : Type} {B : Nat} (s : State α) :
    FailsInto (ReachInv B) (clear B s) := by
  unfold clear
  split
  · exact FailsInto.ok _ _
  · refine FailsInto.bind _ _ _ (FailsInto.ofOpt _ _) (fun _ _ => ?_)
    exact FailsInto.bind _ _ _ (FailsInto.ofOpt _ _) (fun _ _ => FailsInto.ok _ _)

theorem repeat_call_fails {α : Type} {B : Nat} (f : State α → Except (Fault α) (State α))
    (hf : ∀ s s', ReachInv B s → f s = Except.ok s' → ReachInv B s')
    (hg : ∀ s, ReachInv B s → FailsInto (ReachInv B) (f s)) (k : Nat) :
    ∀ (s : State α), ReachInv B s → FailsInto (ReachInv B) (repeat_call f k s) := by
  induction k with
  | zero => intro s _; exact FailsInto.ok _ _
  | succ k ih =>
    intro s hi e s' he hs
    simp only [repeat_call] at he
    split at he
    · rename_i s1 hs1
      exact ih s1 (hf s s1 hi hs1) e s' he hs
    · rename_i e1 he1
      have := (Except.error.inj he).symm
      subst this
      exact hg s hi _ s' he1 hs

theorem resize_fails {α : Type} {B : Nat} (hB : 0 < B) (s : State α) (n : Nat) (v : α)
    (hi : ReachInv B s) : FailsInto (ReachInv B) (resize B s n v) := by
  unfold resize
  split
  · exact FailsInto.ub _
  · split_ifs
    · exact repeat_call_fails _
        (fun t t' ht hh => emplace_back_reach hB t t' (some v) ht hh)
        (fun t ht => emplace_back_fails hB t (some v) ht) _ s hi
    · exact repeat_call_fails _ (fun t t' ht hh => pop_back_reach t t' ht hh)
        (fun t _ => pop_back_fails t) _ s hi
    · exact FailsInto.ok _ _

theorem emplace_all_fails {α : Type} {B : Nat} (hB : 0 < B) (xs : List α) :
    ∀ (s : State α), ReachInv B s → FailsInto (ReachInv B) (emplace_all B xs s) := by
  induction xs with
  | nil => intro s _; exact FailsInto.ok _ _
  | cons v vs ih =>
    intro s hi e s' he hs
    simp only [emplace_all] at he
    split at he
    · rename_i s1 hs1
      exact ih s1 (emplace_back_reach hB s s1 (some v) hi hs1) e s' he hs
    · rename_i e1 he1
      have := (Except.error.inj he).symm
      subst this
      exact emplace_back_fails hB s (some v) hi _ s' he1 hs

theorem assign_list_fails {α : Type} {B : Nat} (hB : 0 < B) (s : State α) (xs : List α)
    (hi : ReachInv B s) : FailsInto (ReachInv B) (assign_list B s xs) := by
  unfold assign_list
  exact FailsInto.bind _ _ _ (clear_fails s)
    (fun s1 hs1 => emplace_all_fails hB xs s1 (clear_reach s s1 hi hs1))

theorem assign_fails {α : Type} {B : Nat} (hB : 16 ≤ B) (s : State α) (n : Nat) (v : α)
    (hn : n < 2 ^ 64) (hi : ReachInv B s) : FailsInto (ReachInv B) (assign B s n v) := by
  have hB0 : 0 < B := by omega
  unfold assign
  refine FailsInto.bind _ _ _ (clear_fails s) (fun s1 hs1 => ?_)
  have hi1 := clear_reach s s1 hi hs1
  refine FailsInto.bind _ _ _ (FailsInto.ofOpt _ _) (fun cap _ => ?_)
  refine FailsInto.bind _ _ _ ?_ (fun s2 hs2 => ?_)
  · split_ifs
    · split
      · exact FailsInto.ub _
      · exact FailsInto.ok _ _
    · exact FailsInto.ok _ _
  · refine resize_fails hB0 s2 n v ?_
    split_ifs at hs2 with hc
    · split at hs2
      · exact absurd hs2 (by simp)
      · rename_i t ht
        have e := (Except.ok.inj hs2).symm
        subst e
        exact create_reach hB0 t (deallocate_all_dead s1 t hi1.inv ht) n (map_fits hB hn)
    · have e := (Except.ok.inj hs2).symm
      subst e
      exact hi1
theorem WF.of_grown_store {B next next' : Nat} {live live' : Nat → Bool} {d : deque}
    (hw : WF B next live d) (hn : next ≤ next')
    (hl : ∀ id, live' id = true ↔ live id = true) : WF B next' live' d := by
  have he : live' = live := by
    funext id
    cases h1 : live id with
    | true => exact (hl id).mpr h1
    | false =>
      cases h2 : live' id with
      | true => rw [(hl id).mp h2] at h1; exact absurd h1 (by simp)
      | false => rfl
  subst he
  exact
    { map_some := hw.map_some, map_bound := hw.map_bound, node_lo := hw.node_lo,
      node_hi := hw.node_hi, gap := hw.gap, shaped_st := hw.shaped_st,
      shaped_fi := hw.shaped_fi,
      fresh_map := fun j id hj => lt_of_lt_of_le (hw.fresh_map j id hj) hn,
      fresh_st := fun id hb => lt_of_lt_of_le (hw.fresh_st id hb) hn,
      fresh_fi := fun id hb => lt_of_lt_of_le (hw.fresh_fi id hb) hn,
      own := hw.own, st_ok := hw.st_ok, fi_ok := hw.fi_ok, st_rng := hw.st_rng,
      apart := hw.apart }

/-- A store that differs from the store of a state only in blocks allocated and
released again since. -/
theorem ReachInv.grown_store {α : Type} {B : Nat} {s : State α} (hi : ReachInv B s)
    (h' : Heap α) (hn : s.h.next ≤ h'.next)
    (hl : ∀ id, h'.live id = true ↔ s.h.live id = true) :
    ReachInv B { h := h', d := s.d } := by
  refine ⟨?_, hi.fin_off, hi.null_map⟩
  rcases hi.inv with ⟨hm, hd⟩ | hw
  · refine Or.inl ⟨hm, fun id => ?_⟩
    cases h1 : h'.live id with
    | false => rfl
    | true =>
      have h2 := (hl id).mp h1
      rw [hd id] at h2
      exact absurd h2 (by simp)
  · exact Or.inr (hw.of_grown_store hn hl)

theorem create_slots_ge {α : Type} (B : Nat) (h0 : Heap α) (d0 : deque) (n : Nat) (j : Int)
    (id : Nat)
    (h : (_create_map_and_nodes B { h := h0, d := d0 } n).d.slots j = Base.blk id) :
    h0.next ≤ id := by
  obtain ⟨_, _, hsl⟩ := alloc_nodes_spec (n / B + 1) h0 (fun _ => Base.junk)
    (((max 8 (n / B + 1 + 2) - (n / B + 1)) / 2 : Nat) : Int)
  have h' : (alloc_nodes h0 (fun _ => Base.junk)
      (((max 8 (n / B + 1 + 2) - (n / B + 1)) / 2 : Nat) : Int) (n / B + 1)).2 j
        = Base.blk id := h
  rw [hsl j] at h'
  split_ifs at h'
  injection h' with e
  omega

/-- The destructor of the temporary of a rebuild that is abandoned: the store
holds the blocks of the container as before. -/
theorem abandon_reach {α : Type} {B : Nat} (hB : 0 < B) (s : State α) (hi : ReachInv B s)
    (n : Nat) (hM : max 8 (n / B + 1 + 2) ≤ map_alloc_limit) (h1 h2 : Heap α)
    (hl : h1.live = (_create_map_and_nodes B { h := s.h, d := deque.nil } n).h.live)
    (hn : h1.next = (_create_map_and_nodes B { h := s.h, d := deque.nil } n).h.next)
    (hd : deque_dtor B
      { h := h1, d := (_create_map_and_nodes B { h := s.h, d := deque.nil } n).d }
        = Except.ok h2) :
    ReachInv B { h := h2, d := s.d } := by
  obtain ⟨c1, c2, _⟩ := alloc_nodes_spec (n / B + 1) s.h (fun _ => Base.junk)
    (((max 8 (n / B + 1 + 2) - (n / B + 1)) / 2 : Nat) : Int)
  have hcn : (_create_map_and_nodes B { h := s.h, d := deque.nil } n).h.next
      = s.h.next + (n / B + 1) := c1
  have hcl : ∀ id, (_create_map_and_nodes B { h := s.h, d := deque.nil } n).h.live id
      = if s.h.next ≤ id ∧ id < s.h.next + (n / B + 1) then true else s.h.live id := c2
  obtain ⟨hw, _⟩ := create_wf_in B hB s.h deque.nil n hM (s.h.next + (n / B + 1))
    (fun id => decide (s.h.next ≤ id ∧ id < s.h.next + (n / B + 1))) rfl
    (fun id => by simp)
  obtain ⟨n2, hiff⟩ := deque_dtor_spec _ _ _ hw.toWF0 h1 (fun id => s.h.live id = true)
    (fun id => by
      rw [hl, hcl id]
      by_cases c : s.h.next ≤ id ∧ id < s.h.next + (n / B + 1)
      · simp [c]
      · simp [c])
    (fun j id hj hp => by
      have := create_slots_ge B s.h deque.nil n j id hj
      have := hi.inv.live_lt id hp
      omega) h2 hd
  exact hi.grown_store h2 (by rw [n2, hn, hcn]; exact Nat.le_add_right _ _) hiff

theorem uninit_move_loop_fails {α : Type} (P : State α → Prop) (B : Nat) (moved : α → α)
    (msrc mdst : Int → Base) (f : Nat) :
    ∀ (h : Heap α) (first last cur : deque_iterator),
      FailsInto P (uninit_move_loop B moved msrc mdst f h first last cur) := by
  induction f with
  | zero =>
    intro h first last cur e s' he hs
    simp only [uninit_move_loop] at he
    split_ifs at he
    have := (Except.error.inj he).symm
    subst this
    exact absurd hs (by simp [Fault.state])
  | succ f ih =>
    intro h first last cur e s' he hs
    simp only [uninit_move_loop] at he
    split_ifs at he
    split at he
    · have := (Except.error.inj he).symm
      subst this
      exact absurd hs (by simp [Fault.state])
    · split at he
      · have := (Except.error.inj he).symm
        subst this
        exact absurd hs (by simp [Fault.state])
      · split at he
        · have := (Except.error.inj he).symm
          subst this
          exact absurd hs (by simp [Fault.state])
        · exact ih _ _ _ _ e s' he hs

theorem deque_dtor_fails {α : Type} (P : State α → Prop) (B : Nat) (s : State α) :
    FailsInto P (deque_dtor B s) := by
  intro e s' he hs
  unfold deque_dtor at he
  split at he
  · exact absurd he (by simp)
  · split at he
    · have := (Except.error.inj he).symm
      subst this
      exact absurd hs (by simp [Fault.state])
    · split at he
      · have := (Except.error.inj he).symm
        subst this
        exact absurd hs (by simp [Fault.state])
      · exact absurd he (by simp)

theorem insert_n_fails {α : Type} {B : Nat} (hB : 16 ≤ B) (moved : α → α) (s : State α)
    (pos : deque_iterator) (count : Nat) (v : α) (throw_at : Option Nat)
    (hi : ReachInv B s) (hp : ∀ k, size B s = some k → k + count < 2 ^ 64) :
    FailsInto (ReachInv B) (insert_n B moved s pos count v throw_at) := by
  have hB0 : 0 < B := by omega
  unfold insert_n
  split_ifs with hc c1 c2
  · exact FailsInto.bind _ _ _ (FailsInto.ofOpt _ _) (fun _ _ => FailsInto.ok _ _)
  · refine FailsInto.bind _ _ _ (FailsInto.ofOpt _ _) (fun _ _ => ?_)
    refine FailsInto.bind _ _ _ (FailsInto.ofOpt _ _) (fun _ _ => ?_)
    refine FailsInto.bind _ _ _ ?_ (fun _ _ => FailsInto.ok _ _)
    exact repeat_call_fails _
      (fun t t' ht hh => emplace_front_reach hB0 t t' (some v) ht hh)
      (fun t ht => emplace_front_fails hB0 t (some v) ht (fun h => absurd h (by simp))) _ s hi
  · refine FailsInto.bind _ _ _ (FailsInto.ofOpt _ _) (fun _ _ => ?_)
    refine FailsInto.bind _ _ _ (FailsInto.ofOpt _ _) (fun _ _ => ?_)
    refine FailsInto.bind _ _ _ ?_ (fun _ _ => ?_)
    · exact repeat_call_fails _
        (fun t t' ht hh => emplace_back_reach hB0 t t' (some v) ht hh)
        (fun t ht => emplace_back_fails hB0 t (some v) ht) _ s hi
    · exact FailsInto.bind _ _ _ (FailsInto.ofOpt _ _) (fun _ _ => FailsInto.ok _ _)
  · refine FailsInto.bind _ _ _ (FailsInto.ofOpt _ _) (fun _ _ => ?_)
    refine FailsInto.bind _ _ _ (FailsInto.ofOpt _ _) (fun _ _ => ?_)
    refine FailsInto.bind _ _ _ ?_ (fun b hb => ?_)
    · unfold insert_n_fill
      refine FailsInto.bind _ _ _ (FailsInto.ofOpt _ _) (fun _ _ => ?_)
      refine FailsInto.bind _ _ _ (FailsInto.ofOpt _ _) (fun _ _ => ?_)
      exact FailsInto.bind _ _ _ (uninit_move_loop_fails _ _ _ _ _ _ _ _ _ _)
        (fun _ _ => FailsInto.ok _ _)
    · unfold insert_n_fill at hb
      obtain ⟨old, hold, hb⟩ := bind_ok _ _ _ hb
      obtain ⟨p, _, hb⟩ := bind_ok _ _ _ hb
      obtain ⟨r1, hr1, hb⟩ := bind_ok _ _ _ hb
      have e := (Except.ok.inj hb).symm
      subst e
      simp only
      obtain ⟨l1, n1⟩ := uninit_move_loop_frame B moved _ _ _ _ _ _ _ r1 hr1
      split
      · exact FailsInto.ub _
      · rename_i h1 hfill
        obtain ⟨l2, n2⟩ := (uninit_fill_n_frame B _ v throw_at r1.2 count 0 r1.1 r1.2).2
          h1 hfill
        refine FailsInto.bind _ _ _ (deque_dtor_fails _ _ _) (fun h2 hh2 => ?_)
        intro e s' he hs
        have := (Except.error.inj he).symm
        subst this
        simp only [Fault.state] at hs
        have := (Option.some.inj hs).symm
        subst this
        exact abandon_reach hB0 s hi (old + count)
          (map_fits hB (hp old (ofOpt_ok _ _ hold))) h1 h2 (l2.trans l1) (n2.trans n1) hh2
      · refine FailsInto.bind _ _ _ (FailsInto.ofOpt _ _) (fun _ _ => ?_)
        refine FailsInto.bind _ _ _ (FailsInto.ofOpt _ _) (fun _ _ => ?_)
        refine FailsInto.bind _ _ _ (FailsInto.ofOpt _ _) (fun _ _ => ?_)
        refine FailsInto.bind _ _ _ (uninit_move_loop_fails _ _ _ _ _ _ _ _ _ _) (fun _ _ => ?_)
        refine FailsInto.bind _ _ _ (deque_dtor_fails _ _ _) (fun _ _ => ?_)
        exact FailsInto.bind _ _ _ (FailsInto.ofOpt _ _) (fun _ _ => FailsInto.ok _ _)

theorem insert_list_fails {α : Type} (P : State α → Prop) (B : Nat) (moved : α → α)
    (s : State α) (pos : deque_iterator) (xs : List α) :
    FailsInto P (insert_list B moved s pos xs) := by
  unfold insert_list
  split_ifs
  · exact FailsInto.bind _ _ _ (FailsInto.ofOpt _ _) (fun _ _ => FailsInto.ok _ _)
  · refine FailsInto.bind _ _ _ (FailsInto.ofOpt _ _) (fun _ _ => ?_)
    refine FailsInto.bind _ _ _ (FailsInto.ofOpt _ _) (fun _ _ => ?_)
    refine FailsInto.bind _ _ _ (FailsInto.ofOpt _ _) (fun _ _ => ?_)
    refine FailsInto.bind _ _ _ (uninit_move_loop_fails _ _ _ _ _ _ _ _ _ _) (fun _ _ => ?_)
    refine FailsInto.bind _ _ _ (FailsInto.ofOpt _ _) (fun _ _ => ?_)
    refine FailsInto.bind _ _ _ (FailsInto.ofOpt _ _) (fun _ _ => ?_)
    refine FailsInto.bind _ _ _ (FailsInto.ofOpt _ _) (fun _ _ => ?_)
    refine FailsInto.bind _ _ _ (FailsInto.ofOpt _ _) (fun _ _ => ?_)
    refine FailsInto.bind _ _ _ (uninit_move_loop_fails _ _ _ _ _ _ _ _ _ _) (fun _ _ => ?_)
    refine FailsInto.bind _ _ _ (deque_dtor_fails _ _ _) (fun _ _ => ?_)
    exact FailsInto.bind _ _ _ (FailsInto.ofOpt _ _) (fun _ _ => FailsInto.ok _ _)

theorem erase_range_fails {α : Type} (P : State α → Prop) (B : Nat) (s : State α)
    (first last : deque_iterator) : FailsInto P (erase_range B s first last) := by
  unfold erase_range
  split_ifs
  · exact FailsInto.bind _ _ _ (FailsInto.ofOpt _ _) (fun _ _ => FailsInto.ok _ _)
  · refine FailsInto.bind _ _ _ ?_ (fun _ _ => FailsInto.ok _ _)
    unfold clear
    split
    · exact FailsInto.ok _ _
    · refine FailsInto.bind _ _ _ (FailsInto.ofOpt _ _) (fun _ _ => ?_)
      exact FailsInto.bind _ _ _ (FailsInto.ofOpt _ _) (fun _ _ => FailsInto.ok _ _)
  · simp only
    refine FailsInto.bind _ _ _ (FailsInto.ofOpt _ _) (fun _ _ => ?_)
    refine FailsInto.bind _ _ _ (FailsInto.ofOpt _ _) (fun _ _ => ?_)
    refine FailsInto.bind _ _ _ (FailsInto.ofOpt _ _) (fun _ _ => ?_)
    refine FailsInto.bind _ _ _ (FailsInto.ofOpt _ _) (fun _ _ => ?_)
    refine FailsInto.bind _ _ _ (FailsInto.ofOpt _ _) (fun _ _ => ?_)
    split_ifs
    · refine FailsInto.bind _ _ _ (FailsInto.ofOpt _ _) (fun _ _ => ?_)
      refine FailsInto.bind _ _ _ (FailsInto.ofOpt _ _) (fun _ _ => ?_)
      refine FailsInto.bind _ _ _ (FailsInto.ofOpt _ _) (fun _ _ => ?_)
      exact FailsInto.bind _ _ _ (FailsInto.ofOpt _ _) (fun _ _ => FailsInto.ok _ _)
    · refine FailsInto.bind _ _ _ (FailsInto.ofOpt _ _) (fun _ _ => ?_)
      refine FailsInto.bind _ _ _ (FailsInto.ofOpt _ _) (fun _ _ => ?_)
      exact FailsInto.bind _ _ _ (FailsInto.ofOpt _ _) (fun _ _ => FailsInto.ok _ _)

theorem erase_range_at_fails {α : Type} (P : State α → Prop) (B : Nat) (i j : Nat)
    (s : State α) : FailsInto P (erase_range_at B i j s) := by
  unfold erase_range_at
  have hb : ∀ k, FailsInto P (begin_plus B s k) := fun k => FailsInto.ofOpt _ _
  split
  · exact erase_range_fails P B s _ _
  · rename_i e he
    intro e' s' he' hs
    have := (Except.error.inj he').symm
    subst this
    exact hb i _ s' he hs
  · rename_i e he _
    intro e' s' he' hs
    have := (Except.error.inj he').symm
    subst this
    exact hb j _ s' he hs
theorem construct_loop_error {α : Type} (B : Nat) (msrc mdst : Int → Base) (f : Nat) :
    ∀ (h : Heap α) (first last cur : deque_iterator) (e : Fault α),
      construct_loop B msrc mdst f h first last cur = Except.error e → e.state = none := by
  induction f with
  | zero =>
    intro h first last cur e he
    simp only [construct_loop] at he
    split_ifs at he
    have := (Except.error.inj he).symm
    subst this
    rfl
  | succ f ih =>
    intro h first last cur e he
    simp only [construct_loop] at he
    split_ifs at he
    split at he
    · have := (Except.error.inj he).symm
      subst this
      rfl
    · split at he
      · have := (Except.error.inj he).symm
        subst this
        rfl
      · exact ih _ _ _ _ e he

/-- The errors of `shrink_to_fit()`: the allocation failure of the temporary's
map, or a failure that is not an exception. -/
theorem shrink_to_fit_error {α : Type} (B : Nat) (s : State α) (e : Fault α)
    (h : shrink_to_fit B s = Except.error e) :
    e.state = none ∨ ∃ t, e = Fault.bad_alloc t := by
  unfold shrink_to_fit at h
  split_ifs at h
  · split at h
    · have := (Except.error.inj h).symm
      subst this
      exact Or.inl rfl
    · exact absurd h (by simp)
  · split at h
    · have := (Except.error.inj h).symm
      subst this
      exact Or.inl rfl
    · simp only at h
      split_ifs at h
      rcases bind_err _ _ _ h with h1 | ⟨tmp, _, h1⟩
      · unfold deque_range_ctor at h1
        split at h1
        · have := (Except.error.inj h1).symm
          subst this
          exact Or.inl rfl
        · simp only at h1
          split_ifs at h1
          · have := (Except.error.inj h1).symm
            subst this
            exact Or.inr ⟨_, rfl⟩
          · split at h1
            · exact absurd h1 (by simp)
            · rename_i e1 he1
              have := (Except.error.inj h1).symm
              subst this
              exact Or.inl (construct_loop_error B _ _ _ _ _ _ _ _ he1)
      · rcases bind_err _ _ _ h1 with h2 | ⟨_, _, h2⟩
        · cases hs : e.state with
          | none => exact Or.inl rfl
          | some t => exact absurd (deque_dtor_fails (fun _ => False) B _ e t h2 hs) id
        · exact absurd h2 (by simp [pure, Except.pure])

theorem shrink_to_fit_fails {α : Type} {B : Nat} (s : State α) (hi : ReachInv B s) :
    FailsInto (ReachInv B) (Op.apply B s (Op.shrink_to_fit : Op α)) := by
  intro e s' he hs
  simp only [Op.apply] at he
  split at he
  · have := (Except.error.inj he).symm
    subst this
    simp only [Fault.state] at hs
    have := (Option.some.inj hs).symm
    subst this
    exact hi
  · rename_i r hne
    rcases shrink_to_fit_error B s e he with h0 | ⟨t, ht⟩
    · rw [h0] at hs
      exact absurd hs (by simp)
    · subst ht
      exact absurd he (hne t)

theorem Op.apply_reach {α : Type} {B : Nat} (hB : 16 ≤ B) (s s' : State α) (op : Op α)
    (hi : ReachInv B s) (hp : op.pre B s = true) (ha : op.apply B s = Except.ok s') :
    ReachInv B s' := by
  have hB0 : 0 < B := by omega
  cases op with
  | emplace_back a => exact emplace_back_reach hB0 s s' a hi ha
  | emplace_front a => exact emplace_front_reach hB0 s s' a hi ha
  | pop_back => exact pop_back_reach s s' hi ha
  | pop_front => exact pop_front_reach hB0 s s' hi ha
  | emplace pos a =>
    obtain ⟨r, hr, h2⟩ := bind_ok _ _ _ ha
    have := (Except.ok.inj h2).symm
    subst this
    exact emplace_reach hB0 s pos a r hi hr
  | erase pos =>
    obtain ⟨r, hr, h2⟩ := bind_ok _ _ _ ha
    have := (Except.ok.inj h2).symm
    subst this
    exact erase_reach hB0 s pos r hi hr
  | clear => exact clear_reach s s' hi ha
  | resize n v => exact resize_reach hB0 s s' n v hi ha
  | assign n v =>
    simp only [Op.pre, decide_eq_true_eq] at hp
    exact assign_reach hB s s' n v hp hi ha
  | assign_list xs => exact assign_list_reach hB0 s s' xs hi ha
  | shrink_to_fit =>
    simp only [Op.apply] at ha
    split at ha
    · exact absurd ha (by simp)
    · exact shrink_to_fit_reach hB0 s s' hi ha
  | insert_n moved pos count v throw_at =>
    obtain ⟨r, hr, h2⟩ := bind_ok _ _ _ ha
    have := (Except.ok.inj h2).symm
    subst this
    refine insert_n_reach hB moved s pos count v throw_at r hi (fun k hk => ?_) hr
    simp only [Op.pre, hk, decide_eq_true_eq] at hp
    exact hp
  | insert_list moved pos xs =>
    obtain ⟨r, hr, h2⟩ := bind_ok _ _ _ ha
    have := (Except.ok.inj h2).symm
    subst this
    refine insert_list_reach hB moved s pos xs r hi (fun k hk => ?_) hr
    simp only [Op.pre, hk, decide_eq_true_eq] at hp
    exact hp
  | erase_range i j =>
    obtain ⟨r, hr, h2⟩ := bind_ok _ _ _ ha
    have := (Except.ok.inj h2).symm
    subst this
    simp only [Op.pre, Bool.and_eq_true, decide_eq_true_eq] at hp
    obtain ⟨hij, hp2⟩ := hp
    split at hp2
    · rename_i q hq
      split at hp2
      · rename_i z hz
        exact erase_range_reach (by omega) s i j r hi hij q z hq hz
          (by simpa using hp2) hr
      · exact absurd hp2 (by simp)
    · exact absurd hp2 (by simp)

theorem Op.apply_fails {α : Type} {B : Nat} (hB : 16 ≤ B) (s : State α) (op : Op α)
    (hi : ReachInv B s) (hp : op.pre B s = true)
    (hside : ∀ s'', op.apply B s = Except.error (Fault.thrown s'') →
      ∃ v t, (op.with_value v).apply B s = Except.ok t) :
    FailsInto (ReachInv B) (op.apply B s) := by
  have hB0 : 0 < B := by omega
  cases op with
  | emplace_back a => exact emplace_back_fails hB0 s a hi
  | emplace_front a =>
    refine emplace_front_fails hB0 s a hi (fun ha s'' he => ?_)
    subst ha
    exact hside s'' he
  | pop_back => exact pop_back_fails s
  | pop_front => exact pop_front_fails s
  | emplace pos a =>
    refine FailsInto.bind _ _ _ (emplace_fails hB0 s pos a hi (fun ha s'' he => ?_))
      (fun _ _ => FailsInto.ok _ _)
    subst ha
    obtain ⟨v, t, hv⟩ := hside s'' (by simp only [Op.apply]; rw [he]; rfl)
    obtain ⟨r, hr, _⟩ := bind_ok _ _ _ hv
    exact ⟨v, r, hr⟩
  | erase pos =>
    exact FailsInto.bind _ _ _ (erase_fails s pos) (fun _ _ => FailsInto.ok _ _)
  | clear => exact clear_fails s
  | resize n v => exact resize_fails hB0 s n v hi
  | assign n v =>
    simp only [Op.pre, decide_eq_true_eq] at hp
    exact assign_fails hB s n v hp hi
  | assign_list xs => exact assign_list_fails hB0 s xs hi
  | shrink_to_fit => exact shrink_to_fit_fails s hi
  | insert_n moved pos count v throw_at =>
    refine FailsInto.bind _ _ _
      (insert_n_fails hB moved s pos count v throw_at hi (fun k hk => ?_))
      (fun _ _ => FailsInto.ok _ _)
    simp only [Op.pre, hk, decide_eq_true_eq] at hp
    exact hp
  | insert_list moved pos xs =>
    exact FailsInto.bind _ _ _ (insert_list_fails _ B moved s pos xs)
      (fun _ _ => FailsInto.ok _ _)
  | erase_range i j =>
    exact FailsInto.bind _ _ _ (erase_range_at_fails _ B i j s) (fun _ _ => FailsInto.ok _ _)

theorem Inv.not_detached {α : Type} {B : Nat} (hB : 0 < B) {s : State α} (hi : Inv B s) :
    s.d.detached = false := by
  rcases hi with ⟨hm, _⟩ | hw
  · simp [deque.detached, hm]
  · have hs := hw.shaped_st
    cases hdt : s.d.detached with
    | false => rfl
    | true =>
      simp only [deque.detached, Bool.and_eq_true, decide_eq_true_eq] at hdt
      obtain ⟨⟨⟨_, h1⟩, _⟩, _⟩ := hdt
      rw [h1] at hs
      have h2 := hs.2
      simp only [deque_iterator.default] at h2
      have h3 := congrArg Ptr.off h2
      simp only at h3
      omega

theorem first_alloc_failed_good {α : Type} {B : Nat} (s s' : State α) (raw : Base)
    (fail : AllocFailure) (hi : ReachInv B s) (hm : s.d._map = none)
    (ha : emplace_first_alloc_failing B s raw fail = Fault.bad_alloc s') :
    ReachInv B s' ∨ s'.d.detached = true := by
  obtain ⟨hst, hfi⟩ := hi.null_map hm
  have hdead : ∀ id, s.h.live id = false := by
    rcases hi.inv with ⟨_, hd⟩ | hw
    · exact hd
    · have := hw.map_some
      rw [hm] at this
      exact absurd this (by simp)
  unfold emplace_first_alloc_failing _create_map_and_nodes_failing at ha
  cases fail with
  | map =>
    simp only at ha
    have := (Fault.bad_alloc.inj ha).symm
    subst this
    exact Or.inl ⟨Or.inl ⟨hm, hdead⟩, hi.fin_off, fun _ => ⟨hst, hfi⟩⟩
  | block k =>
    simp only at ha
    split at ha
    · exact absurd ha (by simp)
    · have := (Fault.bad_alloc.inj ha).symm
      subst this
      refine Or.inr ?_
      simp [deque.detached, hst, hfi]

/-- Every state of a container satisfies the invariant, or is the state a
failed first block allocation leaves. -/
theorem reachable_good {α : Type} {B : Nat} (hB : 16 ≤ B) (s : State α)
    (hr : Reachable B s) : ReachInv B s ∨ s.d.detached = true := by
  have hB0 : 0 < B := by omega
  induction hr with
  | nil h hdead => exact Or.inl (nil_reach h hdead)
  | ctor h hdead xs s hc => exact Or.inl (ctor_reach hB0 h hdead xs s hc)
  | ctor_fill h hdead n vals s hc => exact Or.inl (ctor_fill_reach hB0 h hdead n vals s hc)
  | call s s' op _ hd hp ha ih =>
    rcases ih with hi | hdt
    · exact Or.inl (Op.apply_reach hB s s' op hi hp ha)
    · rw [hd] at hdt; exact absurd hdt (by simp)
  | thrown s s' t op v _ hd hp ha hv ih =>
    rcases ih with hi | hdt
    · exact Or.inl (Op.apply_fails hB s op hi hp (fun _ _ => ⟨v, t, hv⟩) _ s' ha rfl)
    · rw [hd] at hdt; exact absurd hdt (by simp)
  | bad_alloc s s' op _ hd hp ha ih =>
    rcases ih with hi | hdt
    · refine Or.inl (Op.apply_fails hB s op hi hp (fun s'' he => ?_) _ s' ha rfl)
      rw [ha] at he
      exact absurd he (by simp)
    · rw [hd] at hdt; exact absurd hdt (by simp)
  | first_alloc_failed s s' raw fail _ hm ha ih =>
    rcases ih with hi | hdt
    · exact first_alloc_failed_good s s' raw fail hi hm ha
    · simp [deque.detached, hm] at hdt
  | elsewhere s h' _ hn hl _ ih =>
    rcases ih with hi | hdt
    · exact Or.inl (hi.grown_store h' hn (fun id => by rw [hl id]))
    · exact Or.inr hdt

theorem Call.apply_reachable {α : Type} {B : Nat} (hB : 0 < B) (s s' : State α)
    (c : Call α) (hr : Reachable B s) (hi : Inv B s) (h : c.apply B s = Except.ok s') :
    Reachable B s' := by
  have hd := hi.not_detached hB
  cases c with
  | push_back v => exact Reachable.call s s' (Op.emplace_back (some v)) hr hd rfl h
  | push_front v => exact Reachable.call s s' (Op.emplace_front (some v)) hr hd rfl h
  | pop_back => exact Reachable.call s s' Op.pop_back hr hd rfl h
  | pop_front => exact Reachable.call s s' Op.pop_front hr hd rfl h
  | insert i v =>
    obtain ⟨p, _, h1⟩ := bind_ok _ _ _ h
    exact Reachable.call s s' (Op.emplace p (some v)) hr hd rfl h1
  | erase i =>
    obtain ⟨p, _, h1⟩ := bind_ok _ _ _ h
    exact Reachable.call s s' (Op.erase p) hr hd rfl h1

theorem run_reachable {α : Type} {B : Nat} (hB : 0 < B) (log : List (Call α)) :
    ∀ (s s' : State α), Reachable B s → Inv B s → run B log s = Except.ok s' →
      Reachable B s' := by
  induction log with
  | nil =>
    intro s s' hr _ h
    simp only [run] at h
    have := (Except.ok.inj h).symm
    subst this
    exact hr
  | cons c cs ih =>
    intro s s' hr hi h
    simp only [run] at h
    split at h
    · rename_i s1 hs1
      exact ih s1 s' (Call.apply_reachable hB s s1 c hr hi hs1)
        (Call.apply_inv hB s s1 c hi hs1) h
    · exact absurd h (by simp)

/-- The state a log of the six element calls leaves a fresh container in is a
state of the container. -/
theorem reachable_of_run {α : Type} {B : Nat} (hB : 0 < B) (log : List (Call α))
    (s : State α) (h : run B log State.init = Except.ok s) : Reachable B s :=
  run_reachable hB log State.init s (Reachable.nil Heap.empty (fun _ => rfl))
    (Inv.init B) h

/-! ### Claims about every state of a container -/

theorem detached_size {α : Type} (B : Nat) (s : State α) (hd : s.d.detached = true)
    (n : Nat) (hn : size B s = some n) : n = 0 := by
  simp only [deque.detached, Bool.and_eq_true, decide_eq_true_eq] at hd
  obtain ⟨⟨⟨hm, hs⟩, hf⟩, _⟩ := hd
  unfold size at hn
  cases hmap : s.d._map with
  | none => rw [hmap] at hn; exact (Option.some.inj hn).symm
  | some m =>
    rw [hmap, hs, hf] at hn
    simp only [deque_iterator.sub, deque_iterator.default, Ptr.diff, if_true] at hn
    have := Option.some.inj hn
    rw [← this]
    rfl

theorem reachable_nonempty_wf {α : Type} {B : Nat} (hB : 16 ≤ B) (s : State α)
    (hr : Reachable B s) (hne : empty s = false) : WF B s.h.next s.h.live s.d := by
  have hdef : ∀ t : State α, t.d._start = deque_iterator.default →
      t.d._finish = deque_iterator.default → empty t = true := by
    intro t h1 h2
    unfold empty
    rw [h1, h2]
    rfl
  rcases reachable_good hB s hr with hi | hdt
  · rcases hi.inv with ⟨hm, _⟩ | hw
    · obtain ⟨h1, h2⟩ := hi.null_map hm
      rw [hdef s h1 h2] at hne
      exact absurd hne (by simp)
    · exact hw
  · simp only [deque.detached, Bool.and_eq_true, decide_eq_true_eq] at hdt
    obtain ⟨⟨⟨_, h1⟩, h2⟩, _⟩ := hdt
    rw [hdef s h1 h2] at hne
    exact absurd hne (by simp)

/-- C4: in every state of a container (`Reachable`: built by a constructor and
changed by any sequence of calls of the modifying members, returned or left by
an exception), with a block capacity of at least 16 as `_deque_get_block_size`
gives, and for every index `i < size()`, the single advance `begin() + i` used
by `operator[](i)` is exactly the cursor obtained from `begin()` by `i`
applications of `operator++`, so `operator[](i)` reads the element that cursor
designates. -/
theorem index_agrees_with_steps {α : Type} (B : Nat) (hB : 16 ≤ B) (s : State α)
    (hr : Reachable B s) (n i : Nat) (hn : size B s = some n) (hlt : i < n) :
    deque_iterator.advance B s.d.slots s.d._start (i : Int)
      = some (step_from_begin B s i) ∧
    index B s i = ofOpt (s.h.read B (step_from_begin B s i)._current) := by
  have hadv : deque_iterator.advance B s.d.slots s.d._start (i : Int)
      = some (step_from_begin B s i) := by
    rcases reachable_good hB s hr with hi | hdt
    · exact index_agrees_aux B (by omega) s hi.inv n i hn hlt
    · have := detached_size B s hdt n hn
      omega
  refine ⟨hadv, ?_⟩
  unfold index
  rw [hadv]

/-- Witness for C4: a container built from 20 values by the range constructor
with block capacity 16, then `resize(30, 7)` and `erase(begin() + 2,
begin() + 5)`; index 20 of the 27 elements lies in the second block. -/
theorem index_agrees_with_steps_witness :
    16 ≤ 16 ∧ Reachable 16 built_resized_erased ∧
    size 16 built_resized_erased = some 27 ∧ 20 < 27 ∧
    (deque_iterator.advance 16 built_resized_erased.d.slots built_resized_erased.d._start
        ((20 : Nat) : Int)
      = some (step_from_begin 16 built_resized_erased 20) ∧
     index 16 built_resized_erased 20
      = ofOpt (built_resized_erased.h.read 16
          (step_from_begin 16 built_resized_erased 20)._current)) ∧
    index 16 built_resized_erased 20 = Except.ok 7 :=
  ⟨by decide,
    Reachable.call _ _ (Op.erase_range 2 5)
      (Reachable.call _ _ (Op.resize 30 7)
        (Reachable.ctor Heap.empty (fun _ => rfl) (List.range 20) _ rfl)
        (by rfl) (by rfl) (by rfl))
      (by rfl) (by rfl) (by rfl),
    by rfl, by decide,
    index_agrees_with_steps 16 (by decide) built_resized_erased
      (Reachable.call _ _ (Op.erase_range 2 5)
        (Reachable.call _ _ (Op.resize 30 7)
          (Reachable.ctor Heap.empty (fun _ => rfl) (List.range 20) _ rfl)
          (by rfl) (by rfl) (by rfl))
        (by rfl) (by rfl) (by rfl))
      27 20 (by rfl) (by decide),
    by rfl⟩
/-- C18 as amended: for every state of a container (`Reachable`: built by a
constructor and changed by any sequence of calls of the modifying members,
returned or left by an exception), with a block capacity of at least 16 as
`_deque_get_block_size` gives, which is not `empty()` and whose `size()` is
`n` (with `n + B` representable in `size_type`): if `shrink_to_fit()` returns,
`size()` is still `n` and the number of blocks in use is the ideal minimum
`ceil(n / B)` or `n / B + 1`; the two agree, and the count is the ideal
minimum, whenever `n` is not a multiple of `B`. -/
theorem shrink_to_fit_block_count {α : Type} (B : Nat) (hB : 16 ≤ B) (s s' : State α)
    (hr : Reachable B s) (hne : empty s = false) (n : Nat) (hn : size B s = some n)
    (hsmall : n + B ≤ 2 ^ 64) (h : shrink_to_fit B s = Except.ok s') :
    size B s' = some n ∧
    (blocks_in_use s'.d = (((n + B - 1) / B : Nat) : Int) ∨
      blocks_in_use s'.d = ((n / B + 1 : Nat) : Int)) ∧
    (n % B ≠ 0 → blocks_in_use s'.d = (((n + B - 1) / B : Nat) : Int)) := by
  have hceil := ceil_div_cases n B (by omega)
  have hw : WF B s.h.next s.h.live s.d := reachable_nonempty_wf hB s hr hne
  unfold shrink_to_fit at h
  rw [if_neg (by rw [hne]; simp), hn] at h
  simp only at h
  split_ifs at h with hc
  · -- nothing to do
    have hs := Except.ok.inj h
    subst hs
    have hlo := hw.node_lo
    have hhi := hw.node_hi
    have hgap := hw.gap
    have hMb := hw.map_bound
    have hb := to_size_of_bounded (s.d._finish._node - s.d._start._node + 1) (by omega)
      (by omega)
    have hmod : (n + B - 1) % 2 ^ 64 = n + B - 1 := Nat.mod_eq_of_lt (by omega)
    rw [hmod] at hc
    have hblk : blocks_in_use s.d = (((n + B - 1) / B : Nat) : Int) := by
      unfold blocks_in_use
      rw [← hb, hc.1]
    exact ⟨hn, Or.inl hblk, fun _ => hblk⟩
  · -- rebuild through a temporary
    obtain ⟨tmp, htmp, hr⟩ := bind_ok _ _ _ h
    obtain ⟨h1, _, hr⟩ := bind_ok _ _ _ hr
    have hs := (Except.ok.inj hr).symm
    subst hs
    unfold deque_range_ctor at htmp
    have hsz := hn
    unfold size at hsz
    cases hm : s.d._map with
    | none => have := hw.map_some; rw [hm] at this; exact absurd this (by simp)
    | some m =>
      rw [hm] at hsz
      simp only at hsz
      cases hsub : deque_iterator.sub B s.d._finish s.d._start with
      | none => rw [hsub] at hsz; exact absurd hsz (by simp)
      | some z =>
        rw [hsub] at hsz htmp
        simp only at hsz htmp
        have hz : to_size z = n := Option.some.inj hsz
        rw [hz] at htmp
        split_ifs at htmp with hbig
        split at htmp
        · rename_i r _
          have ht := (Except.ok.inj htmp).symm
          subst ht
          have hblk := create_blocks_in_use B ({ h := s.h, d := deque.nil } : State α) n
          refine ⟨create_size B _ n (by rw [← hz]; exact to_size_lt z) _, Or.inr hblk, ?_⟩
          intro hnz
          rw [hceil.1 hnz]; exact hblk
        · exact absurd htmp (by simp)

/-- Witness for C18 as amended: a container built from 17 values (`B + 1` for
`B = 16`) by the range constructor and reduced to 8 (`B / 2`) by
`erase(begin() + 8, end())`, then `shrink_to_fit()`. -/
theorem shrink_to_fit_block_count_witness :
    16 ≤ 16 ∧ Reachable 16 built_erased ∧ empty built_erased = false ∧
    size 16 built_erased = some 8 ∧ 8 + 16 ≤ 2 ^ 64 ∧
    shrink_to_fit 16 built_erased = Except.ok (shrunk 16 built_erased) ∧
    (size 16 (shrunk 16 built_erased) = some 8 ∧
     (blocks_in_use (shrunk 16 built_erased).d = (((8 + 16 - 1) / 16 : Nat) : Int) ∨
      blocks_in_use (shrunk 16 built_erased).d = ((8 / 16 + 1 : Nat) : Int)) ∧
     (8 % 16 ≠ 0 →
      blocks_in_use (shrunk 16 built_erased).d = (((8 + 16 - 1) / 16 : Nat) : Int))) ∧
    blocks_in_use (shrunk 16 built_erased).d = 1 :=
  ⟨by decide,
    Reachable.call _ _ (Op.erase_range 8 17)
      (Reachable.ctor Heap.empty (fun _ => rfl) (List.range 17) _ rfl)
      (by rfl) (by rfl) (by rfl),
    by rfl, by rfl, by decide, by rfl,
    shrink_to_fit_block_count 16 (by decide) built_erased (shrunk 16 built_erased)
      (Reachable.call _ _ (Op.erase_range 8 17)
        (Reachable.ctor Heap.empty (fun _ => rfl) (List.range 17) _ rfl)
        (by rfl) (by rfl) (by rfl))
      (by rfl) 8 (by rfl) (by decide) (by rfl),
    by rfl⟩

/-- C34: in every state of a container (`Reachable`: built by a constructor
and changed by any sequence of calls of the modifying members, returned or
left by an exception), with a block capacity of at least 16 as
`_deque_get_block_size` gives, that has a map and in which the finish slot is
the last slot of the map, `_reallocate_map(1, false)` either throws because
the new map would exceed what the allocator accepts, or returns with the
finish slot at most `M' - 2` for the resulting map size `M'` and the start
slot at least 0, with as many slots in use as before, holding the same block
pointers in the same order; `_push_back_aux` is then defined. -/
theorem back_growth_makes_room {α : Type} (B : Nat) (hB : 16 ≤ B) (s : State α)
    (hr : Reachable B s) (hmap : s.d._map.isSome = true)
    (hlast : s.d._finish._node + 1 = (s.d._map_size : Int)) :
    ((_reallocate_map B s.d 1 false = MapResult.bad_alloc ∧
        map_alloc_limit < s.d._map_size + max s.d._map_size 1 + 2) ∨
      ∃ d', _reallocate_map B s.d 1 false = MapResult.done d' ∧
        d'._finish._node + 2 ≤ (d'._map_size : Int) ∧ 0 ≤ d'._start._node ∧
        d'._finish._node - d'._start._node = s.d._finish._node - s.d._start._node ∧
        (∀ i : Int, 0 ≤ i → i ≤ s.d._finish._node - s.d._start._node →
          d'.slots (d'._start._node + i) = s.d.slots (s.d._start._node + i))) ∧
    is_ub (_push_back_aux B s) = false := by
  rcases reachable_good hB s hr with hi | hdt
  · rcases hi.inv with ⟨hm, _⟩ | hw
    · rw [hm] at hmap; exact absurd hmap (by simp)
    · exact ⟨hw.toWF0.reallocate_back hlast, push_back_aux_defined s hw.toWF0⟩
  · simp only [deque.detached, Bool.and_eq_true, decide_eq_true_eq] at hdt
    obtain ⟨⟨_, hf⟩, hM⟩ := hdt
    rw [hf] at hlast
    simp only [deque_iterator.default] at hlast
    omega

/-- Witness for C34: a container built from 65 values by the range constructor
with block capacity 16 and grown to 100 elements by `resize(100, 7)` has its
finish cursor in slot 7 of the map of 8. -/
theorem back_growth_makes_room_witness :
    16 ≤ 16 ∧ Reachable 16 built_resized ∧
    built_resized.d._map.isSome = true ∧
    built_resized.d._finish._node + 1 = (built_resized.d._map_size : Int) ∧
    (_reallocate_map 16 built_resized.d 1 false).view = some (5, 11, 18) ∧
    is_ub (_push_back_aux 16 built_resized) = false :=
  ⟨by decide,
    Reachable.call _ _ (Op.resize 100 7)
      (Reachable.ctor Heap.empty (fun _ => rfl) (List.range 65) _ rfl)
      (by rfl) (by rfl) (by rfl),
    by rfl, by decide, by decide,
    (back_growth_makes_room 16 (by decide) built_resized
      (Reachable.call _ _ (Op.resize 100 7)
        (Reachable.ctor Heap.empty (fun _ => rfl) (List.range 65) _ rfl)
        (by rfl) (by rfl) (by rfl))
      (by rfl) (by decide)).2⟩

end Marcus
